import Mathlib

/-!
Verification development for the tools of sweepingTools.

Shallow embedding of `aiger2cnf.cpp`, `simuaiger/twosat.h`,
`simuaiger/simuaiger.cpp`, `simuaiger/aigmerge.cpp`, `simuaiger/aigextract.cpp`,
`btorfunc.h`, `simubtor/btormerge.cpp`, `simubtor/btorextract.cpp`,
`simubtor/btorexpand.cpp` and of the fingerprint loop, the candidate loop,
`parse_int` and `parse_symbol` of `simubtor/simubtor.cpp`, followed by the
theorems about them.

Conventions of the embedding.

* A `std::vector<T>` indexed by literals, node positions or node ids is a
  total function `Nat → T`; a write `v[i] = x` is `Function.update v i x`.
  The reads and writes of the source are in range for models whose literals
  are at most `2 * maxvar + 1`, which the theorems assume where it matters.
* `lit ^ 1` of the source is `lit ^^^ 1`.
* A failed `assert` aborts the program; a function that contains one returns
  a `Run` value, which records the abort.
* Recursive functions of the source take a recursion budget as first
  argument; the theorems show that the budget used is enough.
* A BTOR2 model is the table of its lines by id; ids, operands and sort
  references of a parsed model lie in `0, ..., max_id`, which the theorems
  assume where an index is used.
* A C string is the list of its characters; text written by `fprintf` is kept
  as the fields of the written line.
-/

namespace SweepingTools

/-! ## The AIG data model (`aiger.h`, as used by the tools) -/

/-- An AND gate `lhs = rhs0 ∧ rhs1` over literals (`aiger_and`). -/
structure AigerAnd where
  lhs : Nat
  rhs0 : Nat
  rhs1 : Nat
deriving DecidableEq, Repr

/-- The fields of a latch-free `aiger` model that the tools read. -/
structure Aiger where
  maxvar : Nat
  inputs : List Nat
  outputs : List Nat
  bad : List Nat
  constraints : List Nat
  ands : List AigerAnd
deriving DecidableEq, Repr

/-! ## `aiger2cnf.cpp` -/

/-- The loops `for (...) refs[lits[i]] = 1;` of `main`, lines 86-88. -/
def markRefs (refs : Nat → Bool) (lits : List Nat) : Nat → Bool :=
  lits.foldl (fun r l => Function.update r l true) refs

/-- Body of the reverse loop over the AND gates, lines 90-92. -/
def refStep (g : AigerAnd) (refs : Nat → Bool) : Nat → Bool :=
  let r1 := if refs g.lhs then
      Function.update (Function.update refs g.rhs1 true) g.rhs0 true
    else refs
  if r1 (g.lhs ^^^ 1) then
    Function.update (Function.update r1 (g.rhs1 ^^^ 1) true) (g.rhs0 ^^^ 1) true
  else r1

/-- The reference set of `main`, lines 83-93: every entry starts as `pg`, the
bad, output and constraint literals are marked, then the gates are walked from
the last to the first. -/
def computeRefs (m : Aiger) (pg : Bool) : Nat → Bool :=
  m.ands.foldr refStep
    (markRefs (markRefs (markRefs (fun _ => pg) m.bad) m.outputs) m.constraints)

/-- The variable map under construction: `map` and `num_var` of `main`. -/
structure Alloc where
  map : Nat → Int
  num_var : Nat

/-- Lines 98-102: the optional variable of the constant, without its clause. -/
def allocConst (refs : Nat → Bool) : Alloc :=
  if refs 0 || refs 1 then
    { map := Function.update (Function.update (fun _ => 0) 0 1) 1 (-1), num_var := 1 }
  else { map := fun _ => 0, num_var := 0 }

/-- Lines 103-108: the loop `for (lit = 2; lit <= 2 * maxvar; lit += 2)`, after
`n` iterations, so after the literals `2, 4, ..., 2 * n`. -/
def allocLoop (refs : Nat → Bool) (a : Alloc) : Nat → Alloc
  | 0 => a
  | n + 1 =>
    let a1 := allocLoop refs a n
    let lit := 2 * (n + 1)
    if !refs lit && !refs (lit ^^^ 1) then a1
    else
      { map := Function.update (Function.update a1.map lit ((a1.num_var + 1 : Nat) : Int))
          (lit ^^^ 1) (-((a1.num_var + 1 : Nat) : Int)),
        num_var := a1.num_var + 1 }

/-- Lines 109-118: the clauses pushed for one AND gate. -/
def andClauses (refs : Nat → Bool) (map : Nat → Int) (g : AigerAnd) : List (List Int) :=
  (if refs g.lhs then
      [[map (g.lhs ^^^ 1), map g.rhs0], [map (g.lhs ^^^ 1), map g.rhs1]]
    else []) ++
  (if refs (g.lhs ^^^ 1) then
      [[map (g.rhs0 ^^^ 1), map (g.rhs1 ^^^ 1), map g.lhs]]
    else [])

/-- What `aiger2cnf` writes: the header `p cnf <header.1> <header.2>` and the
clause list `form`, together with the final `map` and `num_var`; the comment
lines `c <lit> -> <var>` are not modelled. -/
structure CnfOutput where
  map : Nat → Int
  num_var : Nat
  form : List (List Int)
  header : Nat × Nat

/-- The body of `main` of `aiger2cnf.cpp` from line 83 on; `pg` is the global. -/
def aiger2cnf (m : Aiger) (pg : Bool) : CnfOutput :=
  let refs := computeRefs m pg
  let a := allocLoop refs (allocConst refs) m.maxvar
  let form0 : List (List Int) := if refs 0 || refs 1 then [[(allocConst refs).map 1]] else []
  let form1 := form0 ++ m.ands.flatMap (andClauses refs a.map)
  let form2 := form1 ++ m.constraints.map (fun lit => [a.map lit])
  let form3 := form2 ++ [m.bad.map a.map ++ m.outputs.map a.map]
  { map := a.map, num_var := a.num_var, form := form3, header := (a.num_var, form3.length) }

/-! ## Semantics used to state the contracts -/

/-- Value of a literal under a valuation of the variables. -/
def litVal (val : Nat → Bool) (l : Nat) : Bool :=
  if l % 2 = 0 then val (l / 2) else !val (l / 2)

/-- One gate of the forward evaluation. -/
def evalStep (val : Nat → Bool) (g : AigerAnd) : Nat → Bool :=
  Function.update val (g.lhs / 2) (litVal val g.rhs0 && litVal val g.rhs1)

/-- The circuit's valuation under the input assignment `σ`: variable 0 is the
constant false, gates are evaluated in list order. -/
def aigEval (m : Aiger) (σ : Nat → Bool) : Nat → Bool :=
  m.ands.foldl evalStep (Function.update σ 0 false)

/-- A DIMACS literal under an assignment of the CNF variables. -/
def cnfLitSat (τ : Nat → Bool) (x : Int) : Bool :=
  if 0 < x then τ x.toNat else if x < 0 then !τ (-x).toNat else false

/-- A clause holds when one of its literals does. -/
def clauseSat (τ : Nat → Bool) (c : List Int) : Bool := c.any (cnfLitSat τ)

/-- A clause list holds when all its clauses do. -/
def cnfSat (τ : Nat → Bool) (f : List (List Int)) : Bool := f.all (clauseSat τ)

/-- The scenario of the two-input AND with a bad output, operands as the
binary format stores them (`rhs0 ≥ rhs1`). -/
def andBadModel : Aiger :=
  { maxvar := 3, inputs := [2, 4], outputs := [], bad := [6], constraints := [],
    ands := [⟨6, 4, 2⟩] }

/-- The same scenario with the operands in the order of the text. -/
def andBadModelSwapped : Aiger :=
  { maxvar := 3, inputs := [2, 4], outputs := [], bad := [6], constraints := [],
    ands := [⟨6, 2, 4⟩] }

/-- The gates are listed in topological order: gate outputs are even and
strictly increasing along the list, operands are smaller than the output. -/
structure GatesOrdered (ands : List AigerAnd) : Prop where
  lhs_even : ∀ g ∈ ands, g.lhs % 2 = 0
  rhs0_lt : ∀ g ∈ ands, g.rhs0 < g.lhs
  rhs1_lt : ∀ g ∈ ands, g.rhs1 < g.lhs
  sorted : ands.Pairwise (fun a b => a.lhs < b.lhs)

/-- Validity of a loaded model: gates in topological order and every literal
within the `2 * (maxvar + 1)` entries of the tables. -/
structure WellFormed (m : Aiger) : Prop where
  gates : GatesOrdered m.ands
  lhs_le : ∀ g ∈ m.ands, g.lhs ≤ 2 * m.maxvar
  bad_le : ∀ l ∈ m.bad, l ≤ 2 * m.maxvar + 1
  outputs_le : ∀ l ∈ m.outputs, l ≤ 2 * m.maxvar + 1
  constraints_le : ∀ l ∈ m.constraints, l ≤ 2 * m.maxvar + 1

/-- A variable is referenced when one of its two literals is. -/
def varRef (refs : Nat → Bool) (v : Nat) : Bool := refs (2 * v) || refs (2 * v ^^^ 1)

/-- Number of referenced variables among `0, ..., n`. -/
def refCount (refs : Nat → Bool) : Nat → Nat
  | 0 => if varRef refs 0 then 1 else 0
  | n + 1 => refCount refs n + (if varRef refs (n + 1) then 1 else 0)


/-! ## Runs that may abort -/

/-- Outcome of a part of the program that contains `assert`s or recursion:
`ok` is normal completion, `abort` a failed `assert`, `ub` an operation the
source leaves undefined (`top` of an empty stack), `fuel` an exhausted
recursion budget of the embedding. -/
inductive Run (α : Type) where
  | ok : α → Run α
  | abort : Run α
  | ub : Run α
  | fuel : Run α
deriving DecidableEq, Repr

/-- Sequencing of runs. -/
def Run.bind {α β : Type} : Run α → (α → Run β) → Run β
  | .ok a, f => f a
  | .abort, _ => .abort
  | .ub, _ => .ub
  | .fuel, _ => .fuel

/-- A `for` loop over a list whose body may abort. -/
def forRun {α β : Type} (f : α → β → Run α) : List β → α → Run α
  | [], a => .ok a
  | b :: bs, a => (f a b).bind (forRun f bs)

/-! ## `simuaiger/twosat.h` -/

/-- The enum `TwoSatTag`. -/
inductive TwoSatTag where
  | NOTVISIT
  | INSTACK
  | FINISH
deriving DecidableEq, Repr

/-- The globals of `tarjan`: `timestamp`, `cnt`, the stack `sta` (top first)
and the vectors `state`, `dfn`, `low`, `col`, indexed by node position. -/
structure TarjanState where
  timestamp : Nat
  cnt : Nat
  sta : List Nat
  state : Nat → TwoSatTag
  dfn : Nat → Nat
  low : Nat → Nat
  col : Nat → Nat

/-- The `do ... while (tmp != x)` loop of `tarjan`, lines 101-106, which pops
the stack down to `x`, marking each popped node `FINISH` with colour `cnt`. -/
def popUntil (x cnt : Nat) :
    List Nat → (Nat → TwoSatTag) → (Nat → Nat) → Run (List Nat × (Nat → TwoSatTag) × (Nat → Nat))
  | [], _, _ => .ub
  | tmp :: rest, state, col =>
    if tmp = x then
      .ok (rest, Function.update state tmp .FINISH, Function.update col tmp cnt)
    else
      popUntil x cnt rest (Function.update state tmp .FINISH) (Function.update col tmp cnt)

/-- Body of the edge loop of `tarjan(x)`, lines 89-94, for the target `y`
(already translated by `mapping`); `call` is the recursive call. -/
def tarjanEdge (call : Nat → TarjanState → Run TarjanState) (x : Nat)
    (s : TarjanState) (y : Nat) : Run TarjanState :=
  match s.state y with
  | .FINISH => .ok s
  | .NOTVISIT =>
    (call y s).bind fun s1 =>
      .ok { s1 with low := Function.update s1.low x (min (s1.low x) (s1.low y)) }
  | .INSTACK => .ok { s with low := Function.update s.low x (min (s.low x) (s.dfn y)) }

/-- Lines 84-86 of `tarjan(x)`: push `x`, mark it `INSTACK`, number it. -/
def tarjanEnter (x : Nat) (s : TarjanState) : TarjanState :=
  { s with
    sta := x :: s.sta
    state := Function.update s.state x .INSTACK
    timestamp := s.timestamp + 1
    dfn := Function.update s.dfn x (s.timestamp + 1)
    low := Function.update s.low x (s.timestamp + 1) }

/-- Lines 97-107 of `tarjan(x)`: when `x` is the root of its component, count
the component and pop it. -/
def tarjanLeave (x : Nat) (s : TarjanState) : Run TarjanState :=
  if s.low x = s.dfn x then
    (popUntil x (s.cnt + 1) s.sta s.state s.col).bind fun r =>
      .ok { s with cnt := s.cnt + 1, sta := r.1, state := r.2.1, col := r.2.2 }
  else .ok s

/-- `tarjan(x)`, lines 83-108, over the successor lists `adj` (for the position
`x` the list `eg[node[x]]` read through `mapping`); the first argument bounds
the recursion depth. -/
def tarjan (adj : Nat → List Nat) : Nat → Nat → TarjanState → Run TarjanState
  | 0, _, _ => .fuel
  | fuel + 1, x, s =>
    (forRun (tarjanEdge (tarjan adj fuel) x) (adj x) (tarjanEnter x s)).bind (tarjanLeave x)

/-- The globals `node` and `eg` of namespace `TwoSAT`.  The union-find `set`
is written by `add_edge` but read by nothing else, and is left out. -/
structure TwoSat where
  node : List Nat
  eg : Nat → List Nat

/-- The globals after `initialize(n)`: no node, no edge. -/
def TwoSat.init : TwoSat := ⟨[], fun _ => []⟩

/-- `add_edge(log_file, x, y)`, lines 63-82 (the log line is not modelled). -/
def add_edge (g : TwoSat) (x y : Nat) : TwoSat :=
  if x ^^^ y = 1 then
    { node := g.node ++ [x, y]
      eg := Function.update g.eg x (g.eg x ++ [y]) }
  else
    let eg1 := Function.update g.eg x (g.eg x ++ [y ^^^ 1])
    { node := g.node ++ [x, x ^^^ 1, y, y ^^^ 1]
      eg := Function.update eg1 y (eg1 y ++ [x ^^^ 1]) }

/-- `std::unique` followed by `erase`: consecutive duplicates are dropped. -/
def unique : List Nat → List Nat
  | [] => []
  | [a] => [a]
  | a :: b :: rest => if a = b then unique (b :: rest) else a :: unique (b :: rest)

/-- The vector `node` after lines 110-111 of `solve` (`std::sort`, then
`std::unique`). -/
def sortedNodes (g : TwoSat) : List Nat := unique (g.node.insertionSort (· ≤ ·))

/-- The vector `mapping` after line 112: the position of a literal in `node`
(the entries of the other literals are never read). -/
def mapping (node : List Nat) (l : Nat) : Nat := node.indexOf l

/-- The successor positions that `tarjan(x)` walks: `eg[node[x]]` read through
`mapping`, line 88-89. -/
def nodeAdj (g : TwoSat) (node : List Nat) (x : Nat) : List Nat :=
  (g.eg (node.getD x 0)).map (mapping node)

/-- The globals of `tarjan` at line 118 of `solve`. -/
def TarjanState.init : TarjanState :=
  ⟨0, 0, [], fun _ => .NOTVISIT, fun _ => 0, fun _ => 0, fun _ => 0⟩

/-- Line 120 of `solve`: `for (i ...) if (!state[i]) tarjan(i);`. -/
def tarjanAll (adj : Nat → List Nat) (n : Nat) : Run TarjanState :=
  forRun (fun s i => if s.state i = .NOTVISIT then tarjan adj n i s else .ok s)
    (List.range n) TarjanState.init

/-- Body of the loop of lines 124-129 for `i = 2 * j`. -/
def chooseStep (node : List Nat) (col : Nat → Nat) (choose : List Nat) (j : Nat) :
    Run (List Nat) :=
  match node[2 * j]?, node[2 * j ^^^ 1]? with
  | some x, some y =>
    if col (2 * j) = col (2 * j ^^^ 1) then .abort
    else .ok (choose ++ [if col (2 * j) > col (2 * j ^^^ 1) then y else x])
  | _, _ => .ub

/-- `TwoSAT::solve()`, lines 109-131. -/
def solve (g : TwoSat) : Run (List Nat) :=
  let node := sortedNodes g
  (tarjanAll (nodeAdj g node) node.length).bind fun s =>
    forRun (chooseStep node s.col) (List.range ((node.length + 1) / 2)) []

/-! ## `simuaiger/simuaiger.cpp`: preprocessing -/

/-- The lambda `tagged` of `preprocessing`, lines 89-93. -/
def tagged (tag : Nat → Int) (lit : Nat) : Run (Nat → Int) :=
  if tag lit = 0 then .abort
  else .ok (Function.update (Function.update tag lit 1) (lit ^^^ 1) 0)

/-- The lambda `assign` of `preprocessing`, lines 94-100, for `x` in `{0, 1}`. -/
def assignCons (cons : Nat → Int) (lit : Nat) (x : Nat) : Run (Nat → Int) :=
  if cons lit = -1 ∨ cons lit = (x : Int) then
    .ok (Function.update (Function.update cons lit (x : Int)) (lit ^^^ 1) ((x ^^^ 1 : Nat) : Int))
  else .abort

/-- Lines 102-105: the vector `isinput`. -/
def markInputs (inputs : List Nat) : Nat → Bool :=
  inputs.foldl (fun r lit => Function.update (Function.update r (lit ^^^ 1) true) lit true)
    (fun _ => false)

/-- The tags and the implication graph while `preprocessing` runs. -/
structure PreState where
  tag : Nat → Int
  g : TwoSat

/-- Body of the reverse loop over the gates, lines 110-116. -/
def preGate (isinput : Nat → Bool) (p : PreState) (a : AigerAnd) : Run PreState :=
  if p.tag a.lhs = 1 then
    (tagged p.tag a.rhs0).bind fun t1 =>
      (tagged t1 a.rhs1).bind fun t2 => .ok { p with tag := t2 }
  else if p.tag a.lhs = 0 ∧ isinput a.rhs0 = true ∧ isinput a.rhs1 = true then
    .ok { p with g := add_edge p.g a.rhs0 a.rhs1 }
  else .ok p

/-- Body of the loop over the inputs, lines 120-124. -/
def preInput (p : PreState) (lit : Nat) : PreState :=
  if p.tag lit ≠ -1 then
    { p with g := add_edge p.g (lit ^^^ (p.tag lit).toNat) ((lit ^^^ (p.tag lit).toNat) ^^^ 1) }
  else p

/-- Lines 85-125 of `preprocessing`: the tags and the implication graph. -/
def preGraph (m : Aiger) : Run PreState :=
  (forRun tagged m.constraints (fun _ => -1)).bind fun t0 =>
    (forRun (preGate (markInputs m.inputs)) m.ands.reverse ⟨t0, TwoSat.init⟩).bind fun p =>
      .ok (m.inputs.foldl preInput p)

/-- What `preprocessing` leaves behind: the vector `cons` and the graph. -/
structure PreResult where
  cons : Nat → Int
  g : TwoSat

/-- `preprocessing()`, lines 84-129. -/
def preprocessing (m : Aiger) : Run PreResult :=
  (preGraph m).bind fun p =>
    (solve p.g).bind fun choose =>
      (forRun (fun cons x => assignCons cons x 1) choose (fun _ => -1)).bind fun cons =>
        .ok ⟨cons, p.g⟩

/-- Test of a property of the result of a run. -/
def Run.holds {α : Type} (r : Run α) (p : α → Bool) : Bool :=
  match r with
  | .ok a => p a
  | _ => false

/-- The gate `6 = 4 AND 2` over the inputs 2 and 4 under the constraint that
the gate is 0. -/
def nandModel : Aiger :=
  { maxvar := 3, inputs := [2, 4], outputs := [], bad := [], constraints := [7],
    ands := [⟨6, 4, 2⟩] }

/-- The infeasible scenario: inputs 2 and 4, gate `6 = 4 AND 2`, constraints
`NOT 6`, `2` and `4`. -/
def infeasibleModel : Aiger :=
  { maxvar := 3, inputs := [2, 4], outputs := [], bad := [], constraints := [7, 2, 4],
    ands := [⟨6, 4, 2⟩] }

/-! ## Invariants of `tarjan` -/

/-- Reachability along the successor lists. -/
def Reach (adj : Nat → List Nat) : Nat → Nat → Prop :=
  Relation.ReflTransGen (fun a b => b ∈ adj a)

/-- The invariant of the globals of `tarjan` between two edge visits; `gray`
is the set of nodes whose call is still running. -/
structure TInv (adj : Nat → List Nat) (n : Nat) (gray : Set Nat) (s : TarjanState) : Prop where
  lt_n : ∀ z, s.state z ≠ .NOTVISIT → z < n
  sta_iff : ∀ z, z ∈ s.sta ↔ s.state z = .INSTACK
  sorted : s.sta.Pairwise (fun a b => s.dfn b < s.dfn a)
  dfn_le : ∀ z ∈ s.sta, s.dfn z ≤ s.timestamp
  low_le : ∀ z ∈ s.sta, s.low z ≤ s.dfn z
  low_wit : ∀ z ∈ s.sta, ∃ w ∈ s.sta, s.dfn w = s.low z ∧ Reach adj z w
  gray_sub : ∀ g ∈ gray, g ∈ s.sta
  gray_reach : ∀ y ∈ s.sta, ∃ g ∈ gray, s.dfn g ≤ s.dfn y ∧ Reach adj y g
  sta_reach : ∀ a ∈ s.sta, ∀ b ∈ s.sta, s.dfn a ≤ s.dfn b → Reach adj a b
  black_edge : ∀ z, s.state z ≠ .NOTVISIT → z ∉ gray → ∀ y ∈ adj z, s.state y ≠ .NOTVISIT
  fin_edge : ∀ z, s.state z = .FINISH → ∀ y ∈ adj z, s.state y = .FINISH ∧ s.col y ≤ s.col z
  col_le : ∀ z, s.state z = .FINISH → 1 ≤ s.col z ∧ s.col z ≤ s.cnt
  scc : ∀ a b, s.state a = .FINISH → s.state b = .FINISH →
    (s.col a = s.col b ↔ Reach adj a b ∧ Reach adj b a)

/-- What a state `s1` reached from `s` keeps of `s`: visited nodes keep their
tag, `dfn` and `low`, finished nodes their colour. -/
structure TFrame (s s1 : TarjanState) : Prop where
  state_eq : ∀ z, s.state z ≠ .NOTVISIT → s1.state z = s.state z
  dfn_eq : ∀ z, s.state z ≠ .NOTVISIT → s1.dfn z = s.dfn z
  low_eq : ∀ z, s.state z ≠ .NOTVISIT → s1.low z = s.low z
  col_eq : ∀ z, s.state z = .FINISH → s1.col z = s.col z

/-- The contract of a call `tarjan(x)` started in `s` and ended in `s1`. -/
structure TPost (adj : Nat → List Nat) (n : Nat) (gray : Set Nat) (s : TarjanState) (x : Nat)
    (s1 : TarjanState) : Prop where
  inv : TInv adj n gray s1
  frame : TFrame s s1
  visited : s1.state x ≠ .NOTVISIT
  dfn_x : s1.dfn x = s.timestamp + 1
  low_x : s1.low x ≤ s1.dfn x
  popped : x ∉ s1.sta → s1.low x = s1.dfn x
  stack : ∃ new, s1.sta = new ++ s.sta ∧ (∀ z ∈ new, s.state z = .NOTVISIT) ∧
    (∀ z ∈ new, ∀ y ∈ adj z, y ∈ s.sta → s1.low x ≤ s1.dfn y) ∧
    (new ≠ [] → x ∈ new ∧ s1.low x < s1.dfn x)

/-- The invariant of the edge loop of `tarjan(x)`, started in `s`, after the
successors `done` have been handled and the globals are `c`. -/
structure TLoop (adj : Nat → List Nat) (n : Nat) (gray : Set Nat) (s : TarjanState) (x : Nat)
    (done : List Nat) (c : TarjanState) : Prop where
  inv : TInv adj n (insert x gray) c
  frame : TFrame s c
  dfn_x : c.dfn x = s.timestamp + 1
  done_vis : ∀ y ∈ done, c.state y ≠ .NOTVISIT
  done_key : ∀ y ∈ done, y ∈ s.sta → c.low x ≤ c.dfn y
  stack : ∃ new, c.sta = new ++ x :: s.sta ∧ (∀ z ∈ new, s.state z = .NOTVISIT) ∧
    (∀ z ∈ new, ∀ y ∈ adj z, y ∈ s.sta → c.low x ≤ c.dfn y)

/-- The graph after the calls `add_edge(x, y)` for the pairs of `es`, in order. -/
def buildGraph (es : List (Nat × Nat)) : TwoSat :=
  es.foldl (fun g e => add_edge g e.1 e.2) TwoSat.init

/-- What `add_edge` maintains: nodes come in complementary pairs and both ends
of every edge are nodes. -/
structure TwoSat.Closed (g : TwoSat) : Prop where
  node_pair : ∀ l ∈ g.node, l ^^^ 1 ∈ g.node
  eg_node : ∀ l, ∀ y ∈ g.eg l, l ∈ g.node ∧ y ∈ g.node

/-- The list `2 * a, 2 * a + 1` over the variables `a` of `as`. -/
def pairs : List Nat → List Nat
  | [] => []
  | a :: as => 2 * a :: (2 * a + 1) :: pairs as

/-- The variables of a list of literal pairs. -/
def halves : List Nat → List Nat
  | x :: _ :: rest => x / 2 :: halves rest
  | _ => []

/-- The literal that line 127-128 of `solve` picks for the pair `2 * j`. -/
def pick (node : List Nat) (col : Nat → Nat) (j : Nat) : Nat :=
  if col (2 * j) > col (2 * j ^^^ 1) then node.getD (2 * j ^^^ 1) 0 else node.getD (2 * j) 0

/-- The tags form complementary pairs: a literal is asserted false exactly
when its complement is asserted true, and every tag is -1, 0 or 1. -/
structure TagPair (tag : Nat → Int) : Prop where
  pair : ∀ l, tag l = 0 ↔ tag (l ^^^ 1) = 1
  range : ∀ l, tag l = -1 ∨ tag l = 0 ∨ tag l = 1

/-- Whether a run ended in a failed `assert`. -/
def Run.isAbort {α : Type} : Run α → Bool
  | .abort => true
  | _ => false

/-- The value of a run, `d` when there is none. -/
def Run.get {α : Type} (r : Run α) (d : α) : α :=
  match r with
  | .ok a => a
  | _ => d

/-- Inputs 2 and 4 with the gate `6 = 4 AND 2` constrained to 1. -/
def andModel : Aiger :=
  { maxvar := 3, inputs := [2, 4], outputs := [], bad := [], constraints := [6],
    ands := [⟨6, 4, 2⟩] }

/-- The state given to `Run.get` where a run of `preGraph` is read. -/
def PreState.init : PreState := ⟨fun _ => -1, TwoSat.init⟩

/-- The result given to `Run.get` where a run of `preprocessing` is read. -/
def PreResult.init : PreResult := ⟨fun _ => -1, TwoSat.init⟩

/-! ## `simuaiger/simuaiger.cpp`: random simulation

A random number generator (`BtorSimRNG`, external) is the stream of its
future outputs; a call of `btorsim_rng_rand` reads entry 0 and shifts. -/

/-- The recursive lambda `assign` of `initialize`, lines 135-144, for `x` in
`{0, 1}`; the first argument bounds the recursion depth. -/
def simAssign (eg : Nat → List Nat) : Nat → (Nat → Int) → Nat → Nat → Run (Nat → Int)
  | 0, _, _, _ => .fuel
  | fuel + 1, table, lit, x =>
    if table lit = (x : Int) then .ok table
    else if table lit ≠ -1 then .abort
    else
      forRun (fun t nlit => simAssign eg fuel t nlit 1) (eg (lit ^^^ (x ^^^ 1)))
        (Function.update (Function.update table lit (x : Int)) (lit ^^^ 1)
          ((x ^^^ 1 : Nat) : Int))

/-- The locals of `initialize` and the generator `rng`. -/
structure InitState where
  table : Nat → Int
  free_variables : Nat
  rng : Nat → Nat

/-- Body of the loop over the inputs in `initialize`, lines 149-154. -/
def initInput (cons : Nat → Int) (eg : Nat → List Nat) (fuel : Nat) (s : InitState)
    (lit : Nat) : Run InitState :=
  if cons lit ≠ -1 then
    (simAssign eg fuel s.table lit (cons lit).toNat).bind fun t => .ok { s with table := t }
  else
    (simAssign eg fuel s.table lit (s.rng 0 % 2)).bind fun t =>
      .ok { table := t, free_variables := s.free_variables + 1, rng := fun i => s.rng (i + 1) }

/-- The lambda `initialize`, lines 133-157. -/
def simInitialize (m : Aiger) (cons : Nat → Int) (eg : Nat → List Nat) (rng : Nat → Nat) :
    Run InitState :=
  (simAssign eg (2 * (m.maxvar + 1) + 1) (fun _ => -1) 0 0).bind fun t0 =>
    (forRun (initInput cons eg (2 * (m.maxvar + 1) + 1)) m.inputs
        { table := t0, free_variables := 0, rng := rng }).bind fun s =>
      if s.free_variables > 32 then .ok s else .abort

/-- Body of the loop over the gates in `run_step`, lines 160-170. -/
def andStep (table : Nat → Int) (a : AigerAnd) : Run (Nat → Int) :=
  if table a.rhs0 = -1 ∨ table a.rhs1 = -1 then .ok table
  else if table a.lhs = -1 ∨ table a.lhs = Int.land (table a.rhs0) (table a.rhs1) then
    if (Function.update table a.lhs (Int.land (table a.rhs0) (table a.rhs1))) (a.lhs ^^^ 1) = -1 ∨
        (Function.update table a.lhs (Int.land (table a.rhs0) (table a.rhs1))) (a.lhs ^^^ 1)
          = Int.xor (Int.land (table a.rhs0) (table a.rhs1)) 1 then
      .ok (Function.update (Function.update table a.lhs (Int.land (table a.rhs0) (table a.rhs1)))
        (a.lhs ^^^ 1) (Int.xor (Int.land (table a.rhs0) (table a.rhs1)) 1))
    else .abort
  else .abort

/-- The loop over the constraints in `run_step`, lines 173-177: `false` is the
`return 0`. -/
def checkConstraints (table : Nat → Int) : List Nat → Run Bool
  | [] => .ok true
  | lit :: rest =>
    if table lit = -1 then .abort
    else if table lit = 0 then .ok false
    else checkConstraints table rest

/-- The loop over the bad literals in `run_step`, lines 178-185: `some lit` is
the `exit(0)` on the bad literal `lit`. -/
def checkBads (table : Nat → Int) : List Nat → Run (Option Nat)
  | [] => .ok none
  | lit :: rest =>
    if table lit = -1 then .abort
    else if table lit ≠ 0 then .ok (some lit)
    else checkBads table rest

/-- The table of a round after `initialize` and the gate loop of `run_step`. -/
def roundTable (m : Aiger) (cons : Nat → Int) (eg : Nat → List Nat) (rng : Nat → Nat) :
    Run InitState :=
  (simInitialize m cons eg rng).bind fun st =>
    (forRun andStep m.ands st.table).bind fun t => .ok { st with table := t }

/-- The state that `random_simulation` carries from round to round. -/
structure AigSim where
  hvalue : Nat → Nat
  succ : Nat
  rng : Nat → Nat
  hrng : Nat → Nat

/-- How a round ends: `exit(0)` on a bad literal, or the next state. -/
inductive RoundResult where
  | exit : Nat → RoundResult
  | next : AigSim → RoundResult

/-- Body of the loop of lines 194-198 for the variable `i`. -/
def hashVar (table : Nat → Int) (base : Nat) (hvalue : Nat → Nat) (i : Nat) : Nat → Nat :=
  if table (2 * i) = -1 then hvalue
  else if table (2 * i) ≠ 0 then Function.update hvalue i (hvalue i ^^^ base)
  else hvalue

/-- One iteration of the loop of `random_simulation`, lines 191-213.  The two
draws of line 193 are taken in textual order. -/
def aigRound (m : Aiger) (cons : Nat → Int) (eg : Nat → List Nat) (s : AigSim) :
    Run RoundResult :=
  (roundTable m cons eg s.rng).bind fun st =>
    (checkConstraints st.table m.constraints).bind fun sat =>
      if sat then
        (checkBads st.table m.bad).bind fun b =>
          match b with
          | some lit => .ok (.exit lit)
          | none =>
            .ok (.next
              { hvalue := (List.range' 1 m.maxvar).foldl
                  (hashVar st.table (((s.hrng 0 % 2 ^ 32) <<< 32 ||| (s.hrng 1 % 2 ^ 32)) % 2 ^ 64))
                  s.hvalue
                succ := s.succ + 1
                rng := st.rng
                hrng := fun i => s.hrng (i + 2) })
      else .ok (.next { s with rng := st.rng })

/-! ## `simubtor/simubtor.cpp`: the fingerprint loop

The evaluation of a round (`initialize_states`, `initialize_inputs` and the
calls of `simulate`, over the external bit-vector library) is taken as given:
a round is described by the two hash bases drawn for it and by the table
`current_state` that the evaluation leaves. -/

/-- An entry of `current_state`: of type `BITVEC` with its pointer (null or
the bits, index 0 first), or of another type. -/
inductive BtorState where
  | other : BtorState
  | bitvec : Option (List Bool) → BtorState
deriving DecidableEq, Repr

/-- The draws `base1`, `base2` of a round and `current_state` after it. -/
structure BtorEval where
  base1 : Nat
  base2 : Nat
  cur : Nat → BtorState

/-- The external `btorsim_bv_is_zero`. -/
def bv_is_zero (bits : List Bool) : Bool := bits.all (fun b => !b)

/-- The constraint loop of `simulate_step`, lines 828-834; the list holds
`args[0]` of the constraints. -/
def btorConstraints (cur : Nat → BtorState) : List Nat → Run Bool
  | [] => .ok true
  | c :: rest =>
    match cur c with
    | .other => .abort
    | .bitvec none => .ub
    | .bitvec (some bits) => if bv_is_zero bits then .ok false else btorConstraints cur rest

/-- The bad loop of `simulate_step`, lines 836-851, over `args[0]` of the bad
lines and `reached_bads`; it returns `reached_bads` and `num_unreached_bads`. -/
def btorBads (cur : Nat → BtorState) (k : Int) :
    List Nat → List Int → Int → Run (List Int × Int)
  | [], _, u => .ok ([], u)
  | _ :: _, [], _ => .ub
  | b :: bs, r :: rs, u =>
    if r ≥ 0 then (btorBads cur k bs rs u).bind fun q => .ok (r :: q.1, q.2)
    else
      match cur b with
      | .other => .abort
      | .bitvec none => .ub
      | .bitvec (some bits) =>
        if bv_is_zero bits then (btorBads cur k bs rs u).bind fun q => .ok (r :: q.1, q.2)
        else if u > 0 then (btorBads cur k bs rs (u - 1)).bind fun q => .ok (k :: q.1, q.2)
        else .abort

/-- The state that `random_simulation` carries from round to round; the two
lists record the rounds logged as satisfied and as violated. -/
structure BtorSim where
  hash_value : Nat → Nat × Nat
  succ : Nat
  reached_bads : List Int
  num_unreached_bads : Int
  satisfied : List Nat
  violated : List Nat

/-- `simulate_step(k)` after the evaluation, lines 827-852. -/
def simulate_step (cs bads : List Nat) (e : BtorEval) (k : Nat) (s : BtorSim) :
    Run (Bool × BtorSim) :=
  if k = 0 then .ok (false, s)
  else
    (btorConstraints e.cur cs).bind fun sat =>
      if sat then
        (btorBads e.cur (k : Int) bads s.reached_bads s.num_unreached_bads).bind fun q =>
          .ok (true, { s with reached_bads := q.1, num_unreached_bads := q.2 })
      else .ok (false, s)

/-- The rolling hash of lines 938-943 for one base, modulo `2 ^ 64`. -/
def bvHash (base : Nat) (bits : List Bool) : Nat :=
  (bits.foldr (fun b val => (val * base + (b.toNat + 1)) % 2 ^ 64) 0 * base) % 2 ^ 64

/-- Body of the loop of lines 933-947 for the node `i`. -/
def hashNode (e : BtorEval) (hv : Nat → Nat × Nat) (i : Nat) : Nat → Nat × Nat :=
  match e.cur i with
  | .bitvec (some bits) =>
    Function.update hv i
      ((hv i).1 ^^^ bvHash (e.base1 % 2 ^ 32) bits, (hv i).2 ^^^ bvHash (e.base2 % 2 ^ 32) bits)
  | _ => hv

/-- One pass of the loop of lines 933-947, `for (i = 1; i <= num_format_lines;
++i)`, for the node `i`. The vectors `current_state` and `hash_value` have
`n = num_format_lines` entries (lines 639-640), the indices `0, ..., n - 1`;
the pass `i = n` reads `current_state[n]`, outside the vector. -/
def hashStep (e : BtorEval) (n : Nat) (hv : Nat → Nat × Nat) (i : Nat) :
    Run (Nat → Nat × Nat) :=
  if i < n then .ok (hashNode e hv i) else .ub

/-- One iteration of the loop of `random_simulation`, lines 927-963, for the
round `step` with the evaluation `e`; `n` is `num_format_lines`. After a
satisfied round the loop of lines 933-947 runs over `i = 1, ..., n`. The call
of `reset_state` in line 961 prepares the evaluation of the next round and is
part of it. -/
def btorRound (cs bads : List Nat) (n step : Nat) (e : BtorEval) (s : BtorSim) : Run BtorSim :=
  (simulate_step cs bads e step s).bind fun q =>
    if q.1 then
      (forRun (hashStep e n) (List.range' 1 n) q.2.hash_value).bind fun hv =>
        .ok { q.2 with
          hash_value := hv
          succ := q.2.succ + 1
          satisfied := q.2.satisfied ++ [step] }
    else .ok { q.2 with violated := q.2.violated ++ [step] }

/-- The loop of `random_simulation` from round `step` on, `todo` rounds left;
`evals` gives the evaluation of every round. -/
def btorLoop (cs bads : List Nat) (n : Nat) (evals : Nat → BtorEval) :
    Nat → Nat → BtorSim → Run BtorSim
  | 0, _, s => .ok s
  | todo + 1, step, s =>
    if s.num_unreached_bads = 0 then .ok s
    else (btorRound cs bads n step (evals step) s).bind (btorLoop cs bads n evals todo (step + 1))

/-- The state before the first round: `setup_states` and `parse_model`. -/
def BtorSim.init (bads : List Nat) : BtorSim :=
  { hash_value := fun _ => (0, 0), succ := 0, reached_bads := bads.map (fun _ => -1),
    num_unreached_bads := bads.length, satisfied := [], violated := [] }

/-- The rounds `1, ..., k` of `random_simulation(k)`. -/
def btorSimulation (cs bads : List Nat) (n k : Nat) (evals : Nat → BtorEval) : Run BtorSim :=
  btorLoop cs bads n evals k 1 (BtorSim.init bads)

/-- A model with 33 free inputs, the gates `68 = 4 AND 2` and `70 = 68 AND 6`
and the constraint `NOT 70`. -/
def wideModel : Aiger :=
  { maxvar := 35, inputs := (List.range 33).map (fun i => 2 * (i + 1)), outputs := [],
    bad := [], constraints := [71], ands := [⟨68, 4, 2⟩, ⟨70, 68, 6⟩] }

/-- The state before the first round of the AIG simulator, with both
generators giving 1 forever. -/
def AigSim.ones : AigSim :=
  { hvalue := fun _ => 0, succ := 0, rng := fun _ => 1, hrng := fun _ => 1 }

/-- An evaluation in which node 1 is the 1-bit zero and node 2 the 1-bit one. -/
def zeroOneEval : BtorEval :=
  { base1 := 3, base2 := 5,
    cur := fun i => if i = 1 then .bitvec (some [false]) else .bitvec (some [true]) }

/-- The contribution of one satisfied round to the fingerprint of node `u`. -/
def foldIn (e : BtorEval) (u : Nat) (h : Nat × Nat) : Nat × Nat :=
  match e.cur u with
  | .bitvec (some bits) =>
    (h.1 ^^^ bvHash (e.base1 % 2 ^ 32) bits, h.2 ^^^ bvHash (e.base2 % 2 ^ 32) bits)
  | _ => h

/-- The state given to `Run.get` where a run of `roundTable` is read. -/
def InitState.zero : InitState := ⟨fun _ => 0, 0, fun _ => 0⟩

/-- The table `current_state` after the evaluation of a round of the model
`1 sort bitvec 1`, `2 input 1`, `3 not 1 2`, `4 not 1 3`, `5 one 1`,
`6 constraint 5`, `7 bad 3`, `8 bad 4` in which the input 2 is drawn as `x`
and the two bases as `b1` and `b2`: the nodes 2 and 4 hold `x`, the node 3
holds its complement, the node 5 holds 1, the other entries hold no
bit-vector. -/
def notNotEval (b1 b2 : Nat) (x : Bool) : BtorEval :=
  { base1 := b1, base2 := b2,
    cur := fun i =>
      if i = 2 ∨ i = 4 then .bitvec (some [x])
      else if i = 3 then .bitvec (some [!x])
      else if i = 5 then .bitvec (some [true])
      else .bitvec none }

/-- A model with a constraint, a bad literal and an output. -/
def propertyModel : Aiger :=
  { maxvar := 3, inputs := [2, 4], outputs := [4], bad := [6], constraints := [3],
    ands := [⟨6, 4, 2⟩] }


/-! ## The union-find of `simuaiger/aigmerge.cpp` and `simubtor/btormerge.cpp`

Both files declare the same `struct UnionSet`; one embedding serves both. -/

/-- The vector `fa` of `struct UnionSet` together with its length; the entry
`-1` marks a representative. -/
structure UnionSet where
  size : Nat
  fa : Nat → Int

/-- The constructor `UnionSet(n)`, and `resize(n)` on the empty vector: `n`
entries, all `-1`. -/
def UnionSet.fresh (n : Nat) : UnionSet := { size := n, fa := fun _ => -1 }

/-- The method `findset(x)` with path compression; it returns the
representative and the updated vector. An index outside the vector is
undefined behaviour. The first argument is the recursion budget. -/
def UnionSet.findset : Nat → UnionSet → Nat → Run (Nat × UnionSet)
  | 0, _, _ => .fuel
  | fuel + 1, u, x =>
    if u.size ≤ x then .ub
    else if u.fa x = -1 then .ok (x, u)
    else if u.fa x < 0 then .ub
    else
      (UnionSet.findset fuel u (u.fa x).toNat).bind fun r =>
        .ok (r.1, { r.2 with fa := Function.update r.2.fa x (r.1 : Int) })

/-- A call of `findset` from outside: the chain of parents is shorter than the
vector, so its length is budget enough. -/
def UnionSet.find (u : UnionSet) (x : Nat) : Run (Nat × UnionSet) :=
  UnionSet.findset u.size u x

/-- The method `merge(x, y)`: the larger representative is hung below the
smaller one. -/
def UnionSet.merge (u : UnionSet) (x y : Nat) : Run UnionSet :=
  (u.find x).bind fun a =>
    (a.2.find y).bind fun b =>
      if a.1 = b.1 then .ok b.2
      else if a.1 > b.1 then .ok { b.2 with fa := Function.update b.2.fa a.1 (b.1 : Int) }
      else .ok { b.2 with fa := Function.update b.2.fa b.1 (a.1 : Int) }

/-- The loop `for (int x, y; fin >> x >> y;) union_set.merge(x, y);` of both
`main` functions, on a fresh set of `n` entries. The ids of the list are
non-negative. -/
def mergeAll (n : Nat) (pairs : List (Nat × Nat)) : Run UnionSet :=
  forRun (fun u p => u.merge p.1 p.2) pairs (UnionSet.fresh n)

/-- Two ids are connected when a chain of listed pairs, read in either
direction, leads from one to the other. -/
def Conn (pairs : List (Nat × Nat)) : Nat → Nat → Prop :=
  Relation.EqvGen (fun a b => (a, b) ∈ pairs)

/-- The vector `fa` represents the equivalence generated by `R`, with `rep`
giving each id its representative: parents are smaller than their children,
representatives are exactly the entries `-1`, and two ids have the same
representative exactly when `R` connects them. -/
structure UnionSet.Rep (u : UnionSet) (R : Nat → Nat → Prop) (rep : Nat → Nat) : Prop where
  le : ∀ x, rep x ≤ x
  idem : ∀ x, rep (rep x) = rep x
  root : ∀ x, x < u.size → u.fa (rep x) = -1
  fix : ∀ x, x < u.size → u.fa x = -1 → rep x = x
  parent : ∀ x, x < u.size → u.fa x ≠ -1 →
    0 ≤ u.fa x ∧ (u.fa x).toNat < x ∧ rep (u.fa x).toNat = rep x
  conn : ∀ x y, rep x = rep y ↔ Relation.EqvGen R x y

/-- The representative after `fa[hi] = lo`: the class of `hi` joins the class
of `lo`. -/
def linkRep (rep : Nat → Nat) (lo hi : Nat) (z : Nat) : Nat :=
  if rep z = hi then lo else rep z

/-- The function `convert` of `aigmerge.cpp`, lines 87-90: the variable of the
literal is replaced by its representative, the negation bit is kept. The shift
cannot overflow, the representative being at most the variable. -/
def convert (u : UnionSet) (x : Nat) : Run (Nat × UnionSet) :=
  (u.find (x >>> 1)).bind fun r => .ok ((r.1 <<< 1) ||| (x &&& 1), r.2)

/-! ## `simuaiger/aigmerge.cpp` -/

/-- Lines 159-160 of `main`: `fixed` is all false, then every constraint
variable is set. -/
def fixedInit (m : Aiger) : Nat → Bool :=
  m.constraints.foldl (fun f c => Function.update f (c / 2) true) (fun _ => false)

/-- Body of the reverse loop over the AND gates, lines 161-167. -/
def fixedStep (g : AigerAnd) (fixed : Nat → Bool) : Nat → Bool :=
  if fixed (g.lhs / 2) then
    Function.update (Function.update fixed (g.rhs0 / 2) true) (g.rhs1 / 2) true
  else fixed

/-- The vector `fixed` after lines 159-167: the gates are walked from the last
to the first. -/
def computeFixed (m : Aiger) : Nat → Bool := m.ands.foldr fixedStep (fixedInit m)

/-- The operands as `aiger_add_and` receives them, after
`if (rhs0 < rhs1) std::swap(rhs0, rhs1)`. -/
def orderedAnd (lhs rhs0 rhs1 : Nat) : AigerAnd :=
  if rhs0 < rhs1 then ⟨lhs, rhs1, rhs0⟩ else ⟨lhs, rhs0, rhs1⟩

/-- Body of the loop of lines 170-176: the gate `a` is added to the new model,
its operands converted unless its output variable is fixed. The state is the
union-find and the gates added so far. -/
def mergeGate (fixed : Nat → Bool) (st : UnionSet × List AigerAnd) (a : AigerAnd) :
    Run (UnionSet × List AigerAnd) :=
  if !fixed (a.lhs / 2) then
    (convert st.1 a.rhs0).bind fun r0 =>
      (convert r0.2 a.rhs1).bind fun r1 =>
        .ok (r1.2, st.2 ++ [orderedAnd a.lhs r0.1 r1.1])
  else .ok (st.1, st.2 ++ [orderedAnd a.lhs a.rhs0 a.rhs1])

/-- Body of the loop of lines 177-178: the bad literal is converted and added. -/
def mergeBad (st : UnionSet × List Nat) (l : Nat) : Run (UnionSet × List Nat) :=
  (convert st.1 l).bind fun r => .ok (r.2, st.2 ++ [r.1])

/-- The body of `main` of `aigmerge.cpp` from the check of line 144 to line 182,
on a latch-free model in reencoded form and the pairs read from the list file;
a model with outputs is refused. The new model has the gates with the same
`lhs` and `rhs0 >= rhs1`, the form that the closing `aiger_reencode` leaves as
it is. -/
def aigmerge (m : Aiger) (pairs : List (Nat × Nat)) : Run Aiger :=
  if m.outputs ≠ [] then .abort
  else (mergeAll (m.maxvar + 1) pairs).bind fun u =>
    (forRun (mergeGate (computeFixed m)) m.ands (u, [])).bind fun g =>
      (forRun mergeBad m.bad (g.1, [])).bind fun b =>
        .ok { maxvar := m.maxvar, inputs := m.inputs, outputs := [], bad := b.2,
              constraints := m.constraints, ands := g.2 }

/-- The variables that drive a constraint: the constraint variables and the
transitive fan-in of their gates. -/
inductive Cone (m : Aiger) : Nat → Prop
  | base (c : Nat) : c ∈ m.constraints → Cone m (c / 2)
  | rhs0 (g : AigerAnd) : g ∈ m.ands → Cone m (g.lhs / 2) → Cone m (g.rhs0 / 2)
  | rhs1 (g : AigerAnd) : g ∈ m.ands → Cone m (g.lhs / 2) → Cone m (g.rhs1 / 2)

/-- The literal with its variable replaced by the representative. -/
def convLit (rep : Nat → Nat) (l : Nat) : Nat := 2 * rep (l / 2) + l % 2

/-- The gate `g1` has the output of `g` and the operands `a`, `b` in one of the
two orders. -/
def SameGate (g1 : AigerAnd) (lhs a b : Nat) : Prop :=
  g1.lhs = lhs ∧ ((g1.rhs0 = a ∧ g1.rhs1 = b) ∨ (g1.rhs0 = b ∧ g1.rhs1 = a))

/-- How a gate of the new model relates to the gate of the loaded model at the
same position. -/
def GateMerged (fixed : Nat → Bool) (rep : Nat → Nat) (g g1 : AigerAnd) : Prop :=
  if fixed (g.lhs / 2) then SameGate g1 g.lhs g.rhs0 g.rhs1
  else SameGate g1 g.lhs (convLit rep g.rhs0) (convLit rep g.rhs1)

/-- All constraints hold under the input assignment `σ`. -/
def constraintsHold (m : Aiger) (σ : Nat → Bool) : Prop :=
  ∀ c ∈ m.constraints, litVal (aigEval m σ) c = true

/-- Two inputs, the gates `6 = 4 AND 2`, `8 = 2 AND 4` and `10 = 8 AND 6`, the
constraint `6` and the bad literal `10`. -/
def twinGateModel : Aiger :=
  { maxvar := 5, inputs := [2, 4], outputs := [], bad := [10], constraints := [6],
    ands := [⟨6, 4, 2⟩, ⟨8, 2, 4⟩, ⟨10, 8, 6⟩] }

/-! ## The BTOR2 lines (`btor2parser.h`, as used by the tools) -/

/-- The enum `Btor2Tag`: the tags that the sources name. -/
inductive Btor2Tag where
  | BTOR2_TAG_add | BTOR2_TAG_and | BTOR2_TAG_bad | BTOR2_TAG_concat | BTOR2_TAG_const
  | BTOR2_TAG_constraint | BTOR2_TAG_constd | BTOR2_TAG_consth | BTOR2_TAG_dec | BTOR2_TAG_eq
  | BTOR2_TAG_fair | BTOR2_TAG_iff | BTOR2_TAG_implies | BTOR2_TAG_inc | BTOR2_TAG_init
  | BTOR2_TAG_input | BTOR2_TAG_ite | BTOR2_TAG_justice | BTOR2_TAG_mul | BTOR2_TAG_nand
  | BTOR2_TAG_neq | BTOR2_TAG_neg | BTOR2_TAG_next | BTOR2_TAG_nor | BTOR2_TAG_not
  | BTOR2_TAG_one | BTOR2_TAG_ones | BTOR2_TAG_or | BTOR2_TAG_output | BTOR2_TAG_read
  | BTOR2_TAG_redand | BTOR2_TAG_redor | BTOR2_TAG_redxor | BTOR2_TAG_rol | BTOR2_TAG_ror
  | BTOR2_TAG_saddo | BTOR2_TAG_sdiv | BTOR2_TAG_sdivo | BTOR2_TAG_sext | BTOR2_TAG_sgt
  | BTOR2_TAG_sgte | BTOR2_TAG_slice | BTOR2_TAG_sll | BTOR2_TAG_slt | BTOR2_TAG_slte
  | BTOR2_TAG_sort | BTOR2_TAG_smod | BTOR2_TAG_smulo | BTOR2_TAG_sra | BTOR2_TAG_srem
  | BTOR2_TAG_srl | BTOR2_TAG_ssubo | BTOR2_TAG_state | BTOR2_TAG_sub | BTOR2_TAG_uaddo
  | BTOR2_TAG_udiv | BTOR2_TAG_uext | BTOR2_TAG_ugt | BTOR2_TAG_ugte | BTOR2_TAG_ult
  | BTOR2_TAG_ulte | BTOR2_TAG_umulo | BTOR2_TAG_urem | BTOR2_TAG_usubo | BTOR2_TAG_write
  | BTOR2_TAG_xnor | BTOR2_TAG_xor | BTOR2_TAG_zero
deriving DecidableEq, Repr

/-- The enum `Btor2SortTag`. -/
inductive Btor2SortTag where
  | BTOR2_TAG_SORT_array
  | BTOR2_TAG_SORT_bitvec
deriving DecidableEq, Repr

/-- The struct `Btor2Sort` of a line: for a line with a sort, `id` is the id of
its sort line (of the line itself for a `sort` line, 0 without a sort); `index`
and `element` are the fields `array.index` and `array.element` of an array
sort, `width` is `bitvec.width`. -/
structure Btor2Sort where
  id : Nat
  tag : Btor2SortTag
  index : Nat
  element : Nat
  width : Nat
deriving DecidableEq, Repr

/-- The fields of `Btor2Line` that the tools read: `args` holds the `nargs`
counted operands; the bounds of a `slice` and the padding of an extension are
stored behind them, are not counted, and make up `extra`. The field `name` is
the text of `tag`. For a state, `init` and `next` are the signed ids of its
initial and next value, 0 when it has none; `constant` is the text of a
`const`, `constd` or `consth` line. -/
structure Btor2Line where
  id : Nat
  lineno : Int
  tag : Btor2Tag
  sort : Btor2Sort
  args : List Int
  symbol : Option String
  init : Int := 0
  next : Int := 0
  constant : Option String := none
  extra : List Int := []
deriving DecidableEq, Repr

/-- A parsed model: `btor2parser_max_id` and `btor2parser_get_line_by_id`. -/
structure Btor2Model where
  max_id : Nat
  line : Nat → Option Btor2Line

/-! ## `btorfunc.h` -/

/-- The test `tmp.find(pat) != std::string::npos` on character lists. -/
def containsSub (pat : List Char) : List Char → Bool
  | [] => pat.isEmpty
  | c :: cs => pat.isPrefixOf (c :: cs) || containsSub pat cs

/-- The function `classification`, lines 19-113. -/
def classification (line : Btor2Line) : Btor2Tag :=
  if (match line.symbol with
      | some s => containsSub "state.id".toList s.toList
      | none => false) then .BTOR2_TAG_state
  else
    match line.tag with
    | .BTOR2_TAG_sort => .BTOR2_TAG_sort
    | .BTOR2_TAG_input => .BTOR2_TAG_input
    | .BTOR2_TAG_state => .BTOR2_TAG_state
    | .BTOR2_TAG_init | .BTOR2_TAG_next => .BTOR2_TAG_next
    | .BTOR2_TAG_bad | .BTOR2_TAG_fair | .BTOR2_TAG_justice | .BTOR2_TAG_constraint =>
      .BTOR2_TAG_constraint
    | .BTOR2_TAG_const | .BTOR2_TAG_constd | .BTOR2_TAG_consth | .BTOR2_TAG_zero
    | .BTOR2_TAG_one | .BTOR2_TAG_ones => .BTOR2_TAG_const
    | .BTOR2_TAG_rol | .BTOR2_TAG_ror | .BTOR2_TAG_saddo | .BTOR2_TAG_sdivo | .BTOR2_TAG_smod
    | .BTOR2_TAG_smulo | .BTOR2_TAG_ssubo | .BTOR2_TAG_uaddo | .BTOR2_TAG_umulo
    | .BTOR2_TAG_usubo | .BTOR2_TAG_add | .BTOR2_TAG_and | .BTOR2_TAG_concat | .BTOR2_TAG_dec
    | .BTOR2_TAG_eq | .BTOR2_TAG_implies | .BTOR2_TAG_inc | .BTOR2_TAG_ite | .BTOR2_TAG_mul
    | .BTOR2_TAG_nand | .BTOR2_TAG_neg | .BTOR2_TAG_neq | .BTOR2_TAG_nor | .BTOR2_TAG_not
    | .BTOR2_TAG_or | .BTOR2_TAG_output | .BTOR2_TAG_redand | .BTOR2_TAG_redor
    | .BTOR2_TAG_redxor | .BTOR2_TAG_sdiv | .BTOR2_TAG_sext | .BTOR2_TAG_sgt | .BTOR2_TAG_sgte
    | .BTOR2_TAG_slice | .BTOR2_TAG_sll | .BTOR2_TAG_slt | .BTOR2_TAG_slte | .BTOR2_TAG_sra
    | .BTOR2_TAG_srem | .BTOR2_TAG_srl | .BTOR2_TAG_sub | .BTOR2_TAG_udiv | .BTOR2_TAG_uext
    | .BTOR2_TAG_ugt | .BTOR2_TAG_ugte | .BTOR2_TAG_ult | .BTOR2_TAG_ulte | .BTOR2_TAG_urem
    | .BTOR2_TAG_xnor | .BTOR2_TAG_xor | .BTOR2_TAG_read | .BTOR2_TAG_write => .BTOR2_TAG_eq
    | _ => .BTOR2_TAG_not

/-- Body of the loop of `transition` for the line id `i`, lines 118-128. -/
def transitionLine (model : Btor2Model) (vec : Nat → Bool) (i : Nat) : Nat → Bool :=
  match model.line i with
  | none => vec
  | some line =>
    if classification line = .BTOR2_TAG_constraint ∨ classification line = .BTOR2_TAG_eq
        ∨ classification line = .BTOR2_TAG_state then
      line.args.foldl (fun v a => Function.update v i (v i || v a.natAbs)) vec
    else vec

/-- The function `transition`, lines 115-130: one pass over the ids
`1, ..., max_id` in increasing order. -/
def transition (model : Btor2Model) (vec : Nat → Bool) : Nat → Bool :=
  (List.range' 1 model.max_id).foldl (transitionLine model) vec

/-! ## The reachability pass shared by `btormerge.cpp` and `btorextract.cpp` -/

/-- The inner loop `keep[args_id] = keep[i] || keep[args_id]` over the operands
of line `i`. -/
def keepArgs (keep : Nat → Bool) (i : Nat) (args : List Int) : Nat → Bool :=
  args.foldl (fun k a => Function.update k a.natAbs (k i || k a.natAbs)) keep

/-- Body of the reverse loop for the line id `i`: a kept line keeps its sort
line, then its operands. -/
def keepStep (model : Btor2Model) (keep : Nat → Bool) (i : Nat) : Nat → Bool :=
  match model.line i with
  | none => keep
  | some line =>
    keepArgs (if keep i then Function.update keep line.sort.id true else keep) i line.args

/-- The reverse loop `for (i = num_format_lines; i > 0; --i)` of
`btormerge` (lines 289-298) and of `extract` (lines 268-277). -/
def keepBackward (model : Btor2Model) (keep : Nat → Bool) : Nat → Bool :=
  (List.range' 1 model.max_id).foldr (fun i k => keepStep model k i) keep

/-- The loop that sets `lineno = -1` on every line that is not kept. -/
def dropLines (model : Btor2Model) (keep : Nat → Bool) : Btor2Model :=
  { model with
    line := fun i =>
      if 1 ≤ i ∧ i ≤ model.max_id then
        (model.line i).map fun line => if keep i then line else { line with lineno := -1 }
      else model.line i }

/-- The line `i` is written by the output loop of `main`, which runs over the
ids `1, ..., max_id`: the line exists and its `lineno` is not `-1`. -/
def Btor2Model.retained (model : Btor2Model) (i : Nat) : Prop :=
  i ∈ List.range' 1 model.max_id ∧ ∃ line, model.line i = some line ∧ line.lineno ≠ -1

/-- The line `j` refers to the id `i`, as an operand or as its sort. -/
def Refers (model : Btor2Model) (j i : Nat) : Prop :=
  ∃ line, model.line j = some line ∧ (line.sort.id = i ∨ ∃ a ∈ line.args, a.natAbs = i)

/-- The classes `bad`, `fair`, `justice` and `constraint`. -/
def Btor2Model.constraintFamily (model : Btor2Model) (i : Nat) : Prop :=
  ∃ line, model.line i = some line ∧ classification line = .BTOR2_TAG_constraint

/-! ## `simubtor/btormerge.cpp` -/

/-- Body of the loop over the operands, lines 272-277: the absolute value is
replaced by its representative and the sign is restored. The state is the
union-find and the operands rewritten so far. -/
def rewriteArg (st : UnionSet × List Int) (a : Int) : Run (UnionSet × List Int) :=
  (st.1.find a.natAbs).bind fun r =>
    .ok (r.2, st.2 ++ [if a < 0 then -(r.1 : Int) else (r.1 : Int)])

/-- Body of the loop over the line ids, lines 269-278. -/
def rewriteLine (st : UnionSet × (Nat → Option Btor2Line)) (i : Nat) :
    Run (UnionSet × (Nat → Option Btor2Line)) :=
  match st.2 i with
  | none => .ok st
  | some line =>
    (forRun rewriteArg line.args (st.1, [])).bind fun r =>
      .ok (r.1, Function.update st.2 i (some { line with args := r.2 }))

/-- The first loop of `btormerge`, lines 268-278: every operand of every line
is rewritten. -/
def rewriteLines (model : Btor2Model) (u : UnionSet) : Run (UnionSet × Btor2Model) :=
  (forRun rewriteLine (List.range' 1 model.max_id) (u, model.line)).bind fun r =>
    .ok (r.1, { model with line := r.2 })

/-- The loop of lines 281-287: `keep` is all false, then every line of the
class `BTOR2_TAG_constraint` is kept. -/
def keepConstraints (model : Btor2Model) : Nat → Bool :=
  (List.range' 1 model.max_id).foldl
    (fun k i =>
      match model.line i with
      | none => k
      | some line =>
        if classification line = .BTOR2_TAG_constraint then Function.update k i true else k)
    (fun _ => false)

/-- The function `btormerge`, lines 268-309, without the counters it prints. -/
def btormerge (model : Btor2Model) (u : UnionSet) : Run Btor2Model :=
  (rewriteLines model u).bind fun r =>
    .ok (dropLines r.2 (keepBackward r.2 (keepConstraints r.2)))

/-- The part of `main` of `btormerge.cpp` after parsing: the union-find of
`num_format_lines + 1` entries is filled from the list and `btormerge` runs. -/
def btormergeMain (model : Btor2Model) (pairs : List (Nat × Nat)) : Run Btor2Model :=
  (mergeAll (model.max_id + 1) pairs).bind fun u => btormerge model u

/-- Every operand of the lines `1, ..., max_id` names an id up to `max_id`. -/
def Btor2Model.ArgsInRange (model : Btor2Model) : Prop :=
  ∀ i ∈ List.range' 1 model.max_id, ∀ line ∈ model.line i,
    ∀ a ∈ line.args, a.natAbs ≤ model.max_id

/-- The operand `a1` is the operand `a` with its absolute value replaced by
what `find` returns on `u`, under the sign of `a`. -/
def Rewritten (u : UnionSet) (a a1 : Int) : Prop :=
  ∃ r ux, u.find a.natAbs = .ok (r, ux) ∧ a1 = if a < 0 then -(r : Int) else (r : Int)

/-! ## `simubtor/btorextract.cpp` -/

/-- The loops `for (int64_t node : knode) keep[node] = 1` of `extract`. -/
def markNodes (keep : Nat → Bool) (knode : List Int) : Nat → Bool :=
  knode.foldl (fun k node => Function.update k node.toNat true) keep

/-- The loop of lines 259-264: only lines of the class `BTOR2_TAG_constraint`
stay marked. -/
def onlyConstraints (model : Btor2Model) (keep : Nat → Bool) : Nat → Bool :=
  (List.range' 1 model.max_id).foldl
    (fun k i =>
      match model.line i with
      | none => k
      | some line =>
        if classification line ≠ .BTOR2_TAG_constraint then Function.update k i false else k)
    keep

/-- The set `keep` of `extract` after line 277. -/
def extractKeep (model : Btor2Model) (knode : List Int) : Nat → Bool :=
  keepBackward model
    (markNodes (onlyConstraints model (transition model (markNodes (fun _ => false) knode)))
      knode)

/-- The function `extract`, lines 246-293, without the counters it prints: a
key node outside `1, ..., max_id` ends the program with an error. -/
def extract (model : Btor2Model) (knode : List Int) : Run Btor2Model :=
  if knode.any (fun node => decide (node > (model.max_id : Int)) || decide (node ≤ 0)) then
    .abort
  else .ok (dropLines model (extractKeep model knode))

/-- The part of `main` of `btorextract.cpp` from the check of the key nodes to
the call of `extract`: an empty list of key nodes is an error. -/
def btorextract (model : Btor2Model) (knode : List Int) : Run Btor2Model :=
  if knode.isEmpty then .abort else extract model knode

/-- A line of the embedding with the fields a text line gives. -/
def mkLine (id : Nat) (tag : Btor2Tag) (sortId : Nat) (args : List Int) : Btor2Line :=
  { id := id, lineno := id, tag := tag,
    sort := { id := sortId, tag := .BTOR2_TAG_SORT_bitvec, index := 0, element := 0, width := 1 },
    args := args, symbol := none }

/-- The model
`1 sort bitvec 1`, `2 input 1`, `3 input 1`, `4 eq 1 2 3`, `5 constraint 4`,
`6 not 1 3`, `7 bad 6`. -/
def eqConstraintModel : Btor2Model :=
  { max_id := 7,
    line := fun i =>
      match i with
      | 1 => some (mkLine 1 .BTOR2_TAG_sort 1 [])
      | 2 => some (mkLine 2 .BTOR2_TAG_input 1 [])
      | 3 => some (mkLine 3 .BTOR2_TAG_input 1 [])
      | 4 => some (mkLine 4 .BTOR2_TAG_eq 1 [2, 3])
      | 5 => some (mkLine 5 .BTOR2_TAG_constraint 0 [4])
      | 6 => some (mkLine 6 .BTOR2_TAG_not 1 [3])
      | 7 => some (mkLine 7 .BTOR2_TAG_bad 0 [6])
      | _ => none }

/-- The model
`1 sort bitvec 1`, `2 sort bitvec 8`, `3 sort array 2 2`, `4 state 3`,
`5 eq 1 4 4`, `6 bad 5`. -/
def arraySortModel : Btor2Model :=
  { max_id := 6,
    line := fun i =>
      match i with
      | 1 => some (mkLine 1 .BTOR2_TAG_sort 1 [])
      | 2 => some { mkLine 2 .BTOR2_TAG_sort 2 [] with
          sort := { id := 2, tag := .BTOR2_TAG_SORT_bitvec, index := 0, element := 0, width := 8 } }
      | 3 => some { mkLine 3 .BTOR2_TAG_sort 3 [] with
          sort := { id := 3, tag := .BTOR2_TAG_SORT_array, index := 2, element := 2, width := 0 } }
      | 4 => some (mkLine 4 .BTOR2_TAG_state 3 [])
      | 5 => some (mkLine 5 .BTOR2_TAG_eq 1 [4, 4])
      | 6 => some (mkLine 6 .BTOR2_TAG_bad 0 [5])
      | _ => none }

/-- The operand with its absolute value replaced by the representative, under
its sign. -/
def signRep (rep : Nat → Nat) (a : Int) : Int :=
  if a < 0 then -(rep a.natAbs : Int) else (rep a.natAbs : Int)

/-! ## `simuaiger/simuaiger.cpp`: the rounds and the candidate pairs -/

/-- The loop `for (int step = 1; step <= k; ++step)` of `random_simulation`,
lines 189-214: it ends the program on a bad literal or returns the state after
`k` rounds. -/
def aigLoop (m : Aiger) (cons : Nat → Int) (eg : Nat → List Nat) :
    Nat → AigSim → Run RoundResult
  | 0, s => .ok (.next s)
  | k + 1, s =>
    (aigRound m cons eg s).bind fun r =>
      match r with
      | .exit lit => .ok (.exit lit)
      | .next s1 => aigLoop m cons eg k s1

/-- The value `base` drawn in line 193 of a successful round. -/
def drawBase (hrng : Nat → Nat) : Nat :=
  ((hrng 0 % 2 ^ 32) <<< 32 ||| (hrng 1 % 2 ^ 32)) % 2 ^ 64

/-- Whether the round that starts in `s` is successful (`run_step` returns 1),
and then its base and its table. -/
def roundSuccess (m : Aiger) (cons : Nat → Int) (eg : Nat → List Nat) (s : AigSim) :
    Option (Nat × (Nat → Int)) :=
  match roundTable m cons eg s.rng with
  | .ok st =>
    match checkConstraints st.table m.constraints with
    | .ok true =>
      match checkBads st.table m.bad with
      | .ok none => some (drawBase s.hrng, st.table)
      | _ => none
    | _ => none
  | _ => none

/-- The successful rounds among the `k` rounds from `s`, in order, each with
its base and its table. -/
def aigLog (m : Aiger) (cons : Nat → Int) (eg : Nat → List Nat) :
    Nat → AigSim → List (Nat × (Nat → Int))
  | 0, _ => []
  | k + 1, s =>
    match aigRound m cons eg s with
    | .ok (.next s1) => (roundSuccess m cons eg s).toList ++ aigLog m cons eg k s1
    | _ => []

/-- What a successful round with base `p.1` and table `p.2` contributes to the
fingerprint of the variable `v`: the base when the positive literal of `v` is 1,
and 0 otherwise. -/
def contribution (v : Nat) (p : Nat × (Nat → Int)) : Nat :=
  if p.2 (2 * v) = 1 then p.1 else 0

/-- The XOR of the contributions of a list of rounds, from `init`. -/
def xorLog (v : Nat) (init : Nat) (log : List (Nat × (Nat → Int))) : Nat :=
  log.foldl (fun acc p => acc ^^^ contribution v p) init

/-- Every entry of the table is `-1`, `0` or `1`. -/
def TableRange (t : Nat → Int) : Prop := ∀ l, t l = -1 ∨ t l = 0 ∨ t l = 1

/-- The state of a result that is not an exit. -/
def RoundResult.state (r : RoundResult) (d : AigSim) : AigSim :=
  match r with
  | .next s => s
  | .exit _ => d

/-- The state before the first round with the first draw of `rng` even, all
later draws odd, and the hash generator giving 1 forever. -/
def AigSim.firstZero : AigSim :=
  { hvalue := fun _ => 0, succ := 0, rng := fun i => if i = 0 then 0 else 1, hrng := fun _ => 1 }

/-! ## The candidate pairs of `simuaiger.cpp`, lines 325-344 -/

/-- The order `operator<=` of `std::pair<uint64_t, uint>` that `std::sort`
arranges `hash_set` by. -/
def pairLe (a b : Nat × Nat) : Bool := decide (a.1 < b.1 ∨ (a.1 = b.1 ∧ a.2 ≤ b.2))

/-- The vector `hash_set` of lines 325-327: the pairs `(hvalue[i], i)` for
`i = 1, ..., maxvar`, sorted. -/
def aigHashSet (hvalue : Nat → Nat) (maxvar : Nat) : List (Nat × Nat) :=
  ((List.range' 1 maxvar).map fun i => (hvalue i, i)).insertionSort
    (fun a b => pairLe a b = true)

/-- The inner loop of line 333,
`for (j = i; j + 1 < n && hash_set[i].first == hash_set[j].first; ++j);`,
from the value `j` with a budget of iterations; it returns the final `j`. -/
def aigScan (hs : List (Nat × Nat)) (i : Nat) : Nat → Nat → Nat
  | 0, j => j
  | fuel + 1, j =>
    if j + 1 < hs.length ∧ (hs.getD i (0, 0)).1 = (hs.getD j (0, 0)).1 then
      aigScan hs i fuel (j + 1)
    else j

/-- The two nested loops of lines 336-338 over the positions `i, ..., j`. -/
def aigPairs (hs : List (Nat × Nat)) (i j : Nat) : List (Nat × Nat) :=
  (List.range' i (j + 1 - i)).flatMap fun x =>
    (List.range' (x + 1) (j - x)).map fun y => ((hs.getD x (0, 0)).2, (hs.getD y (0, 0)).2)

/-- The outer loop of lines 331-342 from the position `i`, with a budget of
iterations; the state is `candidate` and `group`. -/
def aigGroupLoop (hs : List (Nat × Nat)) (capacity : Nat) :
    Nat → Nat → List (Nat × Nat) × Nat → List (Nat × Nat) × Nat
  | 0, _, acc => acc
  | fuel + 1, i, acc =>
    if i < hs.length then
      aigGroupLoop hs capacity fuel (aigScan hs i hs.length i + 1)
        (if 1 < aigScan hs i hs.length i - i + 1 ∧ aigScan hs i hs.length i - i + 1 ≤ capacity then
          (acc.1 ++ aigPairs hs i (aigScan hs i hs.length i), acc.2 + 1)
        else acc)
    else acc

/-- Lines 325-342 of `main`: the written pairs and the number of groups, for a
non-negative `capacity`. -/
def aigCandidates (hvalue : Nat → Nat) (maxvar capacity : Nat) : List (Nat × Nat) × Nat :=
  aigGroupLoop (aigHashSet hvalue maxvar) capacity (aigHashSet hvalue maxvar).length 0 ([], 0)

/-- The part of `main` of `simuaiger.cpp` from `preprocessing()` on: the
candidate pairs and the group count, or `none` when a bad literal ended the
program. -/
def simuaiger (m : Aiger) (rng hrng : Nat → Nat) (k capacity : Nat) :
    Run (Option (List (Nat × Nat) × Nat)) :=
  (preprocessing m).bind fun p =>
    (aigLoop m p.cons p.g.eg k { hvalue := fun _ => 0, succ := 0, rng := rng, hrng := hrng }).bind
      fun r =>
        match r with
        | .exit _ => .ok none
        | .next s => .ok (some (aigCandidates s.hvalue m.maxvar capacity))

/-- A model with 33 inputs and the gate `68 = 4 AND 2`, without constraints and
bad literals. -/
def freeModel : Aiger :=
  { maxvar := 34, inputs := (List.range 33).map (fun i => 2 * (i + 1)), outputs := [],
    bad := [], constraints := [], ands := [⟨68, 4, 2⟩] }

/-- The state of the simulator after one round on `freeModel` in which the first
input draws 0 and the other inputs draw 1. -/
def freeRun : AigSim :=
  (((preprocessing freeModel).bind fun p =>
      aigLoop freeModel p.cons p.g.eg 1
        { hvalue := fun _ => 0, succ := 0, rng := AigSim.firstZero.rng, hrng := fun _ => 1 }).get
    (.exit 0)).state AigSim.ones

/-! ## The candidate pairs of `simubtor.cpp`, lines 1087-1124 -/

/-- An entry of `hash_set`: the tuple `(h1, h2, width, id)`. -/
structure HashEntry where
  h1 : Nat
  h2 : Nat
  width : Nat
  id : Nat
deriving DecidableEq, Repr

/-- The entry that stands for a read outside the vector. -/
def HashEntry.zero : HashEntry := ⟨0, 0, 0, 0⟩

/-- The order `operator<=` of the tuples, which `std::sort` arranges
`hash_set` by. -/
def entryLe (a b : HashEntry) : Bool :=
  decide (a.h1 < b.h1 ∨ (a.h1 = b.h1 ∧ (a.h2 < b.h2 ∨ (a.h2 = b.h2 ∧
    (a.width < b.width ∨ (a.width = b.width ∧ a.id ≤ b.id))))))

/-- The vector `hash_set` after `std::sort`. -/
def sortEntries (entries : List HashEntry) : List HashEntry :=
  entries.insertionSort (fun a b => entryLe a b = true)

/-- The test of line 1110: equal `h1`, `h2` and `width`. -/
def sameKey (a b : HashEntry) : Bool :=
  decide (a.h1 = b.h1) && decide (a.h2 = b.h2) && decide (a.width = b.width)

/-- The method `insert` of a `std::set` kept as a strictly increasing list;
`lt` is the order of the elements. -/
def setInsert {α : Type} [DecidableEq α] (lt : α → α → Bool) (x : α) : List α → List α
  | [] => [x]
  | y :: ys =>
    if lt x y = true then x :: y :: ys
    else if x = y then y :: ys
    else y :: setInsert lt x ys

/-- The order of `int`. -/
def natLt (a b : Nat) : Bool := decide (a < b)

/-- The order `operator<` of `std::pair<int, int>`. -/
def pairLt (a b : Nat × Nat) : Bool := decide (a.1 < b.1 ∨ (a.1 = b.1 ∧ a.2 < b.2))

/-- The inner loop of lines 1110-1112,
`for (j = i; j + 1 < n && key(hash_set[i]) == key(hash_set[j + 1]); ++j);`,
from the value `j` with a budget of iterations; it returns the final `j`. -/
def btorScan (hs : List HashEntry) (i : Nat) : Nat → Nat → Nat
  | 0, j => j
  | fuel + 1, j =>
    if j + 1 < hs.length ∧ sameKey (hs.getD i .zero) (hs.getD (j + 1) .zero) = true then
      btorScan hs i fuel (j + 1)
    else j

/-- The set `set_id` of line 1114: the ids at the positions `i, ..., j`. -/
def groupIds (hs : List HashEntry) (i j : Nat) : List Nat :=
  (List.range' i (j + 1 - i)).foldl (fun s k => setInsert natLt (hs.getD k .zero).id s) []

/-- The two nested loops of lines 1116-1118 over `set_id`. -/
def addPairs (set_id : List Nat) (candidate : List (Nat × Nat)) : List (Nat × Nat) :=
  set_id.foldl
    (fun c x =>
      set_id.foldl
        (fun c y => if x ≠ y then setInsert pairLt (min x y, max x y) c else c) c)
    candidate

/-- The outer loop of lines 1107-1122 from the position `i`, with a budget of
iterations; the state is `candidate` and `group`. -/
def btorGroupLoop (hs : List HashEntry) (capacity : Nat) :
    Nat → Nat → List (Nat × Nat) × Nat → List (Nat × Nat) × Nat
  | 0, _, acc => acc
  | fuel + 1, i, acc =>
    if i < hs.length then
      btorGroupLoop hs capacity fuel (btorScan hs i hs.length i + 1)
        (if 1 < (groupIds hs i (btorScan hs i hs.length i)).length ∧
            (groupIds hs i (btorScan hs i hs.length i)).length ≤ capacity then
          (addPairs (groupIds hs i (btorScan hs i hs.length i)) acc.1, acc.2 + 1)
        else acc)
    else acc

/-- Lines 1101-1124 of `main`: the pairs in the order they are written and the
number of groups, for the entries put into `hash_set` and a non-negative
`capacity`. -/
def btorCandidates (entries : List HashEntry) (capacity : Nat) : List (Nat × Nat) × Nat :=
  btorGroupLoop (sortEntries entries) capacity (sortEntries entries).length 0 ([], 0)

/-- The distinct ids of the entries that share `h1`, `h2` and `width` with `e`. -/
def idsOf (entries : List HashEntry) (e : HashEntry) : Finset Nat :=
  ((entries.filter (fun a => sameKey e a)).map (fun a => a.id)).toFinset

/-- The pair `p` lies in the group of `e`, whose number of distinct ids is
above 1 and at most `capacity`. -/
def InGroup (entries : List HashEntry) (capacity : Nat) (e : HashEntry) (p : Nat × Nat) : Prop :=
  p.1 ∈ idsOf entries e ∧ p.2 ∈ idsOf entries e ∧
    1 < (idsOf entries e).card ∧ (idsOf entries e).card ≤ capacity

/-! ## The reference set of `aiger2cnf.cpp` as a least closed set -/

/-- The set `S` of literals contains the initial references of `main`, lines
83-88 (every literal when `pg` is set, else the bad, output and constraint
literals), and is closed under the two rules of the reverse loop, lines 90-92:
a referenced gate literal references both operands, a referenced negated gate
literal references both negated operands. -/
def RefClosed (m : Aiger) (pg : Bool) (S : Nat → Prop) : Prop :=
  (∀ l, pg = true ∨ l ∈ m.bad ∨ l ∈ m.outputs ∨ l ∈ m.constraints → S l) ∧
  (∀ g ∈ m.ands, S g.lhs → S g.rhs0 ∧ S g.rhs1) ∧
  (∀ g ∈ m.ands, S (g.lhs ^^^ 1) → S (g.rhs0 ^^^ 1) ∧ S (g.rhs1 ^^^ 1))

/-! ## `parse_int` (`simubtor/simubtor.cpp` lines 79-95, `simuaiger/aigextract.cpp`
lines 42-58, `simubtor/btorexpand.cpp`)

The three copies are the same text. A C string is the list of its characters
before the terminator. -/

/-- The constant `INT_MAX` of a 32-bit `int`. -/
def INT_MAX : Nat := 2147483647

/-- The function `isdigit` of the C locale. -/
def isdigit (ch : Char) : Bool := decide (48 ≤ ch.toNat ∧ ch.toNat ≤ 57)

/-- The `while (*p)` loop of `parse_int` with the running value `res`; `none`
is one of the three `return 0`. The two guards keep `res * 10` and
`res + digit` below `INT_MAX`, so the 32-bit arithmetic never wraps. -/
def parseIntLoop : List Char → Nat → Option Nat
  | [], res => some res
  | ch :: p, res =>
    if !isdigit ch then none
    else if INT_MAX / 10 < res then none
    else if INT_MAX - (ch.toNat - 48) < res * 10 then none
    else parseIntLoop p (res * 10 + (ch.toNat - 48))

/-- The function `parse_int(str, res_ptr)`: the returned `int` and the content
of `*res_ptr` after the call, `res` being its content before. -/
def parse_int (str : List Char) (res : Int) : Int × Int :=
  match str with
  | [] => (0, res)
  | ch :: p =>
    if ch = '0' ∧ p ≠ [] then (0, res)
    else
      match parseIntLoop (ch :: p) 0 with
      | none => (0, res)
      | some v => (1, (v : Int))

/-- The number a string of decimal digits denotes, continuing from `res`. -/
def decValue (str : List Char) (res : Nat) : Nat :=
  str.foldl (fun a ch => a * 10 + (ch.toNat - 48)) res

/-! ## The symbols of unrolled models

`btorexpand.cpp` writes them (lines 279-284 and 330-333), the lambda
`parse_symbol` of `simubtor.cpp` (lines 1057-1078) reads them. -/

/-- The character of the decimal digit `d`. -/
def digitChar (d : Nat) : Char := Char.ofNat (48 + d)

/-- The digits of `n` in front of `acc`, most significant first; the first
argument bounds the number of digits. -/
def decimalAux : Nat → Nat → List Char → List Char
  | 0, _, acc => acc
  | fuel + 1, n, acc =>
    if n < 10 then digitChar n :: acc
    else decimalAux fuel (n / 10) (digitChar (n % 10) :: acc)

/-- What `printf` writes for `%ld` and `%d` given a non-negative number. -/
def decimal (n : Nat) : List Char := decimalAux (n + 1) n []

/-- The text written by `print_symbol` of `add_state` for the copy at `time`
of the state `id`: `<symbol>.state.id_<id>.time_<time>`, without the leading
`<symbol>.` when the state has no symbol. -/
def stateSymbol (symbol : Option String) (id time : Nat) : List Char :=
  (match symbol with
    | some s => s.toList ++ ['.', 's', 't', 'a', 't', 'e', '.', 'i', 'd', '_']
    | none => ['s', 't', 'a', 't', 'e', '.', 'i', 'd', '_']) ++
  decimal id ++ ['.', 't', 'i', 'm', 'e', '_'] ++ decimal time

/-- The text written for the copy at `time` of the input `id`:
`<symbol>.input.id_<id>.time_<time>`, without the leading `<symbol>.` when the
input has no symbol. -/
def inputSymbol (symbol : Option String) (id time : Nat) : List Char :=
  (match symbol with
    | some s => s.toList ++ ['.', 'i', 'n', 'p', 'u', 't', '.', 'i', 'd', '_']
    | none => ['i', 'n', 'p', 'u', 't', '.', 'i', 'd', '_']) ++
  decimal id ++ ['.', 't', 'i', 'm', 'e', '_'] ++ decimal time

/-- The loop `for (char *p = symbol; *p; ++p) if (*p == '.') pos.push_back(p);`:
the offsets of the dots, counted from `i`. -/
def dotPositions : List Char → Nat → List Nat
  | [], _ => []
  | ch :: s, i => if ch = '.' then i :: dotPositions s (i + 1) else dotPositions s (i + 1)

/-- The C string that starts at offset `q` of a buffer whose terminator follows
the listed characters: the characters up to the first zero byte; `none` when
`q` points behind the terminator. -/
def cstr (buf : List Char) (q : Nat) : Option (List Char) :=
  if q ≤ buf.length then some ((buf.drop q).takeWhile (fun ch => ch ≠ Char.ofNat 0))
  else none

/-- The body of `parse_symbol` once the last dot `p2` and the dot before it
`p1` are known. The last dot is overwritten by a zero byte while the two
numbers are parsed and is restored afterwards. The results of `parse_int` are
not looked at: a failed parse leaves `id` or `time` uninitialised, and the read
that follows is undefined behaviour, as is a pointer behind the terminator or
in front of the buffer. -/
def parseSymbolAt (symbol : List Char) (p1 p2 : Nat) :
    Run (Btor2Tag × (Int × Int) × List Char) :=
  match cstr (symbol.set p2 (Char.ofNat 0)) (p2 + 6),
      cstr (symbol.set p2 (Char.ofNat 0)) (p1 + 4) with
  | some s2, some s1 =>
    if (parse_int s2 0).1 = 0 ∨ (parse_int s1 0).1 = 0 then .ub
    else if p1 = 0 then .ub
    else if symbol.getD (p1 - 1) (Char.ofNat 0) = 't' then
      .ok (.BTOR2_TAG_input, ((parse_int s1 0).2, (parse_int s2 0).2),
        (symbol.set p2 (Char.ofNat 0)).set p2 '.')
    else
      .ok (.BTOR2_TAG_state, ((parse_int s1 0).2, (parse_int s2 0).2),
        (symbol.set p2 (Char.ofNat 0)).set p2 '.')
  | _, _ => .ub

/-- The lambda `parse_symbol`: the role, the pair `(id, time)` and the buffer
after the call. The `assert` on two dots aborts. -/
def parse_symbol (symbol : List Char) : Run (Btor2Tag × (Int × Int) × List Char) :=
  match (dotPositions symbol 0).reverse with
  | p2 :: p1 :: _ => parseSymbolAt symbol p1 p2
  | _ => .abort

/-! ## `simuaiger/aigextract.cpp` -/

/-- Body of the loop of `main`, lines 119-131, for the first key node `k0` and
the key node `ki`; the state is `model->maxvar`, the vector `ands` and the
vector `bads`. The key nodes are 64-bit, the literals and `maxvar` are
`unsigned`, so every shift and increment is taken modulo `2^32`. -/
def extractGate (k0 : Int) (st : Nat × List AigerAnd × List Nat) (ki : Int) :
    Nat × List AigerAnd × List Nat :=
  let u0 := ((k0 * 2) % 2 ^ 32).toNat
  let v0 := ((ki * 2) % 2 ^ 32).toNat
  let u := if u0 < v0 then v0 else u0
  let v := if u0 < v0 then u0 else v0
  let m1 := (st.1 + 1) % 2 ^ 32
  let p1 := (m1 * 2) % 2 ^ 32
  let m2 := (m1 + 1) % 2 ^ 32
  let p2 := (m2 * 2) % 2 ^ 32
  let m3 := (m2 + 1) % 2 ^ 32
  let p3 := (m3 * 2) % 2 ^ 32
  (m3, st.2.1 ++ [⟨p1, u ^^^ 1, v⟩, ⟨p2, u, v ^^^ 1⟩, ⟨p3, p2 ^^^ 1, p1 ^^^ 1⟩],
    st.2.2 ++ [p3 ^^^ 1])

/-- The loop `for (int i = 1; i < knode.size(); ++i)` of lines 119-131. -/
def extractGates (maxvar : Nat) (knode : List Int) : Nat × List AigerAnd × List Nat :=
  match knode with
  | [] => (maxvar, [], [])
  | k0 :: ks => ks.foldl (extractGate k0) (maxvar, [], [])

/-- The function `main` of `aigextract.cpp` from the check on outputs on, for
a latch-free model in reencoded form and the key nodes of `--node`. The new
model has the gates of the model followed by the new gates, the inputs and the
constraints of the model, and the new bad literals only. Its `maxvar` is the
counter the loop leaves; the closing `aiger_reencode` is not modelled. -/
def aigextract (m : Aiger) (knode : List Int) : Run Aiger :=
  if m.outputs ≠ [] then .abort
  else
    .ok { maxvar := (extractGates m.maxvar knode).1, inputs := m.inputs, outputs := [],
          bad := (extractGates m.maxvar knode).2.2, constraints := m.constraints,
          ands := m.ands ++ (extractGates m.maxvar knode).2.1 }

/-- The three gates added for the key node `k` when the counter is `n`, written
without the wrap-around: `p1 = NOT u AND v`, `p2 = u AND NOT v` and
`p3 = NOT p2 AND NOT p1`, where `u` is the larger and `v` the smaller of the
literals `2 * k0` and `2 * k`. -/
def xorBlock (k0 n k : Nat) : List AigerAnd :=
  [⟨2 * (n + 1), (if 2 * k0 < 2 * k then 2 * k else 2 * k0) ^^^ 1,
      if 2 * k0 < 2 * k then 2 * k0 else 2 * k⟩,
   ⟨2 * (n + 2), if 2 * k0 < 2 * k then 2 * k else 2 * k0,
      (if 2 * k0 < 2 * k then 2 * k0 else 2 * k) ^^^ 1⟩,
   ⟨2 * (n + 3), (2 * (n + 2)) ^^^ 1, (2 * (n + 1)) ^^^ 1⟩]

/-- The gates added for the key nodes `ks`, the counter starting at `n`. -/
def xorBlocks (k0 : Nat) : Nat → List Nat → List AigerAnd
  | _, [] => []
  | n, k :: ks => xorBlock k0 n k ++ xorBlocks k0 (n + 3) ks

/-- The bad literals added for the key nodes `ks`: the negated third gate of
each block. -/
def xorBads : Nat → List Nat → List Nat
  | _, [] => []
  | n, _ :: ks => ((2 * (n + 3)) ^^^ 1) :: xorBads (n + 3) ks

/-- Inputs 2 and 4, the gate `6 = 4 AND 2`, the bad literal 6; maxvar 3. -/
def keyModel : Aiger :=
  { maxvar := 3, inputs := [2, 4], outputs := [], bad := [6], constraints := [],
    ands := [⟨6, 4, 2⟩] }

/-! ## Written lines

The tools write BTOR2 text. A written line is kept as its fields: the id, the
name (the text of a tag), for a `sort` line the kind of sort, the numbers in
the order they are written, the constant and the symbol. -/

/-- One line of output. -/
structure OutLine where
  id : Nat
  tag : Btor2Tag
  sortTag : Option Btor2SortTag
  nums : List Int
  constant : Option String
  symbol : Option (List Char)
deriving DecidableEq, Repr

/-- The function `print_line` of `btorfunc.h`, lines 145-171. -/
def printLine (line : Btor2Line) : OutLine :=
  { id := line.id, tag := line.tag,
    sortTag := if line.tag = .BTOR2_TAG_sort then some line.sort.tag else none,
    nums :=
      (if line.tag = .BTOR2_TAG_sort then
        match line.sort.tag with
        | .BTOR2_TAG_SORT_bitvec => [(line.sort.width : Int)]
        | .BTOR2_TAG_SORT_array => [(line.sort.index : Int), (line.sort.element : Int)]
      else if line.sort.id ≠ 0 then [(line.sort.id : Int)] else []) ++
      line.args ++
      (if line.tag = .BTOR2_TAG_slice then [line.extra.getD 0 0, line.extra.getD 1 0] else []) ++
      (if line.tag = .BTOR2_TAG_sext ∨ line.tag = .BTOR2_TAG_uext then [line.extra.getD 0 0]
        else []),
    constant := line.constant,
    symbol := line.symbol.map String.toList }

/-- The output loop of `main` of `btorextract.cpp`, lines 339-344: the lines
whose `lineno` is not `-1`, in the order of their ids. -/
def printRetained (model : Btor2Model) : List OutLine :=
  (List.range' 1 model.max_id).flatMap fun i =>
    match model.line i with
    | none => []
    | some line => if line.lineno ≠ -1 then [printLine line] else []

/-- Body of the loop of lines 349-362 for the key nodes `p.1 = knode[i - 1]`
and `p.2 = knode[i]`; the state is `line_id` and the lines written so far,
`bid` is the id of the 1-bit sort. A key node without a line is a null
pointer. -/
def synthStep (model : Btor2Model) (bid : Nat) (st : Nat × List OutLine) (p : Int × Int) :
    Run (Nat × List OutLine) :=
  match model.line p.1.natAbs, model.line p.2.natAbs with
  | some prev, some nw =>
    .ok (st.1 + 4, st.2 ++
      [⟨st.1 + 1, .BTOR2_TAG_zero, none, [(prev.sort.id : Int)], none, none⟩,
       ⟨st.1 + 2, .BTOR2_TAG_xor, none, [(prev.sort.id : Int), (prev.id : Int), (nw.id : Int)],
          none, none⟩,
       ⟨st.1 + 3, .BTOR2_TAG_neq, none,
          [(bid : Int), ((st.1 + 3 : Nat) : Int) - 2, ((st.1 + 3 : Nat) : Int) - 1], none, none⟩,
       ⟨st.1 + 4, .BTOR2_TAG_bad, none, [((st.1 + 4 : Nat) : Int) - 1], none, none⟩])
  | _, _ => .ub

/-- The lines appended by `main`, lines 346-364: for more than one key node,
the line `sort bitvec 1` and the four lines of each pair of consecutive key
nodes. -/
def synthLines (model : Btor2Model) (knode : List Int) : Run (List OutLine) :=
  if knode.length > 1 then
    (forRun (synthStep model (model.max_id + 1)) (knode.zip knode.tail)
      (model.max_id + 1,
        [⟨model.max_id + 1, .BTOR2_TAG_sort, some .BTOR2_TAG_SORT_bitvec, [1],
          none, none⟩])).bind fun st => .ok st.2
  else .ok []

/-- What `main` of `btorextract.cpp` writes for a parsed model and the key
nodes of `--node`. -/
def btorextractMain (model : Btor2Model) (knode : List Int) : Run (List OutLine) :=
  (btorextract model knode).bind fun model1 =>
    (synthLines model1 knode).bind fun synth => .ok (printRetained model1 ++ synth)

/-- The four lines of one pair of key nodes, `n` being the id of the line
before them, `bid` the id of the 1-bit sort, `sid` the sort of the first key
node and `a`, `b` the ids of the two key nodes: `zero`, `xor a b`,
`neq zero xor` and `bad neq`. -/
def synthBlock (bid n sid a b : Nat) : List OutLine :=
  [⟨n + 1, .BTOR2_TAG_zero, none, [(sid : Int)], none, none⟩,
   ⟨n + 2, .BTOR2_TAG_xor, none, [(sid : Int), (a : Int), (b : Int)], none, none⟩,
   ⟨n + 3, .BTOR2_TAG_neq, none, [(bid : Int), ((n + 1 : Nat) : Int), ((n + 2 : Nat) : Int)],
      none, none⟩,
   ⟨n + 4, .BTOR2_TAG_bad, none, [((n + 3 : Nat) : Int)], none, none⟩]

/-! ## The cone of `extract`, described by relations -/

/-- The line `j` has the id `i` among its operands. -/
def RefersArg (model : Btor2Model) (j i : Nat) : Prop :=
  ∃ line, model.line j = some line ∧ ∃ a ∈ line.args, a.natAbs = i

/-- The line `i` depends on a key node in the sense of `transition`: it is a
key node, or it is a line of one of the classes `constraint`, `eq` and `state`
with an operand that depends on a key node. -/
inductive DependsOnKey (model : Btor2Model) (knode : List Int) : Nat → Prop
  | key (r : Nat) : (r : Int) ∈ knode → DependsOnKey model knode r
  | step (i : Nat) (line : Btor2Line) (a : Int) :
      i ∈ List.range' 1 model.max_id → model.line i = some line →
      (classification line = .BTOR2_TAG_constraint ∨ classification line = .BTOR2_TAG_eq ∨
        classification line = .BTOR2_TAG_state) →
      a ∈ line.args → DependsOnKey model knode a.natAbs → DependsOnKey model knode i

/-- The ids of a parsed model are ordered: the operands of a line are lines
with smaller ids, the sort of a line does not come after the line, a `sort`
line has no operands, and the sort id of a line is the id of a `sort` line or
of no line. -/
def Btor2Model.Ordered (model : Btor2Model) : Prop :=
  ∀ i ∈ List.range' 1 model.max_id, ∀ line ∈ model.line i,
    (∀ a ∈ line.args, 1 ≤ a.natAbs ∧ a.natAbs < i) ∧ line.sort.id ≤ i ∧
    (line.tag = .BTOR2_TAG_sort → line.args = []) ∧
    (∀ sl ∈ model.line line.sort.id, sl.tag = .BTOR2_TAG_sort)

/-! ## `simubtor/btorexpand.cpp` -/

/-- The tags that `parse_model_line` accepts, lines 78-230; every other tag
ends the program with `unsupported`. -/
def expandSupported : Btor2Tag → Bool
  | .BTOR2_TAG_fair | .BTOR2_TAG_justice | .BTOR2_TAG_rol | .BTOR2_TAG_ror
  | .BTOR2_TAG_saddo | .BTOR2_TAG_sdivo | .BTOR2_TAG_smod | .BTOR2_TAG_smulo
  | .BTOR2_TAG_ssubo | .BTOR2_TAG_uaddo | .BTOR2_TAG_umulo | .BTOR2_TAG_usubo
  | .BTOR2_TAG_iff => false
  | _ => true

/-- What `btorexpand` changes while it writes: the counter `line_id`, the
fields `lineno` and `init` of the lines, by line id, and the lines written. -/
structure ExpandState where
  line_id : Nat
  lineno : Nat → Int
  init : Nat → Int
  out : List OutLine

/-- The state before the first time step: `line_id = 0`, the fields as the
parser left them. -/
def ExpandState.start (model : Btor2Model) : ExpandState :=
  { line_id := 0,
    lineno := fun i => match model.line i with
      | some line => line.lineno
      | none => 0,
    init := fun i => match model.line i with
      | some line => line.init
      | none => 0,
    out := [] }

/-- The function `get_lineno`, lines 252-255: the current `lineno` of the line
`|idx|` with the sign of `idx`. The id 0 and an id without a line give a null
pointer. -/
def get_lineno (model : Btor2Model) (s : ExpandState) (idx : Int) : Run Int :=
  if idx = 0 then .ub
  else
    match model.line idx.natAbs with
    | none => .ub
    | some _ => .ok ((if idx < 0 then -1 else 1) * s.lineno idx.natAbs)

/-- The loop over the operands in `default_setting`. -/
def argLinenos (model : Btor2Model) (s : ExpandState) : List Int → Run (List Int)
  | [] => .ok []
  | a :: as =>
    (get_lineno model s a).bind fun x => (argLinenos model s as).bind fun xs => .ok (x :: xs)

/-- The lambda `default_setting` of `parse_line` for the line with the id `i`:
the line is written under the next `line_id` with its sort and operands
replaced by their current `lineno`, and `lineno` of the line becomes that
`line_id`. -/
def default_setting (model : Btor2Model) (s : ExpandState) (i : Nat) (line : Btor2Line) :
    Run ExpandState :=
  (if line.sort.id ≠ 0 then (get_lineno model s line.sort.id).bind fun x => .ok [x]
    else .ok []).bind fun sortPart =>
    (argLinenos model s line.args).bind fun argPart =>
      .ok { s with
        line_id := s.line_id + 1,
        out := s.out ++ [⟨s.line_id + 1, line.tag, none,
          sortPart ++ argPart ++
            (if line.tag = .BTOR2_TAG_sext ∨ line.tag = .BTOR2_TAG_uext then
              [line.extra.getD 0 0] else []),
          line.constant, none⟩],
        lineno := Function.update s.lineno i ((s.line_id + 1 : Nat) : Int) }

/-- The lambda `add_state` of `parse_line`: the copy of the state `i` at
`time` is `add <sort> <zero of the sort> <val_id>` when `val_id` is not 0 and a
fresh `input <sort>` otherwise; the id of the zero of a sort is kept in the
field `init` of the sort line. -/
def add_state (model : Btor2Model) (s : ExpandState) (i : Nat) (state : Btor2Line)
    (time : Nat) (val_id : Int) : Run ExpandState :=
  (get_lineno model s state.sort.id).bind fun sort_lid =>
    if val_id ≠ 0 then
      .ok { s with
        line_id := s.line_id + 1,
        out := s.out ++ [⟨s.line_id + 1, .BTOR2_TAG_add, none,
          [sort_lid, s.init state.sort.id, val_id], none,
          some (stateSymbol state.symbol state.id time)⟩],
        lineno := Function.update s.lineno i ((s.line_id + 1 : Nat) : Int) }
    else
      .ok { s with
        line_id := s.line_id + 1,
        out := s.out ++ [⟨s.line_id + 1, .BTOR2_TAG_input, none, [sort_lid], none,
          some (stateSymbol state.symbol state.id time)⟩],
        lineno := Function.update s.lineno i ((s.line_id + 1 : Nat) : Int) }

/-- The function `parse_line`, lines 257-394, called for the line id `i`. -/
def parse_line (model : Btor2Model) (s : ExpandState) (i : Nat) (time : Nat)
    (first_timestamp show_property : Bool) : Run ExpandState :=
  match model.line i with
  | none => .ub
  | some line =>
    match line.tag with
    | .BTOR2_TAG_sort =>
      if first_timestamp then
        (match line.sort.tag with
          | .BTOR2_TAG_SORT_array =>
            (get_lineno model s line.sort.index).bind fun a =>
              (get_lineno model s line.sort.element).bind fun b => .ok [a, b]
          | .BTOR2_TAG_SORT_bitvec => .ok [(line.sort.width : Int)]).bind fun (nums : List Int) =>
          .ok { s with
                line_id := s.line_id + 2,
                out := s.out ++
                  [OutLine.mk (s.line_id + 1) .BTOR2_TAG_sort (some line.sort.tag) nums none none,
                   OutLine.mk (s.line_id + 2) .BTOR2_TAG_zero none
                     [((s.line_id + 1 : Nat) : Int)] none none],
                lineno := Function.update s.lineno i ((s.line_id + 1 : Nat) : Int),
                init := Function.update s.init i ((s.line_id + 2 : Nat) : Int) }
      else .ok s
    | .BTOR2_TAG_state =>
      if first_timestamp then
        if s.init i > 0 then
          (get_lineno model s (s.init i)).bind fun v => add_state model s i line time v
        else add_state model s i line time 0
      else if line.next > 0 then add_state model s i line time (s.init i)
      else add_state model s i line time 0
    | .BTOR2_TAG_input =>
      (get_lineno model s line.sort.id).bind fun sort_lid =>
        .ok { s with
          line_id := s.line_id + 1,
          out := s.out ++ [⟨s.line_id + 1, .BTOR2_TAG_input, none, [sort_lid], none,
            some (inputSymbol line.symbol line.id time)⟩],
          lineno := Function.update s.lineno i ((s.line_id + 1 : Nat) : Int) }
    | .BTOR2_TAG_slice =>
      (get_lineno model s line.sort.id).bind fun sort_lid =>
        (get_lineno model s (line.args.getD 0 0)).bind fun a =>
          .ok { s with
            line_id := s.line_id + 1,
            out := s.out ++ [⟨s.line_id + 1, .BTOR2_TAG_slice, none,
              [sort_lid, a, line.extra.getD 0 0, line.extra.getD 1 0], none, none⟩],
            lineno := Function.update s.lineno i ((s.line_id + 1 : Nat) : Int) }
    | .BTOR2_TAG_init => .ok s
    | .BTOR2_TAG_next => .ok s
    | .BTOR2_TAG_bad | .BTOR2_TAG_justice | .BTOR2_TAG_constraint =>
      if show_property then default_setting model s i line else .ok s
    | .BTOR2_TAG_const | .BTOR2_TAG_constd | .BTOR2_TAG_consth | .BTOR2_TAG_one
    | .BTOR2_TAG_ones | .BTOR2_TAG_zero =>
      if first_timestamp then default_setting model s i line else .ok s
    | _ => default_setting model s i line

/-- The second loop of a time step, lines 463-466: the field `init` of every
state with `next != 0` becomes the current `lineno` of its next value, with
the sign of the reference. -/
def latchNext (model : Btor2Model) (s : ExpandState) (i : Nat) : Run ExpandState :=
  match model.line i with
  | none => .ub
  | some line =>
    if line.tag = .BTOR2_TAG_state ∧ line.next ≠ 0 then
      (get_lineno model s line.next).bind fun x =>
        .ok { s with init := Function.update s.init i x }
    else .ok s

/-- One round of the loop over the time steps, lines 457-467. -/
def expandLayer (model : Btor2Model) (s : ExpandState) (timestamp : Nat) : Run ExpandState :=
  (forRun (fun s i => parse_line model s i timestamp (timestamp == 0) true)
    (List.range' 1 model.max_id) s).bind fun s1 =>
    forRun (latchNext model) (List.range' 1 model.max_id) s1

/-- The function `main` of `btorexpand.cpp` from `parse_model` on: the lines
written for the time steps `0, ..., expand_layers`. The comment lines with the
time step are not modelled. -/
def btorexpand (model : Btor2Model) (expand_layers : Nat) : Run (List OutLine) :=
  if (List.range' 1 model.max_id).any (fun i =>
      match model.line i with
      | some line => !expandSupported line.tag
      | none => false) then .abort
  else
    (forRun (expandLayer model) (List.range (expand_layers + 1))
      (ExpandState.start model)).bind fun s => .ok s.out

/-- A state line with its `init` and `next` fields. -/
def mkState (id sortId : Nat) (symbol : Option String) (init next : Int) : Btor2Line :=
  { mkLine id .BTOR2_TAG_state sortId [] with symbol := symbol, init := init, next := next }

/-- The model
`1 sort bitvec 1`, `2 zero 1`, `3 state 1 s`, `4 init 1 3 2`, `5 next 1 3 -3`,
`6 bad 3`: one state with the initial value 0 whose next value is its own
negation, given as a negated reference. -/
def toggleModel : Btor2Model :=
  { max_id := 6,
    line := fun i =>
      match i with
      | 1 => some (mkLine 1 .BTOR2_TAG_sort 1 [])
      | 2 => some (mkLine 2 .BTOR2_TAG_zero 1 [])
      | 3 => some (mkState 3 1 (some "s") 2 (-3))
      | 4 => some (mkLine 4 .BTOR2_TAG_init 1 [3, 2])
      | 5 => some (mkLine 5 .BTOR2_TAG_next 1 [3, -3])
      | 6 => some (mkLine 6 .BTOR2_TAG_bad 0 [3])
      | _ => none }

/-- The same circuit with the negation as a line of its own:
`1 sort bitvec 1`, `2 zero 1`, `3 state 1 s`, `4 init 1 3 2`, `5 not 1 3`,
`6 next 1 3 5`, `7 bad 3`. -/
def toggleNotModel : Btor2Model :=
  { max_id := 7,
    line := fun i =>
      match i with
      | 1 => some (mkLine 1 .BTOR2_TAG_sort 1 [])
      | 2 => some (mkLine 2 .BTOR2_TAG_zero 1 [])
      | 3 => some (mkState 3 1 (some "s") 2 5)
      | 4 => some (mkLine 4 .BTOR2_TAG_init 1 [3, 2])
      | 5 => some (mkLine 5 .BTOR2_TAG_not 1 [3])
      | 6 => some (mkLine 6 .BTOR2_TAG_next 1 [3, 5])
      | 7 => some (mkLine 7 .BTOR2_TAG_bad 0 [3])
      | _ => none }

/-! ## The implication graphs of `add_edge` are skew-symmetric -/

/-- Every edge comes with its contrapositive: with `u → v` the graph holds
`NOT v → NOT u`. -/
def TwoSat.Skew (g : TwoSat) : Prop :=
  ∀ u v, v ∈ g.eg u → (u ^^^ 1) ∈ g.eg (v ^^^ 1)

/-! ## Invariants of the table that `initialize` fills -/

/-- Complementary literals hold complementary values: both are unassigned, or
one is 0 and the other 1. -/
def TablePairs (t : Nat → Int) : Prop :=
  ∀ l, (t l = -1 ∧ t (l ^^^ 1) = -1) ∨ (t l = 0 ∧ t (l ^^^ 1) = 1) ∨
    (t l = 1 ∧ t (l ^^^ 1) = 0)

/-- The table `t1` keeps every value that `t` has assigned. -/
def Extends (t t1 : Nat → Int) : Prop := ∀ l, t l ≠ -1 → t1 l = t l

/-- Every literal that holds 1 and is not in `P` has passed the value 1 on to
all targets of its edges; `P` holds the literals whose loop over the edges is
still running. -/
def EdgeClosed (eg : Nat → List Nat) (P : Nat → Prop) (t : Nat → Int) : Prop :=
  ∀ l, t l = 1 → ¬ P l → ∀ v ∈ eg l, t v = 1

/-- Only literals in `Q` are assigned. -/
def Supported (Q : Nat → Prop) (t : Nat → Int) : Prop := ∀ l, t l ≠ -1 → Q l

/-- An assigned literal that `cons` fixes holds the value of `cons`. -/
def Agrees (cons t : Nat → Int) : Prop := ∀ l, t l ≠ -1 → cons l ≠ -1 → t l = cons l

/-- The number of unassigned literals below `n`. -/
def unassigned (n : Nat) (t : Nat → Int) : Nat :=
  ((Finset.range n).filter (fun l => t l = -1)).card

/-- The loops of `initialize` before the check of `free_variables`,
lines 134-155. -/
def initLoop (m : Aiger) (cons : Nat → Int) (eg : Nat → List Nat) (rng : Nat → Nat) :
    Run InitState :=
  (simAssign eg (2 * (m.maxvar + 1) + 1) (fun _ => -1) 0 0).bind fun t0 =>
    forRun (initInput cons eg (2 * (m.maxvar + 1) + 1)) m.inputs
      { table := t0, free_variables := 0, rng := rng }

/-- The input literals of a loaded model: even, at least 2, within `maxvar`
and pairwise distinct. -/
structure InputsValid (m : Aiger) : Prop where
  even : ∀ l ∈ m.inputs, l % 2 = 0
  pos : ∀ l ∈ m.inputs, 2 ≤ l
  le : ∀ l ∈ m.inputs, l ≤ 2 * m.maxvar
  nodup : m.inputs.Nodup

/-- The literal belongs to an input variable. -/
def isInputLit (m : Aiger) (l : Nat) : Prop := l ∈ m.inputs ∨ l ^^^ 1 ∈ m.inputs

/-- A model with the 35 inputs `2, 4, ..., 70`, the gate `72 = 4 AND 2` and
the constraint `NOT 72`. -/
def pairModel : Aiger :=
  { maxvar := 36, inputs := (List.range 35).map (fun i => 2 * (i + 1)), outputs := [],
    bad := [], constraints := [73], ands := [⟨72, 4, 2⟩] }

/-- What `preprocessing` leaves on `pairModel`. -/
def pairPre : PreResult := (preprocessing pairModel).get PreResult.init

/-- The state after `initialize` on `pairModel` with the generator
`0, 1, 2, ...`. -/
def pairInit : InitState :=
  (simInitialize pairModel pairPre.cons pairPre.g.eg (fun i => i)).get InitState.zero

/-! ## The forward pass over the gates in `run_step` -/

/-- The entry of `table` for a Boolean value. -/
def boolInt (b : Bool) : Int := if b then 1 else 0

/-- Every variable of the model is defined once: a gate output is at least 2
and no input, and each variable from 1 to `maxvar` is an input or the output
of a gate. -/
structure Covered (m : Aiger) : Prop where
  gate_pos : ∀ g ∈ m.ands, 2 ≤ g.lhs
  gate_not_input : ∀ g ∈ m.ands, g.lhs ∉ m.inputs
  total : ∀ v ∈ List.range' 1 m.maxvar, 2 * v ∈ m.inputs ∨ ∃ g ∈ m.ands, g.lhs = 2 * v

/-- The input assignment that a table holds. -/
def tableInputs (t : Nat → Int) (v : Nat) : Bool := decide (t (2 * v) = 1)

/-- The table of `pairModel` after the gate loop of the round that starts from
`pairInit`. -/
def pairTable : Nat → Int := (forRun andStep pairModel.ands pairInit.table).get (fun _ => 0)

/-- A model with the 35 inputs `2, 4, ..., 70`, the gate `72 = 3 AND 2` over
the input 2 and its complement, and the constraint `NOT 72`. -/
def selfGateModel : Aiger :=
  { maxvar := 36, inputs := (List.range 35).map (fun i => 2 * (i + 1)), outputs := [],
    bad := [], constraints := [73], ands := [⟨72, 3, 2⟩] }

/-! ## The records of the bad properties in `simubtor.cpp` -/

/-- The node `c` holds a non-zero bit-vector in the evaluation. -/
def nonZero (e : BtorEval) (c : Nat) : Bool :=
  match e.cur c with
  | .bitvec (some bits) => !bv_is_zero bits
  | _ => false

/-- All constraint arguments are non-zero in the evaluation. -/
def roundSat (cs : List Nat) (e : BtorEval) : Bool := cs.all (nonZero e)

/-- The first of the rounds `1, ..., r` that satisfies the constraints and in
which the node `b` is non-zero. -/
def firstHit (cs : List Nat) (evals : Nat → BtorEval) (b r : Nat) : Option Nat :=
  (List.range' 1 r).find? (fun s => roundSat cs (evals s) && nonZero (evals s) b)

/-- The entry of `reached_bads` that belongs to the first hit: the round, or
`-1` when there is none. -/
def badRecord (cs : List Nat) (evals : Nat → BtorEval) (b r : Nat) : Int :=
  match firstHit cs evals b r with
  | some s => (s : Int)
  | none => -1

/-- The number of entries of `reached_bads` without a round. -/
def unreached (rs : List Int) : Int := ((rs.filter (fun r => decide (r < 0))).length : Int)

/-- Every round leaves a bit-vector in the arguments of the constraints and
of the bad properties. -/
def ArgsEvaluated (cs bads : List Nat) (evals : Nat → BtorEval) : Prop :=
  ∀ s, ∀ c ∈ cs ++ bads, ∃ bits, (evals s).cur c = .bitvec (some bits)

/-! ## `simubtor/simubtor.cpp`: constraint resolution

The loop of lines 876-924 of `random_simulation`, run once after the warm-up
round `run_step(0, 1)`. The external `btor2parser_get_line_by_id` looks a
signed id up by its absolute value and gives a null pointer for the id 0 and
for an id without a line. -/

/-- The call `btor2parser_get_line_by_id(model, id)` on a signed id. -/
def lineOf (model : Btor2Model) (id : Int) : Option Btor2Line :=
  if id = 0 then none else model.line id.natAbs

/-- The loop over the operands of an `and` line (`v = 1`) or of an `or` line
(`v = -1`), lines 885-889 and 892-896: the entry of `|args[j]|` becomes `-v`
for a negated operand and `v` otherwise. The vector has `n + 1` entries. -/
def markArgs (n : Nat) (v : Int) : (Nat → Int) → List Int → Run (Nat → Int)
  | cons, [] => .ok cons
  | cons, a :: as =>
    if a.natAbs ≤ n then
      markArgs n v (Function.update cons a.natAbs (if a < 0 then -v else v)) as
    else .ub

/-- The branches of the loop body that write `cons`, lines 881-896, for the
line id `i`. -/
def markLine (model : Btor2Model) (cons : Nat → Int) (i : Nat) : Run (Nat → Int) :=
  match model.line i with
  | none => .ok cons
  | some line =>
    if line.tag = .BTOR2_TAG_constraint then
      match line.args with
      | a :: _ =>
        if 0 ≤ a ∧ a ≤ (model.max_id : Int) then .ok (Function.update cons a.toNat 1) else .ub
      | [] => .ub
    else if line.tag = .BTOR2_TAG_and then
      if cons i ≤ 0 then .ok cons else markArgs model.max_id 1 cons line.args
    else if line.tag = .BTOR2_TAG_or then
      if cons i ≥ 0 then .ok cons else markArgs model.max_id (-1) cons line.args
    else .ok cons

/-- The marks of the reverse pass, lines 876-896: the loop runs from
`num_format_lines` down to 1 over a vector of zeros. -/
def markPass (model : Btor2Model) : Run (Nat → Int) :=
  forRun (markLine model) (List.range' 1 model.max_id).reverse (fun _ => 0)

/-- The loop of lines 915-916,
`for (uint32_t j = bv->width - 1; j >= 0; --j) bv->bits[j] ^= 1;`, as the walk
of its index: `len` is the number of entries of the array `bits` of the
vector, the first argument bounds the number of passes. The test `j >= 0` on
the unsigned counter always holds, so the loop has no exit; the decrement of
0 wraps to `2^32 - 1`, and an index outside the array is undefined
behaviour. -/
def flipLoop (len : Nat) : Nat → Nat → Run (List Bool)
  | 0, _ => .fuel
  | fuel + 1, j =>
    if j < len then flipLoop len fuel ((j + 4294967295) % 4294967296) else .ub

/-- What constraint resolution carries: the vector `cons`, the field `next`
of the lines (the slot of a fixed input, 0 for none) and the vector
`fixed_input`, whose entry 0 is the null pointer of `fixed_input.resize(1)`. -/
structure ResolveState where
  cons : Nat → Int
  next : Nat → Int
  fixed_input : List (Option (List Bool))

/-- The state before the loop. -/
def ResolveState.start (model : Btor2Model) : ResolveState :=
  { cons := fun _ => 0
    next := fun i => match model.line i with
      | some line => line.next
      | none => 0
    fixed_input := [none] }

/-- The branch of an `eq` line with a positive mark, lines 899-922 (the log
line is not modelled). `warm` is `current_state` after the warm-up round; a
vector of `width` bits is stored in `(width + 31) / 32` words. -/
def resolveEq (model : Btor2Model) (warm : Nat → BtorState) (st : ResolveState)
    (line : Btor2Line) : Run ResolveState :=
  match line.args with
  | a0 :: a1 :: _ =>
    match lineOf model a0, lineOf model a1 with
    | some l0, some l1 =>
      let p := if l1.tag = .BTOR2_TAG_input then a1 else a0
      let q := if l1.tag = .BTOR2_TAG_input then a0 else a1
      let model_p := if l1.tag = .BTOR2_TAG_input then l1 else l0
      let model_q := if l1.tag = .BTOR2_TAG_input then l0 else l1
      if model_p.tag ≠ .BTOR2_TAG_input ∨ model_q.tag = .BTOR2_TAG_input then .ok st
      else
        match warm model_q.id with
        | .bitvec (some bits) =>
          if (if p < 0 then -q else q) < 0 then
            (flipLoop ((bits.length + 31) / 32) (bits.length + 1)
                ((bits.length + 4294967295) % 4294967296)).bind fun flipped =>
              .ok { st with
                next := Function.update st.next model_p.id (st.fixed_input.length : Int)
                fixed_input := st.fixed_input ++ [some flipped] }
          else
            .ok { st with
              next := Function.update st.next model_p.id (st.fixed_input.length : Int)
              fixed_input := st.fixed_input ++ [some bits] }
        | _ => .ub
    | _, _ => .ub
  | _ => .ub

/-- Body of the loop of lines 877-924 for the line id `i`. -/
def resolveLine (model : Btor2Model) (warm : Nat → BtorState) (st : ResolveState) (i : Nat) :
    Run ResolveState :=
  match model.line i with
  | none => .ok st
  | some line =>
    if line.tag = .BTOR2_TAG_eq then
      if st.cons i ≤ 0 then .ok st else resolveEq model warm st line
    else (markLine model st.cons i).bind fun cons => .ok { st with cons := cons }

/-- Constraint resolution, lines 876-924. -/
def resolve (model : Btor2Model) (warm : Nat → BtorState) : Run ResolveState :=
  forRun (resolveLine model warm) (List.range' 1 model.max_id).reverse
    (ResolveState.start model)

/-- The value that `initialize_inputs` loads into the bit-vector input `id`,
lines 784-791: the random vector `fresh` when the field `next` is 0, a copy of
the stored vector otherwise. -/
def inputValue (st : ResolveState) (id : Nat) (fresh : List Bool) : Run (List Bool) :=
  if st.next id = 0 then .ok fresh
  else
    match st.fixed_input[(st.next id).toNat]? with
    | some (some bits) => .ok bits
    | _ => .ub

/-! ### The evaluation of `and` and `or` lines -/

/-- The value of a signed reference: `simulate` complements the vector of a
negative id (`btorsim_bv_not`). -/
def refVal (val : Nat → List Bool) (a : Int) : List Bool :=
  if a < 0 then (val a.natAbs).map (fun b => !b) else val a.natAbs

/-- The line `i` with the operands `args` holds the bitwise `op` of its two
operands, which have the width of the line. -/
def HoldsBinary (val : Nat → List Bool) (op : Bool → Bool → Bool) (i : Nat) (args : List Int) :
    Prop :=
  args.length = 2 ∧ (refVal val (args.getD 0 0)).length = (val i).length ∧
    (refVal val (args.getD 1 0)).length = (val i).length ∧
    val i = List.zipWith op (refVal val (args.getD 0 0)) (refVal val (args.getD 1 0))

/-- The table `val` holds an evaluation of the `and` and `or` lines: such a
line has two operands of the width of the line, and its value is their bitwise
conjunction or disjunction (`btorsim_bv_and`, `btorsim_bv_or`). -/
def EvaluatesAndOr (model : Btor2Model) (val : Nat → List Bool) : Prop :=
  ∀ i ∈ List.range' 1 model.max_id, ∀ line ∈ model.line i,
    (line.tag = .BTOR2_TAG_and → HoldsBinary val (fun x y => x && y) i line.args) ∧
    (line.tag = .BTOR2_TAG_or → HoldsBinary val (fun x y => x || y) i line.args)

/-- Every constraint has a positive argument within the ids of the model. -/
def ConstraintArgsPositive (model : Btor2Model) : Prop :=
  ∀ i ∈ List.range' 1 model.max_id, ∀ line ∈ model.line i,
    line.tag = .BTOR2_TAG_constraint →
      line.args ≠ [] ∧ ∀ a ∈ line.args.head?, 0 < a ∧ a ≤ (model.max_id : Int)

/-- Every constraint argument is a 1-bit node that holds 1: all constraints
hold in the evaluation. -/
def ConstraintsHold (model : Btor2Model) (val : Nat → List Bool) : Prop :=
  ∀ i ∈ List.range' 1 model.max_id, ∀ line ∈ model.line i,
    line.tag = .BTOR2_TAG_constraint → ∀ a ∈ line.args.head?, val a.toNat = [true]

/-- The marks are sound for the evaluation: a node marked `1` holds the 1-bit
one, a node marked `-1` the 1-bit zero. -/
def MarksSound (val : Nat → List Bool) (cons : Nat → Int) : Prop :=
  ∀ i, (cons i = 1 → val i = [true]) ∧ (cons i = -1 → val i = [false]) ∧
    (cons i = -1 ∨ cons i = 0 ∨ cons i = 1)

/-- The model
`1 sort bitvec 1`, `2 input 1`, `3 input 1`, `4 input 1`, `5 or 1 3 -4`,
`6 and 1 2 -5`, `7 constraint 6`. -/
def markModel : Btor2Model :=
  { max_id := 7,
    line := fun i =>
      match i with
      | 1 => some (mkLine 1 .BTOR2_TAG_sort 1 [])
      | 2 => some (mkLine 2 .BTOR2_TAG_input 1 [])
      | 3 => some (mkLine 3 .BTOR2_TAG_input 1 [])
      | 4 => some (mkLine 4 .BTOR2_TAG_input 1 [])
      | 5 => some (mkLine 5 .BTOR2_TAG_or 1 [3, -4])
      | 6 => some (mkLine 6 .BTOR2_TAG_and 1 [2, -5])
      | 7 => some (mkLine 7 .BTOR2_TAG_constraint 0 [6])
      | _ => none }

/-- The evaluation of `markModel` with the inputs `2 = 1`, `3 = 0`, `4 = 1`. -/
def markVal (i : Nat) : List Bool :=
  if i = 2 ∨ i = 4 ∨ i = 6 then [true] else [false]

/-- The model
`1 sort bitvec 1`, `2 input 1`, `3 state 1`, `4 eq 1 -2 3`, `5 constraint 4`. -/
def negEqModel : Btor2Model :=
  { max_id := 5,
    line := fun i =>
      match i with
      | 1 => some (mkLine 1 .BTOR2_TAG_sort 1 [])
      | 2 => some (mkLine 2 .BTOR2_TAG_input 1 [])
      | 3 => some (mkLine 3 .BTOR2_TAG_state 1 [])
      | 4 => some (mkLine 4 .BTOR2_TAG_eq 1 [-2, 3])
      | 5 => some (mkLine 5 .BTOR2_TAG_constraint 0 [4])
      | _ => none }

/-- The same model with the line `4 eq 1 2 3`. -/
def posEqModel : Btor2Model :=
  { max_id := 5,
    line := fun i =>
      match i with
      | 1 => some (mkLine 1 .BTOR2_TAG_sort 1 [])
      | 2 => some (mkLine 2 .BTOR2_TAG_input 1 [])
      | 3 => some (mkLine 3 .BTOR2_TAG_state 1 [])
      | 4 => some (mkLine 4 .BTOR2_TAG_eq 1 [2, 3])
      | 5 => some (mkLine 5 .BTOR2_TAG_constraint 0 [4])
      | _ => none }

/-- A warm-up round in which every node holds the 1-bit one. -/
def warmOnes : Nat → BtorState := fun _ => .bitvec (some [true])

/-! ## `simubtor/btoreliminate.cpp` -/

/-- A loop `for (i = 1; i <= number_of_lines; ++i)` of `eliminate_constraint`
that rewrites the entry `eliminate[i]` from the line `i`; the line pointer is
used without a null check. -/
def mapLines (model : Btor2Model) (h : Btor2Line → Bool → Bool) (ids : List Nat)
    (e : Nat → Bool) : Run (Nat → Bool) :=
  forRun
    (fun e i =>
      match model.line i with
      | none => .ub
      | some line => .ok (Function.update e i (h line (e i))))
    ids e

/-- Line 237: `if (classification(line) == BTOR2_TAG_state) eliminate[i] = 1`. -/
def markState (line : Btor2Line) (b : Bool) : Bool :=
  if classification line = .BTOR2_TAG_state then true else b

/-- Lines 242-243: `if (line->tag != BTOR2_TAG_constraint) eliminate[i] = 0`. -/
def clearNonConstraint (line : Btor2Line) (b : Bool) : Bool :=
  if line.tag ≠ .BTOR2_TAG_constraint then false else b

/-- Lines 257-258: `if (classification(line) != BTOR2_TAG_state) eliminate[i] = 0`. -/
def clearNonState (line : Btor2Line) (b : Bool) : Bool :=
  if classification line ≠ .BTOR2_TAG_state then false else b

/-- The reverse loop of lines 245-254: a line of the class `constraint` or
`eq` passes its mark on to its operands. -/
def backLines (model : Btor2Model) (ids : List Nat) (e : Nat → Bool) : Run (Nat → Bool) :=
  forRun
    (fun e i =>
      match model.line i with
      | none => .ub
      | some line =>
        if classification line = .BTOR2_TAG_constraint ∨ classification line = .BTOR2_TAG_eq then
          .ok (keepArgs e i line.args)
        else .ok e)
    ids e

/-- The vector `eliminate` at line 262 of `eliminate_constraint`. -/
def eliminate_constraint (model : Btor2Model) : Run (Nat → Bool) :=
  (mapLines model markState (List.range' 1 model.max_id) (fun _ => false)).bind fun e1 =>
    (mapLines model clearNonConstraint (List.range' 1 model.max_id)
        (transition model e1)).bind fun e3 =>
      (backLines model (List.range' 1 model.max_id).reverse e3).bind fun e4 =>
        (mapLines model clearNonState (List.range' 1 model.max_id) e4).bind fun e5 =>
          .ok (transition model e5)

/-- The part of `main` of `btoreliminate.cpp` after parsing, without the
counters it prints: the marked lines get `lineno = -1` and are not written. -/
def btoreliminate (model : Btor2Model) : Run Btor2Model :=
  (eliminate_constraint model).bind fun e => .ok (dropLines model (fun i => !e i))

/-- The line `y` is reached from the line `x` through operands: `y` lies in
the fan-in of `x`, and `x` in the fan-out of `y`. -/
def ArgPath (model : Btor2Model) (x y : Nat) : Prop :=
  Relation.ReflTransGen (RefersArg model) x y

/-- Every id from 1 to `max_id` has a line. -/
def Btor2Model.Full (model : Btor2Model) : Prop :=
  ∀ i ∈ List.range' 1 model.max_id, (model.line i).isSome = true

/-- The model
`1 sort bitvec 1`, `2 state 1`, `3 next 1 2 2`, `4 constraint 2`. -/
def nextModel : Btor2Model :=
  { max_id := 4,
    line := fun i =>
      match i with
      | 1 => some (mkLine 1 .BTOR2_TAG_sort 1 [])
      | 2 => some (mkLine 2 .BTOR2_TAG_state 1 [])
      | 3 => some (mkLine 3 .BTOR2_TAG_next 1 [2, 2])
      | 4 => some (mkLine 4 .BTOR2_TAG_constraint 0 [2])
      | _ => none }

/-- The model
`1 sort bitvec 1`, `2 state 1`, `3 input 1`, `4 and 1 2 3`, `5 constraint 4`,
`6 not 1 3`, `7 bad 6`. -/
def elimModel : Btor2Model :=
  { max_id := 7,
    line := fun i =>
      match i with
      | 1 => some (mkLine 1 .BTOR2_TAG_sort 1 [])
      | 2 => some (mkLine 2 .BTOR2_TAG_state 1 [])
      | 3 => some (mkLine 3 .BTOR2_TAG_input 1 [])
      | 4 => some (mkLine 4 .BTOR2_TAG_and 1 [2, 3])
      | 5 => some (mkLine 5 .BTOR2_TAG_constraint 0 [4])
      | 6 => some (mkLine 6 .BTOR2_TAG_not 1 [3])
      | 7 => some (mkLine 7 .BTOR2_TAG_bad 0 [6])
      | _ => none }

/-- The model
`1 sort bitvec 1`, `2 state 1`, `3 zero 1`, `4 init 1 2 3`, `5 next 1 2 2`:
the initial value of the state 2 is the line 3, which comes after the state.
Every operand and sort reference of a line points to a smaller id. -/
def lateInitModel : Btor2Model :=
  { max_id := 5,
    line := fun i =>
      match i with
      | 1 => some (mkLine 1 .BTOR2_TAG_sort 1 [])
      | 2 => some (mkState 2 1 none 3 2)
      | 3 => some (mkLine 3 .BTOR2_TAG_zero 1 [])
      | 4 => some (mkLine 4 .BTOR2_TAG_init 1 [2, 3])
      | 5 => some (mkLine 5 .BTOR2_TAG_next 1 [2, 2])
      | _ => none }

/-! ## The lines that reach `classification` -/

/-- The tags that `parse_model_line` accepts in the tools that call
`classification`: `btormerge.cpp` lines 76-225, `btorextract.cpp` lines 73-222
and `btoreliminate.cpp` lines 54-203, the same switch in the three. The cases
`fair`, `justice`, `rol`, `ror`, `saddo`, `sdivo`, `smod`, `smulo`, `ssubo`,
`uaddo`, `umulo`, `usubo` and the default, which takes `iff`, end the program
with `unsupported`. -/
def modelLineSupported : Btor2Tag → Bool
  | .BTOR2_TAG_bad | .BTOR2_TAG_constraint | .BTOR2_TAG_init | .BTOR2_TAG_input
  | .BTOR2_TAG_next | .BTOR2_TAG_sort | .BTOR2_TAG_state
  | .BTOR2_TAG_add | .BTOR2_TAG_and | .BTOR2_TAG_concat | .BTOR2_TAG_const
  | .BTOR2_TAG_constd | .BTOR2_TAG_consth | .BTOR2_TAG_dec | .BTOR2_TAG_eq
  | .BTOR2_TAG_implies | .BTOR2_TAG_inc | .BTOR2_TAG_ite | .BTOR2_TAG_mul
  | .BTOR2_TAG_nand | .BTOR2_TAG_neg | .BTOR2_TAG_neq | .BTOR2_TAG_nor | .BTOR2_TAG_not
  | .BTOR2_TAG_one | .BTOR2_TAG_ones | .BTOR2_TAG_or | .BTOR2_TAG_output
  | .BTOR2_TAG_redand | .BTOR2_TAG_redor | .BTOR2_TAG_redxor | .BTOR2_TAG_sdiv
  | .BTOR2_TAG_sext | .BTOR2_TAG_sgt | .BTOR2_TAG_sgte | .BTOR2_TAG_slice | .BTOR2_TAG_sll
  | .BTOR2_TAG_slt | .BTOR2_TAG_slte | .BTOR2_TAG_sra | .BTOR2_TAG_srem | .BTOR2_TAG_srl
  | .BTOR2_TAG_sub | .BTOR2_TAG_udiv | .BTOR2_TAG_uext | .BTOR2_TAG_ugt | .BTOR2_TAG_ugte
  | .BTOR2_TAG_ult | .BTOR2_TAG_ulte | .BTOR2_TAG_urem | .BTOR2_TAG_xnor | .BTOR2_TAG_xor
  | .BTOR2_TAG_zero | .BTOR2_TAG_read | .BTOR2_TAG_write => true
  | _ => false
/-! ## Literal arithmetic -/

theorem xor_one_even (l : Nat) (h : l % 2 = 0) : l ^^^ 1 = l + 1 := by
  apply Nat.eq_of_testBit_eq
  intro i
  rw [Nat.testBit_xor]
  cases i with
  | zero =>
    have h1 : (l + 1) % 2 = 1 := by omega
    simp [Nat.testBit_zero, h, h1]
  | succ i =>
    simp [Nat.testBit_succ]
    congr 1
    omega

theorem xor_one_odd (l : Nat) (h : l % 2 = 1) : l ^^^ 1 = l - 1 := by
  apply Nat.eq_of_testBit_eq
  intro i
  rw [Nat.testBit_xor]
  cases i with
  | zero =>
    have h1 : (l - 1) % 2 = 0 := by omega
    simp [Nat.testBit_zero, h, h1]
  | succ i =>
    simp [Nat.testBit_succ]
    congr 1
    omega

theorem xor_one_eq (l : Nat) : l ^^^ 1 = if l % 2 = 0 then l + 1 else l - 1 := by
  split
  · exact xor_one_even l ‹_›
  · exact xor_one_odd l (by omega)

theorem xor_one_div (l : Nat) : (l ^^^ 1) / 2 = l / 2 := by
  rw [xor_one_eq]; split <;> omega

theorem xor_one_mod (l : Nat) : (l ^^^ 1) % 2 = 1 - l % 2 := by
  rw [xor_one_eq]; split <;> omega

theorem xor_one_xor_one (l : Nat) : (l ^^^ 1) ^^^ 1 = l := by
  rw [xor_one_eq (l ^^^ 1), xor_one_mod, xor_one_eq l]; split <;> split <;> omega

theorem litVal_xor_one (val : Nat → Bool) (l : Nat) : litVal val (l ^^^ 1) = !litVal val l := by
  unfold litVal
  rw [xor_one_div, xor_one_mod]
  by_cases h : l % 2 = 0
  · simp [h]
  · have h1 : l % 2 = 1 := by omega
    simp [h1]

/-! ## The reference set -/

theorem markRefs_apply (refs : Nat → Bool) (lits : List Nat) (l : Nat) :
    markRefs refs lits l = (refs l || decide (l ∈ lits)) := by
  induction lits generalizing refs with
  | nil => simp [markRefs]
  | cons a as ih =>
    have : markRefs refs (a :: as) = markRefs (Function.update refs a true) as := rfl
    rw [this, ih, Function.update_apply]
    by_cases h : l = a
    · simp [h]
    · simp [h]

theorem refStep_mono (g : AigerAnd) (refs : Nat → Bool) (l : Nat) (h : refs l = true) :
    refStep g refs l = true := by
  unfold refStep
  split_ifs <;> simp_all [Function.update_apply]

theorem refStep_frame (g : AigerAnd) (refs : Nat → Bool) (l : Nat)
    (h0 : l ≠ g.rhs0) (h1 : l ≠ g.rhs1) (h2 : l ≠ g.rhs0 ^^^ 1) (h3 : l ≠ g.rhs1 ^^^ 1) :
    refStep g refs l = refs l := by
  unfold refStep
  split_ifs <;> simp_all [Function.update_apply]

theorem foldr_refStep_mono (ands : List AigerAnd) (init : Nat → Bool) (l : Nat)
    (h : init l = true) : ands.foldr refStep init l = true := by
  induction ands with
  | nil => simpa using h
  | cons g gs ih => exact refStep_mono g _ l ih


theorem xor_one_lt_of_lt_even {l e : Nat} (h : l < e) (he : e % 2 = 0) : l ^^^ 1 < e := by
  rw [xor_one_eq]; split <;> omega

theorem GatesOrdered.tail {a : AigerAnd} {gs : List AigerAnd} (h : GatesOrdered (a :: gs)) :
    GatesOrdered gs :=
  ⟨fun g hg => h.lhs_even g (List.mem_cons_of_mem _ hg),
   fun g hg => h.rhs0_lt g (List.mem_cons_of_mem _ hg),
   fun g hg => h.rhs1_lt g (List.mem_cons_of_mem _ hg),
   (List.pairwise_cons.1 h.sorted).2⟩

theorem refStep_pos (g : AigerAnd) (refs : Nat → Bool) (h : refs g.lhs = true) :
    refStep g refs g.rhs0 = true ∧ refStep g refs g.rhs1 = true := by
  have h0 : (Function.update (Function.update refs g.rhs1 true) g.rhs0 true) g.rhs0 = true := by
    simp
  have h1 : (Function.update (Function.update refs g.rhs1 true) g.rhs0 true) g.rhs1 = true := by
    simp [Function.update_apply]
  unfold refStep
  rw [if_pos h]
  split_ifs
  · simp [Function.update_apply, h0, h1]
  · exact ⟨h0, h1⟩

theorem refStep_neg (g : AigerAnd) (refs : Nat → Bool) (h : refs (g.lhs ^^^ 1) = true) :
    refStep g refs (g.rhs0 ^^^ 1) = true ∧ refStep g refs (g.rhs1 ^^^ 1) = true := by
  unfold refStep
  split_ifs <;> simp_all [Function.update_apply]

theorem foldr_refStep_closed (ands : List AigerAnd) (init : Nat → Bool)
    (h : GatesOrdered ands) (g : AigerAnd) (hg : g ∈ ands) :
    (ands.foldr refStep init g.lhs = true →
      ands.foldr refStep init g.rhs0 = true ∧ ands.foldr refStep init g.rhs1 = true) ∧
    (ands.foldr refStep init (g.lhs ^^^ 1) = true →
      ands.foldr refStep init (g.rhs0 ^^^ 1) = true ∧
      ands.foldr refStep init (g.rhs1 ^^^ 1) = true) := by
  induction ands with
  | nil => cases hg
  | cons a gs ih =>
    have ha_even := h.lhs_even a (List.mem_cons_self _ _)
    have ha0 := h.rhs0_lt a (List.mem_cons_self _ _)
    have ha1 := h.rhs1_lt a (List.mem_cons_self _ _)
    have hx0 := xor_one_lt_of_lt_even ha0 ha_even
    have hx1 := xor_one_lt_of_lt_even ha1 ha_even
    have hle : a.lhs ≤ g.lhs := by
      rcases List.mem_cons.1 hg with rfl | hg'
      · exact le_refl _
      · exact le_of_lt ((List.pairwise_cons.1 h.sorted).1 g hg')
    have hge : g.lhs % 2 = 0 := h.lhs_even g hg
    have hgx : g.lhs ^^^ 1 = g.lhs + 1 := xor_one_even _ hge
    have f1 : refStep a (gs.foldr refStep init) g.lhs = gs.foldr refStep init g.lhs :=
      refStep_frame a _ _ (by omega) (by omega) (by omega) (by omega)
    have f2 : refStep a (gs.foldr refStep init) (g.lhs ^^^ 1) =
        gs.foldr refStep init (g.lhs ^^^ 1) :=
      refStep_frame a _ _ (by omega) (by omega) (by omega) (by omega)
    simp only [List.foldr_cons]
    rw [f1, f2]
    rcases List.mem_cons.1 hg with rfl | hg'
    · exact ⟨fun hp => refStep_pos _ _ hp, fun hn => refStep_neg _ _ hn⟩
    · have ih' := ih h.tail hg'
      exact ⟨fun hp => ⟨refStep_mono _ _ _ (ih'.1 hp).1, refStep_mono _ _ _ (ih'.1 hp).2⟩,
        fun hn => ⟨refStep_mono _ _ _ (ih'.2 hn).1, refStep_mono _ _ _ (ih'.2 hn).2⟩⟩

theorem computeRefs_mark (m : Aiger) (pg : Bool) (l : Nat)
    (h : l ∈ m.bad ∨ l ∈ m.outputs ∨ l ∈ m.constraints) : computeRefs m pg l = true := by
  unfold computeRefs
  apply foldr_refStep_mono
  simp only [markRefs_apply]
  rcases h with h | h | h <;> simp [h]

theorem computeRefs_true (m : Aiger) (l : Nat) : computeRefs m true l = true := by
  unfold computeRefs
  apply foldr_refStep_mono
  simp [markRefs_apply]

/-! ## The variable map -/

theorem allocLoop_spec (refs : Nat → Bool) (n : Nat) :
    (allocLoop refs (allocConst refs) n).num_var = refCount refs n ∧
    ∀ l, (allocLoop refs (allocConst refs) n).map l =
      if l / 2 ≤ n ∧ varRef refs (l / 2) = true then
        (if l % 2 = 0 then (refCount refs (l / 2) : Int) else -(refCount refs (l / 2) : Int))
      else 0 := by
  induction n with
  | zero =>
    constructor
    · simp only [allocLoop, allocConst, refCount, varRef]
      split_ifs <;> simp_all
    · intro l
      simp only [allocLoop, allocConst, refCount, varRef]
      by_cases h0 : l = 0
      · subst h0; split_ifs <;> simp_all [refCount, varRef]
      · by_cases h1 : l = 1
        · subst h1; split_ifs <;> simp_all [refCount, varRef]
        · have : ¬ l / 2 ≤ 0 := by omega
          split_ifs <;> simp_all [Function.update_apply]
  | succ n ih =>
    obtain ⟨ihn, ihm⟩ := ih
    have hx : 2 * (n + 1) ^^^ 1 = 2 * (n + 1) + 1 := xor_one_even _ (by omega)
    constructor
    · simp only [allocLoop, refCount, varRef]
      split_ifs <;> simp_all
    · intro l
      simp only [allocLoop]
      by_cases hr : varRef refs (n + 1) = true
      · have hc : ¬ ((!refs (2 * (n + 1)) && !refs (2 * (n + 1) ^^^ 1)) = true) := by
          revert hr; unfold varRef
          cases refs (2 * (n + 1)) <;> cases refs (2 * (n + 1) ^^^ 1) <;> simp
        rw [if_neg hc]
        simp only [Function.update_apply, hx, ihn]
        by_cases e1 : l = 2 * (n + 1) + 1
        · subst e1
          have d : (2 * (n + 1) + 1) / 2 = n + 1 := by omega
          have d2 : (2 * (n + 1) + 1) % 2 = 1 := by omega
          simp [d, d2, hr, refCount]
        · by_cases e0 : l = 2 * (n + 1)
          · subst e0
            have d : (2 * (n + 1)) / 2 = n + 1 := by omega
            have d2 : (2 * (n + 1)) % 2 = 0 := by omega
            simp [d, d2, hr, refCount]
          · rw [if_neg e1, if_neg e0, ihm]
            have : l / 2 ≠ n + 1 := by omega
            by_cases hl : l / 2 ≤ n
            · have : l / 2 ≤ n + 1 := by omega
              simp [hl, this]
            · have : ¬ l / 2 ≤ n + 1 := by omega
              simp [hl, this]
      · have hc : ((!refs (2 * (n + 1)) && !refs (2 * (n + 1) ^^^ 1)) = true) := by
          revert hr; unfold varRef
          cases refs (2 * (n + 1)) <;> cases refs (2 * (n + 1) ^^^ 1) <;> simp
        rw [if_pos hc, ihm]
        by_cases hl : l / 2 ≤ n
        · have : l / 2 ≤ n + 1 := by omega
          simp [hl, this]
        · by_cases hl1 : l / 2 = n + 1
          · simp [hl1, hr]
          · have : ¬ l / 2 ≤ n + 1 := by omega
            simp [hl, this]


theorem varRef_of_ref (refs : Nat → Bool) (l : Nat) (h : refs l = true ∨ refs (l ^^^ 1) = true) :
    varRef refs (l / 2) = true := by
  unfold varRef
  by_cases he : l % 2 = 0
  · have e1 : 2 * (l / 2) = l := by omega
    rw [e1]; rcases h with h | h <;> simp [h]
  · have e1 : 2 * (l / 2) = l ^^^ 1 := by rw [xor_one_odd l (by omega)]; omega
    rw [e1, xor_one_xor_one]; rcases h with h | h <;> simp [h]

theorem ref_of_varRef (refs : Nat → Bool) (l : Nat) (h : varRef refs (l / 2) = true) :
    refs l = true ∨ refs (l ^^^ 1) = true := by
  unfold varRef at h
  by_cases he : l % 2 = 0
  · have e1 : 2 * (l / 2) = l := by omega
    rw [e1] at h; simpa using h
  · have e1 : 2 * (l / 2) = l ^^^ 1 := by rw [xor_one_odd l (by omega)]; omega
    rw [e1, xor_one_xor_one] at h
    have := Bool.or_eq_true _ _ ▸ h
    tauto

theorem refCount_pos (refs : Nat → Bool) (v : Nat) (h : varRef refs v = true) :
    1 ≤ refCount refs v := by
  cases v <;> simp [refCount, h]

theorem refCount_mono (refs : Nat → Bool) {u v : Nat} (h : u ≤ v) :
    refCount refs u ≤ refCount refs v := by
  induction v with
  | zero => have : u = 0 := by omega
            subst this; exact le_refl _
  | succ n ih =>
    rcases Nat.eq_or_lt_of_le h with rfl | hlt
    · exact le_refl _
    · have := ih (by omega)
      simp only [refCount]; omega

theorem refCount_strict (refs : Nat → Bool) {u v : Nat} (h : u < v)
    (hv : varRef refs v = true) : refCount refs u < refCount refs v := by
  cases v with
  | zero => omega
  | succ n =>
    have := refCount_mono refs (show u ≤ n by omega)
    simp only [refCount, hv, if_true]; omega

theorem refCount_inj (refs : Nat → Bool) {u v : Nat} (hu : varRef refs u = true)
    (hv : varRef refs v = true) (h : refCount refs u = refCount refs v) : u = v := by
  rcases Nat.lt_trichotomy u v with hlt | heq | hgt
  · have := refCount_strict refs hlt hv; omega
  · exact heq
  · have := refCount_strict refs hgt hu; omega

theorem refCount_surj (refs : Nat → Bool) (n k : Nat) (h1 : 1 ≤ k) (h2 : k ≤ refCount refs n) :
    ∃ v, v ≤ n ∧ varRef refs v = true ∧ refCount refs v = k := by
  induction n with
  | zero =>
    simp only [refCount] at h2
    split_ifs at h2 with h
    · exact ⟨0, le_refl _, h, by simp only [refCount, h, if_true]; omega⟩
    · omega
  | succ n ih =>
    by_cases hk : k ≤ refCount refs n
    · obtain ⟨v, hv, hr, hc⟩ := ih hk
      exact ⟨v, by omega, hr, hc⟩
    · simp only [refCount] at h2
      split_ifs at h2 with h
      · exact ⟨n + 1, le_refl _, h, by simp only [refCount, h, if_true]; omega⟩
      · omega

/-- The final map of `aiger2cnf` in closed form. -/
theorem aiger2cnf_map (m : Aiger) (pg : Bool) (l : Nat) :
    (aiger2cnf m pg).map l =
      if l / 2 ≤ m.maxvar ∧ varRef (computeRefs m pg) (l / 2) = true then
        (if l % 2 = 0 then (refCount (computeRefs m pg) (l / 2) : Int)
          else -(refCount (computeRefs m pg) (l / 2) : Int))
      else 0 :=
  (allocLoop_spec (computeRefs m pg) m.maxvar).2 l

theorem aiger2cnf_num_var (m : Aiger) (pg : Bool) :
    (aiger2cnf m pg).num_var = refCount (computeRefs m pg) m.maxvar :=
  (allocLoop_spec (computeRefs m pg) m.maxvar).1

theorem aiger2cnf_map_xor (m : Aiger) (pg : Bool) (l : Nat) :
    (aiger2cnf m pg).map (l ^^^ 1) = -(aiger2cnf m pg).map l := by
  rw [aiger2cnf_map, aiger2cnf_map, xor_one_div, xor_one_mod]
  by_cases h : l % 2 = 0
  · have : 1 - l % 2 ≠ 0 := by omega
    split_ifs <;> simp_all
  · have : 1 - l % 2 = 0 := by omega
    split_ifs <;> simp_all

theorem allocConst_map_one (refs : Nat → Bool) (h : (refs 0 || refs 1) = true) :
    (allocConst refs).map 1 = -1 := by
  simp [allocConst, h]

/-- The clause list of `aiger2cnf`, laid out in its four parts. -/
theorem aiger2cnf_form (m : Aiger) (pg : Bool) :
    (aiger2cnf m pg).form =
      (if (computeRefs m pg 0 || computeRefs m pg 1) = true then [[(-1 : Int)]] else []) ++
      m.ands.flatMap (andClauses (computeRefs m pg) (aiger2cnf m pg).map) ++
      m.constraints.map (fun lit => [(aiger2cnf m pg).map lit]) ++
      [m.bad.map (aiger2cnf m pg).map ++ m.outputs.map (aiger2cnf m pg).map] := by
  by_cases h : (computeRefs m pg 0 || computeRefs m pg 1) = true
  · simp only [aiger2cnf, h, if_true, allocConst_map_one _ h]
  · simp only [aiger2cnf]; rw [if_neg h, if_neg h]


/-! ## Forward evaluation -/

theorem foldl_evalStep_frame (ands : List AigerAnd) (val : Nat → Bool) (v : Nat)
    (h : ∀ g ∈ ands, g.lhs / 2 ≠ v) : ands.foldl evalStep val v = val v := by
  induction ands generalizing val with
  | nil => rfl
  | cons a gs ih =>
    simp only [List.foldl_cons]
    rw [ih _ (fun g hg => h g (List.mem_cons_of_mem _ hg))]
    unfold evalStep
    rw [Function.update_apply, if_neg (Ne.symm (h a (List.mem_cons_self _ _)))]

theorem litVal_congr (val val' : Nat → Bool) (l : Nat) (h : val (l / 2) = val' (l / 2)) :
    litVal val l = litVal val' l := by
  unfold litVal; rw [h]

theorem foldl_evalStep_gate (ands : List AigerAnd) (val : Nat → Bool)
    (h : GatesOrdered ands) (g : AigerAnd) (hg : g ∈ ands) :
    ands.foldl evalStep val (g.lhs / 2) =
      (litVal (ands.foldl evalStep val) g.rhs0 && litVal (ands.foldl evalStep val) g.rhs1) := by
  induction ands generalizing val with
  | nil => cases hg
  | cons a gs ih =>
    simp only [List.foldl_cons]
    rcases List.mem_cons.1 hg with rfl | hg'
    · have hs := (List.pairwise_cons.1 h.sorted).1
      have he := h.lhs_even g (List.mem_cons_self _ _)
      have h0 := h.rhs0_lt g (List.mem_cons_self _ _)
      have h1 := h.rhs1_lt g (List.mem_cons_self _ _)
      have fr : ∀ v, v ≤ g.lhs / 2 → gs.foldl evalStep (evalStep val g) v = evalStep val g v := by
        intro v hv
        apply foldl_evalStep_frame
        intro g' hg'
        have := hs g' hg'
        have := h.lhs_even g' (List.mem_cons_of_mem _ hg')
        omega
      rw [fr _ (le_refl _)]
      rw [litVal_congr _ (evalStep val g) g.rhs0 (fr _ (by omega)),
        litVal_congr _ (evalStep val g) g.rhs1 (fr _ (by omega))]
      have e0 : litVal (evalStep val g) g.rhs0 = litVal val g.rhs0 := by
        apply litVal_congr; unfold evalStep
        rw [Function.update_apply, if_neg (by omega)]
      have e1 : litVal (evalStep val g) g.rhs1 = litVal val g.rhs1 := by
        apply litVal_congr; unfold evalStep
        rw [Function.update_apply, if_neg (by omega)]
      rw [e0, e1]
      simp [evalStep]
    · exact ih _ h.tail hg'

theorem aigEval_gate (m : Aiger) (σ : Nat → Bool) (h : GatesOrdered m.ands)
    (g : AigerAnd) (hg : g ∈ m.ands) :
    aigEval m σ (g.lhs / 2) = (litVal (aigEval m σ) g.rhs0 && litVal (aigEval m σ) g.rhs1) :=
  foldl_evalStep_gate m.ands _ h g hg

theorem aigEval_input (m : Aiger) (σ : Nat → Bool) (v : Nat)
    (h : ∀ g ∈ m.ands, g.lhs / 2 ≠ v) : aigEval m σ v = Function.update σ 0 false v :=
  foldl_evalStep_frame m.ands _ v h

theorem aigEval_zero (m : Aiger) (σ : Nat → Bool) (h : GatesOrdered m.ands) :
    aigEval m σ 0 = false := by
  rw [aigEval_input]
  · simp
  · intro g hg
    have := h.rhs0_lt g hg
    have := h.lhs_even g hg
    omega


/-! ## Tseitin soundness of the simplified encoding -/

theorem cnfLitSat_natCast (τ : Nat → Bool) (k : Nat) (hk : 1 ≤ k) :
    cnfLitSat τ (k : Int) = τ k := by
  unfold cnfLitSat
  have : (0 : Int) < (k : Int) := by omega
  simp [this]

theorem cnfLitSat_neg_natCast (τ : Nat → Bool) (k : Nat) (hk : 1 ≤ k) :
    cnfLitSat τ (-(k : Int)) = !τ k := by
  unfold cnfLitSat
  have h1 : ¬ (0 : Int) < -(k : Int) := by omega
  have h2 : -(k : Int) < 0 := by omega
  simp [h1, h2]

theorem cnfLitSat_map (m : Aiger) (pg : Bool) (τ : Nat → Bool) (l : Nat)
    (hl : l / 2 ≤ m.maxvar) (hr : varRef (computeRefs m pg) (l / 2) = true) :
    cnfLitSat τ ((aiger2cnf m pg).map l) =
      litVal (fun v => τ (refCount (computeRefs m pg) v)) l := by
  have hk := refCount_pos _ _ hr
  rw [aiger2cnf_map, if_pos ⟨hl, hr⟩]
  unfold litVal
  split_ifs
  · exact cnfLitSat_natCast τ _ hk
  · exact cnfLitSat_neg_natCast τ _ hk

theorem mem_form (m : Aiger) (pg : Bool) (c : List Int) :
    c ∈ (aiger2cnf m pg).form ↔
      (((computeRefs m pg 0 || computeRefs m pg 1) = true ∧ c = [-1]) ∨
       (∃ g ∈ m.ands, c ∈ andClauses (computeRefs m pg) (aiger2cnf m pg).map g) ∨
       (∃ l ∈ m.constraints, c = [(aiger2cnf m pg).map l]) ∨
       c = m.bad.map (aiger2cnf m pg).map ++ m.outputs.map (aiger2cnf m pg).map) := by
  rw [aiger2cnf_form]
  simp only [List.mem_append, List.mem_flatMap, List.mem_map, List.mem_singleton]
  constructor
  · rintro (((h | h) | h) | h)
    · left
      split_ifs at h with h0
      · exact ⟨h0, by simpa using h⟩
      · cases h
    · right; left; exact h
    · right; right; left
      obtain ⟨l, hl, e⟩ := h
      exact ⟨l, hl, e.symm⟩
    · right; right; right; exact h
  · rintro (h | h | h | h)
    · left; left; left
      rw [if_pos h.1]; simp [h.2]
    · left; left; right; exact h
    · left; right
      obtain ⟨l, hl, e⟩ := h
      exact ⟨l, hl, e.symm⟩
    · right; exact h

theorem mem_andClauses (refs : Nat → Bool) (map : Nat → Int) (g : AigerAnd) (c : List Int) :
    c ∈ andClauses refs map g ↔
      (refs g.lhs = true ∧ (c = [map (g.lhs ^^^ 1), map g.rhs0] ∨
        c = [map (g.lhs ^^^ 1), map g.rhs1])) ∨
      (refs (g.lhs ^^^ 1) = true ∧ c = [map (g.rhs0 ^^^ 1), map (g.rhs1 ^^^ 1), map g.lhs]) := by
  unfold andClauses
  by_cases h1 : refs g.lhs = true <;> by_cases h2 : refs (g.lhs ^^^ 1) = true <;>
    simp [h1, h2, or_assoc]

theorem cnfSat_iff (τ : Nat → Bool) (f : List (List Int)) :
    cnfSat τ f = true ↔ ∀ c ∈ f, clauseSat τ c = true := by
  simp [cnfSat, List.all_eq_true]


theorem gate_var_le (m : Aiger) (h : WellFormed m) (g : AigerAnd) (hg : g ∈ m.ands) :
    g.lhs / 2 ≤ m.maxvar ∧ (g.lhs ^^^ 1) / 2 ≤ m.maxvar ∧ g.rhs0 / 2 ≤ m.maxvar ∧
      g.rhs1 / 2 ≤ m.maxvar ∧ (g.rhs0 ^^^ 1) / 2 ≤ m.maxvar ∧ (g.rhs1 ^^^ 1) / 2 ≤ m.maxvar := by
  have := h.lhs_le g hg
  have := h.gates.rhs0_lt g hg
  have := h.gates.rhs1_lt g hg
  simp only [xor_one_div]
  omega

/-- From a model of the CNF to the circuit: a referenced literal that the CNF
assignment makes true is true in the circuit under the induced inputs. -/
theorem sat_to_circuit (m : Aiger) (h : WellFormed m) (τ : Nat → Bool)
    (hτ : cnfSat τ (aiger2cnf m false).form = true) (l : Nat) :
    l / 2 ≤ m.maxvar → computeRefs m false l = true →
    litVal (fun v => τ (refCount (computeRefs m false) v)) l = true →
    litVal (aigEval m (fun v => τ (refCount (computeRefs m false) v))) l = true := by
  rw [cnfSat_iff] at hτ
  induction l using Nat.strong_induction_on with
  | _ l ih =>
    intro hl hr hp
    by_cases hgate : ∃ g ∈ m.ands, g.lhs / 2 = l / 2
    · obtain ⟨g, hg, hgl⟩ := hgate
      have he := h.gates.lhs_even g hg
      have h0 := h.gates.rhs0_lt g hg
      have h1 := h.gates.rhs1_lt g hg
      obtain ⟨b1, b2, b3, b4, b5, b6⟩ := gate_var_le m h g hg
      have hcl := foldr_refStep_closed m.ands
        (markRefs (markRefs (markRefs (fun _ => false) m.bad) m.outputs) m.constraints)
        h.gates g hg
      have hev := aigEval_gate m (fun v => τ (refCount (computeRefs m false) v)) h.gates g hg
      have hx := xor_one_even _ he
      by_cases hle : l % 2 = 0
      · have e : l = g.lhs := by omega
        subst e
        obtain ⟨r0, r1⟩ := hcl.1 hr
        have c0 := hτ _ ((mem_form m false _).2 (Or.inr (Or.inl ⟨g, hg,
          (mem_andClauses _ _ _ _).2 (Or.inl ⟨hr, Or.inl rfl⟩)⟩)))
        have c1 := hτ _ ((mem_form m false _).2 (Or.inr (Or.inl ⟨g, hg,
          (mem_andClauses _ _ _ _).2 (Or.inl ⟨hr, Or.inr rfl⟩)⟩)))
        simp only [clauseSat, List.any_cons, List.any_nil, Bool.or_false] at c0 c1
        rw [cnfLitSat_map m false τ _ b2 (varRef_of_ref _ _ (Or.inr (by rw [xor_one_xor_one]; exact hr))),
          litVal_xor_one, hp] at c0 c1
        rw [cnfLitSat_map m false τ _ b3 (varRef_of_ref _ _ (Or.inl r0))] at c0
        rw [cnfLitSat_map m false τ _ b4 (varRef_of_ref _ _ (Or.inl r1))] at c1
        simp only [Bool.not_true, Bool.false_or] at c0 c1
        have v0 := ih _ h0 b3 r0 c0
        have v1 := ih _ h1 b4 r1 c1
        unfold litVal
        rw [if_pos he, hev, v0, v1]; rfl
      · have e : l = g.lhs ^^^ 1 := by omega
        subst e
        obtain ⟨r0, r1⟩ := hcl.2 hr
        have c0 := hτ _ ((mem_form m false _).2 (Or.inr (Or.inl ⟨g, hg,
          (mem_andClauses _ _ _ _).2 (Or.inr ⟨hr, rfl⟩)⟩)))
        simp only [clauseSat, List.any_cons, List.any_nil, Bool.or_false] at c0
        rw [cnfLitSat_map m false τ _ b5 (varRef_of_ref _ _ (Or.inl r0)),
          cnfLitSat_map m false τ _ b6 (varRef_of_ref _ _ (Or.inl r1)),
          cnfLitSat_map m false τ _ b1 (varRef_of_ref _ _ (Or.inr hr))] at c0
        rw [litVal_xor_one] at hp ⊢
        have hpf : litVal (fun v => τ (refCount (computeRefs m false) v)) g.lhs = false := by
          simpa using hp
        rw [hpf] at c0
        have hlt0 : g.rhs0 ^^^ 1 < g.lhs ^^^ 1 := by
          have := xor_one_lt_of_lt_even h0 he; omega
        have hlt1 : g.rhs1 ^^^ 1 < g.lhs ^^^ 1 := by
          have := xor_one_lt_of_lt_even h1 he; omega
        have hgoal : aigEval m (fun v => τ (refCount (computeRefs m false) v)) (g.lhs / 2)
            = false := by
          rw [hev]
          simp only [Bool.or_false, Bool.or_eq_true] at c0
          rcases c0 with c0 | c0
          · have v0 := ih _ hlt0 b5 r0 c0
            rw [litVal_xor_one] at v0
            have : litVal (aigEval m (fun v => τ (refCount (computeRefs m false) v))) g.rhs0
                = false := by simpa using v0
            rw [this]; rfl
          · have v1 := ih _ hlt1 b6 r1 c0
            rw [litVal_xor_one] at v1
            have : litVal (aigEval m (fun v => τ (refCount (computeRefs m false) v))) g.rhs1
                = false := by simpa using v1
            rw [this]; simp
        unfold litVal
        rw [if_pos he, hgoal]; rfl
    · have hng : ∀ g ∈ m.ands, g.lhs / 2 ≠ l / 2 := fun g hg e => hgate ⟨g, hg, e⟩
      have hval : aigEval m (fun v => τ (refCount (computeRefs m false) v)) (l / 2) =
          τ (refCount (computeRefs m false) (l / 2)) := by
        rw [aigEval_input m _ _ hng, Function.update_apply]
        split_ifs with hz
        · have hr0 : (computeRefs m false 0 || computeRefs m false 1) = true := by
            have : l = 0 ∨ l = 1 := by omega
            rcases this with rfl | rfl <;> simp [hr]
          have cc := hτ _ ((mem_form m false _).2 (Or.inl ⟨hr0, rfl⟩))
          simp only [clauseSat, List.any_cons, List.any_nil, Bool.or_false] at cc
          have hv0 : varRef (computeRefs m false) 0 = true := by
            simpa [varRef] using hr0
          have hc1 : refCount (computeRefs m false) 0 = 1 := by
            simp [refCount, hv0]
          have := cnfLitSat_neg_natCast τ 1 (le_refl _)
          rw [hz, hc1]
          simp only [Nat.cast_one] at this
          rw [this] at cc
          simpa using cc.symm
        · rfl
      rw [litVal_congr _ (fun v => τ (refCount (computeRefs m false) v)) l hval]
      exact hp


theorem clauseSat_map (τ : Nat → Bool) (f : Nat → Int) (ls : List Nat) :
    clauseSat τ (ls.map f) = true ↔ ∃ l ∈ ls, cnfLitSat τ (f l) = true := by
  unfold clauseSat
  rw [List.any_eq_true]
  constructor
  · rintro ⟨x, hx, hs⟩
    obtain ⟨l, hl, rfl⟩ := List.mem_map.1 hx
    exact ⟨l, hl, hs⟩
  · rintro ⟨l, hl, hs⟩
    exact ⟨f l, List.mem_map.2 ⟨l, hl, rfl⟩, hs⟩

theorem computeRefs_closed (m : Aiger) (pg : Bool) (h : GatesOrdered m.ands)
    (g : AigerAnd) (hg : g ∈ m.ands) :
    (computeRefs m pg g.lhs = true →
      computeRefs m pg g.rhs0 = true ∧ computeRefs m pg g.rhs1 = true) ∧
    (computeRefs m pg (g.lhs ^^^ 1) = true →
      computeRefs m pg (g.rhs0 ^^^ 1) = true ∧ computeRefs m pg (g.rhs1 ^^^ 1) = true) :=
  foldr_refStep_closed m.ands _ h g hg

/-- From the circuit to a model of the CNF: the valuation of the circuit,
read through the variable map, satisfies every emitted clause as soon as the
constraints hold and some bad or output literal is true. -/
theorem circuit_to_sat (m : Aiger) (pg : Bool) (h : WellFormed m) (σ : Nat → Bool)
    (hc : ∀ c ∈ m.constraints, litVal (aigEval m σ) c = true)
    (hb : ∃ b ∈ m.bad ++ m.outputs, litVal (aigEval m σ) b = true) :
    ∃ τ, cnfSat τ (aiger2cnf m pg).form = true := by
  classical
  refine ⟨fun k => decide (∃ v, v ≤ m.maxvar ∧ varRef (computeRefs m pg) v = true ∧
    refCount (computeRefs m pg) v = k ∧ aigEval m σ v = true), ?_⟩
  -- the assignment agrees with the circuit on every referenced literal
  have key : ∀ l, l / 2 ≤ m.maxvar → varRef (computeRefs m pg) (l / 2) = true →
      cnfLitSat (fun k => decide (∃ v, v ≤ m.maxvar ∧ varRef (computeRefs m pg) v = true ∧
        refCount (computeRefs m pg) v = k ∧ aigEval m σ v = true))
        ((aiger2cnf m pg).map l) = litVal (aigEval m σ) l := by
    intro l hl hr
    rw [cnfLitSat_map m pg _ l hl hr]
    apply litVal_congr
    show decide _ = _
    by_cases hv : aigEval m σ (l / 2) = true
    · rw [hv]; exact decide_eq_true ⟨l / 2, hl, hr, rfl, hv⟩
    · have hv' : aigEval m σ (l / 2) = false := by simpa using hv
      rw [hv']
      apply decide_eq_false
      rintro ⟨v, _, hvr, hvc, hvt⟩
      have := refCount_inj _ hvr hr hvc
      subst this
      exact hv hvt
  have keyr : ∀ l, l / 2 ≤ m.maxvar → computeRefs m pg l = true →
      cnfLitSat (fun k => decide (∃ v, v ≤ m.maxvar ∧ varRef (computeRefs m pg) v = true ∧
        refCount (computeRefs m pg) v = k ∧ aigEval m σ v = true))
        ((aiger2cnf m pg).map l) = litVal (aigEval m σ) l :=
    fun l hl hr => key l hl (varRef_of_ref _ _ (Or.inl hr))
  have keyx : ∀ l, l / 2 ≤ m.maxvar → computeRefs m pg (l ^^^ 1) = true →
      cnfLitSat (fun k => decide (∃ v, v ≤ m.maxvar ∧ varRef (computeRefs m pg) v = true ∧
        refCount (computeRefs m pg) v = k ∧ aigEval m σ v = true))
        ((aiger2cnf m pg).map l) = litVal (aigEval m σ) l :=
    fun l hl hr => key l hl (varRef_of_ref _ _ (Or.inr hr))
  rw [cnfSat_iff]
  intro c hcm
  rcases (mem_form m pg c).1 hcm with ⟨h0, rfl⟩ | ⟨g, hg, hcg⟩ | ⟨l, hl, rfl⟩ | rfl
  · -- the unit clause of the constant
    have hv0 : varRef (computeRefs m pg) 0 = true := by simpa [varRef] using h0
    have k1 := key 1 (by simp) (by simpa using hv0)
    have e1 : (aiger2cnf m pg).map 1 = -1 := by
      rw [aiger2cnf_map, if_pos ⟨by simp, by simpa using hv0⟩]
      simp [refCount, hv0]
    rw [e1] at k1
    simp only [clauseSat, List.any_cons, List.any_nil, Bool.or_false]
    rw [k1]
    simp [litVal, aigEval_zero m σ h.gates]
  · -- the clauses of a gate
    obtain ⟨b1, b2, b3, b4, b5, b6⟩ := gate_var_le m h g hg
    have he := h.gates.lhs_even g hg
    have hev := aigEval_gate m σ h.gates g hg
    have hcl := computeRefs_closed m pg h.gates g hg
    have hlhs : litVal (aigEval m σ) g.lhs =
        (litVal (aigEval m σ) g.rhs0 && litVal (aigEval m σ) g.rhs1) := by
      rw [← hev]; simp [litVal, he]
    rcases (mem_andClauses _ _ _ _).1 hcg with ⟨hr, rfl | rfl⟩ | ⟨hr, rfl⟩
    · simp only [clauseSat, List.any_cons, List.any_nil, Bool.or_false]
      rw [keyx _ b2 (by rw [xor_one_xor_one]; exact hr), keyr _ b3 (hcl.1 hr).1,
        litVal_xor_one, hlhs]
      cases litVal (aigEval m σ) g.rhs0 <;> cases litVal (aigEval m σ) g.rhs1 <;> rfl
    · simp only [clauseSat, List.any_cons, List.any_nil, Bool.or_false]
      rw [keyx _ b2 (by rw [xor_one_xor_one]; exact hr), keyr _ b4 (hcl.1 hr).2,
        litVal_xor_one, hlhs]
      cases litVal (aigEval m σ) g.rhs0 <;> cases litVal (aigEval m σ) g.rhs1 <;> rfl
    · simp only [clauseSat, List.any_cons, List.any_nil, Bool.or_false]
      rw [keyr _ b5 (hcl.2 hr).1, keyr _ b6 (hcl.2 hr).2, keyx _ b1 hr,
        litVal_xor_one, litVal_xor_one, hlhs]
      cases litVal (aigEval m σ) g.rhs0 <;> cases litVal (aigEval m σ) g.rhs1 <;> rfl
  · -- the unit clause of a constraint
    have hle := h.constraints_le l hl
    simp only [clauseSat, List.any_cons, List.any_nil, Bool.or_false]
    rw [keyr l (by omega) (computeRefs_mark m pg l (Or.inr (Or.inr hl)))]
    exact hc l hl
  · -- the final clause
    obtain ⟨b, hbm, hbv⟩ := hb
    have hble : b ≤ 2 * m.maxvar + 1 := by
      rcases List.mem_append.1 hbm with hb' | hb'
      · exact h.bad_le b hb'
      · exact h.outputs_le b hb'
    have hbr : computeRefs m pg b = true := by
      rcases List.mem_append.1 hbm with hb' | hb'
      · exact computeRefs_mark m pg b (Or.inl hb')
      · exact computeRefs_mark m pg b (Or.inr (Or.inl hb'))
    rw [← List.map_append, clauseSat_map]
    exact ⟨b, hbm, by rw [keyr b (by omega) hbr]; exact hbv⟩

/-- C1. For every latch-free AIG whose gates are topologically ordered, the
clause list that `aiger2cnf` builds in simplified mode (`pg = false`) is
satisfiable exactly when some input assignment makes every constraint literal
1 and at least one bad or output literal 1. -/
theorem aiger2cnf_simplified_sat_iff (m : Aiger) (h : WellFormed m) :
    (∃ τ, cnfSat τ (aiger2cnf m false).form = true) ↔
    (∃ σ, (∀ c ∈ m.constraints, litVal (aigEval m σ) c = true) ∧
      ∃ b ∈ m.bad ++ m.outputs, litVal (aigEval m σ) b = true) := by
  constructor
  · rintro ⟨τ, hτ⟩
    refine ⟨fun v => τ (refCount (computeRefs m false) v), ?_, ?_⟩
    · intro c hc
      have hle := h.constraints_le c hc
      have hr := computeRefs_mark m false c (Or.inr (Or.inr hc))
      apply sat_to_circuit m h τ hτ c (by omega) hr
      have cc := (cnfSat_iff _ _).1 hτ _ ((mem_form m false _).2
        (Or.inr (Or.inr (Or.inl ⟨c, hc, rfl⟩))))
      simp only [clauseSat, List.any_cons, List.any_nil, Bool.or_false] at cc
      rwa [cnfLitSat_map m false τ c (by omega) (varRef_of_ref _ _ (Or.inl hr))] at cc
    · have cc := (cnfSat_iff _ _).1 hτ _ ((mem_form m false _).2
        (Or.inr (Or.inr (Or.inr rfl))))
      rw [← List.map_append, clauseSat_map] at cc
      obtain ⟨b, hbm, hbs⟩ := cc
      have hble : b ≤ 2 * m.maxvar + 1 := by
        rcases List.mem_append.1 hbm with hb' | hb'
        · exact h.bad_le b hb'
        · exact h.outputs_le b hb'
      have hbr : computeRefs m false b = true := by
        rcases List.mem_append.1 hbm with hb' | hb'
        · exact computeRefs_mark m false b (Or.inl hb')
        · exact computeRefs_mark m false b (Or.inr (Or.inl hb'))
      refine ⟨b, hbm, sat_to_circuit m h τ hτ b (by omega) hbr ?_⟩
      rwa [cnfLitSat_map m false τ b (by omega) (varRef_of_ref _ _ (Or.inl hbr))] at hbs
  · rintro ⟨σ, hc, hb⟩
    exact circuit_to_sat m false h σ hc hb


theorem andBadModel_wf : WellFormed andBadModel :=
  ⟨⟨by decide, by decide, by decide, by decide⟩, by decide, by decide, by decide, by decide⟩

/-- Witness for C1: the two-input AND with a bad output is a well-formed model,
and there the equivalence holds with both sides true. -/
theorem aiger2cnf_simplified_sat_iff_witness :
    WellFormed andBadModel ∧
    (∃ τ, cnfSat τ (aiger2cnf andBadModel false).form = true) ∧
    (∃ σ, (∀ c ∈ andBadModel.constraints, litVal (aigEval andBadModel σ) c = true) ∧
      ∃ b ∈ andBadModel.bad ++ andBadModel.outputs,
        litVal (aigEval andBadModel σ) b = true) :=
  ⟨andBadModel_wf,
   (aiger2cnf_simplified_sat_iff andBadModel andBadModel_wf).2
     ⟨fun _ => true, by decide, 6, by decide, by decide⟩,
   ⟨fun _ => true, by decide, 6, by decide, by decide⟩⟩

/-! ## The unsimplified encoding -/

theorem varRef_computeRefs_true (m : Aiger) (v : Nat) : varRef (computeRefs m true) v = true := by
  simp [varRef, computeRefs_true]

theorem refCount_computeRefs_true (m : Aiger) (v : Nat) :
    refCount (computeRefs m true) v = v + 1 := by
  induction v with
  | zero => simp [refCount, varRef_computeRefs_true]
  | succ n ih => simp [refCount, varRef_computeRefs_true, ih]

theorem cnfLitSat_map_true (m : Aiger) (τ : Nat → Bool) (l : Nat) (hl : l ≤ 2 * m.maxvar + 1) :
    cnfLitSat τ ((aiger2cnf m true).map l) = litVal (fun v => τ (v + 1)) l := by
  rw [cnfLitSat_map m true τ l (by omega) (varRef_computeRefs_true m _)]
  apply litVal_congr
  simp [refCount_computeRefs_true]

/-- C2. In unsimplified mode (`pg = true`) every AND gate emits its three
Tseitin clauses; hence in every assignment satisfying the emitted CNF the
variable of each gate (`lhs / 2 + 1`) equals the conjunction of the values of
its two operand literals, and the variable of the constant (`1`) is false. -/
theorem aiger2cnf_unsimplified_gates (m : Aiger)
    (hr : ∀ g ∈ m.ands, g.lhs % 2 = 0 ∧ g.lhs ≤ 2 * m.maxvar ∧
      g.rhs0 ≤ 2 * m.maxvar + 1 ∧ g.rhs1 ≤ 2 * m.maxvar + 1) :
    (∀ g ∈ m.ands,
      [(aiger2cnf m true).map (g.lhs ^^^ 1), (aiger2cnf m true).map g.rhs0]
        ∈ (aiger2cnf m true).form ∧
      [(aiger2cnf m true).map (g.lhs ^^^ 1), (aiger2cnf m true).map g.rhs1]
        ∈ (aiger2cnf m true).form ∧
      [(aiger2cnf m true).map (g.rhs0 ^^^ 1), (aiger2cnf m true).map (g.rhs1 ^^^ 1),
        (aiger2cnf m true).map g.lhs] ∈ (aiger2cnf m true).form) ∧
    (aiger2cnf m true).map 0 = 1 ∧
    (∀ g ∈ m.ands, (aiger2cnf m true).map g.lhs = ((g.lhs / 2 + 1 : Nat) : Int)) ∧
    ∀ τ, cnfSat τ (aiger2cnf m true).form = true →
      τ 1 = false ∧
      ∀ g ∈ m.ands, τ (g.lhs / 2 + 1) =
        (cnfLitSat τ ((aiger2cnf m true).map g.rhs0) &&
          cnfLitSat τ ((aiger2cnf m true).map g.rhs1)) := by
  have hemit : ∀ g ∈ m.ands,
      [(aiger2cnf m true).map (g.lhs ^^^ 1), (aiger2cnf m true).map g.rhs0]
        ∈ (aiger2cnf m true).form ∧
      [(aiger2cnf m true).map (g.lhs ^^^ 1), (aiger2cnf m true).map g.rhs1]
        ∈ (aiger2cnf m true).form ∧
      [(aiger2cnf m true).map (g.rhs0 ^^^ 1), (aiger2cnf m true).map (g.rhs1 ^^^ 1),
        (aiger2cnf m true).map g.lhs] ∈ (aiger2cnf m true).form := by
    intro g hg
    refine ⟨?_, ?_, ?_⟩
    · exact (mem_form m true _).2 (Or.inr (Or.inl ⟨g, hg,
        (mem_andClauses _ _ _ _).2 (Or.inl ⟨computeRefs_true m _, Or.inl rfl⟩)⟩))
    · exact (mem_form m true _).2 (Or.inr (Or.inl ⟨g, hg,
        (mem_andClauses _ _ _ _).2 (Or.inl ⟨computeRefs_true m _, Or.inr rfl⟩)⟩))
    · exact (mem_form m true _).2 (Or.inr (Or.inl ⟨g, hg,
        (mem_andClauses _ _ _ _).2 (Or.inr ⟨computeRefs_true m _, rfl⟩)⟩))
  refine ⟨hemit, ?_, ?_, ?_⟩
  · rw [aiger2cnf_map, if_pos ⟨by simp, varRef_computeRefs_true m _⟩]
    simp [refCount_computeRefs_true]
  · intro g hg
    obtain ⟨he, hle, _, _⟩ := hr g hg
    rw [aiger2cnf_map, if_pos ⟨by omega, varRef_computeRefs_true m _⟩, if_pos he,
      refCount_computeRefs_true]
  · intro τ hτ
    rw [cnfSat_iff] at hτ
    constructor
    · have cc := hτ _ ((mem_form m true _).2 (Or.inl ⟨by simp [computeRefs_true], rfl⟩))
      simp only [clauseSat, List.any_cons, List.any_nil, Bool.or_false] at cc
      have := cnfLitSat_neg_natCast τ 1 (le_refl _)
      simp only [Nat.cast_one] at this
      rw [this] at cc
      simpa using cc
    · intro g hg
      obtain ⟨he, hle, h0, h1⟩ := hr g hg
      obtain ⟨e1, e2, e3⟩ := hemit g hg
      have c1 := hτ _ e1
      have c2 := hτ _ e2
      have c3 := hτ _ e3
      have hx0 : g.rhs0 ^^^ 1 ≤ 2 * m.maxvar + 1 := by
        have := xor_one_div g.rhs0; omega
      have hx1 : g.rhs1 ^^^ 1 ≤ 2 * m.maxvar + 1 := by
        have := xor_one_div g.rhs1; omega
      have hxl : g.lhs ^^^ 1 ≤ 2 * m.maxvar + 1 := by
        have := xor_one_div g.lhs; omega
      simp only [clauseSat, List.any_cons, List.any_nil, Bool.or_false] at c1 c2 c3
      rw [cnfLitSat_map_true m τ _ hxl, litVal_xor_one] at c1 c2
      rw [cnfLitSat_map_true m τ _ hx0, cnfLitSat_map_true m τ _ hx1,
        cnfLitSat_map_true m τ _ (by omega), litVal_xor_one, litVal_xor_one] at c3
      rw [cnfLitSat_map_true m τ _ h0] at c1 ⊢
      rw [cnfLitSat_map_true m τ _ h1] at c2 ⊢
      have hl : litVal (fun v => τ (v + 1)) g.lhs = τ (g.lhs / 2 + 1) := by
        simp [litVal, he]
      rw [hl] at c1 c2 c3
      revert c1 c2 c3
      cases τ (g.lhs / 2 + 1) <;> cases litVal (fun v => τ (v + 1)) g.rhs0 <;>
        cases litVal (fun v => τ (v + 1)) g.rhs1 <;> simp

/-- Witness for C2 on the two-input AND. -/
theorem aiger2cnf_unsimplified_gates_witness :
    (aiger2cnf andBadModel true).map 0 = 1 ∧
    (aiger2cnf andBadModel true).form = [[-1], [-4, 3], [-4, 2], [-3, -2, 4], [4]] ∧
    ∀ τ, cnfSat τ (aiger2cnf andBadModel true).form = true →
      τ 1 = false ∧
      ∀ g ∈ andBadModel.ands, τ (g.lhs / 2 + 1) =
        (cnfLitSat τ ((aiger2cnf andBadModel true).map g.rhs0) &&
          cnfLitSat τ ((aiger2cnf andBadModel true).map g.rhs1)) :=
  ⟨(aiger2cnf_unsimplified_gates andBadModel (by decide)).2.1, by decide,
   (aiger2cnf_unsimplified_gates andBadModel (by decide)).2.2.2⟩


/-! ## The worked scenario -/

/-- C3, as stated, fails: with `pg = false` the clause `(-1 -2 3)` is not
emitted for the two-input AND with bad literal 6, whichever way the two
operands are stored, so the clause list is not the four-clause list. -/
theorem aiger2cnf_scenario_not_four_clauses :
    (aiger2cnf andBadModel false).form ≠ [[-3, 1], [-3, 2], [-1, -2, 3], [3]] ∧
    [-1, -2, 3] ∉ (aiger2cnf andBadModel false).form ∧
    (aiger2cnf andBadModelSwapped false).form ≠ [[-3, 1], [-3, 2], [-1, -2, 3], [3]] ∧
    [-1, -2, 3] ∉ (aiger2cnf andBadModelSwapped false).form := by
  decide

/-- C3, amended. For the AIG with input literals 2 and 4, the gate 6 = 2 AND 4
and the single bad literal 6, `aiger2cnf` with `pg = false` allocates the CNF
variables 1 and 2 to the inputs and 3 to the gate, reports 3 variables and 3
clauses, and emits exactly the clauses `(-3 1)`, `(-3 2)` and `(3)`, the two
binary clauses in the order of the stored operands. -/
theorem aiger2cnf_scenario :
    (aiger2cnf andBadModel false).map 2 = 1 ∧
    (aiger2cnf andBadModel false).map 4 = 2 ∧
    (aiger2cnf andBadModel false).map 6 = 3 ∧
    (aiger2cnf andBadModel false).header = (3, 3) ∧
    (aiger2cnf andBadModel false).form = [[-3, 2], [-3, 1], [3]] ∧
    (aiger2cnf andBadModelSwapped false).map 2 = 1 ∧
    (aiger2cnf andBadModelSwapped false).map 4 = 2 ∧
    (aiger2cnf andBadModelSwapped false).map 6 = 3 ∧
    (aiger2cnf andBadModelSwapped false).header = (3, 3) ∧
    (aiger2cnf andBadModelSwapped false).form = [[-3, 1], [-3, 2], [3]] := by
  decide

/-! ## Dense allocation -/

theorem refCount_eq_filter (refs : Nat → Bool) (n : Nat) :
    refCount refs n = ((List.range (n + 1)).filter (varRef refs)).length := by
  induction n with
  | zero =>
    by_cases h : varRef refs 0 = true <;> simp [refCount, h, List.range_succ]
  | succ n ih =>
    rw [List.range_succ, List.filter_append, List.length_append, ← ih]
    by_cases h : varRef refs (n + 1) = true <;> simp [refCount, h]

/-- C4. `aiger2cnf` allocates CNF variables densely and only to referenced
variables: on the even literals of referenced variables the map is strictly
increasing with values in `1..num_var`, every value in `1..num_var` is taken,
a literal whose variable is unreferenced maps to 0, `map[l ^ 1] = -map[l]`,
and the header reports the number of referenced variables and the number of
emitted clauses. -/
theorem aiger2cnf_dense_allocation (m : Aiger) (pg : Bool) :
    (∀ u v, u < v → v ≤ m.maxvar → varRef (computeRefs m pg) u = true →
      varRef (computeRefs m pg) v = true →
      (aiger2cnf m pg).map (2 * u) < (aiger2cnf m pg).map (2 * v)) ∧
    (∀ v, v ≤ m.maxvar → varRef (computeRefs m pg) v = true →
      1 ≤ (aiger2cnf m pg).map (2 * v) ∧
      (aiger2cnf m pg).map (2 * v) ≤ ((aiger2cnf m pg).num_var : Int)) ∧
    (∀ k : Nat, 1 ≤ k → k ≤ (aiger2cnf m pg).num_var →
      ∃ v, v ≤ m.maxvar ∧ varRef (computeRefs m pg) v = true ∧
        (aiger2cnf m pg).map (2 * v) = (k : Int)) ∧
    (∀ l, computeRefs m pg l = false → computeRefs m pg (l ^^^ 1) = false →
      (aiger2cnf m pg).map l = 0) ∧
    (∀ l, (aiger2cnf m pg).map (l ^^^ 1) = -(aiger2cnf m pg).map l) ∧
    (aiger2cnf m pg).num_var =
      ((List.range (m.maxvar + 1)).filter (varRef (computeRefs m pg))).length ∧
    (aiger2cnf m pg).header = ((aiger2cnf m pg).num_var, (aiger2cnf m pg).form.length) := by
  have even : ∀ v, v ≤ m.maxvar → varRef (computeRefs m pg) v = true →
      (aiger2cnf m pg).map (2 * v) = (refCount (computeRefs m pg) v : Int) := by
    intro v hv hr
    have d : 2 * v / 2 = v := by omega
    have d2 : 2 * v % 2 = 0 := by omega
    rw [aiger2cnf_map, d, if_pos ⟨hv, hr⟩, if_pos d2]
  refine ⟨?_, ?_, ?_, ?_, aiger2cnf_map_xor m pg, ?_, rfl⟩
  · intro u v huv hv hru hrv
    rw [even u (by omega) hru, even v hv hrv]
    exact_mod_cast refCount_strict _ huv hrv
  · intro v hv hr
    rw [even v hv hr, aiger2cnf_num_var]
    exact ⟨by exact_mod_cast refCount_pos _ _ hr, by exact_mod_cast refCount_mono _ hv⟩
  · intro k h1 h2
    rw [aiger2cnf_num_var] at h2
    obtain ⟨v, hv, hr, hc⟩ := refCount_surj _ _ k h1 h2
    exact ⟨v, hv, hr, by rw [even v hv hr, hc]⟩
  · intro l h1 h2
    rw [aiger2cnf_map, if_neg]
    rintro ⟨_, hr⟩
    rcases ref_of_varRef _ _ hr with h | h
    · rw [h1] at h; cases h
    · rw [h2] at h; cases h
  · rw [aiger2cnf_num_var, refCount_eq_filter]

/-! ## The property clauses -/

/-- C5. The clause list ends with one unit clause per constraint literal, in
constraint order, followed by one final clause holding the mapped bad literals
and then the mapped output literals; before them stand only the clause of the
constant and the gate clauses; every literal of these closing clauses is
mapped to a non-zero CNF literal. -/
theorem aiger2cnf_property_clauses (m : Aiger) (pg : Bool)
    (hr : ∀ l ∈ m.constraints ++ m.bad ++ m.outputs, l ≤ 2 * m.maxvar + 1) :
    (aiger2cnf m pg).form =
      ((if (computeRefs m pg 0 || computeRefs m pg 1) = true then [[(-1 : Int)]] else []) ++
        m.ands.flatMap (andClauses (computeRefs m pg) (aiger2cnf m pg).map)) ++
      m.constraints.map (fun lit => [(aiger2cnf m pg).map lit]) ++
      [m.bad.map (aiger2cnf m pg).map ++ m.outputs.map (aiger2cnf m pg).map] ∧
    ∀ l ∈ m.constraints ++ m.bad ++ m.outputs, (aiger2cnf m pg).map l ≠ 0 := by
  refine ⟨aiger2cnf_form m pg, ?_⟩
  intro l hl
  have hle := hr l hl
  have href : computeRefs m pg l = true := by
    simp only [List.mem_append] at hl
    rcases hl with (h | h) | h
    · exact computeRefs_mark m pg l (Or.inr (Or.inr h))
    · exact computeRefs_mark m pg l (Or.inl h)
    · exact computeRefs_mark m pg l (Or.inr (Or.inl h))
  have hv := varRef_of_ref _ _ (Or.inl href)
  have hp := refCount_pos _ _ hv
  rw [aiger2cnf_map, if_pos ⟨by omega, hv⟩]
  split_ifs <;> omega

/-- Witness for C5. -/
theorem aiger2cnf_property_clauses_witness :
    (aiger2cnf propertyModel false).form = [[-3, 2], [-3, 1], [-1], [3, 2]] ∧
    ∀ l ∈ propertyModel.constraints ++ propertyModel.bad ++ propertyModel.outputs,
      (aiger2cnf propertyModel false).map l ≠ 0 :=
  ⟨by decide, (aiger2cnf_property_clauses propertyModel false (by decide)).2⟩

/-! ## Correctness of `tarjan` -/

theorem Reach.refl (adj : Nat → List Nat) (a : Nat) : Reach adj a a :=
  Relation.ReflTransGen.refl

theorem Reach.trans {adj : Nat → List Nat} {a b c : Nat} (h1 : Reach adj a b)
    (h2 : Reach adj b c) : Reach adj a c :=
  Relation.ReflTransGen.trans h1 h2

theorem Reach.edge {adj : Nat → List Nat} {a b : Nat} (h : b ∈ adj a) : Reach adj a b :=
  Relation.ReflTransGen.single h

/-- A set closed under the edges is closed under reachability. -/
theorem Reach.closed {adj : Nat → List Nat} (T : Nat → Prop)
    (hT : ∀ a, T a → ∀ b ∈ adj a, T b) {a b : Nat} (h : Reach adj a b) (ha : T a) : T b := by
  induction h with
  | refl => exact ha
  | tail _ hbc ih => exact hT _ ih _ hbc

theorem TInv.nodup {adj : Nat → List Nat} {n : Nat} {gray : Set Nat} {s : TarjanState}
    (h : TInv adj n gray s) : s.sta.Nodup :=
  h.sorted.imp (fun hab e => by subst e; exact lt_irrefl _ hab)

theorem tframe_refl (s : TarjanState) : TFrame s s :=
  ⟨fun _ _ => rfl, fun _ _ => rfl, fun _ _ => rfl, fun _ _ => rfl⟩

theorem TFrame.compose {s s1 s2 : TarjanState} (h1 : TFrame s s1) (h2 : TFrame s1 s2) :
    TFrame s s2 := by
  have hv : ∀ z, s.state z ≠ .NOTVISIT → s1.state z ≠ .NOTVISIT := by
    intro z hz; rw [h1.state_eq z hz]; exact hz
  refine ⟨?_, ?_, ?_, ?_⟩
  · intro z hz; rw [h2.state_eq z (hv z hz), h1.state_eq z hz]
  · intro z hz; rw [h2.dfn_eq z (hv z hz), h1.dfn_eq z hz]
  · intro z hz; rw [h2.low_eq z (hv z hz), h1.low_eq z hz]
  · intro z hz
    have hz' : s.state z ≠ .NOTVISIT := by rw [hz]; simp
    rw [h2.col_eq z (by rw [h1.state_eq z hz', hz]), h1.col_eq z hz]

theorem tarjanEnter_loop {adj : Nat → List Nat} {n : Nat} {gray : Set Nat} {s : TarjanState}
    {x : Nat} (h : TInv adj n gray s) (hx : s.state x = .NOTVISIT) (hxn : x < n)
    (hg : ∀ g ∈ gray, Reach adj g x) : TLoop adj n gray s x [] (tarjanEnter x s) := by
  have hne : ∀ z, s.state z ≠ .NOTVISIT → z ≠ x := by
    intro z hz e; subst e; exact hz hx
  have hsta : ∀ z ∈ s.sta, z ≠ x := by
    intro z hz; apply hne; rw [(h.sta_iff z).1 hz]; simp
  have hst : ∀ z, (tarjanEnter x s).state z = if z = x then .INSTACK else s.state z := by
    intro z; simp [tarjanEnter, Function.update_apply]
  have hdfn : ∀ z, (tarjanEnter x s).dfn z = if z = x then s.timestamp + 1 else s.dfn z := by
    intro z; simp [tarjanEnter, Function.update_apply]
  have hlow : ∀ z, (tarjanEnter x s).low z = if z = x then s.timestamp + 1 else s.low z := by
    intro z; simp [tarjanEnter, Function.update_apply]
  have hstk : (tarjanEnter x s).sta = x :: s.sta := rfl
  have hcol : (tarjanEnter x s).col = s.col := rfl
  have hcnt : (tarjanEnter x s).cnt = s.cnt := rfl
  have hts : (tarjanEnter x s).timestamp = s.timestamp + 1 := rfl
  refine ⟨⟨?_, ?_, ?_, ?_, ?_, ?_, ?_, ?_, ?_, ?_, ?_, ?_, ?_⟩, ⟨?_, ?_, ?_, ?_⟩, ?_, ?_, ?_, ?_⟩
  · -- lt_n
    intro z hz
    rw [hst] at hz
    by_cases e : z = x
    · subst e; exact hxn
    · rw [if_neg e] at hz; exact h.lt_n z hz
  · -- sta_iff
    intro z
    rw [hstk, hst, List.mem_cons]
    by_cases e : z = x
    · simp [e]
    · simp [e, h.sta_iff z]
  · -- sorted
    rw [hstk, List.pairwise_cons]
    constructor
    · intro b hb
      have := h.dfn_le b hb
      rw [hdfn, hdfn, if_neg (hsta b hb), if_pos rfl]; omega
    · refine h.sorted.imp_of_mem ?_
      intro a b ha hb hab
      rw [hdfn, hdfn, if_neg (hsta a ha), if_neg (hsta b hb)]; exact hab
  · -- dfn_le
    intro z hz
    rw [hstk, List.mem_cons] at hz
    rw [hdfn, hts]
    rcases hz with e | hz
    · rw [if_pos e]
    · rw [if_neg (hsta z hz)]; have := h.dfn_le z hz; omega
  · -- low_le
    intro z hz
    rw [hstk, List.mem_cons] at hz
    rw [hdfn, hlow]
    rcases hz with e | hz
    · rw [if_pos e, if_pos e]
    · rw [if_neg (hsta z hz), if_neg (hsta z hz)]; exact h.low_le z hz
  · -- low_wit
    intro z hz
    rw [hstk, List.mem_cons] at hz
    rcases hz with e | hz
    · subst e
      exact ⟨z, List.mem_cons_self _ _, by rw [hdfn, hlow, if_pos rfl, if_pos rfl], Reach.refl _ _⟩
    · obtain ⟨w, hw, hwd, hwr⟩ := h.low_wit z hz
      refine ⟨w, List.mem_cons_of_mem _ hw, ?_, hwr⟩
      rw [hdfn, hlow, if_neg (hsta w hw), if_neg (hsta z hz)]; exact hwd
  · -- gray_sub
    intro g hgm
    rw [hstk]
    rcases Set.mem_insert_iff.1 hgm with e | hgm
    · rw [e]; exact List.mem_cons_self _ _
    · exact List.mem_cons_of_mem _ (h.gray_sub g hgm)
  · -- gray_reach
    intro y hy
    rw [hstk, List.mem_cons] at hy
    rcases hy with e | hy
    · subst e
      exact ⟨y, Set.mem_insert _ _, le_refl _, Reach.refl _ _⟩
    · obtain ⟨g, hgm, hgd, hgr⟩ := h.gray_reach y hy
      refine ⟨g, Set.mem_insert_of_mem _ hgm, ?_, hgr⟩
      rw [hdfn, hdfn, if_neg (hsta g (h.gray_sub g hgm)), if_neg (hsta y hy)]; exact hgd
  · -- sta_reach
    intro a ha b hb hab
    rw [hstk, List.mem_cons] at ha hb
    rw [hdfn, hdfn] at hab
    rcases ha with ea | ha
    · rcases hb with eb | hb
      · rw [ea, eb]; exact Reach.refl _ _
      · rw [if_pos ea, if_neg (hsta b hb)] at hab
        have := h.dfn_le b hb; omega
    · rcases hb with eb | hb
      · obtain ⟨g, hgm, _, hgr⟩ := h.gray_reach a ha
        rw [eb]; exact hgr.trans (hg g hgm)
      · rw [if_neg (hsta a ha), if_neg (hsta b hb)] at hab
        exact h.sta_reach a ha b hb hab
  · -- black_edge
    intro z hz hzg y hy
    have e : z ≠ x := fun e => hzg (by rw [e]; exact Set.mem_insert _ _)
    rw [hst, if_neg e] at hz
    have := h.black_edge z hz (fun hm => hzg (Set.mem_insert_of_mem _ hm)) y hy
    rw [hst]; split_ifs
    · simp
    · exact this
  · -- fin_edge
    intro z hz y hy
    rw [hst] at hz
    have e : z ≠ x := by
      intro e; rw [if_pos e] at hz; cases hz
    rw [if_neg e] at hz
    obtain ⟨h1, h2⟩ := h.fin_edge z hz y hy
    have ey : y ≠ x := hne y (by rw [h1]; simp)
    rw [hst, if_neg ey, hcol]; exact ⟨h1, h2⟩
  · -- col_le
    intro z hz
    rw [hst] at hz
    have e : z ≠ x := by
      intro e; rw [if_pos e] at hz; cases hz
    rw [if_neg e] at hz
    rw [hcol, hcnt]; exact h.col_le z hz
  · -- scc
    intro a b ha hb
    rw [hst] at ha hb
    have ea : a ≠ x := by
      intro e; rw [if_pos e] at ha; cases ha
    have eb : b ≠ x := by
      intro e; rw [if_pos e] at hb; cases hb
    rw [if_neg ea] at ha
    rw [if_neg eb] at hb
    rw [hcol]; exact h.scc a b ha hb
  · intro z hz; rw [hst, if_neg (hne z hz)]
  · intro z hz; rw [hdfn, if_neg (hne z hz)]
  · intro z hz; rw [hlow, if_neg (hne z hz)]
  · intro z _; rw [hcol]
  · rw [hdfn, if_pos rfl]
  · intro y hy; cases hy
  · intro y hy; cases hy
  · exact ⟨[], rfl, fun z hz => absurd hz (List.not_mem_nil z),
      fun z hz => absurd hz (List.not_mem_nil z)⟩

/-- Lowering `low[x]` to the number of a stack node that `x` reaches keeps the
invariant. -/
theorem TInv.low_min {adj : Nat → List Nat} {n : Nat} {gray : Set Nat} {c : TarjanState}
    {x : Nat} (h : TInv adj n gray c) (hx : x ∈ c.sta) (d : Nat)
    (hw : d < c.low x → ∃ w ∈ c.sta, c.dfn w = d ∧ Reach adj x w) :
    TInv adj n gray { c with low := Function.update c.low x (min (c.low x) d) } := by
  refine ⟨h.lt_n, h.sta_iff, h.sorted, h.dfn_le, ?_, ?_, h.gray_sub, h.gray_reach, h.sta_reach,
    h.black_edge, h.fin_edge, h.col_le, h.scc⟩
  · intro z hz
    show Function.update c.low x (min (c.low x) d) z ≤ c.dfn z
    rw [Function.update_apply]
    split_ifs with e
    · subst e; exact le_trans (min_le_left _ _) (h.low_le z hz)
    · exact h.low_le z hz
  · intro z hz
    show ∃ w ∈ c.sta, c.dfn w = Function.update c.low x (min (c.low x) d) z ∧ Reach adj z w
    rw [Function.update_apply]
    split_ifs with e
    · subst e
      by_cases hd : d < c.low z
      · obtain ⟨w, hws, hwd, hwr⟩ := hw hd
        exact ⟨w, hws, by rw [hwd, min_eq_right (le_of_lt hd)], hwr⟩
      · obtain ⟨w, hws, hwd, hwr⟩ := h.low_wit z hz
        exact ⟨w, hws, by rw [hwd, min_eq_left (not_lt.1 hd)], hwr⟩
    · exact h.low_wit z hz

theorem TLoop.x_mem {adj : Nat → List Nat} {n : Nat} {gray : Set Nat} {s c : TarjanState}
    {x : Nat} {done : List Nat} (h : TLoop adj n gray s x done c) : x ∈ c.sta := by
  obtain ⟨new, hs, _⟩ := h.stack
  rw [hs]; simp

theorem TLoop.old_mem {adj : Nat → List Nat} {n : Nat} {gray : Set Nat} {s c : TarjanState}
    {x : Nat} {done : List Nat} (h : TLoop adj n gray s x done c) {y : Nat} (hy : y ∈ s.sta) :
    y ∈ c.sta := by
  obtain ⟨new, hs, _⟩ := h.stack
  rw [hs]; simp [hy]

/-- The edge loop: a successor that is already finished. -/
theorem TLoop.step_finish {adj : Nat → List Nat} {n : Nat} {gray : Set Nat}
    {s c : TarjanState} {x : Nat} {done : List Nat} (h : TLoop adj n gray s x done c)
    {y : Nat} (hy : c.state y = .FINISH) : TLoop adj n gray s x (done ++ [y]) c := by
  refine ⟨h.inv, h.frame, h.dfn_x, ?_, ?_, h.stack⟩
  · intro y' hy'
    rcases List.mem_append.1 hy' with hd | he
    · exact h.done_vis y' hd
    · rw [List.mem_singleton.1 he, hy]; simp
  · intro y' hy' hs
    rcases List.mem_append.1 hy' with hd | he
    · exact h.done_key y' hd hs
    · rw [List.mem_singleton.1 he] at hs
      have := (h.inv.sta_iff y).1 (h.old_mem hs)
      rw [hy] at this; cases this

/-- The edge loop: a successor that is on the stack. -/
theorem TLoop.step_instack {adj : Nat → List Nat} {n : Nat} {gray : Set Nat}
    {s c : TarjanState} {x : Nat} {done : List Nat} (h : TLoop adj n gray s x done c)
    (hx : s.state x = .NOTVISIT) {y : Nat} (hyx : y ∈ adj x) (hy : c.state y = .INSTACK) :
    TLoop adj n gray s x (done ++ [y])
      { c with low := Function.update c.low x (min (c.low x) (c.dfn y)) } := by
  have hlow : ∀ z, z ≠ x →
      Function.update c.low x (min (c.low x) (c.dfn y)) z = c.low z := by
    intro z hz; rw [Function.update_apply, if_neg hz]
  have hlx : Function.update c.low x (min (c.low x) (c.dfn y)) x = min (c.low x) (c.dfn y) := by
    simp
  obtain ⟨new, hs, hn, hk⟩ := h.stack
  refine ⟨h.inv.low_min h.x_mem _ (fun _ => ⟨y, (h.inv.sta_iff y).2 hy, rfl, Reach.edge hyx⟩),
    ⟨h.frame.state_eq, h.frame.dfn_eq, ?_, h.frame.col_eq⟩, h.dfn_x, ?_, ?_, ⟨new, hs, hn, ?_⟩⟩
  · intro z hz
    show Function.update c.low x (min (c.low x) (c.dfn y)) z = s.low z
    rw [hlow z (fun e => hz (by rw [e]; exact hx))]; exact h.frame.low_eq z hz
  · intro y' hy'
    show c.state y' ≠ .NOTVISIT
    rcases List.mem_append.1 hy' with hd | he
    · exact h.done_vis y' hd
    · rw [List.mem_singleton.1 he, hy]; simp
  · intro y' hy' hys
    show Function.update c.low x (min (c.low x) (c.dfn y)) x ≤ c.dfn y'
    rw [hlx]
    rcases List.mem_append.1 hy' with hd | he
    · exact le_trans (min_le_left _ _) (h.done_key y' hd hys)
    · rw [List.mem_singleton.1 he]; exact min_le_right _ _
  · intro z hz y' hy' hys
    show Function.update c.low x (min (c.low x) (c.dfn y)) x ≤ c.dfn y'
    rw [hlx]
    exact le_trans (min_le_left _ _) (hk z hz y' hy' hys)

/-- The edge loop: a successor that was not visited, after its call. -/
theorem TLoop.step_call {adj : Nat → List Nat} {n : Nat} {gray : Set Nat}
    {s c c1 : TarjanState} {x : Nat} {done : List Nat} (h : TLoop adj n gray s x done c)
    (hx : s.state x = .NOTVISIT) {y : Nat} (hyx : y ∈ adj x) (hy : c.state y = .NOTVISIT)
    (hp : TPost adj n (insert x gray) c y c1) :
    TLoop adj n gray s x (done ++ [y])
      { c1 with low := Function.update c1.low x (min (c1.low x) (c1.low y)) } := by
  have hlow : ∀ z, z ≠ x →
      Function.update c1.low x (min (c1.low x) (c1.low y)) z = c1.low z := by
    intro z hz; rw [Function.update_apply, if_neg hz]
  have hlx : Function.update c1.low x (min (c1.low x) (c1.low y)) x
      = min (c1.low x) (c1.low y) := by simp
  obtain ⟨new, hs, hn, hk⟩ := h.stack
  obtain ⟨newy, hsy, hny, hky, _⟩ := hp.stack
  have hxc : x ∈ c.sta := h.x_mem
  have hxv : c.state x ≠ .NOTVISIT := by rw [(h.inv.sta_iff x).1 hxc]; simp
  have hxc1 : x ∈ c1.sta := by rw [hsy]; exact List.mem_append_right _ hxc
  have hlx1 : c1.low x = c.low x := hp.frame.low_eq x hxv
  have hvis : ∀ z, z ∈ c.sta → c.state z ≠ .NOTVISIT := by
    intro z hz; rw [(h.inv.sta_iff z).1 hz]; simp
  have hfr : TFrame s c1 := h.frame.compose hp.frame
  refine ⟨hp.inv.low_min hxc1 _ ?_, ⟨hfr.state_eq, hfr.dfn_eq, ?_, hfr.col_eq⟩, ?_, ?_, ?_,
    ⟨newy ++ new, ?_, ?_, ?_⟩⟩
  · intro hlt
    by_cases hys : y ∈ c1.sta
    · obtain ⟨w, hws, hwd, hwr⟩ := hp.inv.low_wit y hys
      exact ⟨w, hws, hwd, (Reach.edge hyx).trans hwr⟩
    · have e1 := hp.popped hys
      have e2 := hp.dfn_x
      have e3 := h.inv.dfn_le x hxc
      have e4 := h.inv.low_le x hxc
      omega
  · intro z hz
    show Function.update c1.low x (min (c1.low x) (c1.low y)) z = s.low z
    rw [hlow z (fun e => hz (by rw [e]; exact hx))]; exact hfr.low_eq z hz
  · show c1.dfn x = s.timestamp + 1
    rw [hp.frame.dfn_eq x hxv]; exact h.dfn_x
  · intro y' hy'
    show c1.state y' ≠ .NOTVISIT
    rcases List.mem_append.1 hy' with hd | he
    · rw [hp.frame.state_eq y' (h.done_vis y' hd)]; exact h.done_vis y' hd
    · rw [List.mem_singleton.1 he]; exact hp.visited
  · intro y' hy' hys
    show Function.update c1.low x (min (c1.low x) (c1.low y)) x ≤ c1.dfn y'
    rw [hlx, hp.frame.dfn_eq y' (hvis y' (h.old_mem hys))]
    rcases List.mem_append.1 hy' with hd | he
    · rw [hlx1]; exact le_trans (min_le_left _ _) (h.done_key y' hd hys)
    · rw [List.mem_singleton.1 he] at hys
      exact absurd hy (hvis y (h.old_mem hys))
  · show c1.sta = (newy ++ new) ++ x :: s.sta
    rw [hsy, hs, List.append_assoc]
  · intro z hz
    rcases List.mem_append.1 hz with h1 | h1
    · by_contra hne
      have := h.frame.state_eq z hne
      rw [hny z h1] at this
      exact hne this.symm
    · exact hn z h1
  · intro z hz y' hy' hys
    show Function.update c1.low x (min (c1.low x) (c1.low y)) x ≤ c1.dfn y'
    rw [hlx]
    rcases List.mem_append.1 hz with h1 | h1
    · exact le_trans (min_le_right _ _) (hky z h1 y' hy' (h.old_mem hys))
    · rw [hlx1, hp.frame.dfn_eq y' (hvis y' (h.old_mem hys))]
      exact le_trans (min_le_left _ _) (hk z h1 y' hy' hys)

/-- End of `tarjan(x)` when `x` is not the root of its component. -/
theorem TLoop.leave_keep {adj : Nat → List Nat} {n : Nat} {gray : Set Nat}
    {s c : TarjanState} {x : Nat} (h : TLoop adj n gray s x (adj x) c)
    (hx : s.state x = .NOTVISIT) (hne : c.low x ≠ c.dfn x) : TPost adj n gray s x c := by
  obtain ⟨new, hs, hn, hk⟩ := h.stack
  have hxc : x ∈ c.sta := h.x_mem
  have hlt : c.low x < c.dfn x := lt_of_le_of_ne (h.inv.low_le x hxc) hne
  have hi := h.inv
  refine ⟨⟨hi.lt_n, hi.sta_iff, hi.sorted, hi.dfn_le, hi.low_le, hi.low_wit, ?_, ?_,
    hi.sta_reach, ?_, hi.fin_edge, hi.col_le, hi.scc⟩, h.frame, ?_, h.dfn_x,
    hi.low_le x hxc, fun hnx => absurd hxc hnx, ⟨new ++ [x], ?_, ?_, ?_, ?_⟩⟩
  · intro g hg; exact hi.gray_sub g (Set.mem_insert_of_mem _ hg)
  · intro y hy
    obtain ⟨g, hg, hgd, hgr⟩ := hi.gray_reach y hy
    rcases Set.mem_insert_iff.1 hg with e | hg'
    · subst e
      obtain ⟨w, hws, hwd, hwr⟩ := hi.low_wit g hxc
      obtain ⟨g', hg', hgd', hgr'⟩ := hi.gray_reach w hws
      rcases Set.mem_insert_iff.1 hg' with e' | hg''
      · subst e'; omega
      · exact ⟨g', hg'', by omega, hgr.trans (hwr.trans hgr')⟩
    · exact ⟨g, hg', hgd, hgr⟩
  · intro z hz hzg y hy
    by_cases e : z = x
    · subst e; exact h.done_vis y hy
    · exact hi.black_edge z hz (fun hm => (Set.mem_insert_iff.1 hm).elim e hzg) y hy
  · rw [(hi.sta_iff x).1 hxc]; simp
  · rw [hs]; simp
  · intro z hz
    rcases List.mem_append.1 hz with h1 | h1
    · exact hn z h1
    · rw [List.mem_singleton.1 h1]; exact hx
  · intro z hz y hy hys
    rcases List.mem_append.1 hz with h1 | h1
    · exact hk z h1 y hy hys
    · rw [List.mem_singleton.1 h1] at hy
      exact h.done_key y hy hys
  · intro _; exact ⟨by simp, hlt⟩

theorem popUntil_spec (x k : Nat) (new old : List Nat) (hx : x ∉ new)
    (st : Nat → TwoSatTag) (col : Nat → Nat) :
    ∃ st1 col1, popUntil x k (new ++ x :: old) st col = .ok (old, st1, col1) ∧
      (∀ z, st1 z = if z ∈ new ++ [x] then .FINISH else st z) ∧
      (∀ z, col1 z = if z ∈ new ++ [x] then k else col z) := by
  induction new generalizing st col with
  | nil =>
    refine ⟨Function.update st x .FINISH, Function.update col x k, by simp [popUntil], ?_, ?_⟩
    · intro z; simp [Function.update_apply]
    · intro z; simp [Function.update_apply]
  | cons a as ih =>
    have ha : a ≠ x := fun e => hx (by rw [e]; exact List.mem_cons_self _ _)
    have has : x ∉ as := fun hm => hx (List.mem_cons_of_mem _ hm)
    obtain ⟨st1, col1, hp, h1, h2⟩ := ih has (Function.update st a .FINISH)
      (Function.update col a k)
    refine ⟨st1, col1, ?_, ?_, ?_⟩
    · simp only [List.cons_append, popUntil, if_neg ha]; exact hp
    · intro z
      rw [h1 z, Function.update_apply]
      by_cases e1 : z ∈ as ++ [x]
      · have : z ∈ a :: as ++ [x] := List.mem_cons_of_mem _ e1
        rw [if_pos e1, if_pos this]
      · rw [if_neg e1]
        by_cases e2 : z = a
        · have : z ∈ a :: as ++ [x] := by rw [e2]; exact List.mem_cons_self _ _
          rw [if_pos e2, if_pos this]
        · have : z ∉ a :: as ++ [x] := by
            intro hm
            rcases List.mem_cons.1 hm with h | h
            · exact e2 h
            · exact e1 h
          rw [if_neg e2, if_neg this]
    · intro z
      rw [h2 z, Function.update_apply]
      by_cases e1 : z ∈ as ++ [x]
      · have : z ∈ a :: as ++ [x] := List.mem_cons_of_mem _ e1
        rw [if_pos e1, if_pos this]
      · rw [if_neg e1]
        by_cases e2 : z = a
        · have : z ∈ a :: as ++ [x] := by rw [e2]; exact List.mem_cons_self _ _
          rw [if_pos e2, if_pos this]
        · have : z ∉ a :: as ++ [x] := by
            intro hm
            rcases List.mem_cons.1 hm with h | h
            · exact e2 h
            · exact e1 h
          rw [if_neg e2, if_neg this]

/-- End of `tarjan(x)` when `x` is the root of its component: the segment of
the stack above `x` is popped and is exactly the component of `x`. -/
theorem TLoop.leave_pop {adj : Nat → List Nat} {n : Nat} {gray : Set Nat}
    {s c : TarjanState} {x : Nat} (h : TLoop adj n gray s x (adj x) c)
    (hx : s.state x = .NOTVISIT) (hgs : ∀ g ∈ gray, g ∈ s.sta) (heq : c.low x = c.dfn x) :
    ∃ c1, tarjanLeave x c = .ok c1 ∧ TPost adj n gray s x c1 := by
  obtain ⟨new, hs, hn, hk⟩ := h.stack
  have hi := h.inv
  have hs' : c.sta = (new ++ [x]) ++ s.sta := by rw [hs]; simp
  have hnd : ((new ++ [x]) ++ s.sta).Nodup := hs' ▸ hi.nodup
  have hsrt : ((new ++ [x]) ++ s.sta).Pairwise (fun a b => c.dfn b < c.dfn a) := hs' ▸ hi.sorted
  obtain ⟨hsrtP, hsrtO, hsrtX⟩ := List.pairwise_append.1 hsrt
  have hxnew : x ∉ new := by
    have := (List.nodup_append.1 hnd).1
    intro hm
    have := (List.nodup_append.1 this).2.2 hm (List.mem_singleton_self x)
    exact this
  have hPold : ∀ z, z ∈ new ++ [x] → z ∉ s.sta :=
    fun z hz hm => (List.nodup_append.1 hnd).2.2 hz hm
  have hmem : ∀ z, z ∈ c.sta ↔ z ∈ new ++ [x] ∨ z ∈ s.sta := by
    intro z; rw [hs', List.mem_append]
  have hPin : ∀ z, z ∈ new ++ [x] → c.state z = .INSTACK :=
    fun z hz => (hi.sta_iff z).1 ((hmem z).2 (Or.inl hz))
  have hPs : ∀ z, z ∈ new ++ [x] → s.state z = .NOTVISIT := by
    intro z hz
    rcases List.mem_append.1 hz with h1 | h1
    · exact hn z h1
    · rw [List.mem_singleton.1 h1]; exact hx
  have hxP : x ∈ new ++ [x] := by simp
  have hdx : ∀ z, z ∈ new ++ [x] → c.dfn x ≤ c.dfn z := by
    intro z hz
    rcases List.mem_append.1 hz with h1 | h1
    · exact le_of_lt ((List.pairwise_append.1 hsrtP).2.2 z h1 x (List.mem_singleton_self x))
    · rw [List.mem_singleton.1 h1]
  have hPgray : ∀ z, z ∈ new ++ [x] → z ≠ x → z ∉ insert x gray := by
    intro z hz hzx hm
    rcases Set.mem_insert_iff.1 hm with e | hg
    · exact hzx e
    · exact hPold z hz (hgs z hg)
  -- successors of the popped segment
  have hsucc : ∀ z, z ∈ new ++ [x] → ∀ y ∈ adj z, c.state y ≠ .NOTVISIT ∧ y ∉ s.sta := by
    intro z hz y hy
    constructor
    · by_cases e : z = x
      · subst e; exact h.done_vis y hy
      · exact hi.black_edge z (by rw [hPin z hz]; simp) (hPgray z hz e) y hy
    · intro hys
      have hlow : c.low x ≤ c.dfn y := by
        rcases List.mem_append.1 hz with h1 | h1
        · exact hk z h1 y hy hys
        · rw [List.mem_singleton.1 h1] at hy; exact h.done_key y hy hys
      have := hsrtX x hxP y hys
      omega
  obtain ⟨st1, col1, hpop, hst, hcol⟩ := popUntil_spec x (c.cnt + 1) new s.sta hxnew c.state c.col
  refine ⟨{ c with cnt := c.cnt + 1, sta := s.sta, state := st1, col := col1 }, ?_, ?_⟩
  · unfold tarjanLeave
    rw [if_pos heq, hs, hpop]; rfl
  have hst_fin : ∀ z, st1 z = .FINISH ↔ (z ∈ new ++ [x] ∨ c.state z = .FINISH) := by
    intro z; rw [hst z]
    by_cases e : z ∈ new ++ [x]
    · simp [e]
    · simp [e]
  have hst_not : ∀ z, z ∉ new ++ [x] → st1 z = c.state z := by
    intro z hz; rw [hst z, if_neg hz]
  have hcol_not : ∀ z, z ∉ new ++ [x] → col1 z = c.col z := by
    intro z hz; rw [hcol z, if_neg hz]
  have hcol_in : ∀ z, z ∈ new ++ [x] → col1 z = c.cnt + 1 := by
    intro z hz; rw [hcol z, if_pos hz]
  have hfinP : ∀ z, c.state z = .FINISH → z ∉ new ++ [x] := by
    intro z hz hm; rw [hPin z hm] at hz; cases hz
  -- the finished nodes stay closed under the edges
  have hfin_edge : ∀ z, st1 z = .FINISH → ∀ y ∈ adj z, st1 y = .FINISH ∧ col1 y ≤ col1 z := by
    intro z hz y hy
    rcases (hst_fin z).1 hz with hzP | hzF
    · obtain ⟨hv, hno⟩ := hsucc z hzP y hy
      by_cases hyP : y ∈ new ++ [x]
      · exact ⟨(hst_fin y).2 (Or.inl hyP), by rw [hcol_in y hyP, hcol_in z hzP]⟩
      · have hyF : c.state y = .FINISH := by
          cases hcs : c.state y with
          | NOTVISIT => exact absurd hcs hv
          | INSTACK =>
            rcases (hmem y).1 ((hi.sta_iff y).2 hcs) with h1 | h1
            · exact absurd h1 hyP
            · exact absurd h1 hno
          | FINISH => rfl
        refine ⟨(hst_fin y).2 (Or.inr hyF), ?_⟩
        rw [hcol_not y hyP, hcol_in z hzP]
        have := (hi.col_le y hyF).2; omega
    · obtain ⟨hyF, hle⟩ := hi.fin_edge z hzF y hy
      refine ⟨(hst_fin y).2 (Or.inr hyF), ?_⟩
      rw [hcol_not y (hfinP y hyF), hcol_not z (hfinP z hzF)]; exact hle
  -- every popped node is in the component of `x`
  have hcomp : ∀ z, z ∈ new ++ [x] → Reach adj x z ∧ Reach adj z x := by
    intro z hz
    have hzc : z ∈ c.sta := (hmem z).2 (Or.inl hz)
    refine ⟨hi.sta_reach x h.x_mem z hzc (hdx z hz), ?_⟩
    obtain ⟨g, hg, _, hgr⟩ := hi.gray_reach z hzc
    rcases Set.mem_insert_iff.1 hg with e | hg'
    · rw [← e]; exact hgr
    · exfalso
      have hgF : st1 g = .FINISH :=
        Reach.closed (fun a => st1 a = .FINISH) (fun a ha b hb => (hfin_edge a ha b hb).1) hgr
          ((hst_fin z).2 (Or.inl hz))
      have hgs' := hgs g hg'
      rcases (hst_fin g).1 hgF with h1 | h1
      · exact hPold g h1 hgs'
      · have := (hi.sta_iff g).1 ((hmem g).2 (Or.inr hgs'))
        rw [h1] at this; cases this
  -- nothing finished earlier reaches the popped segment
  have hsep : ∀ a b, c.state a = .FINISH → b ∈ new ++ [x] → ¬ Reach adj a b := by
    intro a b ha hb hr
    have := Reach.closed (fun z => c.state z = .FINISH)
      (fun z hz y hy => (hi.fin_edge z hz y hy).1) hr ha
    exact hfinP b this hb
  refine ⟨⟨?_, ?_, hsrtO, ?_, ?_, ?_, hgs, ?_, ?_, ?_, hfin_edge, ?_, ?_⟩, ⟨?_, ?_, ?_, ?_⟩,
    ?_, h.dfn_x, le_of_eq heq, fun _ => heq, ⟨[], rfl, ?_, ?_, ?_⟩⟩
  · -- lt_n
    intro z hz
    by_cases e : z ∈ new ++ [x]
    · exact hi.lt_n z (by rw [hPin z e]; simp)
    · exact hi.lt_n z (by rw [← hst_not z e]; exact hz)
  · -- sta_iff
    intro z
    show z ∈ s.sta ↔ st1 z = .INSTACK
    by_cases e : z ∈ new ++ [x]
    · rw [hst z, if_pos e]
      constructor
      · intro hm; exact absurd hm (hPold z e)
      · intro hc; cases hc
    · rw [hst_not z e, ← hi.sta_iff z, hmem z]
      constructor
      · intro hm; exact Or.inr hm
      · rintro (hm | hm)
        · exact absurd hm e
        · exact hm
  · -- dfn_le
    intro z hz; exact hi.dfn_le z ((hmem z).2 (Or.inr hz))
  · -- low_le
    intro z hz; exact hi.low_le z ((hmem z).2 (Or.inr hz))
  · -- low_wit
    intro z hz
    have hzc := (hmem z).2 (Or.inr hz)
    obtain ⟨w, hws, hwd, hwr⟩ := hi.low_wit z hzc
    refine ⟨w, ?_, hwd, hwr⟩
    rcases (hmem w).1 hws with h1 | h1
    · have := hsrtX w h1 z hz
      have := hi.low_le z hzc
      omega
    · exact h1
  · -- gray_reach
    intro y hy
    obtain ⟨g, hg, hgd, hgr⟩ := hi.gray_reach y ((hmem y).2 (Or.inr hy))
    rcases Set.mem_insert_iff.1 hg with e | hg'
    · subst e
      have := hsrtX g hxP y hy
      omega
    · exact ⟨g, hg', hgd, hgr⟩
  · -- sta_reach
    intro a ha b hb hab
    exact hi.sta_reach a ((hmem a).2 (Or.inr ha)) b ((hmem b).2 (Or.inr hb)) hab
  · -- black_edge
    intro z hz hzg y hy
    show st1 y ≠ .NOTVISIT
    have hyv : c.state y ≠ .NOTVISIT := by
      by_cases e : z ∈ new ++ [x]
      · exact (hsucc z e y hy).1
      · have hzx : z ≠ x := fun e' => e (by rw [e']; exact hxP)
        exact hi.black_edge z (by rw [← hst_not z e]; exact hz)
          (fun hm => (Set.mem_insert_iff.1 hm).elim hzx hzg) y hy
    by_cases e : y ∈ new ++ [x]
    · rw [hst y, if_pos e]; simp
    · rw [hst_not y e]; exact hyv
  · -- col_le
    intro z hz
    show 1 ≤ col1 z ∧ col1 z ≤ c.cnt + 1
    rcases (hst_fin z).1 hz with h1 | h1
    · rw [hcol_in z h1]; omega
    · rw [hcol_not z (hfinP z h1)]
      have := hi.col_le z h1; omega
  · -- scc
    intro a b ha hb
    show col1 a = col1 b ↔ Reach adj a b ∧ Reach adj b a
    rcases (hst_fin a).1 ha with haP | haF
    · rcases (hst_fin b).1 hb with hbP | hbF
      · rw [hcol_in a haP, hcol_in b hbP]
        exact ⟨fun _ => ⟨(hcomp a haP).2.trans (hcomp b hbP).1,
          (hcomp b hbP).2.trans (hcomp a haP).1⟩, fun _ => rfl⟩
      · rw [hcol_in a haP, hcol_not b (hfinP b hbF)]
        constructor
        · intro e; have := (hi.col_le b hbF).2; omega
        · rintro ⟨_, hr⟩; exact absurd hr (hsep b a hbF haP)
    · rcases (hst_fin b).1 hb with hbP | hbF
      · rw [hcol_not a (hfinP a haF), hcol_in b hbP]
        constructor
        · intro e; have := (hi.col_le a haF).2; omega
        · rintro ⟨hr, _⟩; exact absurd hr (hsep a b haF hbP)
      · rw [hcol_not a (hfinP a haF), hcol_not b (hfinP b hbF)]
        exact hi.scc a b haF hbF
  · -- frame
    intro z hz
    show st1 z = s.state z
    have e : z ∉ new ++ [x] := fun hm => hz (hPs z hm)
    rw [hst_not z e]; exact h.frame.state_eq z hz
  · exact h.frame.dfn_eq
  · exact h.frame.low_eq
  · intro z hz
    show col1 z = s.col z
    have e : z ∉ new ++ [x] := fun hm => by rw [hPs z hm] at hz; cases hz
    rw [hcol_not z e]; exact h.frame.col_eq z hz
  · show st1 x ≠ .NOTVISIT
    rw [hst x, if_pos hxP]; simp
  · intro z hz; exact absurd hz (List.not_mem_nil z)
  · intro z hz; exact absurd hz (List.not_mem_nil z)
  · intro hne; exact absurd rfl hne

theorem length_le_of_nodup_lt (l : List Nat) (n : Nat) (hnd : l.Nodup) (hlt : ∀ z ∈ l, z < n) :
    l.length ≤ n := by
  have h1 : l.toFinset ⊆ Finset.range n := by
    intro z hz
    exact Finset.mem_range.2 (hlt z (List.mem_toFinset.1 hz))
  have h2 := Finset.card_le_card h1
  rw [List.toFinset_card_of_nodup hnd, Finset.card_range] at h2
  exact h2

theorem forRun_cons {α β : Type} (f : α → β → Run α) (b : β) (bs : List β) (a : α) :
    forRun f (b :: bs) a = (f a b).bind (forRun f bs) := rfl

/-- Total correctness of `tarjan(x)`: with a recursion budget of at least the
number of nodes not on the stack, the call returns and meets its contract. -/
theorem tarjan_spec (adj : Nat → List Nat) (n : Nat) (hadj : ∀ x, x < n → ∀ y ∈ adj x, y < n) :
    ∀ (fuel : Nat) (gray : Set Nat) (s : TarjanState) (x : Nat), TInv adj n gray s →
      s.state x = .NOTVISIT → x < n → (∀ g ∈ gray, Reach adj g x) →
      n ≤ fuel + s.sta.length →
      ∃ s1, tarjan adj fuel x s = .ok s1 ∧ TPost adj n gray s x s1 := by
  intro fuel
  induction fuel with
  | zero =>
    intro gray s x hinv hx hxn _ hfuel
    exfalso
    have hxs : x ∉ s.sta := by
      intro hm
      have := (hinv.sta_iff x).1 hm
      rw [hx] at this; cases this
    have hnd : (x :: s.sta).Nodup := List.nodup_cons.2 ⟨hxs, hinv.nodup⟩
    have hlt : ∀ z ∈ x :: s.sta, z < n := by
      intro z hz
      rcases List.mem_cons.1 hz with e | hz
      · rw [e]; exact hxn
      · exact hinv.lt_n z (by rw [(hinv.sta_iff z).1 hz]; simp)
    have := length_le_of_nodup_lt _ n hnd hlt
    simp only [List.length_cons] at this
    omega
  | succ fuel ih =>
    intro gray s x hinv hx hxn hg hfuel
    have loop : ∀ (todo done : List Nat) (c : TarjanState), adj x = done ++ todo →
        TLoop adj n gray s x done c →
        ∃ c2, forRun (tarjanEdge (tarjan adj fuel) x) todo c = .ok c2 ∧
          TLoop adj n gray s x (adj x) c2 := by
      intro todo
      induction todo with
      | nil =>
        intro done c hd hl
        rw [List.append_nil] at hd
        exact ⟨c, rfl, hd ▸ hl⟩
      | cons y ys ihl =>
        intro done c hd hl
        have hyx : y ∈ adj x := by rw [hd]; simp
        have hd' : adj x = (done ++ [y]) ++ ys := by rw [hd]; simp
        rw [forRun_cons]
        cases hcs : c.state y with
        | FINISH =>
          have e : tarjanEdge (tarjan adj fuel) x c y = .ok c := by
            simp only [tarjanEdge, hcs]
          rw [e]
          exact ihl (done ++ [y]) c hd' (hl.step_finish hcs)
        | INSTACK =>
          have e : tarjanEdge (tarjan adj fuel) x c y =
              .ok { c with low := Function.update c.low x (min (c.low x) (c.dfn y)) } := by
            simp only [tarjanEdge, hcs]
          rw [e]
          exact ihl (done ++ [y]) _ hd' (hl.step_instack hx hyx hcs)
        | NOTVISIT =>
          have hlen : n ≤ fuel + c.sta.length := by
            obtain ⟨new, hs, _⟩ := hl.stack
            rw [hs]; simp only [List.length_append, List.length_cons]; omega
          have hgy : ∀ g ∈ insert x gray, Reach adj g y := by
            intro g hgm
            rcases Set.mem_insert_iff.1 hgm with e | hgm
            · rw [e]; exact Reach.edge hyx
            · exact (hg g hgm).trans (Reach.edge hyx)
          obtain ⟨c1, hc1, hp⟩ := ih (insert x gray) c y hl.inv hcs (hadj x hxn y hyx) hgy hlen
          have e : tarjanEdge (tarjan adj fuel) x c y =
              .ok { c1 with low := Function.update c1.low x (min (c1.low x) (c1.low y)) } := by
            simp only [tarjanEdge, hcs, hc1, Run.bind]
          rw [e]
          exact ihl (done ++ [y]) _ hd' (hl.step_call hx hyx hcs hp)
    obtain ⟨c2, hc2, hl2⟩ := loop (adj x) [] (tarjanEnter x s) rfl
      (tarjanEnter_loop hinv hx hxn hg)
    have hrun : tarjan adj (fuel + 1) x s = tarjanLeave x c2 := by
      simp only [tarjan, hc2, Run.bind]
    rw [hrun]
    by_cases heq : c2.low x = c2.dfn x
    · exact hl2.leave_pop hx hinv.gray_sub heq
    · refine ⟨c2, ?_, hl2.leave_keep hx heq⟩
      unfold tarjanLeave
      rw [if_neg heq]

/-! ## The node list of `solve` -/

theorem closed_init : TwoSat.init.Closed :=
  ⟨fun l hl => absurd hl (List.not_mem_nil l), fun _ y hy => absurd hy (List.not_mem_nil y)⟩

theorem TwoSat.Closed.after_add_edge {g : TwoSat} (h : g.Closed) (x y : Nat) :
    (add_edge g x y).Closed := by
  unfold SweepingTools.add_edge
  split_ifs with hxy
  · have hy1 : y ^^^ 1 = x := by
      have : (x ^^^ y) ^^^ y = 1 ^^^ y := by rw [hxy]
      rw [Nat.xor_assoc, Nat.xor_self, Nat.xor_zero] at this
      rw [this, Nat.xor_comm]
    have hx1 : x ^^^ 1 = y := by rw [← hy1, xor_one_xor_one]
    constructor
    · intro l hl
      simp only [List.mem_append, List.mem_cons, List.mem_singleton, List.not_mem_nil,
        or_false] at hl ⊢
      rcases hl with hl | rfl | rfl
      · exact Or.inl (h.node_pair l hl)
      · right; right; exact hx1
      · right; left; exact hy1
    · intro l z hz
      dsimp only at hz
      simp only [List.mem_append, List.mem_cons, List.mem_singleton, List.not_mem_nil, or_false]
      by_cases e : l = x
      · subst e
        rw [Function.update_same] at hz
        rcases List.mem_append.1 hz with hz | hz
        · exact ⟨Or.inl (h.eg_node l z hz).1, Or.inl (h.eg_node l z hz).2⟩
        · exact ⟨Or.inr (Or.inl rfl), Or.inr (Or.inr (List.mem_singleton.1 hz))⟩
      · rw [Function.update_noteq e] at hz
        exact ⟨Or.inl (h.eg_node l z hz).1, Or.inl (h.eg_node l z hz).2⟩
  · constructor
    · intro l hl
      simp only [List.mem_append, List.mem_cons, List.mem_singleton, List.not_mem_nil,
        or_false] at hl ⊢
      rcases hl with hl | rfl | rfl | rfl | rfl
      · exact Or.inl (h.node_pair l hl)
      · right; right; left; rfl
      · right; left; exact xor_one_xor_one _
      · right; right; right; right; rfl
      · right; right; right; left; exact xor_one_xor_one _
    · intro l z hz
      dsimp only at hz
      simp only [List.mem_append, List.mem_cons, List.mem_singleton, List.not_mem_nil, or_false]
      have hold : z ∈ g.eg l → (l ∈ g.node ∨ l = x ∨ l = x ^^^ 1 ∨ l = y ∨ l = y ^^^ 1) ∧
          (z ∈ g.node ∨ z = x ∨ z = x ^^^ 1 ∨ z = y ∨ z = y ^^^ 1) :=
        fun hz => ⟨Or.inl (h.eg_node l z hz).1, Or.inl (h.eg_node l z hz).2⟩
      have hx : l = x → z ∈ g.eg l ++ [y ^^^ 1] →
          (l ∈ g.node ∨ l = x ∨ l = x ^^^ 1 ∨ l = y ∨ l = y ^^^ 1) ∧
          (z ∈ g.node ∨ z = x ∨ z = x ^^^ 1 ∨ z = y ∨ z = y ^^^ 1) := by
        intro e hz
        rcases List.mem_append.1 hz with hz | hz
        · exact hold hz
        · exact ⟨Or.inr (Or.inl e), Or.inr (Or.inr (Or.inr (Or.inr (List.mem_singleton.1 hz))))⟩
      by_cases e2 : l = y
      · subst e2
        rw [Function.update_same] at hz
        rcases List.mem_append.1 hz with hz | hz
        · by_cases e1 : l = x
          · subst e1
            rw [Function.update_same] at hz
            exact hx rfl hz
          · rw [Function.update_noteq e1] at hz
            exact hold hz
        · exact ⟨Or.inr (Or.inr (Or.inr (Or.inl rfl))),
            Or.inr (Or.inr (Or.inl (List.mem_singleton.1 hz)))⟩
      · rw [Function.update_noteq e2] at hz
        by_cases e1 : l = x
        · subst e1
          rw [Function.update_same] at hz
          exact hx rfl hz
        · rw [Function.update_noteq e1] at hz
          exact hold hz

theorem buildGraph_closed (es : List (Nat × Nat)) : (buildGraph es).Closed := by
  unfold buildGraph
  have : ∀ g : TwoSat, g.Closed → (es.foldl (fun g e => add_edge g e.1 e.2) g).Closed := by
    induction es with
    | nil => intro g hg; exact hg
    | cons e es ih => intro g hg; exact ih _ (hg.after_add_edge e.1 e.2)
  exact this _ closed_init

theorem mem_unique (l : List Nat) (z : Nat) : z ∈ unique l ↔ z ∈ l := by
  induction l using unique.induct with
  | case1 => simp [unique]
  | case2 a => simp [unique]
  | case3 b rest ih =>
    rw [unique, if_pos rfl, ih]
    simp
  | case4 a b rest hab ih =>
    rw [unique, if_neg hab, List.mem_cons, ih]
    simp

theorem sorted_unique (l : List Nat) (h : l.Sorted (· ≤ ·)) : (unique l).Sorted (· < ·) := by
  induction l using unique.induct with
  | case1 => simp [unique]
  | case2 a => simp [unique]
  | case3 b rest ih =>
    rw [unique, if_pos rfl]
    exact ih (List.Sorted.of_cons h)
  | case4 a b rest hab ih =>
    rw [unique, if_neg hab]
    have h2 := List.Sorted.of_cons h
    refine List.sorted_cons.2 ⟨?_, ih h2⟩
    intro z hz
    rw [mem_unique] at hz
    have hle : a ≤ b := List.rel_of_sorted_cons h b (List.mem_cons_self _ _)
    rcases List.mem_cons.1 hz with e | hz
    · rw [e]; omega
    · have := List.rel_of_sorted_cons h2 z hz
      omega

theorem mem_sortedNodes (g : TwoSat) (z : Nat) : z ∈ sortedNodes g ↔ z ∈ g.node := by
  unfold sortedNodes
  rw [mem_unique]
  exact (List.perm_insertionSort _ _).mem_iff

theorem sorted_sortedNodes (g : TwoSat) : (sortedNodes g).Sorted (· < ·) :=
  sorted_unique _ (List.sorted_insertionSort _ _)

theorem pairs_halves (l : List Nat) (hs : l.Sorted (· < ·)) (hp : ∀ z ∈ l, z ^^^ 1 ∈ l) :
    pairs (halves l) = l := by
  induction l using halves.induct with
  | case1 x y rest ih =>
    have hx := List.rel_of_sorted_cons hs
    have hs2 := List.Sorted.of_cons hs
    have hy := List.rel_of_sorted_cons hs2
    have hs3 := List.Sorted.of_cons hs2
    have hxe : x % 2 = 0 := by
      by_contra ho
      have h1 := hp x (List.mem_cons_self _ _)
      rw [xor_one_odd x (by omega)] at h1
      rcases List.mem_cons.1 h1 with e | h1
      · omega
      · have := hx _ h1; omega
    have hxy : y = x + 1 := by
      have h1 := hp x (List.mem_cons_self _ _)
      rw [xor_one_even x hxe] at h1
      have hlt := hx y (List.mem_cons_self _ _)
      rcases List.mem_cons.1 h1 with e | h1
      · omega
      · rcases List.mem_cons.1 h1 with e | h1
        · exact e.symm
        · have := hy _ h1; omega
    have hrest : ∀ z ∈ rest, z ^^^ 1 ∈ rest := by
      intro z hz
      have hzy := hy z hz
      have h1 := hp z (List.mem_cons_of_mem _ (List.mem_cons_of_mem _ hz))
      rcases List.mem_cons.1 h1 with e | h1
      · exfalso
        have := xor_one_div z; rw [e] at this; omega
      · rcases List.mem_cons.1 h1 with e | h1
        · exfalso
          have := xor_one_div z; rw [e] at this; omega
        · exact h1
    rw [halves, pairs, ih hs3 hrest, hxy]
    congr 1
    · omega
    · congr 1; omega
  | case2 l hl =>
    match l, hl with
    | [], _ => rfl
    | [x], _ =>
      exfalso
      have h1 := hp x (List.mem_singleton_self x)
      have := List.mem_singleton.1 h1
      have := xor_one_eq x
      split_ifs at this <;> omega
    | x :: y :: rest, hl => exact absurd rfl (hl x y rest)

theorem pairs_length (as : List Nat) : (pairs as).length = 2 * as.length := by
  induction as with
  | nil => rfl
  | cons a as ih => simp only [pairs, List.length_cons, ih]; omega

theorem pairs_getD (as : List Nat) (j : Nat) (hj : j < as.length) :
    (pairs as)[2 * j]? = some (2 * as.getD j 0) ∧
    (pairs as)[2 * j + 1]? = some (2 * as.getD j 0 + 1) := by
  induction as generalizing j with
  | nil => cases hj
  | cons a as ih =>
    cases j with
    | zero => simp [pairs]
    | succ j =>
      have := ih j (by simpa using hj)
      have e1 : 2 * (j + 1) = (2 * j) + 1 + 1 := by omega
      simp only [e1, pairs, List.getElem?_cons_succ, List.getD_cons_succ]
      exact this

/-! ## The top-level loop of `solve` -/

theorem tinv_init (adj : Nat → List Nat) (n : Nat) : TInv adj n ∅ TarjanState.init := by
  refine ⟨?_, ?_, ?_, ?_, ?_, ?_, ?_, ?_, ?_, ?_, ?_, ?_, ?_⟩ <;>
    simp [TarjanState.init]

theorem TInv.sta_nil {adj : Nat → List Nat} {n : Nat} {s : TarjanState} (h : TInv adj n ∅ s) :
    s.sta = [] := by
  apply List.eq_nil_iff_forall_not_mem.2
  intro y hy
  obtain ⟨g, hg, _⟩ := h.gray_reach y hy
  exact hg

theorem TInv.finish_of_visited {adj : Nat → List Nat} {n : Nat} {s : TarjanState}
    (h : TInv adj n ∅ s) {z : Nat} (hz : s.state z ≠ .NOTVISIT) : s.state z = .FINISH := by
  cases hs : s.state z with
  | NOTVISIT => exact absurd hs hz
  | INSTACK =>
    have := (h.sta_iff z).2 hs
    rw [h.sta_nil] at this
    cases this
  | FINISH => rfl

theorem tarjanAll_loop (adj : Nat → List Nat) (n : Nat)
    (hadj : ∀ x, x < n → ∀ y ∈ adj x, y < n) (is : List Nat) :
    ∀ (done : List Nat) (s : TarjanState), (∀ i ∈ is, i < n) → TInv adj n ∅ s →
      (∀ i ∈ done, s.state i = .FINISH) →
      ∃ s1, forRun (fun s i => if s.state i = .NOTVISIT then tarjan adj n i s else .ok s) is s
          = .ok s1 ∧ TInv adj n ∅ s1 ∧ ∀ i ∈ done ++ is, s1.state i = .FINISH := by
  induction is with
  | nil =>
    intro done s _ hinv hd
    exact ⟨s, rfl, hinv, by simpa using hd⟩
  | cons i is ih =>
    intro done s hlt hinv hd
    rw [forRun_cons]
    by_cases hi : s.state i = .NOTVISIT
    · obtain ⟨s1, hs1, hp⟩ := tarjan_spec adj n hadj n ∅ s i hinv hi
        (hlt i (List.mem_cons_self _ _)) (fun g hg => absurd hg (Set.not_mem_empty g))
        (Nat.le_add_right _ _)
      obtain ⟨s2, hs2, hinv2, hfin⟩ := ih (done ++ [i]) s1
        (fun j hj => hlt j (List.mem_cons_of_mem _ hj)) hp.inv (by
          intro j hj
          rcases List.mem_append.1 hj with h1 | h1
          · have : s.state j ≠ .NOTVISIT := by rw [hd j h1]; simp
            rw [hp.frame.state_eq j this]; exact hd j h1
          · rw [List.mem_singleton.1 h1]
            exact hp.inv.finish_of_visited hp.visited)
      refine ⟨s2, ?_, hinv2, by simpa using hfin⟩
      simp only [if_pos hi, hs1, Run.bind]; exact hs2
    · obtain ⟨s2, hs2, hinv2, hfin⟩ := ih (done ++ [i]) s
        (fun j hj => hlt j (List.mem_cons_of_mem _ hj)) hinv (by
          intro j hj
          rcases List.mem_append.1 hj with h1 | h1
          · exact hd j h1
          · rw [List.mem_singleton.1 h1]
            exact hinv.finish_of_visited hi)
      refine ⟨s2, ?_, hinv2, by simpa using hfin⟩
      simp only [if_neg hi, Run.bind]; exact hs2

/-- The loop of line 120 returns, with every node finished and coloured. -/
theorem tarjanAll_spec (adj : Nat → List Nat) (n : Nat)
    (hadj : ∀ x, x < n → ∀ y ∈ adj x, y < n) :
    ∃ s, tarjanAll adj n = .ok s ∧ TInv adj n ∅ s ∧ ∀ i, i < n → s.state i = .FINISH := by
  obtain ⟨s, hs, hinv, hfin⟩ := tarjanAll_loop adj n hadj (List.range n) [] TarjanState.init
    (fun i hi => List.mem_range.1 hi) (tinv_init adj n) (fun i hi => absurd hi (List.not_mem_nil i))
  exact ⟨s, hs, hinv, fun i hi => hfin i (by simpa using hi)⟩

/-- Colours do not increase along the edges, hence along paths. -/
theorem TInv.col_mono {adj : Nat → List Nat} {n : Nat} {gray : Set Nat} {s : TarjanState}
    (h : TInv adj n gray s) {i j : Nat} (hr : Reach adj i j) (hi : s.state i = .FINISH) :
    s.state j = .FINISH ∧ s.col j ≤ s.col i := by
  induction hr with
  | refl => exact ⟨hi, le_refl _⟩
  | tail _ hbc ih =>
    obtain ⟨h1, h2⟩ := h.fin_edge _ ih.1 _ hbc
    exact ⟨h1, le_trans h2 ih.2⟩

/-! ## Positions and literals -/

theorem mapping_lt {node : List Nat} {l : Nat} (h : l ∈ node) : mapping node l < node.length :=
  List.indexOf_lt_length.2 h

theorem getD_mapping {node : List Nat} {l : Nat} (h : l ∈ node) :
    node.getD (mapping node l) 0 = l := by
  have hlt := mapping_lt h
  rw [List.getD_eq_getElem _ _ hlt]
  exact List.getElem_indexOf hlt

theorem mapping_getD {node : List Nat} (hnd : node.Nodup) {i : Nat} (h : i < node.length) :
    mapping node (node.getD i 0) = i := by
  rw [List.getD_eq_getElem _ _ h]
  exact List.indexOf_getElem hnd i h

theorem getD_mem {node : List Nat} {i : Nat} (h : i < node.length) : node.getD i 0 ∈ node := by
  rw [List.getD_eq_getElem _ _ h]
  exact List.getElem_mem h

theorem nodeAdj_lt (g : TwoSat) (hc : g.Closed) (x : Nat) :
    ∀ y ∈ nodeAdj g (sortedNodes g) x, y < (sortedNodes g).length := by
  intro y hy
  unfold nodeAdj at hy
  obtain ⟨l, hl, rfl⟩ := List.mem_map.1 hy
  exact mapping_lt ((mem_sortedNodes g l).2 (hc.eg_node _ l hl).2)

theorem reach_of_lreach (g : TwoSat) (hc : g.Closed) {a b : Nat} (h : Reach g.eg a b)
    (ha : a ∈ g.node) :
    b ∈ g.node ∧ Reach (nodeAdj g (sortedNodes g)) (mapping (sortedNodes g) a)
      (mapping (sortedNodes g) b) := by
  induction h with
  | refl => exact ⟨ha, Reach.refl _ _⟩
  | @tail b c _ hbc ih =>
    refine ⟨(hc.eg_node b c hbc).2, ih.2.trans (Reach.edge ?_)⟩
    unfold nodeAdj
    rw [getD_mapping ((mem_sortedNodes g b).2 ih.1)]
    exact List.mem_map.2 ⟨c, hbc, rfl⟩

theorem lreach_of_reach (g : TwoSat) (hc : g.Closed) {i j : Nat}
    (h : Reach (nodeAdj g (sortedNodes g)) i j) (hi : i < (sortedNodes g).length) :
    j < (sortedNodes g).length ∧
      Reach g.eg ((sortedNodes g).getD i 0) ((sortedNodes g).getD j 0) := by
  induction h with
  | refl => exact ⟨hi, Reach.refl _ _⟩
  | @tail b c _ hbc ih =>
    refine ⟨nodeAdj_lt g hc b c hbc, ih.2.trans (Reach.edge ?_)⟩
    unfold nodeAdj at hbc
    obtain ⟨l, hl, rfl⟩ := List.mem_map.1 hbc
    rw [getD_mapping ((mem_sortedNodes g l).2 (hc.eg_node _ l hl).2)]
    exact hl

/-! ## The choice of `solve` -/

theorem choose_loop (node : List Nat) (col : Nat → Nat) (js : List Nat) :
    ∀ acc : List Nat, (∀ j ∈ js, ∃ x y, node[2 * j]? = some x ∧ node[2 * j ^^^ 1]? = some y) →
      forRun (chooseStep node col) js acc =
        if ∃ j ∈ js, col (2 * j) = col (2 * j ^^^ 1) then .abort
        else .ok (acc ++ js.map (pick node col)) := by
  induction js with
  | nil => intro acc _; simp [forRun]
  | cons j js ih =>
    intro acc hN
    obtain ⟨x, y, hx, hy⟩ := hN j (List.mem_cons_self _ _)
    have hgx : node.getD (2 * j) 0 = x := by
      rw [List.getD_eq_getElem?_getD, hx]; rfl
    have hgy : node.getD (2 * j ^^^ 1) 0 = y := by
      rw [List.getD_eq_getElem?_getD, hy]; rfl
    rw [forRun_cons]
    by_cases hc : col (2 * j) = col (2 * j ^^^ 1)
    · have e : chooseStep node col acc j = .abort := by
        simp only [chooseStep, hx, hy, if_pos hc]
      rw [e, if_pos ⟨j, List.mem_cons_self _ _, hc⟩]; rfl
    · have e : chooseStep node col acc j = .ok (acc ++ [pick node col j]) := by
        simp only [chooseStep, hx, hy, if_neg hc, pick, hgx, hgy]
      rw [e]
      simp only [Run.bind]
      rw [ih _ (fun j' hj' => hN j' (List.mem_cons_of_mem _ hj'))]
      by_cases hex : ∃ j' ∈ js, col (2 * j') = col (2 * j' ^^^ 1)
      · obtain ⟨j', hj', hc'⟩ := hex
        rw [if_pos ⟨j', hj', hc'⟩, if_pos ⟨j', List.mem_cons_of_mem _ hj', hc'⟩]
      · have hex' : ¬ ∃ j' ∈ j :: js, col (2 * j') = col (2 * j' ^^^ 1) := by
          rintro ⟨j', hj', hc'⟩
          rcases List.mem_cons.1 hj' with e | hj'
          · rw [e] at hc'; exact hc hc'
          · exact hex ⟨j', hj', hc'⟩
        rw [if_neg hex, if_neg hex']
        simp

/-- Shape of the sorted node list of a graph built by `add_edge`: positions
`2 * j` and `2 * j + 1` hold a literal and its complement. -/
theorem sortedNodes_pairs (g : TwoSat) (hc : g.Closed) :
    (sortedNodes g).length = 2 * (halves (sortedNodes g)).length ∧
    ∀ j, j < (halves (sortedNodes g)).length →
      (sortedNodes g)[2 * j]? = some (2 * (halves (sortedNodes g)).getD j 0) ∧
      (sortedNodes g)[2 * j ^^^ 1]? = some (2 * (halves (sortedNodes g)).getD j 0 + 1) := by
  have hp := pairs_halves (sortedNodes g) (sorted_sortedNodes g) (fun z hz =>
    (mem_sortedNodes g _).2 (hc.node_pair z ((mem_sortedNodes g z).1 hz)))
  constructor
  · conv_lhs => rw [← hp]
    exact pairs_length _
  · intro j hj
    have := pairs_getD (halves (sortedNodes g)) j hj
    rw [hp] at this
    rw [xor_one_even (2 * j) (by omega)]
    exact this

theorem sortedNodes_nodup (g : TwoSat) : (sortedNodes g).Nodup :=
  (sorted_sortedNodes g).imp (fun h => Nat.ne_of_lt h)

/-- The position of the complement is the position with the low bit flipped. -/
theorem mapping_xor (g : TwoSat) (hc : g.Closed) {l : Nat} (hl : l ∈ g.node) :
    mapping (sortedNodes g) (l ^^^ 1) = mapping (sortedNodes g) l ^^^ 1 := by
  obtain ⟨hlen, hpair⟩ := sortedNodes_pairs g hc
  have hlN := (mem_sortedNodes g l).2 hl
  have hi := mapping_lt hlN
  have hget := getD_mapping hlN
  have hnd := sortedNodes_nodup g
  obtain ⟨h0, h1⟩ := hpair (mapping (sortedNodes g) l / 2) (by omega)
  rw [xor_one_even _ (by omega)] at h1
  have g0 : (sortedNodes g).getD (2 * (mapping (sortedNodes g) l / 2)) 0 =
      2 * (halves (sortedNodes g)).getD (mapping (sortedNodes g) l / 2) 0 := by
    rw [List.getD_eq_getElem?_getD, h0]; rfl
  have g1 : (sortedNodes g).getD (2 * (mapping (sortedNodes g) l / 2) + 1) 0 =
      2 * (halves (sortedNodes g)).getD (mapping (sortedNodes g) l / 2) 0 + 1 := by
    rw [List.getD_eq_getElem?_getD, h1]; rfl
  generalize mapping (sortedNodes g) l = i at hi hget h0 h1 g0 g1 ⊢
  generalize (halves (sortedNodes g)).getD (i / 2) 0 = a at h0 h1 g0 g1
  by_cases he : i % 2 = 0
  · have e : 2 * (i / 2) = i := by omega
    rw [e] at g0 g1
    have hl2 : l = 2 * a := by rw [← hget, g0]
    have : l ^^^ 1 = (sortedNodes g).getD (i + 1) 0 := by
      rw [g1, xor_one_even l (by omega), hl2]
    rw [this, mapping_getD hnd (by omega), xor_one_even _ he]
  · have e : 2 * (i / 2) + 1 = i := by omega
    rw [e] at g1
    have hl2 : l = 2 * a + 1 := by rw [← hget, g1]
    have e2 : i - 1 = 2 * (i / 2) := by omega
    have : l ^^^ 1 = (sortedNodes g).getD (i - 1) 0 := by
      rw [e2, g0, xor_one_odd l (by omega), hl2]; omega
    rw [this, mapping_getD hnd (by omega), xor_one_odd _ (by omega)]

theorem xor_one_ne (l : Nat) : l ^^^ 1 ≠ l := by
  rw [xor_one_eq]; split <;> omega

/-- What `solve` computes on a graph built by `add_edge`: the Tarjan pass
returns with every node finished, and the result is the abort of line 126 when
some pair shares a colour, the list of picked literals otherwise. -/
theorem solve_eq (g : TwoSat) (hc : g.Closed) :
    ∃ s, TInv (nodeAdj g (sortedNodes g)) (sortedNodes g).length ∅ s ∧
      (∀ i, i < (sortedNodes g).length → s.state i = .FINISH) ∧
      solve g =
        if ∃ j ∈ List.range ((halves (sortedNodes g)).length),
            s.col (2 * j) = s.col (2 * j ^^^ 1) then .abort
        else .ok ((List.range ((halves (sortedNodes g)).length)).map
          (pick (sortedNodes g) s.col)) := by
  obtain ⟨s, hs, hinv, hfin⟩ := tarjanAll_spec (nodeAdj g (sortedNodes g)) (sortedNodes g).length
    (fun x _ => nodeAdj_lt g hc x)
  obtain ⟨hlen, hpair⟩ := sortedNodes_pairs g hc
  refine ⟨s, hinv, hfin, ?_⟩
  have hk : ((sortedNodes g).length + 1) / 2 = (halves (sortedNodes g)).length := by omega
  unfold solve
  simp only [hs, Run.bind, hk]
  rw [choose_loop]
  · simp
  · intro j hj
    obtain ⟨h0, h1⟩ := hpair j (List.mem_range.1 hj)
    exact ⟨_, _, h0, h1⟩

/-- `solve` aborts at the assertion of line 126 when a literal of the graph
and its complement reach each other. -/
theorem solve_abort (g : TwoSat) (hc : g.Closed) (l : Nat) (hl : l ∈ g.node)
    (h1 : Reach g.eg l (l ^^^ 1)) (h2 : Reach g.eg (l ^^^ 1) l) : solve g = .abort := by
  obtain ⟨s, hinv, hfin, hsolve⟩ := solve_eq g hc
  obtain ⟨hlen, _⟩ := sortedNodes_pairs g hc
  have hlN := (mem_sortedNodes g l).2 hl
  have hi := mapping_lt hlN
  have hi' := mapping_lt ((mem_sortedNodes g _).2 (hc.node_pair l hl))
  have r1 := (reach_of_lreach g hc h1 hl).2
  have r2 := (reach_of_lreach g hc h2 (hc.node_pair l hl)).2
  have hcol := (hinv.scc _ _ (hfin _ hi) (hfin _ hi')).2 ⟨r1, r2⟩
  rw [mapping_xor g hc hl] at hcol
  rw [hsolve, if_pos]
  refine ⟨mapping (sortedNodes g) l / 2, List.mem_range.2 (by omega), ?_⟩
  by_cases he : mapping (sortedNodes g) l % 2 = 0
  · have e : 2 * (mapping (sortedNodes g) l / 2) = mapping (sortedNodes g) l := by omega
    rw [e]; exact hcol
  · have e : 2 * (mapping (sortedNodes g) l / 2) = mapping (sortedNodes g) l ^^^ 1 := by
      rw [xor_one_odd _ (by omega)]; omega
    rw [e, xor_one_xor_one]; exact hcol.symm

/-- The two outcomes of `solve` on a graph built by `add_edge`: the abort of
line 126, with a literal that shares a component with its complement, or a
duplicate-free list holding exactly one literal of each pair of the graph, in
which the complement of a member is not reachable from it. -/
theorem solve_cases (g : TwoSat) (hc : g.Closed) :
    (solve g = .abort ∧ ∃ l ∈ g.node, Reach g.eg l (l ^^^ 1) ∧ Reach g.eg (l ^^^ 1) l) ∨
    ∃ ch, solve g = .ok ch ∧ ch.Nodup ∧
      (∀ l ∈ g.node, (l ∈ ch ↔ l ^^^ 1 ∉ ch)) ∧
      (∀ l ∈ ch, l ∈ g.node ∧ ¬ Reach g.eg l (l ^^^ 1)) := by
  obtain ⟨s, hinv, hfin, hsolve⟩ := solve_eq g hc
  obtain ⟨hlen, hpair⟩ := sortedNodes_pairs g hc
  have hnd := sortedNodes_nodup g
  -- equal colours mean a shared component
  have hshare : ∀ l ∈ g.node, s.col (mapping (sortedNodes g) l) =
      s.col (mapping (sortedNodes g) l ^^^ 1) →
      Reach g.eg l (l ^^^ 1) ∧ Reach g.eg (l ^^^ 1) l := by
    intro l hl hcol
    have hlN := (mem_sortedNodes g l).2 hl
    have hlN' := (mem_sortedNodes g _).2 (hc.node_pair l hl)
    have hi := mapping_lt hlN
    have hi' := mapping_lt hlN'
    rw [← mapping_xor g hc hl] at hcol
    obtain ⟨r1, r2⟩ := (hinv.scc _ _ (hfin _ hi) (hfin _ hi')).1 hcol
    have q1 := (lreach_of_reach g hc r1 hi).2
    have q2 := (lreach_of_reach g hc r2 hi').2
    rw [getD_mapping hlN, getD_mapping hlN'] at q1 q2
    exact ⟨q1, q2⟩
  by_cases hex : ∃ j ∈ List.range ((halves (sortedNodes g)).length),
      s.col (2 * j) = s.col (2 * j ^^^ 1)
  · left
    rw [if_pos hex] at hsolve
    refine ⟨hsolve, ?_⟩
    obtain ⟨j, hj, e⟩ := hex
    have hp : 2 * j < (sortedNodes g).length := by have := List.mem_range.1 hj; omega
    refine ⟨(sortedNodes g).getD (2 * j) 0, (mem_sortedNodes g _).1 (getD_mem hp), ?_⟩
    apply hshare _ ((mem_sortedNodes g _).1 (getD_mem hp))
    rw [mapping_getD hnd hp]; exact e
  right
  have hne' : ∀ p, p < (sortedNodes g).length → s.col p ≠ s.col (p ^^^ 1) := by
    intro p hp e
    have hx := xor_one_div p
    by_cases he : p % 2 = 0
    · apply hex
      refine ⟨p / 2, List.mem_range.2 (by omega), ?_⟩
      have e2 : 2 * (p / 2) = p := by omega
      rw [e2]; exact e
    · apply hex
      refine ⟨p / 2, List.mem_range.2 (by omega), ?_⟩
      have e2 : 2 * (p / 2) = p ^^^ 1 := by rw [xor_one_odd p (by omega)]; omega
      rw [e2, xor_one_xor_one]; exact e.symm
  have hne : ∀ l ∈ g.node, s.col (mapping (sortedNodes g) l) ≠
      s.col (mapping (sortedNodes g) l ^^^ 1) :=
    fun l hl => hne' _ (mapping_lt ((mem_sortedNodes g l).2 hl))
  -- the picked literal of a pair sits at the position of the smaller colour
  have hpick : ∀ j, j < (halves (sortedNodes g)).length →
      ∃ p, p < (sortedNodes g).length ∧ p / 2 = j ∧
        pick (sortedNodes g) s.col j = (sortedNodes g).getD p 0 ∧ s.col p < s.col (p ^^^ 1) := by
    intro j hj
    have hx : 2 * j ^^^ 1 = 2 * j + 1 := xor_one_even _ (by omega)
    have := hne' (2 * j) (by omega)
    unfold pick
    split_ifs with hgt
    · refine ⟨2 * j ^^^ 1, by omega, by omega, rfl, ?_⟩
      rw [xor_one_xor_one]; exact hgt
    · exact ⟨2 * j, by omega, by omega, rfl, by omega⟩
  have hmem : ∀ l ∈ g.node,
      (l ∈ (List.range ((halves (sortedNodes g)).length)).map (pick (sortedNodes g) s.col) ↔
        s.col (mapping (sortedNodes g) l) < s.col (mapping (sortedNodes g) l ^^^ 1)) := by
    intro l hl
    have hlN := (mem_sortedNodes g l).2 hl
    have hi := mapping_lt hlN
    constructor
    · intro hm
      obtain ⟨j, hj, e⟩ := List.mem_map.1 hm
      obtain ⟨p, hp, _, hpk, hlt⟩ := hpick j (List.mem_range.1 hj)
      rw [← e, hpk, mapping_getD hnd hp]; exact hlt
    · intro hlt
      refine List.mem_map.2 ⟨mapping (sortedNodes g) l / 2, List.mem_range.2 (by omega), ?_⟩
      obtain ⟨p, hp, hpj, hpk, hlt'⟩ := hpick (mapping (sortedNodes g) l / 2) (by omega)
      rw [hpk]
      have hp2 : p = mapping (sortedNodes g) l ∨ p = mapping (sortedNodes g) l ^^^ 1 := by
        rw [xor_one_eq]; split <;> omega
      rcases hp2 with e | e
      · rw [e]; exact getD_mapping hlN
      · rw [e, xor_one_xor_one] at hlt'; omega
  rw [if_neg hex] at hsolve
  refine ⟨_, hsolve, ?_, ?_, ?_⟩
  · apply List.Nodup.map_on _ (List.nodup_range _)
    intro j1 hj1 j2 hj2 e
    obtain ⟨p1, hp1, hpj1, hpk1, _⟩ := hpick j1 (List.mem_range.1 hj1)
    obtain ⟨p2, hp2, hpj2, hpk2, _⟩ := hpick j2 (List.mem_range.1 hj2)
    have : mapping (sortedNodes g) ((sortedNodes g).getD p1 0) =
        mapping (sortedNodes g) ((sortedNodes g).getD p2 0) := by rw [← hpk1, ← hpk2, e]
    rw [mapping_getD hnd hp1, mapping_getD hnd hp2] at this
    omega
  · intro l hl
    have hl' := hc.node_pair l hl
    rw [hmem l hl, hmem _ hl', mapping_xor g hc hl, xor_one_xor_one]
    have := hne l hl
    omega
  · intro l hm
    obtain ⟨j, hj, e⟩ := List.mem_map.1 hm
    obtain ⟨p, hp, _, hpk, hlt⟩ := hpick j (List.mem_range.1 hj)
    have hlN : l ∈ sortedNodes g := by rw [← e, hpk]; exact getD_mem hp
    have hl := (mem_sortedNodes g l).1 hlN
    refine ⟨hl, ?_⟩
    intro hr
    have r := (reach_of_lreach g hc hr hl).2
    have hi := mapping_lt hlN
    have := (hinv.col_mono r (hfin _ hi)).2
    rw [mapping_xor g hc hl] at this
    have hlt2 := (hmem l hl).1 hm
    omega

/-- `solve` returns when no literal shares a component with its complement. -/
theorem solve_ok (g : TwoSat) (hc : g.Closed)
    (hno : ∀ l ∈ g.node, ¬ (Reach g.eg l (l ^^^ 1) ∧ Reach g.eg (l ^^^ 1) l)) :
    ∃ ch, solve g = .ok ch ∧ ch.Nodup ∧
      (∀ l ∈ g.node, (l ∈ ch ↔ l ^^^ 1 ∉ ch)) ∧
      (∀ l ∈ ch, l ∈ g.node ∧ ¬ Reach g.eg l (l ^^^ 1)) := by
  rcases solve_cases g hc with ⟨_, l, hl, h⟩ | h
  · exact absurd h (hno l hl)
  · exact h

/-- The list that `solve` returned has the two properties of `solve_cases`. -/
theorem solve_ok_props (g : TwoSat) (hc : g.Closed) (ch : List Nat) (h : solve g = .ok ch) :
    ch.Nodup ∧ (∀ l ∈ g.node, (l ∈ ch ↔ l ^^^ 1 ∉ ch)) ∧
    (∀ l ∈ ch, l ∈ g.node ∧ ¬ Reach g.eg l (l ^^^ 1)) := by
  rcases solve_cases g hc with ⟨ha, _⟩ | ⟨ch', h', hp⟩
  · rw [ha] at h; cases h
  · rw [h'] at h
    cases h
    exact hp

/-! ## Preprocessing -/

theorem Run.bind_eq_ok {α β : Type} (r : Run α) (f : α → Run β) (b : β) :
    r.bind f = .ok b ↔ ∃ a, r = .ok a ∧ f a = .ok b := by
  cases r <;> simp [Run.bind]

theorem forRun_inv {α β : Type} (f : α → β → Run α) (P : α → Prop) (Q : β → Prop)
    (hstep : ∀ a b a1, P a → Q b → f a b = .ok a1 → P a1) :
    ∀ (bs : List β) (a a1 : α), P a → (∀ b ∈ bs, Q b) → forRun f bs a = .ok a1 → P a1 := by
  intro bs
  induction bs with
  | nil =>
    intro a a1 ha _ h
    simp only [forRun] at h
    cases h; exact ha
  | cons b bs ih =>
    intro a a1 ha hq h
    rw [forRun_cons, Run.bind_eq_ok] at h
    obtain ⟨a2, h1, h2⟩ := h
    exact ih a2 a1 (hstep a b a2 ha (hq b (List.mem_cons_self _ _)) h1)
      (fun b' hb' => hq b' (List.mem_cons_of_mem _ hb')) h2

theorem tagged_ok (tag tag1 : Nat → Int) (lit : Nat) (h : tagged tag lit = .ok tag1) :
    tag lit ≠ 0 ∧ tag1 = Function.update (Function.update tag lit 1) (lit ^^^ 1) 0 := by
  unfold tagged at h
  split_ifs at h with h0
  cases h
  exact ⟨h0, rfl⟩

theorem tagPair_init : TagPair (fun _ => -1) :=
  ⟨fun _ => by simp, fun _ => Or.inl rfl⟩

theorem TagPair.after_tagged {tag tag1 : Nat → Int} (hp : TagPair tag) (lit : Nat)
    (h : tagged tag lit = .ok tag1) : TagPair tag1 := by
  obtain ⟨_, rfl⟩ := tagged_ok tag tag1 lit h
  have hx := xor_one_ne lit
  constructor
  · intro l
    simp only [Function.update_apply]
    by_cases e1 : l = lit ^^^ 1
    · subst e1
      simp [xor_one_xor_one, hx.symm]
    · by_cases e2 : l = lit
      · subst e2
        simp [hx.symm]
      · have e3 : l ^^^ 1 ≠ lit ^^^ 1 := by
          intro e; apply e2
          rw [← xor_one_xor_one l, e, xor_one_xor_one]
        have e4 : l ^^^ 1 ≠ lit := by
          intro e; apply e1
          rw [← e, xor_one_xor_one]
        simp only [e1, e2, e3, e4, if_false]
        exact hp.pair l
  · intro l
    simp only [Function.update_apply]
    split_ifs
    · right; left; rfl
    · right; right; rfl
    · exact hp.range l

/-- Soundness of one `tagged` call for a valuation in which the literal is 1. -/
theorem tagged_sound {tag tag1 : Nat → Int} (val : Nat → Bool) (lit : Nat)
    (hs : ∀ l, tag l = 1 → litVal val l = true) (hv : litVal val lit = true)
    (h : tagged tag lit = .ok tag1) : ∀ l, tag1 l = 1 → litVal val l = true := by
  obtain ⟨_, rfl⟩ := tagged_ok tag tag1 lit h
  intro l hl
  simp only [Function.update_apply] at hl
  split_ifs at hl with e1 e2
  · exact absurd hl (by decide)
  · rw [e2]; exact hv
  · exact hs l hl

theorem preGate_tag {isinput : Nat → Bool} {p p1 : PreState} {a : AigerAnd}
    (h : preGate isinput p a = .ok p1) :
    (p.tag a.lhs = 1 ∧ ∃ t1, tagged p.tag a.rhs0 = .ok t1 ∧ tagged t1 a.rhs1 = .ok p1.tag ∧
      p1.g = p.g) ∨
    (p1.tag = p.tag ∧ (p1.g = p.g ∨ p1.g = add_edge p.g a.rhs0 a.rhs1)) := by
  unfold preGate at h
  split_ifs at h with h1 h2
  · left
    rw [Run.bind_eq_ok] at h
    obtain ⟨t1, ht1, h⟩ := h
    rw [Run.bind_eq_ok] at h
    obtain ⟨t2, ht2, h⟩ := h
    cases h
    exact ⟨h1, t1, ht1, ht2, rfl⟩
  · right; cases h; exact ⟨rfl, Or.inr rfl⟩
  · right; cases h; exact ⟨rfl, Or.inl rfl⟩

theorem preInput_tag (p : PreState) (lit : Nat) : (preInput p lit).tag = p.tag := by
  unfold preInput; split_ifs <;> rfl

theorem foldl_preInput_tag (inputs : List Nat) (p : PreState) :
    (inputs.foldl preInput p).tag = p.tag := by
  induction inputs generalizing p with
  | nil => rfl
  | cons a as ih => rw [List.foldl_cons, ih, preInput_tag]

theorem preInput_closed {p : PreState} (h : p.g.Closed) (lit : Nat) :
    (preInput p lit).g.Closed := by
  unfold preInput; split_ifs
  · exact h.after_add_edge _ _
  · exact h

theorem foldl_preInput_closed (inputs : List Nat) (p : PreState) (h : p.g.Closed) :
    (inputs.foldl preInput p).g.Closed := by
  induction inputs generalizing p with
  | nil => exact h
  | cons a as ih => rw [List.foldl_cons]; exact ih _ (preInput_closed h a)

/-- The parts of a successful `preGraph`. -/
theorem preGraph_ok {m : Aiger} {p : PreState} (h : preGraph m = .ok p) :
    ∃ t0 p1, forRun tagged m.constraints (fun _ => -1) = .ok t0 ∧
      forRun (preGate (markInputs m.inputs)) m.ands.reverse ⟨t0, TwoSat.init⟩ = .ok p1 ∧
      p = m.inputs.foldl preInput p1 := by
  unfold preGraph at h
  rw [Run.bind_eq_ok] at h
  obtain ⟨t0, h0, h⟩ := h
  rw [Run.bind_eq_ok] at h
  obtain ⟨p1, h1, h⟩ := h
  cases h
  exact ⟨t0, p1, h0, h1, rfl⟩

theorem preGraph_closed {m : Aiger} {p : PreState} (h : preGraph m = .ok p) : p.g.Closed := by
  obtain ⟨t0, p1, _, h1, rfl⟩ := preGraph_ok h
  apply foldl_preInput_closed
  refine forRun_inv (preGate (markInputs m.inputs)) (fun p => p.g.Closed) (fun _ => True) ?_
    m.ands.reverse ⟨t0, TwoSat.init⟩ p1 closed_init (fun _ _ => trivial) h1
  intro a b a1 ha _ hstep
  rcases preGate_tag hstep with ⟨_, _, _, _, e⟩ | ⟨_, e | e⟩
  · rw [e]; exact ha
  · rw [e]; exact ha
  · rw [e]; exact ha.after_add_edge _ _

theorem preGraph_tagPair {m : Aiger} {p : PreState} (h : preGraph m = .ok p) : TagPair p.tag := by
  obtain ⟨t0, p1, h0, h1, rfl⟩ := preGraph_ok h
  rw [foldl_preInput_tag]
  have ht0 : TagPair t0 :=
    forRun_inv tagged TagPair (fun _ => True) (fun a b a1 ha _ hs => ha.after_tagged b hs)
      m.constraints _ t0 tagPair_init (fun _ _ => trivial) h0
  refine forRun_inv (preGate (markInputs m.inputs)) (fun p => TagPair p.tag) (fun _ => True) ?_
    m.ands.reverse ⟨t0, TwoSat.init⟩ p1 ht0 (fun _ _ => trivial) h1
  intro a b a1 ha _ hstep
  rcases preGate_tag hstep with ⟨_, t1, ht1, ht2, _⟩ | ⟨e, _⟩
  · exact (TagPair.after_tagged ha _ ht1).after_tagged _ ht2
  · show TagPair a1.tag
    rw [e]; exact ha

/-- Soundness of the backward tagging pass: a literal tagged 1 is 1 under every
input assignment that makes all constraint literals 1. -/
theorem preGraph_tag_sound {m : Aiger} (hwf : GatesOrdered m.ands) {p : PreState}
    (h : preGraph m = .ok p) (σ : Nat → Bool)
    (hσ : ∀ c ∈ m.constraints, litVal (aigEval m σ) c = true) :
    ∀ l, p.tag l = 1 → litVal (aigEval m σ) l = true := by
  obtain ⟨t0, p1, h0, h1, rfl⟩ := preGraph_ok h
  rw [foldl_preInput_tag]
  have ht0 : ∀ l, t0 l = 1 → litVal (aigEval m σ) l = true :=
    forRun_inv tagged (fun t => ∀ l, t l = 1 → litVal (aigEval m σ) l = true)
      (fun c => litVal (aigEval m σ) c = true)
      (fun a b a1 ha hb hs => tagged_sound _ b ha hb hs)
      m.constraints _ t0 (fun l hl => by simp at hl) hσ h0
  refine forRun_inv (preGate (markInputs m.inputs))
    (fun p => ∀ l, p.tag l = 1 → litVal (aigEval m σ) l = true) (fun a => a ∈ m.ands) ?_
    m.ands.reverse ⟨t0, TwoSat.init⟩ p1 ht0 (fun a ha => List.mem_reverse.1 ha) h1
  intro a b a1 ha hb hstep
  rcases preGate_tag hstep with ⟨hl, t1, ht1, ht2, _⟩ | ⟨e, _⟩
  · have hv := ha _ hl
    have he := hwf.lhs_even b hb
    have hg := aigEval_gate m σ hwf b hb
    simp only [litVal, he, if_true] at hv
    rw [hv] at hg
    have hb0 : litVal (aigEval m σ) b.rhs0 = true := by
      cases h0 : litVal (aigEval m σ) b.rhs0
      · rw [h0] at hg; simp at hg
      · rfl
    have hb1 : litVal (aigEval m σ) b.rhs1 = true := by
      cases h1 : litVal (aigEval m σ) b.rhs1
      · rw [h1] at hg; simp at hg
      · rfl
    exact tagged_sound _ _ (tagged_sound _ _ ha hb0 ht1) hb1 ht2
  · show ∀ l, a1.tag l = 1 → _
    rw [e]; exact ha

theorem xor_xor_one_self (x : Nat) : x ^^^ (x ^^^ 1) = 1 := by
  rw [← Nat.xor_assoc, Nat.xor_self, Nat.zero_xor]

theorem add_edge_mono (g : TwoSat) (a b : Nat) {x y : Nat} (h : y ∈ g.eg x) :
    y ∈ (add_edge g a b).eg x := by
  unfold add_edge
  split_ifs
  · dsimp only
    rw [Function.update_apply]
    split_ifs with e
    · rw [e] at h; exact List.mem_append_left _ h
    · exact h
  · dsimp only
    simp only [Function.update_apply]
    split_ifs with e1 e2 e2
    · rw [e1] at h; rw [← e2]; exact List.mem_append_left _ (List.mem_append_left _ h)
    · rw [e1] at h; exact List.mem_append_left _ h
    · rw [e2] at h; exact List.mem_append_left _ h
    · exact h

theorem add_edge_self (g : TwoSat) (x : Nat) : (x ^^^ 1) ∈ (add_edge g x (x ^^^ 1)).eg x := by
  unfold add_edge
  rw [if_pos (xor_xor_one_self x)]
  simp

theorem preInput_mono (p : PreState) (lit : Nat) {x y : Nat} (h : y ∈ p.g.eg x) :
    y ∈ (preInput p lit).g.eg x := by
  unfold preInput; split_ifs
  · exact add_edge_mono _ _ _ h
  · exact h

theorem foldl_preInput_mono (inputs : List Nat) (p : PreState) {x y : Nat}
    (h : y ∈ p.g.eg x) : y ∈ (inputs.foldl preInput p).g.eg x := by
  induction inputs generalizing p with
  | nil => exact h
  | cons a as ih => rw [List.foldl_cons]; exact ih _ (preInput_mono p a h)

theorem foldl_preInput_edge (inputs : List Nat) (p : PreState) (lit : Nat)
    (hl : lit ∈ inputs) (ht : p.tag lit ≠ -1) :
    ((lit ^^^ (p.tag lit).toNat) ^^^ 1) ∈
      (inputs.foldl preInput p).g.eg (lit ^^^ (p.tag lit).toNat) := by
  induction inputs generalizing p with
  | nil => cases hl
  | cons a as ih =>
    rw [List.foldl_cons]
    rcases List.mem_cons.1 hl with e | hl
    · subst e
      apply foldl_preInput_mono
      unfold preInput
      rw [if_pos ht]
      exact add_edge_self _ _
    · have := ih (preInput p a) hl (by rw [preInput_tag]; exact ht)
      rw [preInput_tag] at this
      exact this

/-- The loop over the inputs gives every tagged input literal an edge from its
complement. -/
theorem preGraph_tagged_edge {m : Aiger} {p : PreState} (h : preGraph m = .ok p) (l : Nat)
    (hl : l ∈ m.inputs ∨ l ^^^ 1 ∈ m.inputs) (ht : p.tag l = 1) : l ∈ p.g.eg (l ^^^ 1) := by
  have hpair := preGraph_tagPair h
  obtain ⟨t0, p1, _, _, rfl⟩ := preGraph_ok h
  rw [foldl_preInput_tag] at ht hpair
  rcases hl with hl | hl
  · have := foldl_preInput_edge m.inputs p1 l hl (by rw [ht]; decide)
    rw [ht] at this
    simpa [xor_one_xor_one] using this
  · have ht0 : p1.tag (l ^^^ 1) = 0 := by
      rw [hpair.pair, xor_one_xor_one]; exact ht
    have := foldl_preInput_edge m.inputs p1 (l ^^^ 1) hl (by rw [ht0]; decide)
    rw [ht0] at this
    simpa [xor_one_xor_one] using this

theorem assignCons_one_ok {cons cons1 : Nat → Int} {x : Nat}
    (h : assignCons cons x 1 = .ok cons1) :
    (cons x = -1 ∨ cons x = 1) ∧
      cons1 = Function.update (Function.update cons x 1) (x ^^^ 1) 0 := by
  unfold assignCons at h
  split_ifs at h with h0
  cases h
  exact ⟨by simpa using h0, by simp⟩

theorem assign_loop (ch : List Nat) :
    ∀ (c0 c1 : Nat → Int), (∀ l, c0 l = 1 → c0 (l ^^^ 1) = 0) →
      forRun (fun cons x => assignCons cons x 1) ch c0 = .ok c1 →
      (∀ l, c1 l = 1 → c1 (l ^^^ 1) = 0) ∧ (∀ l, c0 l = 1 → c1 l = 1) ∧
        ∀ l ∈ ch, c1 l = 1 := by
  induction ch with
  | nil =>
    intro c0 c1 hj h
    simp only [forRun] at h
    cases h
    exact ⟨hj, fun _ h => h, fun l hl => absurd hl (List.not_mem_nil l)⟩
  | cons x xs ih =>
    intro c0 c1 hj h
    rw [forRun_cons, Run.bind_eq_ok] at h
    obtain ⟨c2, h1, h2⟩ := h
    obtain ⟨hx, rfl⟩ := assignCons_one_ok h1
    have hxne := xor_one_ne x
    have hj2 : ∀ l, Function.update (Function.update c0 x 1) (x ^^^ 1) 0 l = 1 →
        Function.update (Function.update c0 x 1) (x ^^^ 1) 0 (l ^^^ 1) = 0 := by
      intro l hl
      simp only [Function.update_apply] at hl ⊢
      split_ifs at hl with e1 e2
      · exact absurd hl (by decide)
      · subst e2; simp
      · have e3 : l ^^^ 1 ≠ x ^^^ 1 := by
          intro e; apply e2
          rw [← xor_one_xor_one l, e, xor_one_xor_one]
        rw [if_neg e3]
        split_ifs with e4
        · exfalso
          have : l = x ^^^ 1 := by rw [← e4, xor_one_xor_one]
          exact e1 this
        · exact hj l hl
    have hkeep : ∀ l, c0 l = 1 → Function.update (Function.update c0 x 1) (x ^^^ 1) 0 l = 1 := by
      intro l hl
      simp only [Function.update_apply]
      split_ifs with e1 e2
      · exfalso
        have := hj l hl
        rw [e1, xor_one_xor_one] at this
        rcases hx with hx | hx <;> rw [this] at hx <;> exact absurd hx (by decide)
      · rfl
      · exact hl
    obtain ⟨r1, r2, r3⟩ := ih _ c1 hj2 h2
    refine ⟨r1, fun l hl => r2 l (hkeep l hl), ?_⟩
    intro l hl
    rcases List.mem_cons.1 hl with e | hl
    · subst e
      apply r2
      simp [Function.update_apply, hxne.symm]
    · exact r3 l hl

/-- The parts of a successful `preprocessing`. -/
theorem preprocessing_ok {m : Aiger} {r : PreResult} (h : preprocessing m = .ok r) :
    ∃ p ch, preGraph m = .ok p ∧ solve p.g = .ok ch ∧
      forRun (fun cons x => assignCons cons x 1) ch (fun _ => -1) = .ok r.cons ∧ r.g = p.g := by
  unfold preprocessing at h
  rw [Run.bind_eq_ok] at h
  obtain ⟨p, hp, h⟩ := h
  rw [Run.bind_eq_ok] at h
  obtain ⟨ch, hch, h⟩ := h
  rw [Run.bind_eq_ok] at h
  obtain ⟨cons, hc, h⟩ := h
  cases h
  exact ⟨p, ch, hp, hch, hc, rfl⟩

/-! ## The claims on preprocessing and 2-SAT -/

/-- C6, as stated, fails: for the gate `6 = 4 AND 2` under the constraint
`NOT 6`, preprocessing fixes the input literal 2 to 1, although the inputs
`2 = 0, 4 = 1` satisfy the constraint. -/
theorem preprocessing_fixes_unforced_literal :
    (preprocessing nandModel).holds (fun r => r.cons 2 == 1) = true ∧
    2 ∈ nandModel.inputs ∧
    ∃ σ, (∀ c ∈ nandModel.constraints, litVal (aigEval nandModel σ) c = true) ∧
      litVal (aigEval nandModel σ) 2 = false :=
  ⟨by decide, by decide, fun v => decide (v = 2), by decide, by decide⟩

/-- C6, amended. Every input literal that the backward pass of preprocessing
tags asserted-true is fixed to 1 by a successful preprocessing (`cons[l] = 1`)
and is forced: every input assignment under which all constraint literals
evaluate to 1 sets it to 1. -/
theorem preprocessing_tagged_inputs_forced (m : Aiger) (hwf : GatesOrdered m.ands)
    (p : PreState) (r : PreResult) (hp : preGraph m = .ok p) (hr : preprocessing m = .ok r)
    (l : Nat) (hl : l ∈ m.inputs ∨ l ^^^ 1 ∈ m.inputs) (ht : p.tag l = 1) :
    r.cons l = 1 ∧
    ∀ σ, (∀ c ∈ m.constraints, litVal (aigEval m σ) c = true) →
      litVal (aigEval m σ) l = true := by
  refine ⟨?_, fun σ hσ => preGraph_tag_sound hwf hp σ hσ l ht⟩
  obtain ⟨p', ch, hp', hch, hcons, _⟩ := preprocessing_ok hr
  rw [hp] at hp'
  cases hp'
  have hc := preGraph_closed hp
  have hedge := preGraph_tagged_edge hp l hl ht
  obtain ⟨_, hone, hnot⟩ := solve_ok_props p.g hc ch hch
  have hln : l ∈ p.g.node := (hc.eg_node _ l hedge).2
  have hch_l : l ∈ ch := by
    rw [hone l hln]
    intro hm
    apply (hnot _ hm).2
    rw [xor_one_xor_one]
    exact Reach.edge hedge
  exact (assign_loop ch _ _ (fun l hl => by simp at hl) hcons).2.2 l hch_l

/-- Witness for the amended C6: in the model whose gate is constrained to 1
both inputs are tagged, fixed and forced. -/
theorem preprocessing_tagged_inputs_forced_witness :
    ((preprocessing andModel).get PreResult.init).cons 2 = 1 ∧
    ∀ σ, (∀ c ∈ andModel.constraints, litVal (aigEval andModel σ) c = true) →
      litVal (aigEval andModel σ) 2 = true :=
  preprocessing_tagged_inputs_forced andModel
    ⟨by decide, by decide, by decide, by decide⟩
    ((preGraph andModel).get PreState.init) ((preprocessing andModel).get PreResult.init)
    rfl rfl 2 (by decide) (by decide)

/-- C7. For every implication graph built by `add_edge` in which no literal
shares a strongly connected component with its complement, `solve` returns a
duplicate-free list holding exactly one literal of each complementary pair of
appearing literals; the complement of a returned literal is never reachable from it, so
the returned literal is the one whose component comes later in the topological
order of the condensation. -/
theorem solve_returns_later_literal (es : List (Nat × Nat))
    (hno : ∀ l ∈ (buildGraph es).node,
      ¬ (Reach (buildGraph es).eg l (l ^^^ 1) ∧ Reach (buildGraph es).eg (l ^^^ 1) l)) :
    ∃ ch, solve (buildGraph es) = .ok ch ∧ ch.Nodup ∧
      (∀ l ∈ (buildGraph es).node, (l ∈ ch ↔ l ^^^ 1 ∉ ch)) ∧
      (∀ l ∈ ch, l ∈ (buildGraph es).node ∧ ¬ Reach (buildGraph es).eg l (l ^^^ 1)) :=
  solve_ok (buildGraph es) (buildGraph_closed es) hno

theorem reach_eq_of_no_edge {adj : Nat → List Nat} {a b : Nat} (h : Reach adj a b)
    (ha : adj a = []) : b = a :=
  Reach.closed (fun z => z = a) (fun z hz y hy => by subst hz; rw [ha] at hy; cases hy) h rfl

/-- Witness for C7: the graph of the single call `add_edge(4, 2)`, with the
edges `4 → 3` and `2 → 5`. -/
theorem solve_returns_later_literal_witness :
    ∃ ch, solve (buildGraph [(4, 2)]) = .ok ch ∧ ch.Nodup ∧
      (∀ l ∈ (buildGraph [(4, 2)]).node, (l ∈ ch ↔ l ^^^ 1 ∉ ch)) ∧
      (∀ l ∈ ch, l ∈ (buildGraph [(4, 2)]).node ∧
        ¬ Reach (buildGraph [(4, 2)]).eg l (l ^^^ 1)) :=
  solve_returns_later_literal [(4, 2)] (by
    intro l hl
    have hl' : l = 4 ∨ l = 5 ∨ l = 2 ∨ l = 3 := by
      simpa [buildGraph, add_edge, TwoSat.init] using hl
    rcases hl' with rfl | rfl | rfl | rfl
    · rintro ⟨_, h⟩
      exact absurd (reach_eq_of_no_edge h (by decide)) (by decide)
    · rintro ⟨h, _⟩
      exact absurd (reach_eq_of_no_edge h (by decide)) (by decide)
    · rintro ⟨_, h⟩
      exact absurd (reach_eq_of_no_edge h (by decide)) (by decide)
    · rintro ⟨h, _⟩
      exact absurd (reach_eq_of_no_edge h (by decide)) (by decide))

/-- C8. Preprocessing fails, at the assertion of `solve`, whenever a literal
of the implication graph and its complement lie in one strongly connected
component; in particular it fails for the inputs 2 and 4 with the gate
`6 = 4 AND 2` and the constraints `NOT 6`, `2` and `4`. -/
theorem preprocessing_fails_on_shared_component :
    (∀ (m : Aiger) (p : PreState) (l : Nat), preGraph m = .ok p →
      Reach p.g.eg l (l ^^^ 1) → Reach p.g.eg (l ^^^ 1) l → preprocessing m = .abort) ∧
    preprocessing infeasibleModel = .abort := by
  have gen : ∀ (m : Aiger) (p : PreState) (l : Nat), preGraph m = .ok p →
      Reach p.g.eg l (l ^^^ 1) → Reach p.g.eg (l ^^^ 1) l → preprocessing m = .abort := by
    intro m p l hp h1 h2
    have hc := preGraph_closed hp
    have hl : l ∈ p.g.node := by
      rcases Relation.ReflTransGen.cases_head h1 with e | ⟨c, hc1, _⟩
      · exact absurd e.symm (xor_one_ne l)
      · exact (hc.eg_node l c hc1).1
    unfold preprocessing
    rw [hp]
    simp only [Run.bind, solve_abort p.g hc l hl h1 h2]
  exact ⟨gen, rfl⟩

/-- Witness for C8: in the infeasible scenario the literals 2 and 3 reach each
other (`2 → 5 → 4 → 3` and `3 → 2`), and preprocessing aborts. -/
theorem preprocessing_fails_on_shared_component_witness :
    preGraph infeasibleModel = .ok ((preGraph infeasibleModel).get PreState.init) ∧
    (preprocessing infeasibleModel).isAbort = true :=
  ⟨rfl, by
    rw [preprocessing_fails_on_shared_component.1 infeasibleModel
      ((preGraph infeasibleModel).get PreState.init) 2 rfl
      ((Reach.edge (by decide : 5 ∈ _)).trans
        ((Reach.edge (by decide : 4 ∈ _)).trans (Reach.edge (by decide : 3 ∈ _))))
      (Reach.edge (by decide : 2 ∈ _))]
    rfl⟩

/-! ## Rounds that violate a constraint -/

theorem checkConstraints_violated (table : Nat → Int) (cs : List Nat)
    (h : ∃ c ∈ cs, table c = 0) :
    checkConstraints table cs = .ok false ∨ checkConstraints table cs = .abort := by
  induction cs with
  | nil => obtain ⟨c, hc, _⟩ := h; cases hc
  | cons a as ih =>
    unfold checkConstraints
    split_ifs with h1 h2
    · right; rfl
    · left; rfl
    · apply ih
      obtain ⟨c, hc, h0⟩ := h
      rcases List.mem_cons.1 hc with e | hc
      · rw [e] at h0; exact absurd h0 h2
      · exact ⟨c, hc, h0⟩

theorem btorConstraints_violated (cur : Nat → BtorState) (cs : List Nat)
    (h : ∃ c ∈ cs, ∃ bits, cur c = .bitvec (some bits) ∧ bv_is_zero bits = true) :
    ∀ b, btorConstraints cur cs = .ok b → b = false := by
  induction cs with
  | nil => obtain ⟨c, hc, _⟩ := h; cases hc
  | cons a as ih =>
    intro b hb
    unfold btorConstraints at hb
    cases hca : cur a with
    | other => rw [hca] at hb; cases hb
    | bitvec o =>
      cases o with
      | none => rw [hca] at hb; cases hb
      | some bits =>
        rw [hca] at hb
        simp only at hb
        split_ifs at hb with hz
        · cases hb; rfl
        · apply ih _ b hb
          obtain ⟨c, hc, bits', h1, h2⟩ := h
          rcases List.mem_cons.1 hc with e | hc
          · rw [e, hca] at h1
            cases h1
            exact absurd h2 hz
          · exact ⟨c, hc, bits', h1, h2⟩

/-- C9. In both simulators a round in which some constraint evaluates to 0 is
not counted as successful (`succ` is unchanged) and leaves the fingerprint
accumulator of every node as it was before the round. -/
theorem violated_round_is_discarded :
    (∀ (m : Aiger) (cons : Nat → Int) (eg : Nat → List Nat) (s : AigSim) (st : InitState)
        (res : RoundResult),
      roundTable m cons eg s.rng = .ok st → (∃ c ∈ m.constraints, st.table c = 0) →
      aigRound m cons eg s = .ok res →
      ∃ s1, res = .next s1 ∧ s1.hvalue = s.hvalue ∧ s1.succ = s.succ) ∧
    (∀ (cs bads : List Nat) (n step : Nat) (e : BtorEval) (s s1 : BtorSim),
      (∃ c ∈ cs, ∃ bits, e.cur c = .bitvec (some bits) ∧ bv_is_zero bits = true) →
      btorRound cs bads n step e s = .ok s1 →
      s1.hash_value = s.hash_value ∧ s1.succ = s.succ ∧ s1.satisfied = s.satisfied) := by
  constructor
  · intro m cons eg s st res hst hc hres
    unfold aigRound at hres
    rw [hst] at hres
    simp only [Run.bind] at hres
    rcases checkConstraints_violated st.table m.constraints hc with h | h
    · rw [h] at hres
      simp only [Run.bind] at hres
      cases hres
      exact ⟨_, rfl, rfl, rfl⟩
    · rw [h] at hres
      simp only [Run.bind] at hres
      cases hres
  · intro cs bads n step e s s1 hc hres
    unfold btorRound at hres
    rw [Run.bind_eq_ok] at hres
    obtain ⟨q, hq, hres⟩ := hres
    have hq' : q = (false, s) := by
      unfold simulate_step at hq
      split_ifs at hq with hk
      · cases hq; rfl
      · rw [Run.bind_eq_ok] at hq
        obtain ⟨sat, hsat, hq⟩ := hq
        have := btorConstraints_violated e.cur cs hc sat hsat
        subst this
        simp only [Bool.false_eq_true, if_false] at hq
        cases hq; rfl
    subst hq'
    simp only [Bool.false_eq_true, if_false] at hres
    cases hres
    exact ⟨rfl, rfl, rfl⟩

/-- Witness for C9: a round of the AIG simulator on `wideModel` with all
inputs drawn 1, where the constraint literal 71 is 0, and a round of the
word-level simulator whose constraint argument is the zero vector. -/
theorem violated_round_is_discarded_witness :
    (∃ s1, (aigRound wideModel (fun _ => -1) (fun _ => []) AigSim.ones).get (.exit 0) = .next s1 ∧
      s1.hvalue = AigSim.ones.hvalue ∧ s1.succ = AigSim.ones.succ) ∧
    (((btorRound [1] [] 3 1 zeroOneEval (BtorSim.init [])).get (BtorSim.init [])).hash_value =
        (BtorSim.init []).hash_value ∧
      ((btorRound [1] [] 3 1 zeroOneEval (BtorSim.init [])).get (BtorSim.init [])).succ = 0 ∧
      ((btorRound [1] [] 3 1 zeroOneEval (BtorSim.init [])).get (BtorSim.init [])).satisfied
        = []) :=
  ⟨violated_round_is_discarded.1 wideModel (fun _ => -1) (fun _ => []) AigSim.ones
      ((roundTable wideModel (fun _ => -1) (fun _ => []) AigSim.ones.rng).get InitState.zero)
      ((aigRound wideModel (fun _ => -1) (fun _ => []) AigSim.ones).get (.exit 0))
      rfl ⟨71, by decide, by decide⟩ rfl,
   violated_round_is_discarded.2 [1] [] 3 1 zeroOneEval (BtorSim.init [])
      ((btorRound [1] [] 3 1 zeroOneEval (BtorSim.init [])).get (BtorSim.init []))
      ⟨1, by decide, [false], rfl, rfl⟩ rfl⟩

/-! ## The fingerprint loop of the word-level simulator -/

theorem hashNode_apply (e : BtorEval) (hv : Nat → Nat × Nat) (i u : Nat) :
    hashNode e hv i u = if u = i then foldIn e u (hv u) else hv u := by
  unfold hashNode foldIn
  by_cases h : u = i
  · subst h
    rw [if_pos rfl]
    cases hc : e.cur u with
    | other => rfl
    | bitvec o =>
      cases o with
      | none => rfl
      | some bits => simp
  · rw [if_neg h]
    cases hc : e.cur i with
    | other => rfl
    | bitvec o =>
      cases o with
      | none => rfl
      | some bits => simp [Function.update_apply, h]

theorem foldl_hashNode_apply (e : BtorEval) (is : List Nat) (hnd : is.Nodup) :
    ∀ (hv : Nat → Nat × Nat) (u : Nat),
      is.foldl (hashNode e) hv u = if u ∈ is then foldIn e u (hv u) else hv u := by
  induction is with
  | nil => intro hv u; simp
  | cons i is ih =>
    intro hv u
    obtain ⟨hi, hnd'⟩ := List.nodup_cons.1 hnd
    rw [List.foldl_cons, ih hnd', hashNode_apply]
    by_cases hu : u ∈ is
    · have hne : u ≠ i := fun e' => hi (e' ▸ hu)
      rw [if_pos hu, if_neg hne, if_pos (List.mem_cons_of_mem _ hu)]
    · rw [if_neg hu]
      by_cases hui : u = i
      · rw [if_pos hui, if_pos (by rw [hui]; exact List.mem_cons_self _ _)]
      · rw [if_neg hui, if_neg (fun hm => (List.mem_cons.1 hm).elim hui hu)]

/-- The passes `i < n` of the loop of lines 933-947 stay inside the vectors and
fold the values of the round into the accumulators. -/
theorem hashLoop_in_range (e : BtorEval) (n : Nat) :
    ∀ (k start : Nat) (hv : Nat → Nat × Nat), start + k ≤ n →
      forRun (hashStep e n) (List.range' start k) hv =
        .ok ((List.range' start k).foldl (hashNode e) hv) := by
  intro k
  induction k with
  | zero => intro start hv _; rfl
  | succ k ih =>
    intro start hv h
    rw [List.range'_succ, forRun_cons, List.foldl_cons]
    unfold hashStep
    rw [if_pos (by omega)]
    simp only [Run.bind]
    exact ih (start + 1) _ (by omega)

/-- In the passes below `n`, two nodes that hold the same value in the round
and have equal accumulators keep equal accumulators. -/
theorem hashLoop_in_range_stable (e : BtorEval) (n u v : Nat) (hv : Nat → Nat × Nat)
    (hu : 1 ≤ u ∧ u < n) (hw : 1 ≤ v ∧ v < n) (heq : e.cur u = e.cur v) (h : hv u = hv v) :
    ∃ hv1, forRun (hashStep e n) (List.range' 1 (n - 1)) hv = .ok hv1 ∧ hv1 u = hv1 v := by
  refine ⟨_, hashLoop_in_range e n (n - 1) 1 hv (by omega), ?_⟩
  have hmu : u ∈ List.range' 1 (n - 1) := by
    rw [List.mem_range']; exact ⟨u - 1, by omega, by omega⟩
  have hmv : v ∈ List.range' 1 (n - 1) := by
    rw [List.mem_range']; exact ⟨v - 1, by omega, by omega⟩
  rw [foldl_hashNode_apply _ _ (List.nodup_range' 1 (n - 1)), if_pos hmu,
    foldl_hashNode_apply _ _ (List.nodup_range' 1 (n - 1)), if_pos hmv]
  unfold foldIn
  rw [heq, h]

/-- The loop of lines 933-947 ends with the pass `i = n`, which is outside the
vectors. -/
theorem hashLoop_out_of_range (e : BtorEval) (n : Nat) :
    ∀ (k start : Nat) (hv : Nat → Nat × Nat), start + k = n →
      forRun (hashStep e n) (List.range' start (k + 1)) hv = .ub := by
  intro k
  induction k with
  | zero =>
    intro start hv h
    rw [List.range'_succ, forRun_cons]
    unfold hashStep
    rw [if_neg (by omega)]
    rfl
  | succ k ih =>
    intro start hv h
    rw [List.range'_succ, forRun_cons]
    unfold hashStep
    rw [if_pos (by omega)]
    simp only [Run.bind]
    exact ih (start + 1) _ (by omega)

/-- A round in which `simulate_step` returns 1 runs the loop of lines 933-947
and with it the pass `i = num_format_lines`. -/
theorem btorRound_satisfied_out_of_range (cs bads : List Nat) (n step : Nat) (e : BtorEval)
    (s s1 : BtorSim) (hn : 0 < n) (h : simulate_step cs bads e step s = .ok (true, s1)) :
    btorRound cs bads n step e s = .ub := by
  unfold btorRound
  rw [h]
  simp only [Run.bind, if_true]
  obtain ⟨k, rfl⟩ : ∃ k, n = k + 1 := ⟨n - 1, by omega⟩
  rw [hashLoop_out_of_range _ (k + 1) k 1 _ (by omega)]

/-- In a round of `notNotEval` the constraint holds and one of the two bad
properties is reached. -/
theorem simulate_step_notNotEval (b1 b2 : Nat) (x : Bool) (step : Nat) :
    simulate_step [5] [3, 4] (notNotEval b1 b2 x) (step + 1) (BtorSim.init [3, 4]) =
      .ok (true, { BtorSim.init [3, 4] with
        reached_bads := [if x then -1 else ((step + 1 : Nat) : Int),
          if x then ((step + 1 : Nat) : Int) else -1]
        num_unreached_bads := 1 }) := by
  cases x <;> rfl

/-- C10, at the failing input. For the model `1 sort bitvec 1`, `2 input 1`,
`3 not 1 2`, `4 not 1 3`, `5 one 1`, `6 constraint 5`, `7 bad 3`, `8 bad 4`
(`num_format_lines` is 8) the nodes 2 and 4 hold the same value in every
round, whatever is drawn, and the first round satisfies the constraint. The
run does not end with equal accumulators of the nodes 2 and 4: the
fingerprint loop of the first round reaches the pass `i = 8`, outside
`current_state` and `hash_value`, and the behaviour of the run is undefined. -/
theorem btor_fingerprint_loop_leaves_tables (b1 b2 : Nat → Nat) (x : Nat → Bool) (R : Nat) :
    (∀ s, (notNotEval (b1 s) (b2 s) (x s)).cur 2 = (notNotEval (b1 s) (b2 s) (x s)).cur 4) ∧
    btorSimulation [5] [3, 4] 8 (R + 1) (fun s => notNotEval (b1 s) (b2 s) (x s)) = .ub := by
  refine ⟨fun _ => rfl, ?_⟩
  unfold btorSimulation btorLoop
  rw [if_neg (by decide),
    btorRound_satisfied_out_of_range _ _ 8 1 _ _ _ (by decide)
      (simulate_step_notNotEval (b1 1) (b2 1) (x 1) 0)]
  rfl

/-! ## The union-find keeps the smallest id of each class -/

theorem UnionSet.Rep.rep_lt {u : UnionSet} {R : Nat → Nat → Prop} {rep : Nat → Nat}
    (h : u.Rep R rep) {x : Nat} (hx : x < u.size) : rep x < u.size :=
  lt_of_le_of_lt (h.le x) hx

theorem UnionSet.Rep.rel_rep {u : UnionSet} {R : Nat → Nat → Prop} {rep : Nat → Nat}
    (h : u.Rep R rep) (x : Nat) : Relation.EqvGen R x (rep x) :=
  (h.conn x (rep x)).1 (h.idem x).symm

/-- The fresh set represents the empty relation. -/
theorem UnionSet.rep_fresh (n : Nat) : (UnionSet.fresh n).Rep (fun _ _ => False) id := by
  refine ⟨fun x => le_refl x, fun x => rfl, fun x _ => rfl, fun x _ _ => rfl, ?_, ?_⟩
  · intro x _ hne
    exact absurd rfl hne
  · intro x y
    constructor
    · intro h
      have h1 : x = y := h
      subst h1
      exact Relation.EqvGen.refl x
    · intro h
      induction h with
      | rel a b hab => exact hab.elim
      | refl a => rfl
      | symm a b _ ih => exact ih.symm
      | trans a b c _ _ ih1 ih2 => exact ih1.trans ih2

/-- Path compression: pointing a node at its representative keeps the
represented partition. -/
theorem UnionSet.Rep.compress {u : UnionSet} {R : Nat → Nat → Prop} {rep : Nat → Nat}
    (h : u.Rep R rep) {x : Nat} (hx : x < u.size) (hne : rep x < x) :
    UnionSet.Rep { u with fa := Function.update u.fa x (rep x : Int) } R rep := by
  have hroot : ∀ z, z < u.size → rep z ≠ x := by
    intro z hz he
    have h1 := h.root z hz
    rw [he] at h1
    have h2 := h.fix x hx h1
    omega
  refine ⟨h.le, h.idem, ?_, ?_, ?_, h.conn⟩
  · intro z hz
    show Function.update u.fa x (rep x : Int) (rep z) = -1
    rw [Function.update_noteq (hroot z hz)]
    exact h.root z hz
  · intro z hz hfa
    have hfa1 : Function.update u.fa x (rep x : Int) z = -1 := hfa
    by_cases hzx : z = x
    · subst hzx
      rw [Function.update_same] at hfa1
      omega
    · rw [Function.update_noteq hzx] at hfa1
      exact h.fix z hz hfa1
  · intro z hz hfa
    have hfa1 : Function.update u.fa x (rep x : Int) z ≠ -1 := hfa
    show 0 ≤ Function.update u.fa x (rep x : Int) z ∧
      (Function.update u.fa x (rep x : Int) z).toNat < z ∧
      rep (Function.update u.fa x (rep x : Int) z).toNat = rep z
    by_cases hzx : z = x
    · subst hzx
      rw [Function.update_same]
      refine ⟨Int.ofNat_nonneg _, ?_, ?_⟩
      · simpa using hne
      · simpa using h.idem z
    · rw [Function.update_noteq hzx] at hfa1 ⊢
      exact h.parent z hz hfa1

/-- Total correctness of `findset`: with a budget above `x` the call returns
the representative of `x`, and the compressed vector represents the same
partition. -/
theorem UnionSet.findset_spec {R : Nat → Nat → Prop} {rep : Nat → Nat} :
    ∀ (fuel : Nat) (u : UnionSet) (x : Nat), u.Rep R rep → x < u.size → x < fuel →
      ∃ u1, UnionSet.findset fuel u x = .ok (rep x, u1) ∧ u1.size = u.size ∧ u1.Rep R rep := by
  intro fuel
  induction fuel with
  | zero => intro u x _ _ hf; omega
  | succ fuel ih =>
    intro u x h hx hf
    unfold UnionSet.findset
    rw [if_neg (by omega)]
    by_cases hfa : u.fa x = -1
    · rw [if_pos hfa, h.fix x hx hfa]
      exact ⟨u, rfl, rfl, h⟩
    · rw [if_neg hfa]
      obtain ⟨h0, hp, hrep⟩ := h.parent x hx hfa
      rw [if_neg (by omega)]
      obtain ⟨u1, he, hs, h1⟩ := ih u (u.fa x).toNat h (by omega) (by omega)
      rw [he]
      simp only [Run.bind]
      have hlt : rep x < x := by
        have := h.le (u.fa x).toNat
        omega
      rw [hrep]
      refine ⟨_, rfl, hs, ?_⟩
      exact h1.compress (by omega) hlt

theorem UnionSet.find_spec {R : Nat → Nat → Prop} {rep : Nat → Nat} (u : UnionSet) (x : Nat)
    (h : u.Rep R rep) (hx : x < u.size) :
    ∃ u1, u.find x = .ok (rep x, u1) ∧ u1.size = u.size ∧ u1.Rep R rep :=
  UnionSet.findset_spec u.size u x h hx hx

/-- Adding a pair that is already connected changes nothing. -/
theorem UnionSet.Rep.extend {u : UnionSet} {R : Nat → Nat → Prop} {rep : Nat → Nat}
    (h : u.Rep R rep) {x y : Nat} (hxy : rep x = rep y) :
    u.Rep (fun a b => R a b ∨ (a = x ∧ b = y)) rep := by
  refine ⟨h.le, h.idem, h.root, h.fix, h.parent, ?_⟩
  intro a b
  constructor
  · intro hab
    exact Relation.EqvGen.mono (fun _ _ hr => Or.inl hr) ((h.conn a b).1 hab)
  · intro hab
    induction hab with
    | rel a b hab =>
      rcases hab with hr | ⟨rfl, rfl⟩
      · exact (h.conn a b).2 (Relation.EqvGen.rel a b hr)
      · exact hxy
    | refl a => rfl
    | symm a b _ ih => exact ih.symm
    | trans a b c _ _ ih1 ih2 => exact ih1.trans ih2

/-- Linking two distinct representatives, the larger below the smaller, joins
their classes and represents the relation extended by the merged pair. -/
theorem UnionSet.Rep.link {u : UnionSet} {R : Nat → Nat → Prop} {rep : Nat → Nat}
    (h : u.Rep R rep) {x y lo hi : Nat} (hx : x < u.size) (hy : y < u.size)
    (hlt : lo < hi) (hends : (rep x = lo ∧ rep y = hi) ∨ (rep x = hi ∧ rep y = lo)) :
    UnionSet.Rep { u with fa := Function.update u.fa hi (lo : Int) }
      (fun a b => R a b ∨ (a = x ∧ b = y)) (linkRep rep lo hi) := by
  have hlo : ∃ z, z < u.size ∧ rep z = lo := by
    rcases hends with ⟨h1, _⟩ | ⟨_, h1⟩
    · exact ⟨x, hx, h1⟩
    · exact ⟨y, hy, h1⟩
  have hhi : ∃ z, z < u.size ∧ rep z = hi := by
    rcases hends with ⟨_, h1⟩ | ⟨h1, _⟩
    · exact ⟨y, hy, h1⟩
    · exact ⟨x, hx, h1⟩
  obtain ⟨zl, hzl, hrl⟩ := hlo
  obtain ⟨zh, hzh, hrh⟩ := hhi
  have hlos : lo < u.size := hrl ▸ h.rep_lt hzl
  have hhis : hi < u.size := hrh ▸ h.rep_lt hzh
  have hrlo : rep lo = lo := by rw [← hrl]; exact h.idem zl
  have hrhi : rep hi = hi := by rw [← hrh]; exact h.idem zh
  have hfalo : u.fa lo = -1 := by rw [← hrl]; exact h.root zl hzl
  have hxy : linkRep rep lo hi x = linkRep rep lo hi y := by
    unfold linkRep
    rcases hends with ⟨h1, h2⟩ | ⟨h1, h2⟩
    · rw [h1, h2, if_neg (by omega), if_pos rfl]
    · rw [h1, h2, if_pos rfl, if_neg (by omega)]
  have hRxy : Relation.EqvGen (fun a b => R a b ∨ (a = x ∧ b = y)) hi lo := by
    have e1 : Relation.EqvGen (fun a b => R a b ∨ (a = x ∧ b = y)) x (rep x) :=
      Relation.EqvGen.mono (fun _ _ hr => Or.inl hr) (h.rel_rep x)
    have e2 : Relation.EqvGen (fun a b => R a b ∨ (a = x ∧ b = y)) y (rep y) :=
      Relation.EqvGen.mono (fun _ _ hr => Or.inl hr) (h.rel_rep y)
    have e3 : Relation.EqvGen (fun a b => R a b ∨ (a = x ∧ b = y)) x y :=
      Relation.EqvGen.rel x y (Or.inr ⟨rfl, rfl⟩)
    have e4 := Relation.EqvGen.trans _ _ _ (Relation.EqvGen.symm _ _ e1)
      (Relation.EqvGen.trans _ _ _ e3 e2)
    rcases hends with ⟨h1, h2⟩ | ⟨h1, h2⟩
    · rw [h1, h2] at e4
      exact Relation.EqvGen.symm _ _ e4
    · rw [h1, h2] at e4
      exact e4
  refine ⟨?_, ?_, ?_, ?_, ?_, ?_⟩
  · intro z
    unfold linkRep
    have := h.le z
    split_ifs <;> omega
  · intro z
    unfold linkRep
    by_cases hc : rep z = hi
    · rw [if_pos hc, hrlo, if_neg (by omega)]
    · rw [if_neg hc, h.idem z, if_neg hc]
  · intro z hz
    show Function.update u.fa hi (lo : Int) (linkRep rep lo hi z) = -1
    unfold linkRep
    by_cases hc : rep z = hi
    · rw [if_pos hc, Function.update_noteq (by omega)]
      exact hfalo
    · rw [if_neg hc, Function.update_noteq hc]
      exact h.root z hz
  · intro z hz hfa
    have hfa1 : Function.update u.fa hi (lo : Int) z = -1 := hfa
    by_cases hzh : z = hi
    · subst hzh
      rw [Function.update_same] at hfa1
      omega
    · rw [Function.update_noteq hzh] at hfa1
      have h1 := h.fix z hz hfa1
      unfold linkRep
      rw [h1, if_neg hzh]
  · intro z hz hfa
    have hfa1 : Function.update u.fa hi (lo : Int) z ≠ -1 := hfa
    show 0 ≤ Function.update u.fa hi (lo : Int) z ∧
      (Function.update u.fa hi (lo : Int) z).toNat < z ∧
      linkRep rep lo hi (Function.update u.fa hi (lo : Int) z).toNat = linkRep rep lo hi z
    by_cases hzh : z = hi
    · subst hzh
      rw [Function.update_same]
      refine ⟨Int.ofNat_nonneg _, by simpa using hlt, ?_⟩
      simp only [Int.toNat_ofNat]
      unfold linkRep
      rw [hrlo, hrhi, if_neg (by omega), if_pos rfl]
    · rw [Function.update_noteq hzh] at hfa1 ⊢
      obtain ⟨h0, h1, h2⟩ := h.parent z hz hfa1
      refine ⟨h0, h1, ?_⟩
      unfold linkRep
      rw [h2]
  · intro a b
    constructor
    · intro hab
      have key : ∀ z, Relation.EqvGen (fun a b => R a b ∨ (a = x ∧ b = y)) z
          (linkRep rep lo hi z) := by
        intro z
        have e1 : Relation.EqvGen (fun a b => R a b ∨ (a = x ∧ b = y)) z (rep z) :=
          Relation.EqvGen.mono (fun _ _ hr => Or.inl hr) (h.rel_rep z)
        unfold linkRep
        by_cases hc : rep z = hi
        · rw [if_pos hc]
          rw [hc] at e1
          exact Relation.EqvGen.trans _ _ _ e1 hRxy
        · rw [if_neg hc]
          exact e1
      have e2 := key a
      have e3 := Relation.EqvGen.symm _ _ (key b)
      rw [hab] at e2
      exact Relation.EqvGen.trans _ _ _ e2 e3
    · intro hab
      induction hab with
      | rel a b hab =>
        rcases hab with hr | ⟨rfl, rfl⟩
        · have := (h.conn a b).2 (Relation.EqvGen.rel a b hr)
          unfold linkRep
          rw [this]
        · exact hxy
      | refl a => rfl
      | symm a b _ ih => exact ih.symm
      | trans a b c _ _ ih1 ih2 => exact ih1.trans ih2

/-- Total correctness of `merge`: it returns, and the vector then represents
the relation extended by the pair. -/
theorem UnionSet.merge_spec {R : Nat → Nat → Prop} {rep : Nat → Nat} (u : UnionSet)
    (x y : Nat) (h : u.Rep R rep) (hx : x < u.size) (hy : y < u.size) :
    ∃ u1 rep1, u.merge x y = .ok u1 ∧ u1.size = u.size ∧
      u1.Rep (fun a b => R a b ∨ (a = x ∧ b = y)) rep1 := by
  obtain ⟨ua, hea, hsa, ha⟩ := UnionSet.find_spec u x h hx
  obtain ⟨ub, heb, hsb, hb⟩ := UnionSet.find_spec ua y ha (by omega)
  unfold UnionSet.merge
  rw [hea]
  simp only [Run.bind]
  rw [heb]
  simp only [Run.bind]
  by_cases he : rep x = rep y
  · rw [if_pos he]
    exact ⟨ub, rep, rfl, by omega, hb.extend he⟩
  · rw [if_neg he]
    by_cases hgt : rep x > rep y
    · rw [if_pos hgt]
      refine ⟨_, linkRep rep (rep y) (rep x), rfl, by show ub.size = u.size; omega, ?_⟩
      exact hb.link (by omega) (by omega) hgt (Or.inr ⟨rfl, rfl⟩)
    · rw [if_neg hgt]
      refine ⟨_, linkRep rep (rep x) (rep y), rfl, by show ub.size = u.size; omega, ?_⟩
      exact hb.link (by omega) (by omega) (by omega) (Or.inl ⟨rfl, rfl⟩)

/-- A run of merges from a represented state returns and represents the
relation extended by all the pairs. -/
theorem UnionSet.forRun_merge_spec :
    ∀ (ps : List (Nat × Nat)) (u : UnionSet) (R : Nat → Nat → Prop) (rep : Nat → Nat),
      u.Rep R rep → (∀ p ∈ ps, p.1 < u.size ∧ p.2 < u.size) →
      ∃ u1 rep1, forRun (fun u p => u.merge p.1 p.2) ps u = .ok u1 ∧ u1.size = u.size ∧
        u1.Rep (fun a b => R a b ∨ (a, b) ∈ ps) rep1 := by
  intro ps
  induction ps with
  | nil =>
    intro u R rep h _
    refine ⟨u, rep, rfl, rfl, ?_⟩
    have e : (fun a b => R a b ∨ (a, b) ∈ ([] : List (Nat × Nat))) = R := by
      funext a b
      simp
    rw [e]
    exact h
  | cons p ps ih =>
    intro u R rep h hin
    obtain ⟨hp1, hp2⟩ := hin p (List.mem_cons_self _ _)
    obtain ⟨u1, rep1, he1, hs1, h1⟩ := UnionSet.merge_spec u p.1 p.2 h hp1 hp2
    have hin1 : ∀ q ∈ ps, q.1 < u1.size ∧ q.2 < u1.size := by
      intro q hq
      rw [hs1]
      exact hin q (List.mem_cons_of_mem _ hq)
    obtain ⟨u2, rep2, he2, hs2, h2⟩ := ih u1 _ rep1 h1 hin1
    refine ⟨u2, rep2, ?_, by omega, ?_⟩
    · rw [forRun_cons, he1]
      exact he2
    · have e : (fun a b => (R a b ∨ (a = p.1 ∧ b = p.2)) ∨ (a, b) ∈ ps) =
          (fun a b => R a b ∨ (a, b) ∈ p :: ps) := by
        funext a b
        apply propext
        rw [List.mem_cons, Prod.ext_iff]
        tauto
      rw [← e]
      exact h2

/-- After the merge loop of `main` the vector represents the connectivity of
the listed pairs. -/
theorem mergeAll_spec (n : Nat) (pairs : List (Nat × Nat))
    (hin : ∀ p ∈ pairs, p.1 < n ∧ p.2 < n) :
    ∃ u rep, mergeAll n pairs = .ok u ∧ u.size = n ∧ u.Rep (fun a b => (a, b) ∈ pairs) rep := by
  obtain ⟨u, rep, he, hs, h⟩ :=
    UnionSet.forRun_merge_spec pairs (UnionSet.fresh n) _ id (UnionSet.rep_fresh n) hin
  refine ⟨u, rep, he, hs, ?_⟩
  have e : (fun a b => False ∨ (a, b) ∈ pairs) = (fun a b => (a, b) ∈ pairs) := by
    funext a b
    simp
  rw [← e]
  exact h

/-- C14. After any sequence of `merge` calls on a fresh union-find (the
`UnionSet` of `btormerge.cpp` and of `aigmerge.cpp`) with ids inside the
vector, every `findset(x)` returns, and returns the smallest id of the class
of `x` under the merged pairs: it is at most `x`, connected to `x`, at most
every id connected to `x`, a fixed point of `findset`, and equal to
`findset(y)` exactly when `x` and `y` are connected. -/
theorem findset_returns_smallest_of_class (n : Nat) (pairs : List (Nat × Nat))
    (hin : ∀ p ∈ pairs, p.1 < n ∧ p.2 < n) :
    ∃ u, mergeAll n pairs = .ok u ∧
      ∀ x y, x < n → y < n →
        ∃ rx ux ry uy ur, u.find x = .ok (rx, ux) ∧ ux.find y = .ok (ry, uy) ∧
          uy.find rx = .ok (rx, ur) ∧
          rx ≤ x ∧ Conn pairs x rx ∧ (∀ z, Conn pairs x z → rx ≤ z) ∧
          (rx = ry ↔ Conn pairs x y) := by
  obtain ⟨u, rep, he, hs, h⟩ := mergeAll_spec n pairs hin
  refine ⟨u, he, ?_⟩
  intro x y hx hy
  obtain ⟨ux, hex, hsx, hx1⟩ := UnionSet.find_spec u x h (by omega)
  obtain ⟨uy, hey, hsy, hy1⟩ := UnionSet.find_spec ux y hx1 (by omega)
  have hrx : rep x < uy.size := by
    have := h.le x
    omega
  obtain ⟨ur, her, _, _⟩ := UnionSet.find_spec uy (rep x) hy1 hrx
  rw [h.idem x] at her
  refine ⟨rep x, ux, rep y, uy, ur, hex, hey, her, h.le x, h.rel_rep x, ?_, h.conn x y⟩
  intro z hz
  have h1 : rep x = rep z := (h.conn x z).2 hz
  rw [h1]
  exact h.le z

theorem findset_returns_smallest_of_class_witness :
    ∃ u, mergeAll 5 [(3, 1), (4, 3), (2, 2)] = .ok u ∧
      ∀ x y, x < 5 → y < 5 →
        ∃ rx ux ry uy ur, u.find x = .ok (rx, ux) ∧ ux.find y = .ok (ry, uy) ∧
          uy.find rx = .ok (rx, ur) ∧
          rx ≤ x ∧ Conn [(3, 1), (4, 3), (2, 2)] x rx ∧
          (∀ z, Conn [(3, 1), (4, 3), (2, 2)] x z → rx ≤ z) ∧
          (rx = ry ↔ Conn [(3, 1), (4, 3), (2, 2)] x y) :=
  findset_returns_smallest_of_class 5 [(3, 1), (4, 3), (2, 2)] (by decide)

/-! ## `aigmerge`: fixed gates and converted operands -/

theorem convLit_div (rep : Nat → Nat) (l : Nat) : convLit rep l / 2 = rep (l / 2) := by
  unfold convLit; omega

theorem convLit_mod (rep : Nat → Nat) (l : Nat) : convLit rep l % 2 = l % 2 := by
  unfold convLit; omega

theorem convLit_le (rep : Nat → Nat) (hle : ∀ x, rep x ≤ x) (l : Nat) : convLit rep l ≤ l := by
  unfold convLit
  have := hle (l / 2)
  omega

theorem litVal_convLit (val : Nat → Bool) (rep : Nat → Nat) (l : Nat)
    (h : val (rep (l / 2)) = val (l / 2)) : litVal val (convLit rep l) = litVal val l := by
  unfold litVal
  rw [convLit_div, convLit_mod, h]

/-- Total correctness of `convert`: the literal keeps its low bit and takes the
representative of its variable. -/
theorem convert_spec {R : Nat → Nat → Prop} {rep : Nat → Nat} (u : UnionSet) (x : Nat)
    (h : u.Rep R rep) (hx : x / 2 < u.size) :
    ∃ u1, convert u x = .ok (convLit rep x, u1) ∧ u1.size = u.size ∧ u1.Rep R rep := by
  have e : x >>> 1 = x / 2 := by
    rw [Nat.shiftRight_eq_div_pow]
  obtain ⟨u1, he, hs, h1⟩ := UnionSet.find_spec u (x / 2) h hx
  refine ⟨u1, ?_, hs, h1⟩
  unfold convert
  rw [e, he]
  simp only [Run.bind]
  have hb : x % 2 < 2 ^ 1 := by omega
  have e2 := Nat.mul_add_lt_is_or hb (rep (x / 2))
  rw [Nat.shiftLeft_eq, Nat.and_one_is_mod, Nat.mul_comm, ← e2]
  rfl

theorem fixedStep_mono (g : AigerAnd) (fixed : Nat → Bool) (v : Nat) (h : fixed v = true) :
    fixedStep g fixed v = true := by
  unfold fixedStep
  split_ifs <;> simp_all [Function.update_apply]

theorem fixedStep_frame (g : AigerAnd) (fixed : Nat → Bool) (v : Nat)
    (h0 : v ≠ g.rhs0 / 2) (h1 : v ≠ g.rhs1 / 2) : fixedStep g fixed v = fixed v := by
  unfold fixedStep
  split_ifs <;> simp_all [Function.update_apply]

theorem fixedStep_pos (g : AigerAnd) (fixed : Nat → Bool) (h : fixed (g.lhs / 2) = true) :
    fixedStep g fixed (g.rhs0 / 2) = true ∧ fixedStep g fixed (g.rhs1 / 2) = true := by
  unfold fixedStep
  rw [if_pos h]
  simp [Function.update_apply]

theorem foldr_fixedStep_mono (ands : List AigerAnd) (init : Nat → Bool) (v : Nat)
    (h : init v = true) : ands.foldr fixedStep init v = true := by
  induction ands with
  | nil => simpa using h
  | cons g gs ih => exact fixedStep_mono g _ v ih

/-- The reverse walk closes `fixed` under the operands of fixed gates. -/
theorem foldr_fixedStep_closed (ands : List AigerAnd) (init : Nat → Bool)
    (h : GatesOrdered ands) (g : AigerAnd) (hg : g ∈ ands) :
    ands.foldr fixedStep init (g.lhs / 2) = true →
      ands.foldr fixedStep init (g.rhs0 / 2) = true ∧
      ands.foldr fixedStep init (g.rhs1 / 2) = true := by
  induction ands with
  | nil => cases hg
  | cons a gs ih =>
    have ha_even := h.lhs_even a (List.mem_cons_self _ _)
    have ha0 := h.rhs0_lt a (List.mem_cons_self _ _)
    have ha1 := h.rhs1_lt a (List.mem_cons_self _ _)
    simp only [List.foldr_cons]
    rcases List.mem_cons.1 hg with rfl | hg1
    · intro hl
      rw [fixedStep_frame _ _ _ (by omega) (by omega)] at hl
      exact fixedStep_pos g _ hl
    · have hlt : a.lhs < g.lhs := (List.pairwise_cons.1 h.sorted).1 g hg1
      have hge := h.lhs_even g (List.mem_cons_of_mem _ hg1)
      intro hl
      rw [fixedStep_frame _ _ _ (by omega) (by omega)] at hl
      obtain ⟨h0, h1⟩ := ih h.tail hg1 hl
      exact ⟨fixedStep_mono a _ _ h0, fixedStep_mono a _ _ h1⟩

theorem fixedInit_apply (m : Aiger) (v : Nat) :
    fixedInit m v = decide (∃ c ∈ m.constraints, c / 2 = v) := by
  unfold fixedInit
  have key : ∀ (cs : List Nat) (f : Nat → Bool),
      cs.foldl (fun f c => Function.update f (c / 2) true) f v =
        (f v || decide (∃ c ∈ cs, c / 2 = v)) := by
    intro cs
    induction cs with
    | nil => intro f; simp
    | cons c cs ih =>
      intro f
      simp only [List.foldl_cons]
      rw [ih]
      by_cases hc : c / 2 = v
      · subst hc
        simp
      · have hv : v ≠ c / 2 := fun e => hc e.symm
        simp [Function.update_apply, hc, hv]
  rw [key]
  simp

/-- Every variable that drives a constraint is marked in `fixed`. -/
theorem cone_fixed (m : Aiger) (h : GatesOrdered m.ands) (v : Nat) (hv : Cone m v) :
    computeFixed m v = true := by
  induction hv with
  | base c hc =>
    apply foldr_fixedStep_mono
    rw [fixedInit_apply]
    exact decide_eq_true ⟨c, hc, rfl⟩
  | rhs0 g hg _ ih => exact (foldr_fixedStep_closed m.ands _ h g hg ih).1
  | rhs1 g hg _ ih => exact (foldr_fixedStep_closed m.ands _ h g hg ih).2

theorem sameGate_orderedAnd (lhs a b : Nat) : SameGate (orderedAnd lhs a b) lhs a b := by
  unfold orderedAnd SameGate
  split_ifs
  · exact ⟨rfl, Or.inr ⟨rfl, rfl⟩⟩
  · exact ⟨rfl, Or.inl ⟨rfl, rfl⟩⟩

/-- The gate loop of `aigmerge` returns; the gates it adds correspond one by
one to the gates of the loaded model. -/
theorem forRun_mergeGate_spec {R : Nat → Nat → Prop} {rep : Nat → Nat} (fixed : Nat → Bool) :
    ∀ (ands : List AigerAnd) (u : UnionSet) (acc : List AigerAnd), u.Rep R rep →
      (∀ g ∈ ands, g.rhs0 / 2 < u.size ∧ g.rhs1 / 2 < u.size) →
      ∃ u1 gs, forRun (mergeGate fixed) ands (u, acc) = .ok (u1, acc ++ gs) ∧
        u1.size = u.size ∧ u1.Rep R rep ∧ List.Forall₂ (GateMerged fixed rep) ands gs := by
  intro ands
  induction ands with
  | nil =>
    intro u acc h _
    exact ⟨u, [], by simp [forRun], rfl, h, List.Forall₂.nil⟩
  | cons a ands ih =>
    intro u acc h hin
    obtain ⟨ha0, ha1⟩ := hin a (List.mem_cons_self _ _)
    have hstep : ∃ u1 g1, mergeGate fixed (u, acc) a = .ok (u1, acc ++ [g1]) ∧
        u1.size = u.size ∧ u1.Rep R rep ∧ GateMerged fixed rep a g1 := by
      unfold mergeGate GateMerged
      by_cases hf : fixed (a.lhs / 2) = true
      · simp only [hf, Bool.not_true, if_true]
        exact ⟨u, _, rfl, rfl, h, sameGate_orderedAnd _ _ _⟩
      · have hf1 : fixed (a.lhs / 2) = false := by simpa using hf
        simp only [hf1, Bool.not_false, if_true]
        obtain ⟨u1, he1, hs1, h1⟩ := convert_spec u a.rhs0 h ha0
        obtain ⟨u2, he2, hs2, h2⟩ := convert_spec u1 a.rhs1 h1 (by omega)
        rw [he1]
        simp only [Run.bind]
        rw [he2]
        simp only [Run.bind]
        exact ⟨u2, _, rfl, by omega, h2, by simpa using sameGate_orderedAnd _ _ _⟩
    obtain ⟨u1, g1, he, hs, h1, hg⟩ := hstep
    have hin1 : ∀ g ∈ ands, g.rhs0 / 2 < u1.size ∧ g.rhs1 / 2 < u1.size := by
      intro g hg1
      rw [hs]
      exact hin g (List.mem_cons_of_mem _ hg1)
    obtain ⟨u2, gs, he2, hs2, h2, hF⟩ := ih u1 (acc ++ [g1]) h1 hin1
    refine ⟨u2, g1 :: gs, ?_, by omega, h2, List.Forall₂.cons hg hF⟩
    rw [forRun_cons, he]
    simp only [Run.bind]
    rw [he2]
    simp

/-- The bad loop of `aigmerge` returns the converted bad literals. -/
theorem forRun_mergeBad_spec {R : Nat → Nat → Prop} {rep : Nat → Nat} :
    ∀ (bad : List Nat) (u : UnionSet) (acc : List Nat), u.Rep R rep →
      (∀ l ∈ bad, l / 2 < u.size) →
      ∃ u1, forRun mergeBad bad (u, acc) = .ok (u1, acc ++ bad.map (convLit rep)) ∧
        u1.size = u.size ∧ u1.Rep R rep := by
  intro bad
  induction bad with
  | nil =>
    intro u acc h _
    exact ⟨u, by simp [forRun], rfl, h⟩
  | cons l bad ih =>
    intro u acc h hin
    obtain ⟨u1, he1, hs1, h1⟩ := convert_spec u l h (hin l (List.mem_cons_self _ _))
    have hin1 : ∀ l1 ∈ bad, l1 / 2 < u1.size := by
      intro l1 hl1
      rw [hs1]
      exact hin l1 (List.mem_cons_of_mem _ hl1)
    obtain ⟨u2, he2, hs2, h2⟩ := ih u1 (acc ++ [convLit rep l]) h1 hin1
    have hstep : mergeBad (u, acc) l = .ok (u1, acc ++ [convLit rep l]) := by
      unfold mergeBad
      rw [he1]
      rfl
    refine ⟨u2, ?_, by omega, h2⟩
    rw [forRun_cons, hstep]
    simp only [Run.bind]
    rw [he2]
    simp

/-- Total correctness of `aigmerge` on a valid model and in-range pairs,
with the shape of the model it builds. -/
theorem aigmerge_spec (m : Aiger) (pairs : List (Nat × Nat)) (hwf : WellFormed m)
    (hout : m.outputs = []) (hin : ∀ p ∈ pairs, p.1 ≤ m.maxvar ∧ p.2 ≤ m.maxvar) :
    ∃ (m1 : Aiger) (u : UnionSet) (rep : Nat → Nat), aigmerge m pairs = .ok m1 ∧
      u.Rep (fun a b => (a, b) ∈ pairs) rep ∧
      List.Forall₂ (GateMerged (computeFixed m) rep) m.ands m1.ands ∧
      m1.bad = m.bad.map (convLit rep) ∧ m1.constraints = m.constraints ∧
      m1.inputs = m.inputs := by
  have hin1 : ∀ p ∈ pairs, p.1 < m.maxvar + 1 ∧ p.2 < m.maxvar + 1 := by
    intro p hp
    have := hin p hp
    omega
  obtain ⟨u, rep, he, hs, h⟩ := mergeAll_spec (m.maxvar + 1) pairs hin1
  have hg : ∀ g ∈ m.ands, g.rhs0 / 2 < u.size ∧ g.rhs1 / 2 < u.size := by
    intro g hg
    have h0 := hwf.gates.rhs0_lt g hg
    have h1 := hwf.gates.rhs1_lt g hg
    have h2 := hwf.lhs_le g hg
    omega
  obtain ⟨u1, gs, he1, hs1, h1, hF⟩ :=
    forRun_mergeGate_spec (computeFixed m) m.ands u [] h hg
  have hb : ∀ l ∈ m.bad, l / 2 < u1.size := by
    intro l hl
    have := hwf.bad_le l hl
    omega
  obtain ⟨u2, he2, hs2, h2⟩ := forRun_mergeBad_spec m.bad u1 [] h1 hb
  refine ⟨Aiger.mk m.maxvar m.inputs [] ([] ++ m.bad.map (convLit rep)) m.constraints ([] ++ gs),
    u2, rep, ?_, h2, ?_, ?_, rfl, rfl⟩
  · unfold aigmerge
    rw [if_neg (by simp [hout]), he]
    simp only [Run.bind]
    rw [he1]
    simp only [Run.bind]
    rw [he2]
  · simpa using hF
  · simp

theorem forall₂_mem_right {α β : Type} {R : α → β → Prop} {l : List α} {l1 : List β}
    (h : List.Forall₂ R l l1) {b : β} (hb : b ∈ l1) : ∃ a ∈ l, R a b := by
  induction h with
  | nil => cases hb
  | cons hab _ ih =>
    rcases List.mem_cons.1 hb with rfl | hb1
    · exact ⟨_, List.mem_cons_self _ _, hab⟩
    · obtain ⟨a, ha, hr⟩ := ih hb1
      exact ⟨a, List.mem_cons_of_mem _ ha, hr⟩

theorem forall₂_mem_left {α β : Type} {R : α → β → Prop} {l : List α} {l1 : List β}
    (h : List.Forall₂ R l l1) {a : α} (ha : a ∈ l) : ∃ b ∈ l1, R a b := by
  induction h with
  | nil => cases ha
  | cons hab _ ih =>
    rcases List.mem_cons.1 ha with rfl | ha1
    · exact ⟨_, List.mem_cons_self _ _, hab⟩
    · obtain ⟨b, hb, hr⟩ := ih ha1
      exact ⟨b, List.mem_cons_of_mem _ hb, hr⟩

theorem forall₂_imp_mem {α β : Type} {R S : α → β → Prop} {l : List α} {l1 : List β}
    (h : List.Forall₂ R l l1) (himp : ∀ a b, a ∈ l → b ∈ l1 → R a b → S a b) :
    List.Forall₂ S l l1 := by
  induction h with
  | nil => exact List.Forall₂.nil
  | cons hab _ ih =>
    refine List.Forall₂.cons (himp _ _ (List.mem_cons_self _ _) (List.mem_cons_self _ _) hab) ?_
    exact ih (fun a b ha hb => himp a b (List.mem_cons_of_mem _ ha) (List.mem_cons_of_mem _ hb))

/-- Gates with the outputs of an ordered list and operands below their
outputs are ordered as well. -/
theorem gatesOrdered_of_forall₂ {l l1 : List AigerAnd} (h : GatesOrdered l)
    (hF : List.Forall₂ (fun g g1 => g1.lhs = g.lhs ∧ g1.rhs0 < g1.lhs ∧ g1.rhs1 < g1.lhs) l l1) :
    GatesOrdered l1 := by
  refine ⟨?_, ?_, ?_, ?_⟩
  · intro g1 hg1
    obtain ⟨g, hg, he, _, _⟩ := forall₂_mem_right hF hg1
    rw [he]
    exact h.lhs_even g hg
  · intro g1 hg1
    obtain ⟨g, _, _, h0, _⟩ := forall₂_mem_right hF hg1
    exact h0
  · intro g1 hg1
    obtain ⟨g, _, _, _, h1⟩ := forall₂_mem_right hF hg1
    exact h1
  · have hs := h.sorted
    clear h
    induction hF with
    | nil => exact List.Pairwise.nil
    | cons hab hrest ih =>
      obtain ⟨hs1, hs2⟩ := List.pairwise_cons.1 hs
      refine List.pairwise_cons.2 ⟨?_, ih hs2⟩
      intro b hb
      obtain ⟨a, ha, he, _, _⟩ := forall₂_mem_right hrest hb
      rw [hab.1, he]
      exact hs1 a ha

/-- Two ordered gate lists with the same outputs evaluate alike on every
variable of a set that is closed under the operands of the second list and on
which corresponding gates compute the same conjunction. -/
theorem eval_merged (ands ands1 : List AigerAnd) (val0 : Nat → Bool) (P : Nat → Prop)
    (hgo : GatesOrdered ands) (hgo1 : GatesOrdered ands1)
    (hF : List.Forall₂ (fun g g1 => g1.lhs = g.lhs ∧ (P (g.lhs / 2) →
      P (g1.rhs0 / 2) ∧ P (g1.rhs1 / 2) ∧
      (litVal (ands.foldl evalStep val0) g1.rhs0 && litVal (ands.foldl evalStep val0) g1.rhs1) =
      (litVal (ands.foldl evalStep val0) g.rhs0 && litVal (ands.foldl evalStep val0) g.rhs1)))
      ands ands1) :
    ∀ v, P v → ands1.foldl evalStep val0 v = ands.foldl evalStep val0 v := by
  intro v
  induction v using Nat.strong_induction_on with
  | _ v ih =>
    intro hv
    by_cases hex : ∃ g1 ∈ ands1, g1.lhs / 2 = v
    · obtain ⟨g1, hg1, hv1⟩ := hex
      obtain ⟨g, hg, he, himp⟩ := forall₂_mem_right hF hg1
      have hvg : g.lhs / 2 = v := by rw [← he]; exact hv1
      obtain ⟨hp0, hp1, heq⟩ := himp (by rw [hvg]; exact hv)
      have h0 := hgo1.rhs0_lt g1 hg1
      have h1 := hgo1.rhs1_lt g1 hg1
      have hev := hgo1.lhs_even g1 hg1
      have e0 := ih (g1.rhs0 / 2) (by omega) hp0
      have e1 := ih (g1.rhs1 / 2) (by omega) hp1
      rw [← hv1, foldl_evalStep_gate ands1 val0 hgo1 g1 hg1,
        litVal_congr _ _ g1.rhs0 e0, litVal_congr _ _ g1.rhs1 e1, heq, he,
        foldl_evalStep_gate ands val0 hgo g hg]
    · have hn1 : ∀ g1 ∈ ands1, g1.lhs / 2 ≠ v := fun g1 hg1 e => hex ⟨g1, hg1, e⟩
      have hn : ∀ g ∈ ands, g.lhs / 2 ≠ v := by
        intro g hg e
        obtain ⟨g1, hg1, he, _⟩ := forall₂_mem_left hF hg
        exact hn1 g1 hg1 (by rw [he]; exact e)
      rw [foldl_evalStep_frame ands1 val0 v hn1, foldl_evalStep_frame ands val0 v hn]

theorem sameGate_and (val : Nat → Bool) {g1 : AigerAnd} {lhs a b : Nat}
    (h : SameGate g1 lhs a b) :
    (litVal val g1.rhs0 && litVal val g1.rhs1) = (litVal val a && litVal val b) := by
  rcases h.2 with ⟨h0, h1⟩ | ⟨h0, h1⟩
  · rw [h0, h1]
  · rw [h0, h1, Bool.and_comm]

theorem sameGate_lt {g1 : AigerAnd} {lhs a b : Nat} (h : SameGate g1 lhs a b)
    (ha : a < lhs) (hb : b < lhs) : g1.lhs = lhs ∧ g1.rhs0 < g1.lhs ∧ g1.rhs1 < g1.lhs := by
  obtain ⟨hl, h01 | h01⟩ := h
  · rw [hl, h01.1, h01.2]; exact ⟨rfl, ha, hb⟩
  · rw [hl, h01.1, h01.2]; exact ⟨rfl, hb, ha⟩

/-- The merged gates are in topological order. -/
theorem gateMerged_ordered (m : Aiger) (rep : Nat → Nat) (ands1 : List AigerAnd)
    (hgo : GatesOrdered m.ands) (hle : ∀ x, rep x ≤ x)
    (hF : List.Forall₂ (GateMerged (computeFixed m) rep) m.ands ands1) :
    List.Forall₂ (fun g g1 => g1.lhs = g.lhs ∧ g1.rhs0 < g1.lhs ∧ g1.rhs1 < g1.lhs)
      m.ands ands1 := by
  refine forall₂_imp_mem hF ?_
  intro g g1 hg _ hm
  have h0 := hgo.rhs0_lt g hg
  have h1 := hgo.rhs1_lt g hg
  unfold GateMerged at hm
  split_ifs at hm
  · exact sameGate_lt hm h0 h1
  · have c0 := convLit_le rep hle g.rhs0
    have c1 := convLit_le rep hle g.rhs1
    exact sameGate_lt hm (by omega) (by omega)

/-- On the fixed variables the merged gates evaluate as the loaded ones, under
every input assignment. -/
theorem gateMerged_fixed_eval (m : Aiger) (rep : Nat → Nat) (ands1 : List AigerAnd)
    (hgo : GatesOrdered m.ands) (hle : ∀ x, rep x ≤ x)
    (hF : List.Forall₂ (GateMerged (computeFixed m) rep) m.ands ands1) (val0 : Nat → Bool) :
    ∀ v, computeFixed m v = true →
      ands1.foldl evalStep val0 v = m.ands.foldl evalStep val0 v := by
  have hgo1 := gatesOrdered_of_forall₂ hgo (gateMerged_ordered m rep ands1 hgo hle hF)
  refine eval_merged m.ands ands1 val0 (fun v => computeFixed m v = true) hgo hgo1 ?_
  refine forall₂_imp_mem hF ?_
  intro g g1 hg _ hm
  unfold GateMerged at hm
  split_ifs at hm with hfix
  · refine ⟨hm.1, fun _ => ?_⟩
    obtain ⟨c0, c1⟩ := foldr_fixedStep_closed m.ands _ hgo g hg hfix
    refine ⟨?_, ?_, sameGate_and _ hm⟩
    · rcases hm.2 with ⟨e0, _⟩ | ⟨e0, _⟩
      · rw [e0]; exact c0
      · rw [e0]; exact c1
    · rcases hm.2 with ⟨_, e1⟩ | ⟨_, e1⟩
      · rw [e1]; exact c1
      · rw [e1]; exact c0
  · exact ⟨hm.1, fun hp => absurd hp hfix⟩

/-- Connected ids have equal values when every listed pair has. -/
theorem conn_eval (val : Nat → Bool) (pairs : List (Nat × Nat))
    (h : ∀ p ∈ pairs, val p.1 = val p.2) {a b : Nat}
    (hab : Relation.EqvGen (fun a b => (a, b) ∈ pairs) a b) : val a = val b := by
  induction hab with
  | rel a b hab => exact h (a, b) hab
  | refl a => rfl
  | symm a b _ ih => exact ih.symm
  | trans a b c _ _ ih1 ih2 => exact ih1.trans ih2

/-- When the listed pairs have equal values in the loaded model, the merged
gates evaluate as the loaded ones on every variable. -/
theorem gateMerged_all_eval (m : Aiger) (pairs : List (Nat × Nat)) (rep : Nat → Nat)
    (u : UnionSet) (ands1 : List AigerAnd) (hgo : GatesOrdered m.ands)
    (hrep : u.Rep (fun a b => (a, b) ∈ pairs) rep)
    (hF : List.Forall₂ (GateMerged (computeFixed m) rep) m.ands ands1) (val0 : Nat → Bool)
    (heq : ∀ p ∈ pairs, m.ands.foldl evalStep val0 p.1 = m.ands.foldl evalStep val0 p.2) :
    ∀ v, ands1.foldl evalStep val0 v = m.ands.foldl evalStep val0 v := by
  have hgo1 := gatesOrdered_of_forall₂ hgo (gateMerged_ordered m rep ands1 hgo hrep.le hF)
  have hconv : ∀ l, litVal (m.ands.foldl evalStep val0) (convLit rep l) =
      litVal (m.ands.foldl evalStep val0) l := by
    intro l
    apply litVal_convLit
    exact (conn_eval _ pairs heq (hrep.rel_rep (l / 2))).symm
  intro v
  refine eval_merged m.ands ands1 val0 (fun _ => True) hgo hgo1 ?_ v trivial
  refine forall₂_imp_mem hF ?_
  intro g g1 _ _ hm
  unfold GateMerged at hm
  split_ifs at hm
  · exact ⟨hm.1, fun _ => ⟨trivial, trivial, sameGate_and _ hm⟩⟩
  · refine ⟨hm.1, fun _ => ⟨trivial, trivial, ?_⟩⟩
    rw [sameGate_and _ hm, hconv, hconv]

/-- C16. In `aigmerge`, for every equivalence list (of variables of the
model), every AND gate whose output variable is a constraint variable or lies
in the transitive fan-in of a constraint keeps its output and its two operand
literals as an unordered pair, the inputs and the constraint literals are
copied unchanged, and every constraint literal has the same value in the
merged model as in the loaded one under every input assignment. -/
theorem aigmerge_keeps_constraint_cone (m : Aiger) (pairs : List (Nat × Nat))
    (hwf : WellFormed m) (hout : m.outputs = [])
    (hin : ∀ p ∈ pairs, p.1 ≤ m.maxvar ∧ p.2 ≤ m.maxvar) :
    ∃ m1, aigmerge m pairs = .ok m1 ∧ m1.inputs = m.inputs ∧
      m1.constraints = m.constraints ∧
      List.Forall₂ (fun g g1 => Cone m (g.lhs / 2) → SameGate g1 g.lhs g.rhs0 g.rhs1)
        m.ands m1.ands ∧
      ∀ σ, ∀ c ∈ m.constraints, litVal (aigEval m1 σ) c = litVal (aigEval m σ) c := by
  obtain ⟨m1, u, rep, he, hrep, hF, _, hc, hi⟩ := aigmerge_spec m pairs hwf hout hin
  refine ⟨m1, he, hi, hc, ?_, ?_⟩
  · refine forall₂_imp_mem hF ?_
    intro g g1 _ _ hm hcone
    unfold GateMerged at hm
    rw [if_pos (cone_fixed m hwf.gates _ hcone)] at hm
    exact hm
  · intro σ c hcm
    apply litVal_congr
    exact gateMerged_fixed_eval m rep m1.ands hwf.gates hrep.le hF _ (c / 2)
      (cone_fixed m hwf.gates _ (Cone.base c hcm))

theorem aigmerge_keeps_constraint_cone_witness :
    ∃ m1, aigmerge twinGateModel [(3, 4)] = .ok m1 ∧ m1.inputs = twinGateModel.inputs ∧
      m1.constraints = twinGateModel.constraints ∧
      List.Forall₂ (fun g g1 => Cone twinGateModel (g.lhs / 2) → SameGate g1 g.lhs g.rhs0 g.rhs1)
        twinGateModel.ands m1.ands ∧
      ∀ σ, ∀ c ∈ twinGateModel.constraints,
        litVal (aigEval m1 σ) c = litVal (aigEval twinGateModel σ) c :=
  aigmerge_keeps_constraint_cone twinGateModel [(3, 4)]
    ⟨⟨by decide, by decide, by decide, by decide⟩, by decide, by decide, by decide, by decide⟩
    rfl (by decide)

/-- C18. For every topologically ordered latch-free AIG without outputs and
every list of in-range variable pairs whose two variables have equal values
under every input assignment that satisfies all constraints, `aigmerge`
returns a model with the same inputs in which the constraints hold under
exactly the same assignments and, under each such assignment, every bad
literal has the value of the corresponding bad literal of the loaded model;
hence some bad literal can be made true under the constraints in one model
exactly when it can in the other. -/
theorem aigmerge_preserves_bad_reachability (m : Aiger) (pairs : List (Nat × Nat))
    (hwf : WellFormed m) (hout : m.outputs = [])
    (hin : ∀ p ∈ pairs, p.1 ≤ m.maxvar ∧ p.2 ≤ m.maxvar)
    (heq : ∀ σ, constraintsHold m σ → ∀ p ∈ pairs, aigEval m σ p.1 = aigEval m σ p.2) :
    ∃ m1, aigmerge m pairs = .ok m1 ∧ m1.inputs = m.inputs ∧
      (∀ σ, constraintsHold m1 σ ↔ constraintsHold m σ) ∧
      List.Forall₂ (fun b b1 => ∀ σ, constraintsHold m σ →
        litVal (aigEval m1 σ) b1 = litVal (aigEval m σ) b) m.bad m1.bad ∧
      ((∃ σ, constraintsHold m1 σ ∧ ∃ b ∈ m1.bad, litVal (aigEval m1 σ) b = true) ↔
        (∃ σ, constraintsHold m σ ∧ ∃ b ∈ m.bad, litVal (aigEval m σ) b = true)) := by
  obtain ⟨m1, u, rep, he, hrep, hF, hb, hc, hi⟩ := aigmerge_spec m pairs hwf hout hin
  have hcons : ∀ σ, constraintsHold m1 σ ↔ constraintsHold m σ := by
    intro σ
    have key : ∀ c ∈ m.constraints, litVal (aigEval m1 σ) c = litVal (aigEval m σ) c := by
      intro c hcm
      apply litVal_congr
      exact gateMerged_fixed_eval m rep m1.ands hwf.gates hrep.le hF _ (c / 2)
        (cone_fixed m hwf.gates _ (Cone.base c hcm))
    unfold constraintsHold
    rw [hc]
    constructor
    · intro h c hcm
      rw [← key c hcm]
      exact h c hcm
    · intro h c hcm
      rw [key c hcm]
      exact h c hcm
  have hall : ∀ σ, constraintsHold m σ → ∀ v, aigEval m1 σ v = aigEval m σ v := by
    intro σ hσ
    exact gateMerged_all_eval m pairs rep u m1.ands hwf.gates hrep hF _ (heq σ hσ)
  have hbad : ∀ σ, constraintsHold m σ → ∀ b,
      litVal (aigEval m1 σ) (convLit rep b) = litVal (aigEval m σ) b := by
    intro σ hσ b
    rw [litVal_congr _ _ _ (hall σ hσ _)]
    apply litVal_convLit
    exact (conn_eval _ pairs (heq σ hσ) (hrep.rel_rep (b / 2))).symm
  have hF2 : List.Forall₂ (fun b b1 => ∀ σ, constraintsHold m σ →
      litVal (aigEval m1 σ) b1 = litVal (aigEval m σ) b) m.bad m1.bad := by
    rw [hb, List.forall₂_map_right_iff, List.forall₂_same]
    intro b _ σ hσ
    exact hbad σ hσ b
  refine ⟨m1, he, hi, hcons, hF2, ?_⟩
  constructor
  · rintro ⟨σ, hσ, b1, hb1, hv⟩
    have hσm := (hcons σ).1 hσ
    obtain ⟨b, hbm, hr⟩ := forall₂_mem_right hF2 hb1
    exact ⟨σ, hσm, b, hbm, by rw [← hr σ hσm]; exact hv⟩
  · rintro ⟨σ, hσ, b, hbm, hv⟩
    obtain ⟨b1, hb1, hr⟩ := forall₂_mem_left hF2 hbm
    exact ⟨σ, (hcons σ).2 hσ, b1, hb1, by rw [hr σ hσ]; exact hv⟩

theorem aigmerge_preserves_bad_reachability_witness :
    ∃ m1, aigmerge twinGateModel [(3, 4)] = .ok m1 ∧ m1.inputs = twinGateModel.inputs ∧
      (∀ σ, constraintsHold m1 σ ↔ constraintsHold twinGateModel σ) ∧
      List.Forall₂ (fun b b1 => ∀ σ, constraintsHold twinGateModel σ →
        litVal (aigEval m1 σ) b1 = litVal (aigEval twinGateModel σ) b)
        twinGateModel.bad m1.bad ∧
      ((∃ σ, constraintsHold m1 σ ∧ ∃ b ∈ m1.bad, litVal (aigEval m1 σ) b = true) ↔
        (∃ σ, constraintsHold twinGateModel σ ∧
          ∃ b ∈ twinGateModel.bad, litVal (aigEval twinGateModel σ) b = true)) :=
  aigmerge_preserves_bad_reachability twinGateModel [(3, 4)]
    ⟨⟨by decide, by decide, by decide, by decide⟩, by decide, by decide, by decide, by decide⟩
    rfl (by decide)
    (by
      intro σ _ p hp
      have hp1 : p = (3, 4) := by simpa using hp
      subst hp1
      simp [aigEval, twinGateModel, evalStep, litVal, Function.update_apply, Bool.and_comm])

/-- The model that `aigmerge` builds from the twin gates: the operand `8` of
the last gate, outside the constraint cone, has become `6`. -/
theorem aigmerge_twinGateModel :
    aigmerge twinGateModel [(3, 4)] =
      .ok { maxvar := 5, inputs := [2, 4], outputs := [], bad := [10], constraints := [6],
            ands := [⟨6, 4, 2⟩, ⟨8, 4, 2⟩, ⟨10, 6, 6⟩] } := by
  decide

/-! ## `btormerge`: the operand rewrite -/

/-- The operand loop returns the operands with their representatives. -/
theorem forRun_rewriteArg_spec {R : Nat → Nat → Prop} {rep : Nat → Nat} :
    ∀ (args : List Int) (u : UnionSet) (acc : List Int), u.Rep R rep →
      (∀ a ∈ args, a.natAbs < u.size) →
      ∃ u1, forRun rewriteArg args (u, acc) = .ok (u1, acc ++ args.map (signRep rep)) ∧
        u1.size = u.size ∧ u1.Rep R rep := by
  intro args
  induction args with
  | nil =>
    intro u acc h _
    exact ⟨u, by simp [forRun], rfl, h⟩
  | cons a args ih =>
    intro u acc h hin
    obtain ⟨u1, he1, hs1, h1⟩ := UnionSet.find_spec u a.natAbs h (hin a (List.mem_cons_self _ _))
    have hin1 : ∀ b ∈ args, b.natAbs < u1.size := by
      intro b hb
      rw [hs1]
      exact hin b (List.mem_cons_of_mem _ hb)
    obtain ⟨u2, he2, hs2, h2⟩ := ih u1 (acc ++ [signRep rep a]) h1 hin1
    have hstep : rewriteArg (u, acc) a = .ok (u1, acc ++ [signRep rep a]) := by
      unfold rewriteArg
      rw [he1]
      rfl
    refine ⟨u2, ?_, by omega, h2⟩
    rw [forRun_cons, hstep]
    simp only [Run.bind]
    rw [he2]
    simp

/-- The line loop returns; the lines it visits have their operands rewritten,
the others are untouched. -/
theorem forRun_rewriteLine_spec {R : Nat → Nat → Prop} {rep : Nat → Nat} :
    ∀ (ids : List Nat) (u : UnionSet) (L : Nat → Option Btor2Line), u.Rep R rep →
      ids.Nodup → (∀ i ∈ ids, ∀ line ∈ L i, ∀ a ∈ line.args, a.natAbs < u.size) →
      ∃ u1 L1, forRun rewriteLine ids (u, L) = .ok (u1, L1) ∧ u1.size = u.size ∧
        u1.Rep R rep ∧
        ∀ i, L1 i = if i ∈ ids then
            (L i).map (fun line => { line with args := line.args.map (signRep rep) })
          else L i := by
  intro ids
  induction ids with
  | nil =>
    intro u L h _ _
    exact ⟨u, L, rfl, rfl, h, fun i => by simp⟩
  | cons j ids ih =>
    intro u L h hnd hin
    obtain ⟨hj, hnd1⟩ := List.nodup_cons.1 hnd
    have hstep : ∃ u1, rewriteLine (u, L) j = .ok (u1, Function.update L j
        ((L j).map (fun line => { line with args := line.args.map (signRep rep) }))) ∧
        u1.size = u.size ∧ u1.Rep R rep := by
      unfold rewriteLine
      cases hL : L j with
      | none =>
        refine ⟨u, ?_, rfl, h⟩
        simp only [hL, Option.map_none']
        rw [← hL, Function.update_eq_self]
      | some line =>
        have hin0 : ∀ a ∈ line.args, a.natAbs < u.size :=
          hin j (List.mem_cons_self _ _) line (by rw [hL]; rfl)
        obtain ⟨u1, he1, hs1, h1⟩ := forRun_rewriteArg_spec line.args u [] h hin0
        refine ⟨u1, ?_, hs1, h1⟩
        simp only [hL, he1, Run.bind, Option.map_some', List.nil_append]
    obtain ⟨u1, he1, hs1, h1⟩ := hstep
    have hin1 : ∀ i ∈ ids, ∀ line ∈ Function.update L j
        ((L j).map (fun line => { line with args := line.args.map (signRep rep) })) i,
        ∀ a ∈ line.args, a.natAbs < u1.size := by
      intro i hi line hl a ha
      have hij : i ≠ j := fun e => hj (e ▸ hi)
      rw [Function.update_noteq hij] at hl
      rw [hs1]
      exact hin i (List.mem_cons_of_mem _ hi) line hl a ha
    obtain ⟨u2, L2, he2, hs2, h2, hL2⟩ := ih u1 _ h1 hnd1 hin1
    refine ⟨u2, L2, ?_, by omega, h2, ?_⟩
    · rw [forRun_cons, he1]
      exact he2
    · intro i
      rw [hL2 i]
      by_cases hij : i = j
      · subst hij
        rw [if_neg hj, Function.update_same, if_pos (List.mem_cons_self _ _)]
      · rw [Function.update_noteq hij]
        by_cases hi : i ∈ ids
        · rw [if_pos hi, if_pos (List.mem_cons_of_mem _ hi)]
        · rw [if_neg hi, if_neg (by simp [hij, hi])]

/-- Total correctness of the rewrite loop of `btormerge`. -/
theorem rewriteLines_spec {R : Nat → Nat → Prop} {rep : Nat → Nat} (model : Btor2Model)
    (u : UnionSet) (h : u.Rep R rep) (hs : u.size = model.max_id + 1)
    (hargs : model.ArgsInRange) :
    ∃ u1 model1, rewriteLines model u = .ok (u1, model1) ∧ u1.size = u.size ∧ u1.Rep R rep ∧
      model1.max_id = model.max_id ∧
      ∀ i, model1.line i = if i ∈ List.range' 1 model.max_id then
          (model.line i).map (fun line => { line with args := line.args.map (signRep rep) })
        else model.line i := by
  have hin : ∀ i ∈ List.range' 1 model.max_id, ∀ line ∈ model.line i,
      ∀ a ∈ line.args, a.natAbs < u.size := by
    intro i hi line hl a ha
    have := hargs i hi line hl a ha
    omega
  obtain ⟨u1, L1, he, hs1, h1, hL⟩ :=
    forRun_rewriteLine_spec (List.range' 1 model.max_id) u model.line h
      (List.nodup_range' _ _) hin
  refine ⟨u1, { model with line := L1 }, ?_, hs1, h1, rfl, hL⟩
  unfold rewriteLines
  rw [he]
  rfl

theorem signRep_id (a : Int) : signRep id a = a := by
  unfold signRep
  split_ifs <;> simp only [id] <;> omega

theorem convLit_id (l : Nat) : convLit id l = l := by
  unfold convLit
  simp only [id]
  omega

/-- C15. After the word-level merge rewrite every counted operand of every
line equals the operand before the rewrite with its absolute value replaced by
`findset` of it and its sign kept, all other fields of the line being
untouched; the AIG `convert` keeps the low bit of the literal and replaces its
variable by `findset` of that variable; with an empty list neither rewrite
changes an operand. -/
theorem merge_rewrites_operands_to_findset (n : Nat) (pairs : List (Nat × Nat))
    (hin : ∀ p ∈ pairs, p.1 < n ∧ p.2 < n) :
    ∃ u, mergeAll n pairs = .ok u ∧
      (∀ model : Btor2Model, model.max_id + 1 = n → model.ArgsInRange →
        ∃ u1 model1, rewriteLines model u = .ok (u1, model1) ∧
          (∀ i ∈ List.range' 1 model.max_id, ∀ line ∈ model.line i,
            ∃ line1, model1.line i = some line1 ∧ line1 = { line with args := line1.args } ∧
              List.Forall₂ (Rewritten u) line.args line1.args) ∧
          (pairs = [] → ∀ i, model1.line i = model.line i)) ∧
      (∀ l, l / 2 < n →
        ∃ r ux c uc, u.find (l / 2) = .ok (r, ux) ∧ convert u l = .ok (c, uc) ∧
          c % 2 = l % 2 ∧ c / 2 = r ∧ (pairs = [] → c = l)) := by
  obtain ⟨u, rep, he, hs, h⟩ := mergeAll_spec n pairs hin
  have hid : pairs = [] → rep = id := by
    intro hp
    subst hp
    funext x
    have h2 := (h.conn x (rep x)).1 (h.idem x).symm
    have h3 := ((UnionSet.rep_fresh n).conn x (rep x)).2
      (Relation.EqvGen.mono (fun a b hab => by simp at hab) h2)
    exact h3.symm
  refine ⟨u, he, ?_, ?_⟩
  · intro model hn hargs
    obtain ⟨u1, model1, he1, _, _, _, hL⟩ := rewriteLines_spec model u h (by omega) hargs
    refine ⟨u1, model1, he1, ?_, ?_⟩
    · intro i hi line hl
      have hl1 : model.line i = some line := hl
      refine ⟨{ line with args := line.args.map (signRep rep) }, ?_, rfl, ?_⟩
      · rw [hL i, if_pos hi, hl1]
        rfl
      · rw [List.forall₂_map_right_iff, List.forall₂_same]
        intro a ha
        have hlt : a.natAbs < u.size := by
          have := hargs i hi line hl a ha
          omega
        obtain ⟨ux, hex, _, _⟩ := UnionSet.find_spec u a.natAbs h hlt
        exact ⟨rep a.natAbs, ux, hex, rfl⟩
    · intro hp i
      rw [hL i, hid hp]
      split_ifs
      · cases hl : model.line i with
        | none => rfl
        | some line =>
          simp only [Option.map_some', Option.some.injEq]
          have e : line.args.map (signRep id) = line.args := by
            rw [List.map_congr_left (fun a _ => signRep_id a), List.map_id']
          rw [e]
      · rfl
  · intro l hl
    obtain ⟨ux, hex, _, _⟩ := UnionSet.find_spec u (l / 2) h (by omega)
    obtain ⟨uc, hec, _, _⟩ := convert_spec u l h (by omega)
    refine ⟨rep (l / 2), ux, convLit rep l, uc, hex, hec, convLit_mod rep l, convLit_div rep l, ?_⟩
    intro hp
    rw [hid hp, convLit_id]

theorem merge_rewrites_operands_to_findset_witness :
    (∃ u, mergeAll 8 [(2, 3)] = .ok u ∧
      (∃ u1 model1, rewriteLines eqConstraintModel u = .ok (u1, model1) ∧
        ∀ i ∈ List.range' 1 eqConstraintModel.max_id, ∀ line ∈ eqConstraintModel.line i,
          ∃ line1, model1.line i = some line1 ∧ line1 = { line with args := line1.args } ∧
            List.Forall₂ (Rewritten u) line.args line1.args) ∧
      ∃ r ux c uc, u.find (7 / 2) = .ok (r, ux) ∧ convert u 7 = .ok (c, uc) ∧
        c % 2 = 7 % 2 ∧ c / 2 = r) ∧
    (∃ u, mergeAll 8 [] = .ok u ∧
      (∃ u1 model1, rewriteLines eqConstraintModel u = .ok (u1, model1) ∧
        ∀ i, model1.line i = eqConstraintModel.line i) ∧
      ∃ uc, convert u 7 = .ok (7, uc)) := by
  constructor
  · obtain ⟨u, he, h1, h2⟩ := merge_rewrites_operands_to_findset 8 [(2, 3)] (by decide)
    obtain ⟨u1, model1, hr, hl, _⟩ := h1 eqConstraintModel rfl (by
      unfold Btor2Model.ArgsInRange
      decide)
    obtain ⟨r, ux, c, uc, hf, hc, hm, hd, _⟩ := h2 7 (by decide)
    exact ⟨u, he, ⟨u1, model1, hr, hl⟩, r, ux, c, uc, hf, hc, hm, hd⟩
  · obtain ⟨u, he, h1, h2⟩ := merge_rewrites_operands_to_findset 8 [] (by decide)
    obtain ⟨u1, model1, hr, _, hl⟩ := h1 eqConstraintModel rfl (by
      unfold Btor2Model.ArgsInRange
      decide)
    obtain ⟨r, ux, c, uc, _, hc, _, _, hcl⟩ := h2 7 (by decide)
    rw [hcl rfl] at hc
    exact ⟨u, he, ⟨u1, model1, hr, hl rfl⟩, uc, hc⟩

/-! ## The reachability pass keeps only what the marked lines refer to -/

theorem keepArgs_sound (Good : Nat → Prop) (i : Nat) :
    ∀ (args : List Int) (keep : Nat → Bool),
      (∀ a ∈ args, Good i → Good a.natAbs) → (∀ j, keep j = true → Good j) →
      ∀ j, keepArgs keep i args j = true → Good j := by
  intro args
  induction args with
  | nil => intro keep _ h j hj; exact h j hj
  | cons a args ih =>
    intro keep hcl h j hj
    unfold keepArgs at hj
    simp only [List.foldl_cons] at hj
    refine ih _ (fun b hb => hcl b (List.mem_cons_of_mem _ hb)) ?_ j hj
    intro z hz
    by_cases hza : z = a.natAbs
    · subst hza
      rw [Function.update_same, Bool.or_eq_true] at hz
      rcases hz with hi | hz1
      · exact hcl a (List.mem_cons_self _ _) (h i hi)
      · exact h _ hz1
    · rw [Function.update_noteq hza] at hz
      exact h z hz

theorem keepArgs_mono (i : Nat) :
    ∀ (args : List Int) (keep : Nat → Bool) (j : Nat), keep j = true →
      keepArgs keep i args j = true := by
  intro args
  induction args with
  | nil => intro keep j hj; exact hj
  | cons a args ih =>
    intro keep j hj
    unfold keepArgs
    simp only [List.foldl_cons]
    refine ih _ j ?_
    by_cases hja : j = a.natAbs
    · subst hja
      rw [Function.update_same, hj, Bool.or_true]
    · rw [Function.update_noteq hja]
      exact hj

theorem keepStep_sound (model : Btor2Model) (Good : Nat → Prop)
    (hcl : ∀ a b, Good a → Refers model a b → Good b) (keep : Nat → Bool) (i : Nat)
    (h : ∀ j, keep j = true → Good j) : ∀ j, keepStep model keep i j = true → Good j := by
  unfold keepStep
  cases hl : model.line i with
  | none => exact h
  | some line =>
    simp only
    have hsort : ∀ j, (if keep i = true then Function.update keep line.sort.id true else keep) j
        = true → Good j := by
      intro j hj
      by_cases hk : keep i = true
      · rw [if_pos hk] at hj
        by_cases hjs : j = line.sort.id
        · subst hjs
          exact hcl i _ (h i hk) ⟨line, hl, Or.inl rfl⟩
        · rw [Function.update_noteq hjs] at hj
          exact h j hj
      · rw [if_neg hk] at hj
        exact h j hj
    refine keepArgs_sound Good i line.args _ ?_ hsort
    intro a ha hi
    exact hcl i _ hi ⟨line, hl, Or.inr ⟨a, ha, rfl⟩⟩

theorem keepStep_mono (model : Btor2Model) (keep : Nat → Bool) (i j : Nat)
    (h : keep j = true) : keepStep model keep i j = true := by
  unfold keepStep
  cases model.line i with
  | none => exact h
  | some line =>
    simp only
    apply keepArgs_mono
    split_ifs
    · by_cases hjs : j = line.sort.id
      · subst hjs; rw [Function.update_same]
      · rw [Function.update_noteq hjs]; exact h
    · exact h

/-- Whatever the reverse loop keeps is reached from an id that was marked
before the loop. -/
theorem keepBackward_sound (model : Btor2Model) (keep : Nat → Bool) (j : Nat)
    (h : keepBackward model keep j = true) :
    ∃ r, keep r = true ∧ Relation.ReflTransGen (Refers model) r j := by
  have key : ∀ (ids : List Nat) (z : Nat),
      ids.foldr (fun i k => keepStep model k i) keep z = true →
      ∃ r, keep r = true ∧ Relation.ReflTransGen (Refers model) r z := by
    intro ids
    induction ids with
    | nil => intro z hz; exact ⟨z, hz, Relation.ReflTransGen.refl⟩
    | cons i ids ih =>
      intro z hz
      simp only [List.foldr_cons] at hz
      refine keepStep_sound model
        (fun z => ∃ r, keep r = true ∧ Relation.ReflTransGen (Refers model) r z) ?_ _ i ih z hz
      rintro a b ⟨r, hr, hra⟩ hab
      exact ⟨r, hr, Relation.ReflTransGen.tail hra hab⟩
  exact key _ j h

theorem keepBackward_mono (model : Btor2Model) (keep : Nat → Bool) (j : Nat)
    (h : keep j = true) : keepBackward model keep j = true := by
  unfold keepBackward
  induction List.range' 1 model.max_id with
  | nil => exact h
  | cons i ids ih =>
    simp only [List.foldr_cons]
    exact keepStep_mono model _ i j ih

/-! ## `btorextract`: the retained lines lie in the cone of the roots -/

theorem markNodes_apply (knode : List Int) (keep : Nat → Bool) (j : Nat) :
    markNodes keep knode j = (keep j || decide (∃ node ∈ knode, node.toNat = j)) := by
  unfold markNodes
  induction knode generalizing keep with
  | nil => simp
  | cons node knode ih =>
    simp only [List.foldl_cons]
    rw [ih]
    by_cases hn : node.toNat = j
    · subst hn
      simp
    · have hj : j ≠ node.toNat := fun e => hn e.symm
      simp [Function.update_apply, hn, hj]

theorem transitionLine_frame (model : Btor2Model) (vec : Nat → Bool) (i j : Nat)
    (h : i = j → model.line j = none) : transitionLine model vec i j = vec j := by
  unfold transitionLine
  cases hl : model.line i with
  | none => rfl
  | some line =>
    have hij : j ≠ i := by
      intro e
      subst e
      rw [h rfl] at hl
      cases hl
    simp only
    split_ifs
    · have key : ∀ (args : List Int) (v : Nat → Bool),
          args.foldl (fun v a => Function.update v i (v i || v a.natAbs)) v j = v j := by
        intro args
        induction args with
        | nil => intro v; rfl
        | cons a args ih =>
          intro v
          simp only [List.foldl_cons]
          rw [ih, Function.update_noteq hij]
      exact key _ _
    · rfl

theorem transition_frame (model : Btor2Model) (vec : Nat → Bool) (j : Nat)
    (h : j ∈ List.range' 1 model.max_id → model.line j = none) :
    transition model vec j = vec j := by
  unfold transition
  have key : ∀ (ids : List Nat) (v : Nat → Bool), (j ∈ ids → model.line j = none) →
      ids.foldl (transitionLine model) v j = v j := by
    intro ids
    induction ids with
    | nil => intro v _; rfl
    | cons i ids ih =>
      intro v hj
      simp only [List.foldl_cons]
      rw [ih _ (fun hm => hj (List.mem_cons_of_mem _ hm))]
      exact transitionLine_frame model v i j (fun e => hj (e ▸ List.mem_cons_self _ _))
  exact key _ _ h

theorem onlyConstraints_true (model : Btor2Model) (keep : Nat → Bool) (j : Nat)
    (h : onlyConstraints model keep j = true) :
    keep j = true ∧ (j ∈ List.range' 1 model.max_id → ∀ line, model.line j = some line →
      classification line = .BTOR2_TAG_constraint) := by
  unfold onlyConstraints at h
  have key : ∀ (ids : List Nat) (k : Nat → Bool),
      ids.foldl (fun k i =>
        match model.line i with
        | none => k
        | some line =>
          if classification line ≠ .BTOR2_TAG_constraint then Function.update k i false
          else k) k j = true →
      k j = true ∧ (j ∈ ids → ∀ line, model.line j = some line →
        classification line = .BTOR2_TAG_constraint) := by
    intro ids
    induction ids with
    | nil => intro k hk; exact ⟨hk, fun hm => by cases hm⟩
    | cons i ids ih =>
      intro k hk
      simp only [List.foldl_cons] at hk
      obtain ⟨h1, h2⟩ := ih _ hk
      cases hl : model.line i with
      | none =>
        rw [hl] at h1
        refine ⟨h1, ?_⟩
        intro hm line hline
        rcases List.mem_cons.1 hm with e | hm1
        · subst e
          rw [hl] at hline
          cases hline
        · exact h2 hm1 line hline
      | some line0 =>
        rw [hl] at h1
        simp only at h1
        by_cases hc : classification line0 = .BTOR2_TAG_constraint
        · rw [if_neg (by simpa using hc)] at h1
          refine ⟨h1, ?_⟩
          intro hm line hline
          rcases List.mem_cons.1 hm with e | hm1
          · subst e
            rw [hl] at hline
            cases hline
            exact hc
          · exact h2 hm1 line hline
        · rw [if_pos hc] at h1
          by_cases hji : j = i
          · subst hji
            rw [Function.update_same] at h1
            cases h1
          · rw [Function.update_noteq hji] at h1
            refine ⟨h1, ?_⟩
            intro hm line hline
            rcases List.mem_cons.1 hm with e | hm1
            · exact absurd e hji
            · exact h2 hm1 line hline
  exact key _ _ h

/-- What is marked before the reverse loop of `extract`: the key nodes and
lines of the constraint family. -/
theorem extract_roots (model : Btor2Model) (knode : List Int)
    (hin : ∀ node ∈ knode, 0 < node ∧ node ≤ (model.max_id : Int)) (r : Nat)
    (h : markNodes (onlyConstraints model (transition model (markNodes (fun _ => false) knode)))
      knode r = true) :
    (r : Int) ∈ knode ∨ (r ∈ List.range' 1 model.max_id ∧ model.constraintFamily r) := by
  have hk : ∀ z : Nat, (∃ node ∈ knode, node.toNat = z) → (z : Int) ∈ knode := by
    rintro z ⟨node, hn, e⟩
    have := (hin node hn).1
    have e1 : (z : Int) = node := by omega
    rw [e1]
    exact hn
  rw [markNodes_apply, Bool.or_eq_true, decide_eq_true_eq] at h
  rcases h with h | h
  · obtain ⟨h1, h2⟩ := onlyConstraints_true model _ r h
    by_cases hr : r ∈ List.range' 1 model.max_id
    · cases hl : model.line r with
      | none =>
        rw [transition_frame model _ r (fun _ => hl), markNodes_apply] at h1
        simp only [Bool.false_or, decide_eq_true_eq] at h1
        exact Or.inl (hk r h1)
      | some line => exact Or.inr ⟨hr, line, hl, h2 hr line hl⟩
    · rw [transition_frame model _ r (fun hm => absurd hm hr), markNodes_apply] at h1
      simp only [Bool.false_or, decide_eq_true_eq] at h1
      exact Or.inl (hk r h1)
  · exact Or.inl (hk r h)

theorem dropLines_retained (model : Btor2Model) (keep : Nat → Bool) (i : Nat) :
    (dropLines model keep).retained i ↔ (model.retained i ∧ keep i = true) := by
  unfold Btor2Model.retained dropLines
  constructor
  · rintro ⟨hi, line, hl, hno⟩
    have hi1 : i ∈ List.range' 1 model.max_id := hi
    have hr := List.mem_range'_1.1 hi1
    simp only at hl
    rw [if_pos ⟨hr.1, by omega⟩] at hl
    cases hm : model.line i with
    | none => rw [hm] at hl; cases hl
    | some line0 =>
      rw [hm] at hl
      simp only [Option.map_some', Option.some.injEq] at hl
      by_cases hk : keep i = true
      · rw [if_pos hk] at hl
        subst hl
        exact ⟨⟨hi1, line0, rfl, hno⟩, hk⟩
      · rw [if_neg hk] at hl
        subst hl
        exact absurd rfl hno
  · rintro ⟨⟨hi, line, hl, hno⟩, hk⟩
    have hr := List.mem_range'_1.1 hi
    refine ⟨hi, line, ?_, hno⟩
    show (if 1 ≤ i ∧ i ≤ model.max_id then _ else _) = some line
    rw [if_pos ⟨hr.1, by omega⟩, hl]
    simp [hk]

/-- C20. For every model as the parser delivers it (no line number is `-1`)
and every non-empty list of in-range key nodes, the cone extraction returns,
and every line it retains is reached, through operand and sort references,
from a key node or from a retained line of the constraint family (`bad`,
`fair`, `justice`, `constraint`); no other line is retained. -/
theorem extract_retains_only_cone (model : Btor2Model) (knode : List Int)
    (hne : knode ≠ []) (hin : ∀ node ∈ knode, 0 < node ∧ node ≤ (model.max_id : Int))
    (hline : ∀ i ∈ List.range' 1 model.max_id, ∀ line ∈ model.line i, line.lineno ≠ -1) :
    ∃ model1, btorextract model knode = .ok model1 ∧
      ∀ i, model1.retained i →
        ∃ r : Nat, ((r : Int) ∈ knode ∨ (model.constraintFamily r ∧ model1.retained r)) ∧
          Relation.ReflTransGen (Refers model) r i := by
  refine ⟨dropLines model (extractKeep model knode), ?_, ?_⟩
  · unfold btorextract extract
    have h1 : knode.isEmpty = false := by
      cases knode with
      | nil => exact absurd rfl hne
      | cons _ _ => rfl
    have h2 : knode.any (fun node => decide (node > (model.max_id : Int)) || decide (node ≤ 0))
        = false := by
      rw [List.any_eq_false]
      intro node hn
      have := hin node hn
      simp only [Bool.or_eq_true, decide_eq_true_eq, not_or]
      omega
    rw [h1, h2]
    rfl
  · intro i hi
    obtain ⟨hret, hk⟩ := (dropLines_retained model _ i).1 hi
    obtain ⟨r, hr, hreach⟩ := keepBackward_sound model _ i hk
    refine ⟨r, ?_, hreach⟩
    rcases extract_roots model knode hin r hr with h | ⟨hrange, hfam⟩
    · exact Or.inl h
    · by_cases hkn : (r : Int) ∈ knode
      · exact Or.inl hkn
      · right
        refine ⟨hfam, ?_⟩
        obtain ⟨line, hl, _⟩ := hfam
        exact (dropLines_retained model _ r).2
          ⟨⟨hrange, line, hl, hline r hrange line hl⟩, keepBackward_mono model _ r hr⟩

theorem extract_retains_only_cone_witness :
    ∃ model1, btorextract eqConstraintModel [6] = .ok model1 ∧
      ∀ i, model1.retained i →
        ∃ r : Nat, ((r : Int) ∈ [(6 : Int)] ∨
          (eqConstraintModel.constraintFamily r ∧ model1.retained r)) ∧
          Relation.ReflTransGen (Refers eqConstraintModel) r i :=
  extract_retains_only_cone eqConstraintModel [6] (by decide) (by decide) (by decide)

/-- The lines that the extraction of the cone of line 6 keeps in the model of
the `eq` constraint: the sort, the input 3, the line 6 itself and the bad line
7 that depends on it; the constraint 5 does not depend on the key node and is
dropped with its cone. -/
theorem extract_eqConstraintModel :
    (List.range' 1 7).map (fun i =>
      (((btorextract eqConstraintModel [6]).get eqConstraintModel).line i).map
        (fun line => line.lineno)) =
      [some 1, some (-1), some 3, some (-1), some (-1), some 6, some 7] := by
  decide

theorem keepConstraints_true (model : Btor2Model) (r : Nat)
    (h : keepConstraints model r = true) : model.constraintFamily r := by
  unfold keepConstraints at h
  have key : ∀ (ids : List Nat) (k : Nat → Bool),
      ids.foldl (fun k i =>
        match model.line i with
        | none => k
        | some line =>
          if classification line = .BTOR2_TAG_constraint then Function.update k i true
          else k) k r = true →
      k r = true ∨ model.constraintFamily r := by
    intro ids
    induction ids with
    | nil => intro k hk; exact Or.inl hk
    | cons i ids ih =>
      intro k hk
      simp only [List.foldl_cons] at hk
      rcases ih _ hk with h1 | h1
      · cases hl : model.line i with
        | none =>
          rw [hl] at h1
          exact Or.inl h1
        | some line =>
          rw [hl] at h1
          simp only at h1
          split_ifs at h1 with hc
          · by_cases hri : r = i
            · subst hri
              exact Or.inr ⟨line, hl, hc⟩
            · rw [Function.update_noteq hri] at h1
              exact Or.inl h1
          · exact Or.inl h1
      · exact Or.inr h1
  rcases key _ _ h with h1 | h1
  · cases h1
  · exact h1

/-- The lines that `btormerge` retains are reached, through the rewritten
operands and the sort references, from a line of the constraint family. -/
theorem btormerge_retains_only_cone (model : Btor2Model) (u : UnionSet) (model1 : Btor2Model)
    (h : btormerge model u = .ok model1) :
    ∃ u1 model2, rewriteLines model u = .ok (u1, model2) ∧
      ∀ i, model1.retained i →
        ∃ r, model2.constraintFamily r ∧ Relation.ReflTransGen (Refers model2) r i := by
  unfold btormerge at h
  rw [Run.bind_eq_ok] at h
  obtain ⟨⟨u1, model2⟩, hr, h⟩ := h
  cases h
  refine ⟨u1, model2, hr, ?_⟩
  intro i hi
  obtain ⟨_, hk⟩ := (dropLines_retained model2 _ i).1 hi
  obtain ⟨r, hroot, hreach⟩ := keepBackward_sound model2 _ i hk
  exact ⟨r, keepConstraints_true model2 r hroot, hreach⟩

/-! ## The AIG fingerprint is the XOR of the bases of the successful rounds -/

theorem simAssign_range (eg : Nat → List Nat) :
    ∀ (fuel : Nat) (t : Nat → Int) (lit x : Nat) (t1 : Nat → Int), x ≤ 1 → TableRange t →
      simAssign eg fuel t lit x = .ok t1 → TableRange t1 := by
  intro fuel
  induction fuel with
  | zero => intro t lit x t1 _ _ h; cases h
  | succ fuel ih =>
    intro t lit x t1 hx ht h
    unfold simAssign at h
    split_ifs at h with h1 h2
    · cases h; exact ht
    · refine forRun_inv (fun t nlit => simAssign eg fuel t nlit 1) TableRange (fun _ => True)
        (fun a b a1 ha _ hab => ih a b 1 a1 (le_refl 1) ha hab) _ _ t1 ?_ (fun _ _ => trivial) h
      intro l
      have hx2 : x = 0 ∨ x = 1 := by omega
      simp only [Function.update_apply]
      rcases hx2 with rfl | rfl <;> split_ifs <;> simp [ht l]

theorem initInput_range (cons : Nat → Int) (eg : Nat → List Nat) (fuel : Nat)
    (hcons : TableRange cons) (s s1 : InitState) (lit : Nat) (hs : TableRange s.table)
    (h : initInput cons eg fuel s lit = .ok s1) : TableRange s1.table := by
  unfold initInput at h
  split_ifs at h with hc
  · rw [Run.bind_eq_ok] at h
    obtain ⟨t, ht, he⟩ := h
    cases he
    refine simAssign_range eg fuel s.table lit _ t ?_ hs ht
    rcases hcons lit with h1 | h1 | h1 <;> rw [h1] <;> decide
  · rw [Run.bind_eq_ok] at h
    obtain ⟨t, ht, he⟩ := h
    cases he
    exact simAssign_range eg fuel s.table lit _ t (by omega) hs ht

theorem andStep_range (t t1 : Nat → Int) (a : AigerAnd) (ht : TableRange t)
    (h : andStep t a = .ok t1) : TableRange t1 := by
  unfold andStep at h
  split_ifs at h with h1 h2 h3
  · cases h; exact ht
  · cases h
    have hv : Int.land (t a.rhs0) (t a.rhs1) = 0 ∨ Int.land (t a.rhs0) (t a.rhs1) = 1 := by
      have h0 : t a.rhs0 ≠ -1 := fun e => h1 (Or.inl e)
      have h1' : t a.rhs1 ≠ -1 := fun e => h1 (Or.inr e)
      rcases ht a.rhs0 with e0 | e0 | e0 <;> rcases ht a.rhs1 with e1 | e1 | e1 <;>
        first
        | exact absurd e0 h0
        | exact absurd e1 h1'
        | (rw [e0, e1]; decide)
    intro l
    simp only [Function.update_apply]
    rcases hv with e | e <;> rw [e] <;> split_ifs <;>
      first
      | exact ht l
      | (right; left; rfl)
      | (right; right; rfl)

/-- The table of a round holds only `-1`, `0` and `1`. -/
theorem roundTable_range (m : Aiger) (cons : Nat → Int) (eg : Nat → List Nat)
    (rng : Nat → Nat) (hcons : TableRange cons) (st : InitState)
    (h : roundTable m cons eg rng = .ok st) : TableRange st.table := by
  unfold roundTable at h
  rw [Run.bind_eq_ok] at h
  obtain ⟨s0, hs0, h⟩ := h
  rw [Run.bind_eq_ok] at h
  obtain ⟨t, ht, he⟩ := h
  cases he
  have hinit : TableRange s0.table := by
    unfold simInitialize at hs0
    rw [Run.bind_eq_ok] at hs0
    obtain ⟨t0, ht0, hs0⟩ := hs0
    rw [Run.bind_eq_ok] at hs0
    obtain ⟨s, hs, hs0⟩ := hs0
    split_ifs at hs0
    cases hs0
    have h0 : TableRange t0 :=
      simAssign_range eg _ _ 0 0 t0 (by omega) (fun _ => Or.inl rfl) ht0
    exact forRun_inv (initInput cons eg (2 * (m.maxvar + 1) + 1))
      (fun s => TableRange s.table) (fun _ => True)
      (fun a b a1 ha _ hab => initInput_range cons eg _ hcons a a1 b ha hab)
      m.inputs _ s0 h0 (fun _ _ => trivial) hs
  exact forRun_inv andStep TableRange (fun _ => True)
    (fun a b a1 ha _ hab => andStep_range a a1 b ha hab) m.ands _ t hinit
    (fun _ _ => trivial) ht

/-- The vector `cons` that `preprocessing` leaves holds only `-1`, `0` and `1`. -/
theorem preprocessing_cons_range (m : Aiger) (p : PreResult) (h : preprocessing m = .ok p) :
    TableRange p.cons := by
  unfold preprocessing at h
  rw [Run.bind_eq_ok] at h
  obtain ⟨g, _, h⟩ := h
  rw [Run.bind_eq_ok] at h
  obtain ⟨choose, _, h⟩ := h
  rw [Run.bind_eq_ok] at h
  obtain ⟨cons, hcons, h⟩ := h
  cases h
  refine forRun_inv (fun cons x => assignCons cons x 1) TableRange (fun _ => True) ?_
    choose _ cons (fun _ => Or.inl rfl) (fun _ _ => trivial) hcons
  intro a b a1 ha _ hab
  have hab1 : assignCons a b 1 = .ok a1 := hab
  unfold assignCons at hab1
  split_ifs at hab1
  cases hab1
  intro l
  simp only [Function.update_apply]
  split_ifs
  · right; left; rfl
  · right; right; rfl
  · exact ha l

theorem hashVar_apply (t : Nat → Int) (b : Nat) (hv : Nat → Nat) (i v : Nat) :
    hashVar t b hv i v =
      if v = i then (if t (2 * v) = -1 then hv v else if t (2 * v) ≠ 0 then hv v ^^^ b else hv v)
      else hv v := by
  unfold hashVar
  by_cases h : v = i
  · subst h
    rw [if_pos rfl]
    split_ifs <;> simp
  · rw [if_neg h]
    split_ifs <;> simp [Function.update_apply, h]

theorem foldl_hashVar_apply (t : Nat → Int) (b : Nat) (is : List Nat) (hnd : is.Nodup) :
    ∀ (hv : Nat → Nat) (v : Nat),
      is.foldl (hashVar t b) hv v =
        if v ∈ is then
          (if t (2 * v) = -1 then hv v else if t (2 * v) ≠ 0 then hv v ^^^ b else hv v)
        else hv v := by
  induction is with
  | nil => intro hv v; simp
  | cons i is ih =>
    intro hv v
    obtain ⟨hi, hnd1⟩ := List.nodup_cons.1 hnd
    simp only [List.foldl_cons]
    rw [ih hnd1, hashVar_apply]
    by_cases hvi : v = i
    · subst hvi
      rw [if_neg hi, if_pos rfl, if_pos (List.mem_cons_self _ _)]
    · rw [if_neg hvi]
      by_cases hvm : v ∈ is
      · rw [if_pos hvm, if_pos (List.mem_cons_of_mem _ hvm)]
      · rw [if_neg hvm, if_neg (by simp [hvi, hvm])]

theorem xorLog_append (v init : Nat) (l1 l2 : List (Nat × (Nat → Int))) :
    xorLog v init (l1 ++ l2) = xorLog v (xorLog v init l1) l2 := by
  unfold xorLog
  rw [List.foldl_append]

/-- One round that does not end the program: a successful round folds its base
into the fingerprint of every variable whose positive literal is 1 and counts,
any other round changes neither. -/
theorem aigRound_next (m : Aiger) (cons : Nat → Int) (eg : Nat → List Nat) (s s1 : AigSim)
    (hcons : TableRange cons) (h : aigRound m cons eg s = .ok (.next s1)) :
    (∀ v, s1.hvalue v =
      if v ∈ List.range' 1 m.maxvar then
        xorLog v (s.hvalue v) (roundSuccess m cons eg s).toList
      else s.hvalue v) ∧
    s1.succ = s.succ + (roundSuccess m cons eg s).toList.length := by
  unfold aigRound at h
  cases hst : roundTable m cons eg s.rng with
  | ok st =>
    have hrange := roundTable_range m cons eg s.rng hcons st hst
    rw [hst] at h
    simp only [Run.bind] at h
    cases hc : checkConstraints st.table m.constraints with
    | ok sat =>
      rw [hc] at h
      simp only at h
      cases sat with
      | true =>
        simp only [if_true] at h
        cases hb : checkBads st.table m.bad with
        | ok b =>
          rw [hb] at h
          simp only at h
          cases b with
          | none =>
            simp only [Run.ok.injEq, RoundResult.next.injEq] at h
            subst h
            have hrs : roundSuccess m cons eg s = some (drawBase s.hrng, st.table) := by
              unfold roundSuccess
              rw [hst]
              simp only
              rw [hc]
              simp only
              rw [hb]
            rw [hrs]
            simp only [Option.toList, List.length_singleton]
            refine ⟨?_, trivial⟩
            intro v
            rw [foldl_hashVar_apply _ _ _ (List.nodup_range' _ _)]
            split_ifs with hv h1 h2
            · unfold xorLog contribution
              simp [h1]
            · have h3 : st.table (2 * v) = 1 := by
                rcases hrange (2 * v) with e | e | e
                · exact absurd e h1
                · exact absurd e h2
                · exact e
              unfold xorLog contribution drawBase
              simp [h3]
            · have h3 : st.table (2 * v) = 0 := by simpa using h2
              unfold xorLog contribution
              simp [h3]
            · rfl
          | some lit => simp at h
        | abort => rw [hb] at h; simp at h
        | ub => rw [hb] at h; simp at h
        | fuel => rw [hb] at h; simp at h
      | false =>
        simp only [Bool.false_eq_true, if_false, Run.ok.injEq, RoundResult.next.injEq] at h
        subst h
        have hrs : roundSuccess m cons eg s = none := by
          unfold roundSuccess
          rw [hst]
          simp only
          rw [hc]
        rw [hrs]
        simp [xorLog]
    | abort => rw [hc] at h; simp at h
    | ub => rw [hc] at h; simp at h
    | fuel => rw [hc] at h; simp at h
  | abort => rw [hst] at h; simp [Run.bind] at h
  | ub => rw [hst] at h; simp [Run.bind] at h
  | fuel => rw [hst] at h; simp [Run.bind] at h

/-- The loop of `random_simulation`, when it does not end the program: the
count and every fingerprint after `k` rounds, from the log of the successful
rounds. -/
theorem aigLoop_spec (m : Aiger) (cons : Nat → Int) (eg : Nat → List Nat)
    (hcons : TableRange cons) :
    ∀ (k : Nat) (s s1 : AigSim), aigLoop m cons eg k s = .ok (.next s1) →
      s1.succ = s.succ + (aigLog m cons eg k s).length ∧
      ∀ v, s1.hvalue v =
        if v ∈ List.range' 1 m.maxvar then xorLog v (s.hvalue v) (aigLog m cons eg k s)
        else s.hvalue v := by
  intro k
  induction k with
  | zero =>
    intro s s1 h
    simp only [aigLoop, Run.ok.injEq, RoundResult.next.injEq] at h
    subst h
    simp [aigLog, xorLog]
  | succ k ih =>
    intro s s1 h
    unfold aigLoop at h
    rw [Run.bind_eq_ok] at h
    obtain ⟨r, hr, h⟩ := h
    cases r with
    | exit lit => simp at h
    | next s2 =>
      simp only at h
      obtain ⟨h1, h2⟩ := aigRound_next m cons eg s s2 hcons hr
      obtain ⟨h3, h4⟩ := ih s2 s1 h
      have hlog : aigLog m cons eg (k + 1) s =
          (roundSuccess m cons eg s).toList ++ aigLog m cons eg k s2 := by
        rw [aigLog, hr]
      rw [hlog]
      refine ⟨by rw [h3, h2, List.length_append]; omega, ?_⟩
      intro v
      rw [h4 v, h1 v]
      split_ifs
      · rw [xorLog_append]
      · rfl

/-- The XOR of the contributions does not depend on the order of the rounds. -/
theorem xorLog_perm (v init : Nat) {l1 l2 : List (Nat × (Nat → Int))} (h : l1.Perm l2) :
    xorLog v init l1 = xorLog v init l2 := by
  unfold xorLog
  refine List.Perm.foldl_eq' h ?_ init
  intro x _ y _ z
  rw [Nat.xor_assoc, Nat.xor_comm (contribution v x), ← Nat.xor_assoc]

/-- C11. In the AIG simulator, when the `k` rounds of `random_simulation` run
to the end, `succ` has grown by the number of successful rounds and the final
fingerprint of every variable `v` is its initial fingerprint (0 in the program)
XORed with, for each successful round, the base of the round when the positive
literal of `v` is 1 in it and 0 otherwise; the same value results from any
permutation of the successful rounds taken with their bases. -/
theorem fingerprint_is_xor_of_successful_bases (m : Aiger) (cons : Nat → Int)
    (eg : Nat → List Nat) (hcons : TableRange cons) (k : Nat) (s s1 : AigSim)
    (h : aigLoop m cons eg k s = .ok (.next s1)) :
    s1.succ = s.succ + (aigLog m cons eg k s).length ∧
    ∀ v ∈ List.range' 1 m.maxvar,
      s1.hvalue v = xorLog v (s.hvalue v) (aigLog m cons eg k s) ∧
      ∀ log1 : List (Nat × (Nat → Int)), log1.Perm (aigLog m cons eg k s) →
        xorLog v (s.hvalue v) log1 = s1.hvalue v := by
  obtain ⟨h1, h2⟩ := aigLoop_spec m cons eg hcons k s s1 h
  refine ⟨h1, ?_⟩
  intro v hv
  have e := h2 v
  rw [if_pos hv] at e
  refine ⟨e, ?_⟩
  intro log1 hp
  rw [e]
  exact xorLog_perm v _ hp

theorem fingerprint_is_xor_of_successful_bases_witness :
    (((aigLoop wideModel (fun _ => -1) (fun _ => []) 2 AigSim.firstZero).get (.exit 0)).state
        AigSim.ones).succ =
      AigSim.firstZero.succ +
        (aigLog wideModel (fun _ => -1) (fun _ => []) 2 AigSim.firstZero).length ∧
    ∀ v ∈ List.range' 1 wideModel.maxvar,
      (((aigLoop wideModel (fun _ => -1) (fun _ => []) 2 AigSim.firstZero).get (.exit 0)).state
          AigSim.ones).hvalue v =
        xorLog v (AigSim.firstZero.hvalue v)
          (aigLog wideModel (fun _ => -1) (fun _ => []) 2 AigSim.firstZero) ∧
      ∀ log1 : List (Nat × (Nat → Int)),
        log1.Perm (aigLog wideModel (fun _ => -1) (fun _ => []) 2 AigSim.firstZero) →
        xorLog v (AigSim.firstZero.hvalue v) log1 =
          (((aigLoop wideModel (fun _ => -1) (fun _ => []) 2 AigSim.firstZero).get
            (.exit 0)).state AigSim.ones).hvalue v :=
  fingerprint_is_xor_of_successful_bases wideModel (fun _ => -1) (fun _ => [])
    (fun _ => Or.inl rfl) 2 AigSim.firstZero
    (((aigLoop wideModel (fun _ => -1) (fun _ => []) 2 AigSim.firstZero).get (.exit 0)).state
      AigSim.ones) rfl

/-- The run of the witness has one successful round out of two: the count is 1,
the variable 1, drawn 0, keeps the fingerprint 0 and the variable 2, drawn 1,
has the base of the round. -/
theorem aigLoop_wideModel :
    ((((aigLoop wideModel (fun _ => -1) (fun _ => []) 2 AigSim.firstZero).get (.exit 0)).state
        AigSim.ones).succ = 1) ∧
    ((((aigLoop wideModel (fun _ => -1) (fun _ => []) 2 AigSim.firstZero).get (.exit 0)).state
        AigSim.ones).hvalue 1 = 0) ∧
    ((((aigLoop wideModel (fun _ => -1) (fun _ => []) 2 AigSim.firstZero).get (.exit 0)).state
        AigSim.ones).hvalue 2 = 4294967297) := by
  refine ⟨by decide, by decide, by decide⟩

/-! ## The word-level candidate pairs -/

theorem mem_setInsert {α : Type} [DecidableEq α] (lt : α → α → Bool) (x z : α) (l : List α) :
    z ∈ setInsert lt x l ↔ z = x ∨ z ∈ l := by
  induction l with
  | nil => simp [setInsert]
  | cons y ys ih =>
    unfold setInsert
    split_ifs with h1 h2
    · simp
    · subst h2
      simp
    · rw [List.mem_cons, ih, List.mem_cons]
      tauto

/-- Inserting into a strictly increasing list keeps it strictly increasing. -/
theorem setInsert_sorted {α : Type} [DecidableEq α] (lt : α → α → Bool)
    (htrans : ∀ a b c, lt a b = true → lt b c = true → lt a c = true)
    (htri : ∀ a b, lt a b = false → a ≠ b → lt b a = true) (x : α) (l : List α)
    (h : l.Pairwise (fun a b => lt a b = true)) :
    (setInsert lt x l).Pairwise (fun a b => lt a b = true) := by
  induction l with
  | nil => simp [setInsert]
  | cons y ys ih =>
    obtain ⟨hy, hys⟩ := List.pairwise_cons.1 h
    unfold setInsert
    split_ifs with h1 h2
    · refine List.pairwise_cons.2 ⟨?_, h⟩
      intro z hz
      rcases List.mem_cons.1 hz with rfl | hz1
      · exact h1
      · exact htrans _ _ _ h1 (hy z hz1)
    · exact h
    · refine List.pairwise_cons.2 ⟨?_, ih hys⟩
      intro z hz
      rcases (mem_setInsert lt x z ys).1 hz with rfl | hz1
      · exact htri _ _ (by simpa using h1) h2
      · exact hy z hz1

/-- A loop whose body adds to a set the elements that `Q` names for the loop
variable adds exactly those elements and keeps the set sorted. -/
theorem foldl_set_spec {α β : Type} (lt : α → α → Bool) (step : List α → β → List α)
    (Q : β → α → Prop) (hmem : ∀ c y z, z ∈ step c y ↔ z ∈ c ∨ Q y z)
    (hsorted : ∀ c y, c.Pairwise (fun a b => lt a b = true) →
      (step c y).Pairwise (fun a b => lt a b = true)) :
    ∀ (ys : List β) (c : List α),
      (∀ z, z ∈ ys.foldl step c ↔ z ∈ c ∨ ∃ y ∈ ys, Q y z) ∧
      (c.Pairwise (fun a b => lt a b = true) →
        (ys.foldl step c).Pairwise (fun a b => lt a b = true)) := by
  intro ys
  induction ys with
  | nil => intro c; simp
  | cons y ys ih =>
    intro c
    simp only [List.foldl_cons]
    obtain ⟨h1, h2⟩ := ih (step c y)
    refine ⟨?_, fun hc => h2 (hsorted c y hc)⟩
    intro z
    rw [h1 z, hmem c y z]
    constructor
    · rintro ((hz | hq) | ⟨y1, hy1, hq⟩)
      · exact Or.inl hz
      · exact Or.inr ⟨y, List.mem_cons_self _ _, hq⟩
      · exact Or.inr ⟨y1, List.mem_cons_of_mem _ hy1, hq⟩
    · rintro (hz | ⟨y1, hy1, hq⟩)
      · exact Or.inl (Or.inl hz)
      · rcases List.mem_cons.1 hy1 with rfl | hy2
        · exact Or.inl (Or.inr hq)
        · exact Or.inr ⟨y1, hy2, hq⟩

theorem natLt_trans (a b c : Nat) (h1 : natLt a b = true) (h2 : natLt b c = true) :
    natLt a c = true := by
  unfold natLt at *
  simp only [decide_eq_true_eq] at *
  omega

theorem natLt_tri (a b : Nat) (h1 : natLt a b = false) (h2 : a ≠ b) : natLt b a = true := by
  unfold natLt at *
  simp only [decide_eq_true_eq, decide_eq_false_iff_not] at *
  omega

theorem pairLt_trans (a b c : Nat × Nat) (h1 : pairLt a b = true) (h2 : pairLt b c = true) :
    pairLt a c = true := by
  unfold pairLt at *
  simp only [decide_eq_true_eq] at *
  omega

theorem pairLt_tri (a b : Nat × Nat) (h1 : pairLt a b = false) (h2 : a ≠ b) :
    pairLt b a = true := by
  unfold pairLt at *
  simp only [decide_eq_true_eq, decide_eq_false_iff_not] at *
  have h3 : a.1 ≠ b.1 ∨ a.2 ≠ b.2 := by
    by_contra hc
    push_neg at hc
    exact h2 (Prod.ext hc.1 hc.2)
  omega

/-- The set `set_id` holds exactly the ids at the positions `i, ..., j`, in
increasing order. -/
theorem groupIds_spec (hs : List HashEntry) (i j : Nat) :
    (∀ x, x ∈ groupIds hs i j ↔ ∃ t, i ≤ t ∧ t < i + (j + 1 - i) ∧ (hs.getD t .zero).id = x) ∧
    (groupIds hs i j).Pairwise (fun a b => natLt a b = true) := by
  unfold groupIds
  obtain ⟨h1, h2⟩ := foldl_set_spec natLt
    (fun s k => setInsert natLt (hs.getD k .zero).id s) (fun k x => (hs.getD k .zero).id = x)
    (fun c y z => by
      rw [mem_setInsert]
      constructor
      · rintro (h | h)
        · exact Or.inr h.symm
        · exact Or.inl h
      · rintro (h | h)
        · exact Or.inr h
        · exact Or.inl h.symm)
    (fun c y hc => setInsert_sorted natLt natLt_trans natLt_tri _ c hc)
    (List.range' i (j + 1 - i)) []
  refine ⟨?_, h2 List.Pairwise.nil⟩
  intro x
  rw [h1 x]
  simp only [List.not_mem_nil, false_or, List.mem_range'_1]
  constructor
  · rintro ⟨t, ⟨ht1, ht2⟩, he⟩
    exact ⟨t, ht1, ht2, he⟩
  · rintro ⟨t, ht1, ht2, he⟩
    exact ⟨t, ⟨ht1, ht2⟩, he⟩

/-- The nested loops add exactly the increasing pairs of distinct members of
`set_id` and keep `candidate` sorted. -/
theorem addPairs_spec (S : List Nat) (C : List (Nat × Nat)) :
    (∀ p, p ∈ addPairs S C ↔ p ∈ C ∨ (p.1 ∈ S ∧ p.2 ∈ S ∧ p.1 < p.2)) ∧
    (C.Pairwise (fun a b => pairLt a b = true) →
      (addPairs S C).Pairwise (fun a b => pairLt a b = true)) := by
  have inner : ∀ x : Nat, ∀ (ys : List Nat) (c : List (Nat × Nat)),
      (∀ z, z ∈ ys.foldl (fun c y =>
          if x ≠ y then setInsert pairLt (min x y, max x y) c else c) c ↔
        z ∈ c ∨ ∃ y ∈ ys, x ≠ y ∧ (min x y, max x y) = z) ∧
      (c.Pairwise (fun a b => pairLt a b = true) →
        (ys.foldl (fun c y =>
          if x ≠ y then setInsert pairLt (min x y, max x y) c else c) c).Pairwise
          (fun a b => pairLt a b = true)) := by
    intro x
    refine foldl_set_spec pairLt _ (fun y z => x ≠ y ∧ (min x y, max x y) = z) ?_ ?_
    · intro c y z
      split_ifs with h
      · rw [mem_setInsert]
        constructor
        · rintro (e | hz)
          · exact Or.inr ⟨h, e.symm⟩
          · exact Or.inl hz
        · rintro (hz | ⟨_, e⟩)
          · exact Or.inr hz
          · exact Or.inl e.symm
      · constructor
        · exact fun hz => Or.inl hz
        · rintro (hz | ⟨hne, _⟩)
          · exact hz
          · exact absurd hne h
    · intro c y hc
      split_ifs
      · exact setInsert_sorted pairLt pairLt_trans pairLt_tri _ c hc
      · exact hc
  obtain ⟨h1, h2⟩ := foldl_set_spec pairLt
    (fun c x => S.foldl (fun c y =>
      if x ≠ y then setInsert pairLt (min x y, max x y) c else c) c)
    (fun x z => ∃ y ∈ S, x ≠ y ∧ (min x y, max x y) = z)
    (fun c x z => (inner x S c).1 z) (fun c x hc => (inner x S c).2 hc) S C
  refine ⟨?_, h2⟩
  intro p
  unfold addPairs
  rw [h1 p]
  constructor
  · rintro (hp | ⟨x, hx, y, hy, hne, e⟩)
    · exact Or.inl hp
    · right
      rw [← e]
      simp only
      rcases Nat.lt_or_gt_of_ne hne with hlt | hgt
      · rw [Nat.min_eq_left (by omega), Nat.max_eq_right (by omega)]
        exact ⟨hx, hy, hlt⟩
      · rw [Nat.min_eq_right (by omega), Nat.max_eq_left (by omega)]
        exact ⟨hy, hx, hgt⟩
  · rintro (hp | ⟨h1, h2, hlt⟩)
    · exact Or.inl hp
    · refine Or.inr ⟨p.1, h1, p.2, h2, by omega, ?_⟩
      rw [Nat.min_eq_left (by omega), Nat.max_eq_right (by omega)]

theorem entryLe_total (a b : HashEntry) : entryLe a b = true ∨ entryLe b a = true := by
  unfold entryLe
  simp only [decide_eq_true_eq]
  omega

theorem entryLe_trans (a b c : HashEntry) (h1 : entryLe a b = true) (h2 : entryLe b c = true) :
    entryLe a c = true := by
  unfold entryLe at *
  simp only [decide_eq_true_eq] at *
  omega

theorem entryLe_refl (a : HashEntry) : entryLe a a = true := by
  unfold entryLe
  simp

theorem sortEntries_sorted (entries : List HashEntry) :
    (sortEntries entries).Pairwise (fun a b => entryLe a b = true) := by
  haveI : IsTotal HashEntry (fun a b => entryLe a b = true) := ⟨entryLe_total⟩
  haveI : IsTrans HashEntry (fun a b => entryLe a b = true) := ⟨entryLe_trans⟩
  exact List.sorted_insertionSort (fun a b => entryLe a b = true) entries

theorem sortEntries_perm (entries : List HashEntry) : (sortEntries entries).Perm entries :=
  List.perm_insertionSort _ entries

theorem sameKey_iff (a b : HashEntry) :
    sameKey a b = true ↔ a.h1 = b.h1 ∧ a.h2 = b.h2 ∧ a.width = b.width := by
  unfold sameKey
  simp only [Bool.and_eq_true, decide_eq_true_eq]
  tauto

theorem sameKey_false_iff (a b : HashEntry) :
    sameKey a b = false ↔ ¬(a.h1 = b.h1 ∧ a.h2 = b.h2 ∧ a.width = b.width) := by
  rw [← sameKey_iff]
  simp

/-- In sorted order an entry between two entries of one key has that key. -/
theorem sameKey_between (a b c : HashEntry) (h1 : entryLe a b = true) (h2 : entryLe b c = true)
    (h3 : sameKey a c = true) : sameKey a b = true := by
  rw [sameKey_iff] at *
  unfold entryLe at *
  simp only [decide_eq_true_eq] at *
  omega

theorem getD_le_of_sorted (hs : List HashEntry)
    (hsorted : hs.Pairwise (fun a b => entryLe a b = true)) (a b : Nat) (hab : a ≤ b)
    (hb : b < hs.length) : entryLe (hs.getD a .zero) (hs.getD b .zero) = true := by
  rcases Nat.eq_or_lt_of_le hab with rfl | hlt
  · exact entryLe_refl _
  · have ha : a < hs.length := by omega
    rw [List.getD_eq_getElem hs _ ha, List.getD_eq_getElem hs _ hb]
    exact List.pairwise_iff_getElem.1 hsorted a b ha hb hlt

theorem mem_iff_getD (hs : List HashEntry) (e : HashEntry) :
    e ∈ hs ↔ ∃ t, t < hs.length ∧ hs.getD t .zero = e := by
  rw [List.mem_iff_getElem]
  constructor
  · rintro ⟨t, ht, he⟩
    exact ⟨t, ht, by rw [List.getD_eq_getElem hs _ ht]; exact he⟩
  · rintro ⟨t, ht, he⟩
    exact ⟨t, ht, by rw [List.getD_eq_getElem hs _ ht] at he; exact he⟩

/-- The inner loop stops at the last position of the run of entries that share
the key of position `i`. -/
theorem btorScan_spec (hs : List HashEntry) (i : Nat) :
    ∀ (fuel j0 : Nat), i ≤ j0 → j0 < hs.length → hs.length ≤ j0 + 1 + fuel →
      (∀ t, i ≤ t → t ≤ j0 → sameKey (hs.getD i .zero) (hs.getD t .zero) = true) →
      j0 ≤ btorScan hs i fuel j0 ∧ btorScan hs i fuel j0 < hs.length ∧
      (∀ t, i ≤ t → t ≤ btorScan hs i fuel j0 →
        sameKey (hs.getD i .zero) (hs.getD t .zero) = true) ∧
      (btorScan hs i fuel j0 + 1 < hs.length →
        sameKey (hs.getD i .zero) (hs.getD (btorScan hs i fuel j0 + 1) .zero) = false) := by
  intro fuel
  induction fuel with
  | zero =>
    intro j0 _ hj hf hall
    unfold btorScan
    exact ⟨le_refl _, hj, hall, fun h => by omega⟩
  | succ fuel ih =>
    intro j0 hij hj hf hall
    unfold btorScan
    split_ifs with hc
    · obtain ⟨h1, h2, h3, h4⟩ := ih (j0 + 1) (by omega) hc.1 (by omega) (by
        intro t ht1 ht2
        rcases Nat.eq_or_lt_of_le ht2 with rfl | hlt
        · exact hc.2
        · exact hall t ht1 (by omega))
      exact ⟨by omega, h2, h3, h4⟩
    · refine ⟨le_refl _, hj, hall, ?_⟩
      intro hlt
      have : ¬(sameKey (hs.getD i .zero) (hs.getD (j0 + 1) .zero) = true) := fun e => hc ⟨hlt, e⟩
      simpa using this

theorem mem_idsOf (l : List HashEntry) (e : HashEntry) (x : Nat) :
    x ∈ idsOf l e ↔ ∃ a ∈ l, sameKey e a = true ∧ a.id = x := by
  unfold idsOf
  simp only [List.mem_toFinset, List.mem_map, List.mem_filter]
  constructor
  · rintro ⟨a, ⟨ha, hk⟩, he⟩
    exact ⟨a, ha, hk, he⟩
  · rintro ⟨a, ha, hk, he⟩
    exact ⟨a, ⟨ha, hk⟩, he⟩

theorem idsOf_congr (l : List HashEntry) (e e1 : HashEntry) (h : sameKey e e1 = true) :
    idsOf l e = idsOf l e1 := by
  ext x
  rw [mem_idsOf, mem_idsOf]
  rw [sameKey_iff] at h
  constructor
  · rintro ⟨a, ha, hk, he⟩
    refine ⟨a, ha, ?_, he⟩
    rw [sameKey_iff] at *
    omega
  · rintro ⟨a, ha, hk, he⟩
    refine ⟨a, ha, ?_, he⟩
    rw [sameKey_iff] at *
    omega

theorem idsOf_perm {l l1 : List HashEntry} (h : l.Perm l1) (e : HashEntry) :
    idsOf l e = idsOf l1 e := by
  ext x
  rw [mem_idsOf, mem_idsOf]
  constructor
  · rintro ⟨a, ha, hk⟩
    exact ⟨a, h.mem_iff.1 ha, hk⟩
  · rintro ⟨a, ha, hk⟩
    exact ⟨a, h.mem_iff.2 ha, hk⟩

/-- On a sorted vector the set `set_id` of the run that starts at `i` is the
set of all ids of the key of position `i`. -/
theorem groupIds_eq_idsOf (hs : List HashEntry)
    (hsorted : hs.Pairwise (fun a b => entryLe a b = true)) (i : Nat) (hi : i < hs.length)
    (hstart : ∀ t t1, t < i → i ≤ t1 → t1 < hs.length →
      sameKey (hs.getD t .zero) (hs.getD t1 .zero) = false) :
    (groupIds hs i (btorScan hs i hs.length i)).toFinset = idsOf hs (hs.getD i .zero) ∧
    (groupIds hs i (btorScan hs i hs.length i)).length = (idsOf hs (hs.getD i .zero)).card ∧
    (∀ t t1, t < btorScan hs i hs.length i + 1 → btorScan hs i hs.length i + 1 ≤ t1 →
      t1 < hs.length → sameKey (hs.getD t .zero) (hs.getD t1 .zero) = false) ∧
    (∀ t, i ≤ t → t ≤ btorScan hs i hs.length i →
      sameKey (hs.getD i .zero) (hs.getD t .zero) = true) ∧
    i ≤ btorScan hs i hs.length i ∧ btorScan hs i hs.length i < hs.length := by
  obtain ⟨h1, h2, h3, h4⟩ := btorScan_spec hs i hs.length i (le_refl _) hi (by omega) (by
    intro t ht1 ht2
    have e : t = i := by omega
    rw [e, sameKey_iff]
    exact ⟨rfl, rfl, rfl⟩)
  generalize btorScan hs i hs.length i = j at h1 h2 h3 h4
  have hafter : ∀ t1, j + 1 ≤ t1 → t1 < hs.length →
      sameKey (hs.getD i .zero) (hs.getD t1 .zero) = false := by
    intro t1 ht1 ht2
    by_contra hc
    have hc1 : sameKey (hs.getD i .zero) (hs.getD t1 .zero) = true := by simpa using hc
    have hb := sameKey_between _ _ _ (getD_le_of_sorted hs hsorted i (j + 1) (by omega) (by omega))
      (getD_le_of_sorted hs hsorted (j + 1) t1 ht1 ht2) hc1
    rw [h4 (by omega)] at hb
    cases hb
  obtain ⟨hmem, hsort⟩ := groupIds_spec hs i j
  have hset : (groupIds hs i j).toFinset = idsOf hs (hs.getD i .zero) := by
    ext x
    rw [List.mem_toFinset, hmem x, mem_idsOf]
    constructor
    · rintro ⟨t, ht1, ht2, he⟩
      exact ⟨hs.getD t .zero, (mem_iff_getD hs _).2 ⟨t, by omega, rfl⟩, h3 t ht1 (by omega), he⟩
    · rintro ⟨a, ha, hk, he⟩
      obtain ⟨t, ht, hta⟩ := (mem_iff_getD hs a).1 ha
      subst hta
      refine ⟨t, ?_, ?_, he⟩
      · by_contra hlt
        have := hstart t i (by omega) (le_refl _) hi
        rw [sameKey_false_iff] at this
        rw [sameKey_iff] at hk
        exact this ⟨hk.1.symm, hk.2.1.symm, hk.2.2.symm⟩
      · by_contra hgt
        have := hafter t (by omega) ht
        rw [hk] at this
        cases this
  have hnd : (groupIds hs i j).Nodup := by
    refine List.Pairwise.imp ?_ hsort
    intro a b hab e
    subst e
    unfold natLt at hab
    simp at hab
  refine ⟨hset, ?_, ?_, h3, h1, h2⟩
  · rw [← hset, List.toFinset_card_of_nodup hnd]
  · intro t t1 ht ht1 ht2
    by_cases hti : t < i
    · exact hstart t t1 hti (by omega) ht2
    · have hk := h3 t (by omega) (by omega)
      have hf := hafter t1 ht1 ht2
      rw [sameKey_false_iff] at *
      rw [sameKey_iff] at hk
      intro hc
      exact hf ⟨by omega, by omega, by omega⟩

/-- The outer loop, on a sorted vector: at the end `candidate` is sorted and
holds exactly the increasing pairs of ids that share a group of admissible
size. -/
theorem btorGroupLoop_spec (hs : List HashEntry) (cap : Nat)
    (hsorted : hs.Pairwise (fun a b => entryLe a b = true)) :
    ∀ (fuel i : Nat) (acc : List (Nat × Nat) × Nat), hs.length ≤ i + fuel →
      (∀ t t1, t < i → i ≤ t1 → t1 < hs.length →
        sameKey (hs.getD t .zero) (hs.getD t1 .zero) = false) →
      acc.1.Pairwise (fun a b => pairLt a b = true) →
      (∀ p, p ∈ acc.1 ↔
        p.1 < p.2 ∧ ∃ t, t < i ∧ t < hs.length ∧ InGroup hs cap (hs.getD t .zero) p) →
      (btorGroupLoop hs cap fuel i acc).1.Pairwise (fun a b => pairLt a b = true) ∧
      ∀ p, p ∈ (btorGroupLoop hs cap fuel i acc).1 ↔
        p.1 < p.2 ∧ ∃ t, t < hs.length ∧ InGroup hs cap (hs.getD t .zero) p := by
  have hend : ∀ (i : Nat) (acc : List (Nat × Nat) × Nat), hs.length ≤ i →
      (∀ p, p ∈ acc.1 ↔
        p.1 < p.2 ∧ ∃ t, t < i ∧ t < hs.length ∧ InGroup hs cap (hs.getD t .zero) p) →
      ∀ p, p ∈ acc.1 ↔ p.1 < p.2 ∧ ∃ t, t < hs.length ∧ InGroup hs cap (hs.getD t .zero) p := by
    intro i acc hi hmem p
    rw [hmem p]
    constructor
    · rintro ⟨h1, t, _, ht, hg⟩
      exact ⟨h1, t, ht, hg⟩
    · rintro ⟨h1, t, ht, hg⟩
      exact ⟨h1, t, by omega, ht, hg⟩
  intro fuel
  induction fuel with
  | zero =>
    intro i acc hf _ hs1 hmem
    exact ⟨hs1, hend i acc (by omega) hmem⟩
  | succ fuel ih =>
    intro i acc hf hstart hs1 hmem
    unfold btorGroupLoop
    by_cases hi : i < hs.length
    · rw [if_pos hi]
      obtain ⟨hset, hlen, hstart1, hrun, hij, hjn⟩ := groupIds_eq_idsOf hs hsorted i hi hstart
      generalize btorScan hs i hs.length i = j at *
      have hgrp : ∀ t, i ≤ t → t ≤ j → ∀ p,
          InGroup hs cap (hs.getD t .zero) p ↔ InGroup hs cap (hs.getD i .zero) p := by
        intro t ht1 ht2 p
        unfold InGroup
        rw [idsOf_congr hs _ _ (hrun t ht1 ht2)]
      refine ih (j + 1) _ (by omega) hstart1 ?_ ?_
      · split_ifs
        · exact (addPairs_spec _ _).2 hs1
        · exact hs1
      · intro p
        split_ifs with hc
        · rw [(addPairs_spec _ _).1 p, hmem p]
          rw [hlen] at hc
          have hin : ∀ x, x ∈ groupIds hs i j ↔ x ∈ idsOf hs (hs.getD i .zero) := by
            intro x
            rw [← hset, List.mem_toFinset]
          rw [hin, hin]
          constructor
          · rintro (⟨h1, t, ht1, ht2, hg⟩ | ⟨h1, h2, h3⟩)
            · exact ⟨h1, t, by omega, ht2, hg⟩
            · exact ⟨h3, i, by omega, hi, h1, h2, hc.1, hc.2⟩
          · rintro ⟨h1, t, ht1, ht2, hg⟩
            by_cases hti : t < i
            · exact Or.inl ⟨h1, t, hti, ht2, hg⟩
            · have hg1 := (hgrp t (by omega) (by omega) p).1 hg
              exact Or.inr ⟨hg1.1, hg1.2.1, h1⟩
        · rw [hmem p]
          rw [hlen] at hc
          constructor
          · rintro ⟨h1, t, ht1, ht2, hg⟩
            exact ⟨h1, t, by omega, ht2, hg⟩
          · rintro ⟨h1, t, ht1, ht2, hg⟩
            by_cases hti : t < i
            · exact ⟨h1, t, hti, ht2, hg⟩
            · have hg1 := (hgrp t (by omega) (by omega) p).1 hg
              exact absurd ⟨hg1.2.2.1, hg1.2.2.2⟩ hc
    · rw [if_neg hi]
      exact ⟨hs1, hend i acc (by omega) hmem⟩

/-- The pairs written by `main`: sorted, and exactly the increasing pairs of
ids that share a group of admissible size. -/
theorem btorCandidates_spec (entries : List HashEntry) (cap : Nat) :
    (btorCandidates entries cap).1.Pairwise (fun a b => pairLt a b = true) ∧
    ∀ p, p ∈ (btorCandidates entries cap).1 ↔
      p.1 < p.2 ∧ ∃ e ∈ entries, InGroup entries cap e p := by
  obtain ⟨h1, h2⟩ := btorGroupLoop_spec (sortEntries entries) cap (sortEntries_sorted entries)
    (sortEntries entries).length 0 ([], 0) (by omega) (fun t t1 ht => by omega)
    List.Pairwise.nil (fun p => by simp)
  refine ⟨h1, ?_⟩
  intro p
  unfold btorCandidates
  rw [h2 p]
  have hg : ∀ e, InGroup (sortEntries entries) cap e p ↔ InGroup entries cap e p := by
    intro e
    unfold InGroup
    rw [idsOf_perm (sortEntries_perm entries) e]
  constructor
  · rintro ⟨hlt, t, ht, hin⟩
    refine ⟨hlt, _, ?_, (hg _).1 hin⟩
    exact (sortEntries_perm entries).mem_iff.1 ((mem_iff_getD _ _).2 ⟨t, ht, rfl⟩)
  · rintro ⟨hlt, e, he, hin⟩
    obtain ⟨t, ht, hte⟩ := (mem_iff_getD _ _).1 ((sortEntries_perm entries).mem_iff.2 he)
    exact ⟨hlt, t, ht, by rw [hte]; exact (hg _).2 hin⟩

/-- A set of `k` numbers has `k` choose 2 increasing pairs. -/
theorem card_increasing_pairs (G : Finset Nat) :
    ((G ×ˢ G).filter (fun p => p.1 < p.2)).card = G.card.choose 2 := by
  induction G using Finset.induction_on_max with
  | h0 => rfl
  | step a s hmax ih =>
    have ha : a ∉ s := fun h => lt_irrefl a (hmax a h)
    have hsplit : ((insert a s) ×ˢ (insert a s)).filter (fun p => p.1 < p.2) =
        (s ×ˢ s).filter (fun p => p.1 < p.2) ∪ s.image (fun x => (x, a)) := by
      ext p
      simp only [Finset.mem_filter, Finset.mem_product, Finset.mem_insert, Finset.mem_union,
        Finset.mem_image]
      constructor
      · rintro ⟨⟨h1, h2⟩, hlt⟩
        rcases h2 with h2 | h2
        · right
          rcases h1 with h1 | h1
          · omega
          · exact ⟨p.1, h1, Prod.ext rfl h2.symm⟩
        · left
          rcases h1 with h1 | h1
          · have := hmax p.2 h2
            omega
          · exact ⟨⟨h1, h2⟩, hlt⟩
      · rintro (⟨⟨h1, h2⟩, hlt⟩ | ⟨x, hx, e⟩)
        · exact ⟨⟨Or.inr h1, Or.inr h2⟩, hlt⟩
        · subst e
          exact ⟨⟨Or.inr hx, Or.inl rfl⟩, hmax x hx⟩
    have hdisj : Disjoint ((s ×ˢ s).filter (fun p => p.1 < p.2)) (s.image (fun x => (x, a))) := by
      rw [Finset.disjoint_left]
      intro p hp hq
      simp only [Finset.mem_filter, Finset.mem_product] at hp
      simp only [Finset.mem_image] at hq
      obtain ⟨x, _, e⟩ := hq
      subst e
      exact ha hp.1.2
    have himg : (s.image (fun x => (x, a))).card = s.card := by
      apply Finset.card_image_of_injective
      intro x y e
      exact (Prod.ext_iff.1 e).1
    have hch : (s.card + 1).choose 2 = s.card + s.card.choose 2 := by
      rw [Nat.choose_succ_succ, Nat.choose_one_right]
    rw [hsplit, Finset.card_union_of_disjoint hdisj, ih, himg, Finset.card_insert_of_not_mem ha,
      hch]
    omega

/-- C12. In the word-level tool the written candidate pairs are exactly the
pairs `(x, y)` with `x < y` of ids that fall in one `(h1, h2, width)` group
whose number `k` of distinct ids satisfies `1 < k <= capacity`; such a group
has all its `k (k - 1) / 2` pairs among them, a group with a single id or with
more than `capacity` ids adds none, and the output is sorted and free of
duplicates. -/
theorem btor_candidates_are_the_group_pairs (entries : List HashEntry) (capacity : Nat) :
    (∀ x y, (x, y) ∈ (btorCandidates entries capacity).1 ↔
      x < y ∧ ∃ e ∈ entries, x ∈ idsOf entries e ∧ y ∈ idsOf entries e ∧
        1 < (idsOf entries e).card ∧ (idsOf entries e).card ≤ capacity) ∧
    (∀ e ∈ entries, 1 < (idsOf entries e).card → (idsOf entries e).card ≤ capacity →
      ((btorCandidates entries capacity).1.filter
        (fun p => decide (p.1 ∈ idsOf entries e ∧ p.2 ∈ idsOf entries e))).length =
        (idsOf entries e).card * ((idsOf entries e).card - 1) / 2) ∧
    (btorCandidates entries capacity).1.Pairwise (fun a b => pairLt a b = true) ∧
    (btorCandidates entries capacity).1.Nodup := by
  obtain ⟨hsorted, hmem⟩ := btorCandidates_spec entries capacity
  have hnd : (btorCandidates entries capacity).1.Nodup := by
    refine List.Pairwise.imp ?_ hsorted
    intro a b hab e
    subst e
    unfold pairLt at hab
    simp at hab
  refine ⟨fun x y => hmem (x, y), ?_, hsorted, hnd⟩
  intro e he h1 h2
  rw [← Nat.choose_two_right, ← card_increasing_pairs,
    ← List.toFinset_card_of_nodup (hnd.filter _)]
  congr 1
  ext p
  simp only [List.mem_toFinset, List.mem_filter, decide_eq_true_eq, Finset.mem_filter,
    Finset.mem_product]
  constructor
  · rintro ⟨hp, hin⟩
    exact ⟨hin, ((hmem p).1 hp).1⟩
  · rintro ⟨hin, hlt⟩
    exact ⟨(hmem p).2 ⟨hlt, e, he, hin.1, hin.2, h1, h2⟩, hin⟩

/-- A run of the candidate loop: the group of key `(1, 1, 8)` has the ids 2, 5
(twice) and 9, the group of key `(2, 1, 8)` the ids 3 and 4, the two other
groups a single id. -/
theorem btorCandidates_example :
    btorCandidates [⟨1, 1, 8, 5⟩, ⟨2, 1, 8, 3⟩, ⟨1, 1, 8, 2⟩, ⟨1, 1, 8, 5⟩, ⟨1, 1, 8, 9⟩,
        ⟨2, 1, 8, 4⟩, ⟨3, 3, 3, 3⟩, ⟨1, 1, 4, 7⟩] 4 =
      ([(2, 5), (2, 9), (3, 4), (5, 9)], 2) ∧
    btorCandidates [⟨1, 1, 8, 5⟩, ⟨2, 1, 8, 3⟩, ⟨1, 1, 8, 2⟩, ⟨1, 1, 8, 5⟩, ⟨1, 1, 8, 9⟩,
        ⟨2, 1, 8, 4⟩, ⟨3, 3, 3, 3⟩, ⟨1, 1, 4, 7⟩] 2 =
      ([(3, 4)], 1) := by
  constructor <;> decide

/-! ## Runs in which the code leaves the documented behaviour -/

set_option maxRecDepth 100000 in
/-- C13, at the failing input: on `freeModel`, after one round in which the
first input draws 0 and the others 1, the variables 1 and 34 have the
fingerprint 0 and all others the base of the round. With capacity 4 the
simulator writes the pairs `(1, 2)` and `(34, 2)` of variables with different
fingerprints; with capacity 2 it writes nothing, although the variables 1 and
34 form a maximal set of size 2 with one fingerprint. -/
theorem simuaiger_pairs_unequal_fingerprints :
    simuaiger freeModel AigSim.firstZero.rng (fun _ => 1) 1 4 =
      .ok (some ([(1, 34), (1, 2), (34, 2)], 1)) ∧
    simuaiger freeModel AigSim.firstZero.rng (fun _ => 1) 1 2 = .ok (some ([], 0)) ∧
    (List.range' 1 34).filter (fun v => decide (freeRun.hvalue v = 0)) = [1, 34] ∧
    freeRun.hvalue 2 = 4294967297 := by
  refine ⟨by decide, by decide, by decide, by decide⟩

/-- C17, at the failing input: on the model with the constraint on
`4 = eq(2, 3)` and the list `2 3`, `btormerge` rewrites the operands of the
`eq` line that drives the constraint to `(2, 2)`, as it rewrites the operand of
line 6, which drives no constraint, to `2`. -/
theorem btormerge_rewrites_constraint_eq :
    ∃ model1, btormergeMain eqConstraintModel [(2, 3)] = .ok model1 ∧
      (model1.line 4).map (fun line => line.args) = some [2, 2] ∧
      (model1.line 5).map (fun line => (line.tag, line.args, line.lineno)) =
        some (.BTOR2_TAG_constraint, [4], 5) ∧
      (model1.line 6).map (fun line => line.args) = some [2] :=
  ⟨(btormergeMain eqConstraintModel [(2, 3)]).get eqConstraintModel, rfl, by decide, by decide,
    by decide⟩

/-- C19, at the failing input: on the model whose array sort 3 has the index
and element sort 2, with an empty list, `btormerge` retains the array sort
line 3 and drops the sort line 2 that it names. -/
theorem btormerge_drops_sort_of_retained_array :
    ∃ model1, btormergeMain arraySortModel [] = .ok model1 ∧
      (List.range' 1 6).map (fun i => (model1.line i).map (fun line => line.lineno)) =
        [some 1, some (-1), some 3, some 4, some 5, some 6] ∧
      (model1.line 3).map (fun line => (line.sort.tag, line.sort.index, line.sort.element)) =
        some (.BTOR2_TAG_SORT_array, 2, 2) :=
  ⟨(btormergeMain arraySortModel []).get arraySortModel, rfl, by decide, by decide⟩

/-! ## Soundness of the backward tagging pass -/

/-- C30. For every topologically ordered AIG on which the backward tagging
pass of preprocessing (`pre_graph`) completes, every literal the pass tags
asserted-true evaluates to 1, and its complement to 0, under every input
assignment that makes all constraint literals 1. -/
theorem backward_tags_hold_under_constraints (m : Aiger) (hwf : GatesOrdered m.ands)
    (p : PreState) (hp : preGraph m = .ok p) (σ : Nat → Bool)
    (hσ : ∀ c ∈ m.constraints, litVal (aigEval m σ) c = true)
    (l : Nat) (hl : p.tag l = 1) :
    litVal (aigEval m σ) l = true ∧ litVal (aigEval m σ) (l ^^^ 1) = false := by
  have h := preGraph_tag_sound hwf hp σ hσ l hl
  refine ⟨h, ?_⟩
  rw [litVal_xor_one, h]
  rfl

/-- Witness for C30: with the gate `6 = 4 AND 2` constrained to 1 the pass
tags the gate and both inputs; under the assignment setting every input, the
three literals evaluate to 1. -/
theorem backward_tags_hold_under_constraints_witness :
    (preGraph andModel = .ok ((preGraph andModel).get PreState.init) ∧
      ((preGraph andModel).get PreState.init).tag 4 = 1) ∧
    litVal (aigEval andModel (fun _ => true)) 4 = true ∧
    litVal (aigEval andModel (fun _ => true)) (4 ^^^ 1) = false :=
  ⟨⟨rfl, by decide⟩,
    backward_tags_hold_under_constraints andModel ⟨by decide, by decide, by decide, by decide⟩
      ((preGraph andModel).get PreState.init) rfl (fun _ => true) (by decide) 4 (by decide)⟩

/-! ## The reference set is the least closed set -/

theorem refStep_sound (m : Aiger) (pg : Bool) (S : Nat → Prop) (hS : RefClosed m pg S)
    (g : AigerAnd) (hg : g ∈ m.ands) (refs : Nat → Bool)
    (h : ∀ l, refs l = true → S l) : ∀ l, refStep g refs l = true → S l := by
  have h1 : ∀ l, (if refs g.lhs then
      Function.update (Function.update refs g.rhs1 true) g.rhs0 true else refs) l = true →
      S l := by
    intro l hl
    by_cases hc : refs g.lhs = true
    · rw [if_pos hc] at hl
      have hp := hS.2.1 g hg (h _ hc)
      by_cases e0 : l = g.rhs0
      · rw [e0]; exact hp.1
      · by_cases e1 : l = g.rhs1
        · rw [e1]; exact hp.2
        · rw [Function.update_noteq e0, Function.update_noteq e1] at hl
          exact h l hl
    · rw [if_neg hc] at hl
      exact h l hl
  intro l hl
  unfold refStep at hl
  split_ifs at hl with hc hn hn
  · have hp := hS.2.2 g hg (h1 _ (by rw [if_pos hc]; exact hn))
    by_cases e0 : l = g.rhs0 ^^^ 1
    · rw [e0]; exact hp.1
    · by_cases e1 : l = g.rhs1 ^^^ 1
      · rw [e1]; exact hp.2
      · rw [Function.update_noteq e0, Function.update_noteq e1] at hl
        exact h1 l (by rw [if_pos hc]; exact hl)
  · exact h1 l (by rw [if_pos hc]; exact hl)
  · have hp := hS.2.2 g hg (h _ hn)
    by_cases e0 : l = g.rhs0 ^^^ 1
    · rw [e0]; exact hp.1
    · by_cases e1 : l = g.rhs1 ^^^ 1
      · rw [e1]; exact hp.2
      · rw [Function.update_noteq e0, Function.update_noteq e1] at hl
        exact h l hl
  · exact h l hl

theorem foldr_refStep_sound (m : Aiger) (pg : Bool) (S : Nat → Prop) (hS : RefClosed m pg S)
    (init : Nat → Bool) (h : ∀ l, init l = true → S l) :
    ∀ gs : List AigerAnd, (∀ g ∈ gs, g ∈ m.ands) →
      ∀ l, gs.foldr refStep init l = true → S l := by
  intro gs
  induction gs with
  | nil => intro _ l hl; exact h l hl
  | cons g gs ih =>
    intro hgs l hl
    exact refStep_sound m pg S hS g (hgs g (List.mem_cons_self _ _)) _
      (ih (fun g1 h1 => hgs g1 (List.mem_cons_of_mem _ h1))) l hl

/-- Every set that contains the initial references and is closed under the
gate rules contains the computed reference set. -/
theorem computeRefs_least (m : Aiger) (pg : Bool) (S : Nat → Prop) (hS : RefClosed m pg S)
    (l : Nat) (h : computeRefs m pg l = true) : S l := by
  refine foldr_refStep_sound m pg S hS _ ?_ m.ands (fun _ hg => hg) l h
  intro l hl
  simp only [markRefs_apply, Bool.or_eq_true, decide_eq_true_eq] at hl
  apply hS.1
  tauto

/-- The computed reference set of an ordered gate list contains the initial
references and is closed under the gate rules. -/
theorem computeRefs_refClosed (m : Aiger) (pg : Bool) (hwf : GatesOrdered m.ands) :
    RefClosed m pg (fun l => computeRefs m pg l = true) := by
  refine ⟨?_, fun g hg => (computeRefs_closed m pg hwf g hg).1,
    fun g hg => (computeRefs_closed m pg hwf g hg).2⟩
  rintro l (h | h)
  · subst h
    exact computeRefs_true m l
  · exact computeRefs_mark m pg l h

/-- C29. For every AIG with topologically ordered gates and every AND gate,
`aiger2cnf` emits the clauses `(¬lhs ∨ rhs0)` and `(¬lhs ∨ rhs1)` exactly when
`lhs` is in the reference set, and the clause `(¬rhs0 ∨ ¬rhs1 ∨ lhs)` exactly
when `¬lhs` is in it; the gate blocks follow the clause of the constant in gate
order; and the reference set is the least set that contains the initial set
(every literal in `pg` mode, else the bad, output and constraint literals) and
is closed under the two gate rules. -/
theorem aiger2cnf_gate_clauses_follow_least_reference_set (m : Aiger) (pg : Bool)
    (hwf : GatesOrdered m.ands) :
    RefClosed m pg (fun l => computeRefs m pg l = true) ∧
    (∀ S, RefClosed m pg S → ∀ l, computeRefs m pg l = true → S l) ∧
    (∃ pre post, (aiger2cnf m pg).form =
      pre ++ m.ands.flatMap (andClauses (computeRefs m pg) (aiger2cnf m pg).map) ++ post ∧
      pre.length ≤ 1 ∧ post.length = m.constraints.length + 1) ∧
    ∀ g, andClauses (computeRefs m pg) (aiger2cnf m pg).map g =
      (if computeRefs m pg g.lhs = true then
        [[(aiger2cnf m pg).map (g.lhs ^^^ 1), (aiger2cnf m pg).map g.rhs0],
         [(aiger2cnf m pg).map (g.lhs ^^^ 1), (aiger2cnf m pg).map g.rhs1]]
       else []) ++
      (if computeRefs m pg (g.lhs ^^^ 1) = true then
        [[(aiger2cnf m pg).map (g.rhs0 ^^^ 1), (aiger2cnf m pg).map (g.rhs1 ^^^ 1),
          (aiger2cnf m pg).map g.lhs]]
       else []) := by
  refine ⟨computeRefs_refClosed m pg hwf, computeRefs_least m pg, ?_, fun g => rfl⟩
  refine ⟨(if (computeRefs m pg 0 || computeRefs m pg 1) = true then [[(-1 : Int)]] else []),
    m.constraints.map (fun lit => [(aiger2cnf m pg).map lit]) ++
    [m.bad.map (aiger2cnf m pg).map ++ m.outputs.map (aiger2cnf m pg).map], ?_, ?_, ?_⟩
  · rw [aiger2cnf_form, List.append_assoc]
  · split_ifs <;> simp
  · simp

/-- Witness for C29: in the model with bad literal 6, output 4 and constraint
3 the gate literal 6 is referenced and its negation is not, so exactly the two
binary clauses of the gate are emitted. -/
theorem aiger2cnf_gate_clauses_follow_least_reference_set_witness :
    RefClosed propertyModel false (fun l => computeRefs propertyModel false l = true) ∧
    (∀ S, RefClosed propertyModel false S →
      ∀ l, computeRefs propertyModel false l = true → S l) ∧
    (∃ pre post, (aiger2cnf propertyModel false).form =
      pre ++ propertyModel.ands.flatMap
        (andClauses (computeRefs propertyModel false) (aiger2cnf propertyModel false).map) ++
        post ∧
      pre.length ≤ 1 ∧ post.length = propertyModel.constraints.length + 1) ∧
    ∀ g, andClauses (computeRefs propertyModel false) (aiger2cnf propertyModel false).map g =
      (if computeRefs propertyModel false g.lhs = true then
        [[(aiger2cnf propertyModel false).map (g.lhs ^^^ 1),
          (aiger2cnf propertyModel false).map g.rhs0],
         [(aiger2cnf propertyModel false).map (g.lhs ^^^ 1),
          (aiger2cnf propertyModel false).map g.rhs1]]
       else []) ++
      (if computeRefs propertyModel false (g.lhs ^^^ 1) = true then
        [[(aiger2cnf propertyModel false).map (g.rhs0 ^^^ 1),
          (aiger2cnf propertyModel false).map (g.rhs1 ^^^ 1),
          (aiger2cnf propertyModel false).map g.lhs]]
       else []) :=
  aiger2cnf_gate_clauses_follow_least_reference_set propertyModel false
    ⟨by decide, by decide, by decide, by decide⟩

/-! ## `parse_int` accepts exactly the canonical decimals up to `INT_MAX` -/

theorem decValue_ge (str : List Char) (res : Nat) : res ≤ decValue str res := by
  induction str generalizing res with
  | nil => exact le_refl _
  | cons ch p ih =>
    have h := ih (res * 10 + (ch.toNat - 48))
    have e : decValue (ch :: p) res = decValue p (res * 10 + (ch.toNat - 48)) := rfl
    rw [e]
    omega

theorem decValue_cons (ch : Char) (p : List Char) (res : Nat) :
    decValue (ch :: p) res = decValue p (res * 10 + (ch.toNat - 48)) := rfl

/-- The loop returns the denoted number exactly when every character is a
digit and the number does not exceed `INT_MAX`. -/
theorem parseIntLoop_spec (p : List Char) (res : Nat) (hres : res ≤ INT_MAX) :
    parseIntLoop p res =
      if (∀ ch ∈ p, isdigit ch = true) ∧ decValue p res ≤ INT_MAX then some (decValue p res)
      else none := by
  induction p generalizing res with
  | nil =>
    unfold parseIntLoop
    rw [if_pos ⟨fun c hc => (by cases hc), hres⟩]
    rfl
  | cons ch p ih =>
    unfold parseIntLoop
    have hge := decValue_ge p (res * 10 + (ch.toNat - 48))
    rw [decValue_cons]
    by_cases hd : isdigit ch = true
    · rw [hd]
      simp only [Bool.not_true, Bool.false_eq_true, if_false]
      have hdig : ch.toNat - 48 ≤ 9 := by
        unfold isdigit at hd
        simp only [decide_eq_true_eq] at hd
        omega
      by_cases h1 : INT_MAX / 10 < res
      · rw [if_pos h1, if_neg]
        rintro ⟨_, h2⟩
        unfold INT_MAX at h1 h2
        omega
      · rw [if_neg h1]
        by_cases h2 : INT_MAX - (ch.toNat - 48) < res * 10
        · rw [if_pos h2, if_neg]
          rintro ⟨_, h3⟩
          unfold INT_MAX at h2 h3
          omega
        · have hle : res * 10 + (ch.toNat - 48) ≤ INT_MAX := by
            unfold INT_MAX at h1 h2 ⊢
            omega
          rw [if_neg h2, ih _ hle]
          by_cases hc : (∀ c ∈ p, isdigit c = true) ∧
              decValue p (res * 10 + (ch.toNat - 48)) ≤ INT_MAX
          · rw [if_pos hc, if_pos]
            refine ⟨?_, hc.2⟩
            intro c hcm
            rcases List.mem_cons.1 hcm with e | e
            · rw [e]; exact hd
            · exact hc.1 c e
          · rw [if_neg hc, if_neg]
            rintro ⟨h3, h4⟩
            exact hc ⟨fun c hcm => h3 c (List.mem_cons_of_mem _ hcm), h4⟩
    · have hd1 : isdigit ch = false := by simpa using hd
      rw [hd1]
      simp only [Bool.not_false, if_true]
      rw [if_neg]
      rintro ⟨h3, _⟩
      exact hd (h3 ch (List.mem_cons_self _ _))

/-- The canonical decimals: non-empty, digits only, no leading zero unless the
string is `0`, value at most `INT_MAX`. -/
theorem parse_int_spec (str : List Char) (res : Int) :
    parse_int str res =
      if str ≠ [] ∧ (∀ ch ∈ str, isdigit ch = true) ∧ (str.head? = some '0' → str = ['0']) ∧
          decValue str 0 ≤ INT_MAX then
        (1, (decValue str 0 : Int))
      else (0, res) := by
  cases str with
  | nil => simp [parse_int]
  | cons ch p =>
    simp only [parse_int]
    by_cases hz : ch = '0' ∧ p ≠ []
    · rw [if_pos hz, if_neg]
      rintro ⟨_, _, h, _⟩
      have := h (by simp [hz.1])
      simp only [List.cons.injEq] at this
      exact hz.2 this.2
    · rw [if_neg hz, parseIntLoop_spec _ _ (Nat.zero_le _)]
      have hz1 : (ch :: p).head? = some '0' → ch :: p = ['0'] := by
        intro h
        simp only [List.head?_cons, Option.some.injEq] at h
        subst h
        by_cases hp : p = []
        · rw [hp]
        · exact absurd ⟨rfl, hp⟩ hz
      by_cases hc : (∀ c ∈ ch :: p, isdigit c = true) ∧ decValue (ch :: p) 0 ≤ INT_MAX
      · rw [if_pos hc, if_pos ⟨List.cons_ne_nil _ _, hc.1, hz1, hc.2⟩]
      · rw [if_neg hc, if_neg (fun h => hc ⟨h.2.1, h.2.2.2⟩)]

/-- C28. `parse_int` returns 1 exactly when the string is non-empty, consists
only of decimal digits, has no leading zero unless it is the string `0`, and
denotes a value of at most `2^31 - 1`; in that case it stores that value.
Otherwise it returns 0 and leaves the output location unchanged. -/
theorem parse_int_accepts_canonical_decimals (str : List Char) (res : Int) :
    ((parse_int str res).1 = 1 ↔
      (str ≠ [] ∧ (∀ ch ∈ str, isdigit ch = true) ∧ (str.head? = some '0' → str = ['0']) ∧
        decValue str 0 ≤ 2 ^ 31 - 1)) ∧
    ((parse_int str res).1 = 1 → (parse_int str res).2 = (decValue str 0 : Int)) ∧
    ((parse_int str res).1 ≠ 1 → parse_int str res = (0, res)) := by
  have e : (2 : Nat) ^ 31 - 1 = INT_MAX := by decide
  rw [parse_int_spec, e]
  by_cases hc : str ≠ [] ∧ (∀ ch ∈ str, isdigit ch = true) ∧
      (str.head? = some '0' → str = ['0']) ∧ decValue str 0 ≤ INT_MAX
  · rw [if_pos hc]
    exact ⟨⟨fun _ => hc, fun _ => rfl⟩, fun _ => rfl, fun h => absurd rfl h⟩
  · rw [if_neg hc]
    refine ⟨⟨fun h => ?_, fun h => absurd h hc⟩, fun h => ?_, fun _ => rfl⟩
    · exact absurd (show (0 : Int) = 1 from h) (by decide)
    · exact absurd (show (0 : Int) = 1 from h) (by decide)

/-- Runs of `parse_int` on `"2147483647"`, `"2147483648"`, `"007"`, `"0"`,
`"12a"` and the empty string, the output location holding 5 before. -/
theorem parse_int_examples :
    parse_int "2147483647".toList 5 = (1, 2147483647) ∧
    parse_int "2147483648".toList 5 = (0, 5) ∧
    parse_int "007".toList 5 = (0, 5) ∧
    parse_int "0".toList 5 = (1, 0) ∧
    parse_int "12a".toList 5 = (0, 5) ∧
    parse_int [] 5 = (0, 5) := by
  refine ⟨?_, ?_, ?_, ?_, ?_, ?_⟩ <;> decide

/-! ## Decimal output and `parse_int` -/

theorem digitChar_props (d : Nat) (hd : d < 10) :
    (digitChar d).toNat = 48 + d ∧ isdigit (digitChar d) = true ∧
    (digitChar d = '0' → d = 0) := by
  interval_cases d <;> decide

theorem isdigit_ne_dot (ch : Char) (h : isdigit ch = true) :
    ch ≠ '.' ∧ ch ≠ Char.ofNat 0 := by
  constructor
  · rintro rfl
    exact absurd h (by decide)
  · rintro rfl
    exact absurd h (by decide)

theorem decValue_append (a b : List Char) (res : Nat) :
    decValue (a ++ b) res = decValue b (decValue a res) := by
  unfold decValue
  rw [List.foldl_append]

/-- The digits written for `n`: a non-empty block of digits in front of the
accumulator, without a leading zero unless `n` is 0, denoting `n`. -/
theorem decimalAux_spec : ∀ (fuel n : Nat) (acc : List Char), n < fuel →
    ∃ ds, decimalAux fuel n acc = ds ++ acc ∧ ds ≠ [] ∧ (∀ ch ∈ ds, isdigit ch = true) ∧
      (ds.head? = some '0' → ds = ['0']) ∧ decValue ds 0 = n := by
  intro fuel
  induction fuel with
  | zero => intro n _ h; omega
  | succ fuel ih =>
    intro n acc hn
    unfold decimalAux
    by_cases h10 : n < 10
    · rw [if_pos h10]
      obtain ⟨hv, hdig, _⟩ := digitChar_props n h10
      refine ⟨[digitChar n], rfl, List.cons_ne_nil _ _, ?_, ?_, ?_⟩
      · intro ch hch
        rw [List.mem_singleton.1 hch]
        exact hdig
      · intro h
        simp only [List.head?_cons, Option.some.injEq] at h
        rw [h]
      · show 0 * 10 + ((digitChar n).toNat - 48) = n
        rw [hv]
        omega
    · rw [if_neg h10]
      obtain ⟨ds, he, hne, hall, hhead, hval⟩ :=
        ih (n / 10) (digitChar (n % 10) :: acc) (by omega)
      obtain ⟨hv, hdig, _⟩ := digitChar_props (n % 10) (Nat.mod_lt _ (by decide))
      refine ⟨ds ++ [digitChar (n % 10)], ?_, ?_, ?_, ?_, ?_⟩
      · rw [he, List.append_assoc]
        rfl
      · simp
      · intro ch hch
        rcases List.mem_append.1 hch with h | h
        · exact hall ch h
        · rw [List.mem_singleton.1 h]
          exact hdig
      · intro h
        exfalso
        cases ds with
        | nil => exact hne rfl
        | cons d ds =>
          have h1 : (d :: ds).head? = some '0' := by simpa using h
          have h2 := hhead h1
          rw [h2] at hval
          have h3 : decValue ['0'] 0 = 0 := by decide
          omega
      · rw [decValue_append, hval]
        show n / 10 * 10 + ((digitChar (n % 10)).toNat - 48) = n
        rw [hv]
        omega

theorem decimal_spec (n : Nat) :
    decimal n ≠ [] ∧ (∀ ch ∈ decimal n, isdigit ch = true) ∧
    ((decimal n).head? = some '0' → decimal n = ['0']) ∧ decValue (decimal n) 0 = n := by
  obtain ⟨ds, he, h⟩ := decimalAux_spec (n + 1) n [] (Nat.lt_succ_self n)
  rw [List.append_nil] at he
  unfold decimal
  rw [he]
  exact h

/-- Reading back a written number: `parse_int` accepts the decimal text of
every number up to `INT_MAX` and stores the number. -/
theorem parse_int_decimal (n : Nat) (res : Int) (hn : n ≤ INT_MAX) :
    parse_int (decimal n) res = (1, (n : Int)) := by
  obtain ⟨h1, h2, h3, h4⟩ := decimal_spec n
  rw [parse_int_spec, if_pos ⟨h1, h2, h3, by rw [h4]; exact hn⟩, h4]

/-- A number above `INT_MAX` is refused. -/
theorem parse_int_decimal_large (n : Nat) (res : Int) (hn : INT_MAX < n) :
    parse_int (decimal n) res = (0, res) := by
  obtain ⟨_, _, _, h4⟩ := decimal_spec n
  rw [parse_int_spec, if_neg]
  rintro ⟨_, _, _, h⟩
  rw [h4] at h
  omega

/-! ## The dots of a written symbol -/

theorem dotPositions_append (a b : List Char) (i : Nat) :
    dotPositions (a ++ b) i = dotPositions a i ++ dotPositions b (i + a.length) := by
  induction a generalizing i with
  | nil => simp [dotPositions]
  | cons ch a ih =>
    have e : i + 1 + a.length = i + (a.length + 1) := by omega
    have h1 : dotPositions ((ch :: a) ++ b) i =
        if ch = '.' then i :: dotPositions (a ++ b) (i + 1)
        else dotPositions (a ++ b) (i + 1) := rfl
    have h2 : dotPositions (ch :: a) i =
        if ch = '.' then i :: dotPositions a (i + 1) else dotPositions a (i + 1) := rfl
    rw [h1, h2, ih, e, List.length_cons]
    split_ifs <;> simp

theorem dotPositions_nodot (a : List Char) (i : Nat) (h : ∀ ch ∈ a, ch ≠ '.') :
    dotPositions a i = [] := by
  induction a generalizing i with
  | nil => rfl
  | cons ch a ih =>
    unfold dotPositions
    rw [if_neg (h ch (List.mem_cons_self _ _))]
    exact ih _ (fun c hc => h c (List.mem_cons_of_mem _ hc))

theorem set_at_length {α : Type} (a : List α) (x y : α) (b : List α) :
    (a ++ x :: b).set a.length y = a ++ y :: b := by
  induction a with
  | nil => rfl
  | cons c a ih => simp only [List.cons_append, List.length_cons, List.set_cons_succ, ih]

theorem drop_at_length {α : Type} (a b : List α) (k : Nat) :
    (a ++ b).drop (a.length + k) = b.drop k := by
  induction a with
  | nil => simp
  | cons c a ih =>
    have e : (c :: a).length + k = (a.length + k) + 1 := by simp only [List.length_cons]; omega
    rw [e, List.cons_append, List.drop_succ_cons, ih]

theorem takeWhile_stop {α : Type} (p : α → Bool) (a : List α) (x : α) (b : List α)
    (ha : ∀ c ∈ a, p c = true) (hx : p x = false) : (a ++ x :: b).takeWhile p = a := by
  induction a with
  | nil => simp [List.takeWhile, hx]
  | cons c a ih =>
    rw [List.cons_append, List.takeWhile_cons, ha c (List.mem_cons_self _ _)]
    simp only [if_true]
    rw [ih (fun d hd => ha d (List.mem_cons_of_mem _ hd))]

theorem takeWhile_all {α : Type} (p : α → Bool) (a : List α)
    (ha : ∀ c ∈ a, p c = true) : a.takeWhile p = a := by
  induction a with
  | nil => rfl
  | cons c a ih =>
    rw [List.takeWhile_cons, ha c (List.mem_cons_self _ _)]
    simp only [if_true]
    rw [ih (fun d hd => ha d (List.mem_cons_of_mem _ hd))]

theorem getD_at_length {α : Type} (a : List α) (x : α) (b : List α) (d : α) :
    (a ++ x :: b).getD a.length d = x := by
  induction a with
  | nil => rfl
  | cons c a ih => simpa using ih

/-- The shape of a written symbol: a part `X` followed by the character `c`,
a dot, three characters and the digits `dN`, a dot, five characters and the
digits `dT`. The parser finds the two last dots, reads both numbers and
decides the role by `c`. -/
theorem parse_symbol_shape (X : List Char) (c : Char) (m dN s dT : List Char)
    (hm : m.length = 3) (hs : s.length = 5)
    (hmd : ∀ ch ∈ m, ch ≠ '.') (hsd : ∀ ch ∈ s, ch ≠ '.')
    (hN : ∀ ch ∈ dN, isdigit ch = true) (hT : ∀ ch ∈ dT, isdigit ch = true) :
    parse_symbol (((X ++ [c]) ++ '.' :: (m ++ dN)) ++ '.' :: (s ++ dT)) =
      if (parse_int dT 0).1 = 0 ∨ (parse_int dN 0).1 = 0 then .ub
      else if c = 't' then
        .ok (.BTOR2_TAG_input, ((parse_int dN 0).2, (parse_int dT 0).2),
          ((X ++ [c]) ++ '.' :: (m ++ dN)) ++ '.' :: (s ++ dT))
      else
        .ok (.BTOR2_TAG_state, ((parse_int dN 0).2, (parse_int dT 0).2),
          ((X ++ [c]) ++ '.' :: (m ++ dN)) ++ '.' :: (s ++ dT)) := by
  have hdotM : ∀ ch ∈ m ++ dN, ch ≠ '.' := by
    intro ch hch
    rcases List.mem_append.1 hch with h | h
    · exact hmd ch h
    · exact (isdigit_ne_dot ch (hN ch h)).1
  have hdotS : ∀ ch ∈ s ++ dT, ch ≠ '.' := by
    intro ch hch
    rcases List.mem_append.1 hch with h | h
    · exact hsd ch h
    · exact (isdigit_ne_dot ch (hT ch h)).1
  have hdots : (dotPositions (((X ++ [c]) ++ '.' :: (m ++ dN)) ++ '.' :: (s ++ dT)) 0).reverse =
      ((X ++ [c]) ++ '.' :: (m ++ dN)).length :: (X ++ [c]).length ::
        (dotPositions (X ++ [c]) 0).reverse := by
    rw [dotPositions_append, dotPositions_append (X ++ [c])]
    simp only [dotPositions, if_true, Nat.zero_add]
    rw [dotPositions_nodot _ _ hdotM, dotPositions_nodot _ _ hdotS]
    simp
  have hnul : ∀ a : List Char, (∀ ch ∈ a, isdigit ch = true) →
      ∀ ch ∈ a, (fun ch => decide (ch ≠ Char.ofNat 0)) ch = true := by
    intro a ha ch hch
    simpa using (isdigit_ne_dot ch (ha ch hch)).2
  have hbuf : (((X ++ [c]) ++ '.' :: (m ++ dN)) ++ '.' :: (s ++ dT)).set
      ((X ++ [c]) ++ '.' :: (m ++ dN)).length (Char.ofNat 0) =
      ((X ++ [c]) ++ '.' :: (m ++ dN)) ++ Char.ofNat 0 :: (s ++ dT) := set_at_length _ _ _ _
  have hc2 : cstr (((X ++ [c]) ++ '.' :: (m ++ dN)) ++ Char.ofNat 0 :: (s ++ dT))
      (((X ++ [c]) ++ '.' :: (m ++ dN)).length + 6) = some dT := by
    unfold cstr
    rw [if_pos (by simp only [List.length_append, List.length_cons, hs]; omega),
      drop_at_length]
    have e : (Char.ofNat 0 :: (s ++ dT)).drop 6 = (s ++ dT).drop (s.length + 0) := by
      rw [hs]; rfl
    rw [e, drop_at_length, List.drop_zero, takeWhile_all _ _ (hnul dT hT)]
  have hc1 : cstr (((X ++ [c]) ++ '.' :: (m ++ dN)) ++ Char.ofNat 0 :: (s ++ dT))
      ((X ++ [c]).length + 4) = some dN := by
    unfold cstr
    rw [if_pos (by simp only [List.length_append, List.length_cons, hm]; omega),
      List.append_assoc, drop_at_length]
    have e : (('.' :: (m ++ dN)) ++ Char.ofNat 0 :: (s ++ dT)).drop 4 =
        (m ++ (dN ++ Char.ofNat 0 :: (s ++ dT))).drop (m.length + 0) := by
      rw [hm, List.cons_append, List.append_assoc]; rfl
    rw [e, drop_at_length, List.drop_zero, takeWhile_stop _ _ _ _ (hnul dN hN) (by simp)]
  have hget : (((X ++ [c]) ++ '.' :: (m ++ dN)) ++ '.' :: (s ++ dT)).getD
      ((X ++ [c]).length - 1) (Char.ofNat 0) = c := by
    have e : (X ++ [c]).length - 1 = X.length := by simp
    rw [e, List.append_assoc, List.append_assoc]
    exact getD_at_length _ _ _ _
  have hp1 : (X ++ [c]).length ≠ 0 := by simp
  unfold parse_symbol
  rw [hdots]
  simp only []
  unfold parseSymbolAt
  rw [hbuf, hc2, hc1, set_at_length, hget]
  simp only [if_neg hp1]

theorem stateSymbol_shape (symbol : Option String) (id time : Nat) :
    ∃ X, stateSymbol symbol id time =
      ((X ++ ['e']) ++ '.' :: (['i', 'd', '_'] ++ decimal id)) ++
        '.' :: (['t', 'i', 'm', 'e', '_'] ++ decimal time) := by
  cases symbol with
  | none => exact ⟨['s', 't', 'a', 't'], by simp [stateSymbol]⟩
  | some s => exact ⟨s.toList ++ ['.', 's', 't', 'a', 't'], by simp [stateSymbol]⟩

theorem inputSymbol_shape (symbol : Option String) (id time : Nat) :
    ∃ X, inputSymbol symbol id time =
      ((X ++ ['t']) ++ '.' :: (['i', 'd', '_'] ++ decimal id)) ++
        '.' :: (['t', 'i', 'm', 'e', '_'] ++ decimal time) := by
  cases symbol with
  | none => exact ⟨['i', 'n', 'p', 'u'], by simp [inputSymbol]⟩
  | some s => exact ⟨s.toList ++ ['.', 'i', 'n', 'p', 'u'], by simp [inputSymbol]⟩

/-- C26, as stated, fails: the id is read into a 32-bit `int` by `parse_int`,
which refuses the text of `2147483648`; the parser then reads the
uninitialised `id`. -/
theorem parse_symbol_refuses_wide_id :
    (1 ≤ 2147483648 ∧ 0 ≤ 0) ∧
    parse_symbol (stateSymbol none 2147483648 0) = .ub ∧
    parse_symbol (stateSymbol none 2147483648 0) ≠
      .ok (.BTOR2_TAG_state, (2147483648, 0), stateSymbol none 2147483648 0) := by
  refine ⟨by decide, by decide, by decide⟩

/-- C26, amended. For every original symbol (absent, or any text, dots
included), every id `N` up to `2^31 - 1` and every time `T` up to `2^31 - 1`, `parse_symbol` applied to the symbol `btorexpand` writes
for a state copy returns the role state with `(N, T)`, applied to the symbol
written for an input copy it returns the role input with `(N, T)`, and in both
cases it leaves the symbol text unchanged. -/
theorem parse_symbol_reads_written_symbols (symbol : Option String) (N T : Nat)
    (hN : N ≤ 2 ^ 31 - 1) (hT : T ≤ 2 ^ 31 - 1) :
    parse_symbol (stateSymbol symbol N T) =
      .ok (.BTOR2_TAG_state, ((N : Int), (T : Int)), stateSymbol symbol N T) ∧
    parse_symbol (inputSymbol symbol N T) =
      .ok (.BTOR2_TAG_input, ((N : Int), (T : Int)), inputSymbol symbol N T) := by
  have e : (2 : Nat) ^ 31 - 1 = INT_MAX := by decide
  rw [e] at hN hT
  have hdN := (decimal_spec N).2.1
  have hdT := (decimal_spec T).2.1
  have hpN := parse_int_decimal N 0 hN
  have hpT := parse_int_decimal T 0 hT
  constructor
  · obtain ⟨X, hX⟩ := stateSymbol_shape symbol N T
    rw [hX, parse_symbol_shape X 'e' ['i', 'd', '_'] (decimal N) ['t', 'i', 'm', 'e', '_']
        (decimal T) rfl rfl (by decide) (by decide) hdN hdT,
      hpN, hpT]
    rfl
  · obtain ⟨X, hX⟩ := inputSymbol_shape symbol N T
    rw [hX, parse_symbol_shape X 't' ['i', 'd', '_'] (decimal N) ['t', 'i', 'm', 'e', '_']
        (decimal T) rfl rfl (by decide) (by decide) hdN hdT,
      hpN, hpT]
    rfl

/-- Witness for the amended C26: the symbol `a.b` of the line 12 at time 3. -/
theorem parse_symbol_reads_written_symbols_witness :
    parse_symbol (stateSymbol (some "a.b") 12 3) =
      .ok (.BTOR2_TAG_state, (12, 3), stateSymbol (some "a.b") 12 3) ∧
    parse_symbol (inputSymbol (some "a.b") 12 3) =
      .ok (.BTOR2_TAG_input, (12, 3), inputSymbol (some "a.b") 12 3) :=
  parse_symbol_reads_written_symbols (some "a.b") 12 3 (by decide) (by decide)

/-! ## The classes of `classification` -/

theorem isPrefixOf_append_self (pat b : List Char) : pat.isPrefixOf (pat ++ b) = true := by
  induction pat with
  | nil => cases b <;> rfl
  | cons c pat ih => simp [List.isPrefixOf, ih]

theorem containsSub_append (pat a b : List Char) (hpat : pat ≠ []) :
    containsSub pat (a ++ (pat ++ b)) = true := by
  induction a with
  | nil =>
    cases pat with
    | nil => exact absurd rfl hpat
    | cons c pat =>
      show ((c :: pat).isPrefixOf ((c :: pat) ++ b) || containsSub (c :: pat) (pat ++ b)) = true
      rw [isPrefixOf_append_self]
      rfl
  | cons d a ih =>
    show ((pat.isPrefixOf (d :: (a ++ (pat ++ b)))) || containsSub pat (a ++ (pat ++ b))) = true
    rw [ih]
    simp

/-- The symbol of every state copy carries the marker `state.id`. -/
theorem containsSub_stateSymbol (symbol : Option String) (id time : Nat) :
    containsSub "state.id".toList (stateSymbol symbol id time) = true := by
  have e : "state.id".toList = ['s', 't', 'a', 't', 'e', '.', 'i', 'd'] := rfl
  rw [e]
  cases symbol with
  | none =>
    have h : stateSymbol none id time = [] ++ (['s', 't', 'a', 't', 'e', '.', 'i', 'd'] ++
        ('_' :: (decimal id ++ ['.', 't', 'i', 'm', 'e', '_'] ++ decimal time))) := by
      simp [stateSymbol]
    rw [h]
    exact containsSub_append _ _ _ (by simp)
  | some s =>
    have h : stateSymbol (some s) id time =
        (s.toList ++ ['.']) ++ (['s', 't', 'a', 't', 'e', '.', 'i', 'd'] ++
        ('_' :: (decimal id ++ ['.', 't', 'i', 'm', 'e', '_'] ++ decimal time))) := by
      simp [stateSymbol]
    rw [h]
    exact containsSub_append _ _ _ (by simp)

/-- Without the marker the class depends on the tag only. -/
theorem classification_unmarked (line : Btor2Line)
    (hno : ∀ s, line.symbol = some s → containsSub "state.id".toList s.toList = false) :
    classification line = classification (mkLine 0 line.tag 0 []) := by
  cases hsym : line.symbol with
  | none =>
    unfold classification
    rw [hsym]
    rfl
  | some s =>
    have hc := hno s hsym
    unfold classification
    rw [hsym]
    simp only [hc]
    rfl

/-- The switch of `classification`, tag by tag. -/
theorem classification_tag_table (t : Btor2Tag) :
    (t = .BTOR2_TAG_sort → classification (mkLine 0 t 0 []) = .BTOR2_TAG_sort) ∧
    (t = .BTOR2_TAG_input → classification (mkLine 0 t 0 []) = .BTOR2_TAG_input) ∧
    (t = .BTOR2_TAG_state → classification (mkLine 0 t 0 []) = .BTOR2_TAG_state) ∧
    (t ∈ [Btor2Tag.BTOR2_TAG_init, .BTOR2_TAG_next] →
      classification (mkLine 0 t 0 []) = .BTOR2_TAG_next) ∧
    (t ∈ [Btor2Tag.BTOR2_TAG_bad, .BTOR2_TAG_fair, .BTOR2_TAG_justice,
        .BTOR2_TAG_constraint] → classification (mkLine 0 t 0 []) = .BTOR2_TAG_constraint) ∧
    (t ∈ [Btor2Tag.BTOR2_TAG_const, .BTOR2_TAG_constd, .BTOR2_TAG_consth,
        .BTOR2_TAG_zero, .BTOR2_TAG_one, .BTOR2_TAG_ones] →
      classification (mkLine 0 t 0 []) = .BTOR2_TAG_const) ∧
    (t = .BTOR2_TAG_iff → classification (mkLine 0 t 0 []) = .BTOR2_TAG_not) ∧
    (t ∉ [Btor2Tag.BTOR2_TAG_sort, .BTOR2_TAG_input, .BTOR2_TAG_state,
        .BTOR2_TAG_init, .BTOR2_TAG_next, .BTOR2_TAG_bad, .BTOR2_TAG_fair,
        .BTOR2_TAG_justice, .BTOR2_TAG_constraint, .BTOR2_TAG_const, .BTOR2_TAG_constd,
        .BTOR2_TAG_consth, .BTOR2_TAG_zero, .BTOR2_TAG_one, .BTOR2_TAG_ones,
        .BTOR2_TAG_iff] → classification (mkLine 0 t 0 []) = .BTOR2_TAG_eq) := by
  cases t <;> decide

/-- The switch of `classification` has no case for `iff`: a line with the tag
`iff` and no symbol would get the initial value `not` of the result, not the
class of the operators. No run gets there, `parse_model_line` ends the program
on a line with the tag `iff`. -/
theorem classification_iff_is_fallback :
    (mkLine 4 .BTOR2_TAG_iff 1 [2, 3]).symbol = none ∧
    classification (mkLine 4 .BTOR2_TAG_iff 1 [2, 3]) = .BTOR2_TAG_not ∧
    classification (mkLine 4 .BTOR2_TAG_xnor 1 [2, 3]) = .BTOR2_TAG_eq ∧
    modelLineSupported .BTOR2_TAG_iff = false := by
  refine ⟨rfl, by decide, by decide, rfl⟩

/-- The tags of the lines that reach `classification`, against its switch. -/
theorem classification_supported_table (t : Btor2Tag) :
    modelLineSupported t = true →
    t ∉ [Btor2Tag.BTOR2_TAG_sort, .BTOR2_TAG_input, .BTOR2_TAG_state,
        .BTOR2_TAG_init, .BTOR2_TAG_next, .BTOR2_TAG_bad, .BTOR2_TAG_fair,
        .BTOR2_TAG_justice, .BTOR2_TAG_constraint, .BTOR2_TAG_const, .BTOR2_TAG_constd,
        .BTOR2_TAG_consth, .BTOR2_TAG_zero, .BTOR2_TAG_one, .BTOR2_TAG_ones] →
    classification (mkLine 0 t 0 []) = .BTOR2_TAG_eq := by
  cases t <;> decide

/-- C27. `classification` returns the state class for every line whose symbol
contains `state.id`, whatever its tag, hence for every state copy written by
`btorexpand`, as an `add` or as an `input` line. For every other line it
returns the coarse class of the tag: sort to sort, input to input, state to
state, init and next to next, bad, fair, justice and constraint to constraint,
const, constd, consth, zero, one and ones to const, and every remaining tag of
a line that the tools read, that is every bit-vector or array operator that
`parse_model_line` lets through and `output`, to the single class `eq`. -/
theorem classification_coarse_classes (line : Btor2Line) :
    ((∃ s, line.symbol = some s ∧ containsSub "state.id".toList s.toList = true) →
      classification line = .BTOR2_TAG_state) ∧
    (∀ (symbol : Option String) (N T : Nat),
      line.symbol = some (String.mk (stateSymbol symbol N T)) →
      classification line = .BTOR2_TAG_state) ∧
    ((∀ s, line.symbol = some s → containsSub "state.id".toList s.toList = false) →
      (line.tag = .BTOR2_TAG_sort → classification line = .BTOR2_TAG_sort) ∧
      (line.tag = .BTOR2_TAG_input → classification line = .BTOR2_TAG_input) ∧
      (line.tag = .BTOR2_TAG_state → classification line = .BTOR2_TAG_state) ∧
      (line.tag ∈ [Btor2Tag.BTOR2_TAG_init, .BTOR2_TAG_next] →
        classification line = .BTOR2_TAG_next) ∧
      (line.tag ∈ [Btor2Tag.BTOR2_TAG_bad, .BTOR2_TAG_fair, .BTOR2_TAG_justice,
          .BTOR2_TAG_constraint] → classification line = .BTOR2_TAG_constraint) ∧
      (line.tag ∈ [Btor2Tag.BTOR2_TAG_const, .BTOR2_TAG_constd, .BTOR2_TAG_consth,
          .BTOR2_TAG_zero, .BTOR2_TAG_one, .BTOR2_TAG_ones] →
        classification line = .BTOR2_TAG_const) ∧
      (modelLineSupported line.tag = true →
        line.tag ∉ [Btor2Tag.BTOR2_TAG_sort, .BTOR2_TAG_input, .BTOR2_TAG_state,
          .BTOR2_TAG_init, .BTOR2_TAG_next, .BTOR2_TAG_bad, .BTOR2_TAG_fair,
          .BTOR2_TAG_justice, .BTOR2_TAG_constraint, .BTOR2_TAG_const, .BTOR2_TAG_constd,
          .BTOR2_TAG_consth, .BTOR2_TAG_zero, .BTOR2_TAG_one, .BTOR2_TAG_ones] →
        classification line = .BTOR2_TAG_eq)) := by
  have hmark : (∃ s, line.symbol = some s ∧ containsSub "state.id".toList s.toList = true) →
      classification line = .BTOR2_TAG_state := by
    rintro ⟨s, hs, hc⟩
    unfold classification
    rw [hs]
    simp only [hc, if_true]
  refine ⟨hmark, ?_, ?_⟩
  · intro symbol N T hs
    exact hmark ⟨_, hs, containsSub_stateSymbol symbol N T⟩
  · intro hno
    rw [classification_unmarked line hno]
    obtain ⟨h1, h2, h3, h4, h5, h6, _, _⟩ := classification_tag_table line.tag
    exact ⟨h1, h2, h3, h4, h5, h6, classification_supported_table line.tag⟩

/-- Witness for C27: the copy at time 1 of the state 3 written as an `add`
line, the same copy written as an `input` line, and an `and` line without a
symbol. -/
theorem classification_coarse_classes_witness :
    classification { mkLine 6 .BTOR2_TAG_add 1 [2, -4] with
      symbol := some (String.mk (stateSymbol (some "s") 3 1)) } = .BTOR2_TAG_state ∧
    classification { mkLine 6 .BTOR2_TAG_input 1 [] with
      symbol := some "s.state.id_3.time_1" } = .BTOR2_TAG_state ∧
    classification (mkLine 6 .BTOR2_TAG_and 1 [2, 3]) = .BTOR2_TAG_eq :=
  ⟨(classification_coarse_classes _).2.1 (some "s") 3 1 rfl,
    (classification_coarse_classes _).1 ⟨_, rfl, by decide⟩,
    ((classification_coarse_classes (mkLine 6 .BTOR2_TAG_and 1 [2, 3])).2.2
      (fun s hs => by cases hs)).2.2.2.2.2.2 rfl (by decide)⟩

/-! ## `aigextract`: the difference of two key nodes -/

theorem litVal_double (val : Nat → Bool) (k : Nat) : litVal val (2 * k) = val k := by
  unfold litVal
  rw [if_pos (by omega)]
  congr 1
  omega

/-- The loop of `aigextract` without wrap-around: it appends one block of
three gates and one bad literal per key node. -/
theorem foldl_extractGate (k0 n0 : Nat) (hk0 : k0 ≤ n0) :
    ∀ (ks : List Nat) (n : Nat) (A : List AigerAnd) (B : List Nat),
      (∀ k ∈ ks, k ≤ n0) → n0 ≤ n → n + 3 * ks.length < 2 ^ 31 →
      (ks.map (fun k : Nat => (k : Int))).foldl (extractGate (k0 : Int)) (n, A, B) =
        (n + 3 * ks.length, A ++ xorBlocks k0 n ks, B ++ xorBads n ks) := by
  intro ks
  induction ks with
  | nil =>
    intro n A B _ _ _
    simp [xorBlocks, xorBads]
  | cons k ks ih =>
    intro n A B hk hn hlen
    have hk1 : k ≤ n0 := hk k (List.mem_cons_self _ _)
    simp only [List.length_cons] at hlen
    have hstep : extractGate (k0 : Int) (n, A, B) (k : Int) =
        (n + 3, A ++ xorBlock k0 n k, B ++ [(2 * (n + 3)) ^^^ 1]) := by
      have e1 : (((k0 : Int) * 2) % 2 ^ 32).toNat = 2 * k0 := by omega
      have e2 : (((k : Int) * 2) % 2 ^ 32).toNat = 2 * k := by omega
      have e3 : (n + 1) % 2 ^ 32 = n + 1 := Nat.mod_eq_of_lt (by omega)
      have e4 : (n + 1 + 1) % 2 ^ 32 = n + 2 := Nat.mod_eq_of_lt (by omega)
      have e5 : (n + 2 + 1) % 2 ^ 32 = n + 3 := Nat.mod_eq_of_lt (by omega)
      have e6 : ((n + 1) * 2) % 2 ^ 32 = 2 * (n + 1) := by omega
      have e7 : ((n + 2) * 2) % 2 ^ 32 = 2 * (n + 2) := by omega
      have e8 : ((n + 3) * 2) % 2 ^ 32 = 2 * (n + 3) := by omega
      simp only [extractGate, e1, e2, e3, e4, e5, e6, e7, e8, xorBlock]
    rw [List.map_cons, List.foldl_cons, hstep,
      ih (n + 3) _ _ (fun k hk' => hk k (List.mem_cons_of_mem _ hk')) (by omega) (by omega)]
    simp only [xorBlocks, xorBads, List.length_cons, List.append_assoc, List.singleton_append]
    congr 1
    omega

/-- One block computes the exclusive or of its two key nodes in its last gate
and leaves the variables up to the counter as they are. -/
theorem xorBlock_eval (val : Nat → Bool) (k0 n k : Nat) (hk0 : k0 ≤ n) (hk : k ≤ n) :
    (∀ w, w ≤ n → (xorBlock k0 n k).foldl evalStep val w = val w) ∧
    litVal ((xorBlock k0 n k).foldl evalStep val) ((2 * (n + 3)) ^^^ 1) =
      xor (val k0) (val k) := by
  have d1 : 2 * (n + 1) / 2 = n + 1 := by omega
  have d2 : 2 * (n + 2) / 2 = n + 2 := by omega
  have d3 : 2 * (n + 3) / 2 = n + 3 := by omega
  constructor
  · intro w hw
    apply foldl_evalStep_frame
    intro g hg
    simp only [xorBlock, List.mem_cons, List.mem_singleton, List.not_mem_nil, or_false] at hg
    rcases hg with rfl | rfl | rfl
    · show 2 * (n + 1) / 2 ≠ w
      omega
    · show 2 * (n + 2) / 2 ≠ w
      omega
    · show 2 * (n + 3) / 2 ≠ w
      omega
  · by_cases hlt : 2 * k0 < 2 * k
    · simp only [xorBlock, if_pos hlt, List.foldl_cons, List.foldl_nil, evalStep,
        litVal_xor_one, litVal_double, d1, d2, d3, Function.update_apply]
      have a1 : k ≠ n + 1 := by omega
      have a2 : k0 ≠ n + 1 := by omega
      have a3 : k ≠ n + 2 := by omega
      have a4 : k0 ≠ n + 2 := by omega
      simp [a1, a2, a3, a4]
      cases val k0 <;> cases val k <;> rfl
    · simp only [xorBlock, if_neg hlt, List.foldl_cons, List.foldl_nil, evalStep,
        litVal_xor_one, litVal_double, d1, d2, d3, Function.update_apply]
      have a1 : k ≠ n + 1 := by omega
      have a2 : k0 ≠ n + 1 := by omega
      have a3 : k ≠ n + 2 := by omega
      have a4 : k0 ≠ n + 2 := by omega
      simp [a1, a2, a3, a4]
      cases val k0 <;> cases val k <;> rfl

/-- The blocks in sequence: every new bad literal is the exclusive or of the
first key node and its own key node, and the variables up to the counter keep
their values. -/
theorem xorBlocks_eval (k0 : Nat) :
    ∀ (ks : List Nat) (n : Nat) (val : Nat → Bool), k0 ≤ n → (∀ k ∈ ks, k ≤ n) →
      (∀ w, w ≤ n → (xorBlocks k0 n ks).foldl evalStep val w = val w) ∧
      List.Forall₂ (fun k b =>
        litVal ((xorBlocks k0 n ks).foldl evalStep val) b = xor (val k0) (val k))
        ks (xorBads n ks) := by
  intro ks
  induction ks with
  | nil =>
    intro n val _ _
    exact ⟨fun _ _ => rfl, List.Forall₂.nil⟩
  | cons k ks ih =>
    intro n val hk0 hk
    have hk1 : k ≤ n := hk k (List.mem_cons_self _ _)
    obtain ⟨hfr, hbad⟩ := xorBlock_eval val k0 n k hk0 hk1
    obtain ⟨ihfr, ihbad⟩ := ih (n + 3) ((xorBlock k0 n k).foldl evalStep val) (by omega)
      (fun k' hk' => by have := hk k' (List.mem_cons_of_mem _ hk'); omega)
    have hfold : (xorBlocks k0 n (k :: ks)).foldl evalStep val =
        (xorBlocks k0 (n + 3) ks).foldl evalStep ((xorBlock k0 n k).foldl evalStep val) := by
      show (xorBlock k0 n k ++ xorBlocks k0 (n + 3) ks).foldl evalStep val = _
      rw [List.foldl_append]
    rw [hfold]
    refine ⟨?_, ?_⟩
    · intro w hw
      rw [ihfr w (by omega), hfr w hw]
    · show List.Forall₂ _ (k :: ks) (((2 * (n + 3)) ^^^ 1) :: xorBads (n + 3) ks)
      refine List.Forall₂.cons ?_ ?_
      · rw [← hbad]
        apply litVal_congr
        have e : ((2 * (n + 3)) ^^^ 1) / 2 = n + 3 := by
          rw [xor_one_eq]
          split <;> omega
        rw [e]
        exact ihfr (n + 3) (le_refl _)
      · refine forall₂_imp_mem ihbad ?_
        intro a b ha _ hab
        rw [hab, hfr k0 hk0, hfr a (hk a (List.mem_cons_of_mem _ ha))]

theorem xorBlocks_length (k0 : Nat) : ∀ (ks : List Nat) (n : Nat),
    (xorBlocks k0 n ks).length = 3 * ks.length ∧ (xorBads n ks).length = ks.length := by
  intro ks
  induction ks with
  | nil => intro n; exact ⟨rfl, rfl⟩
  | cons k ks ih =>
    intro n
    obtain ⟨h1, h2⟩ := ih (n + 3)
    constructor
    · show (xorBlock k0 n k ++ xorBlocks k0 (n + 3) ks).length = _
      rw [List.length_append, h1]
      simp only [xorBlock, List.length_cons, List.length_nil]
      omega
    · show (xorBads (n + 3) ks).length + 1 = _
      rw [h2]
      rfl

/-- The new gates sit on fresh variables: the outputs are even, lie above the
counter and increase along the list. -/
theorem xorBlocks_fresh (k0 : Nat) : ∀ (ks : List Nat) (n : Nat),
    (∀ g ∈ xorBlocks k0 n ks, g.lhs % 2 = 0 ∧ n < g.lhs / 2 ∧ g.lhs / 2 ≤ n + 3 * ks.length) ∧
    (xorBlocks k0 n ks).Pairwise (fun a b => a.lhs < b.lhs) := by
  intro ks
  induction ks with
  | nil =>
    intro n
    exact ⟨fun g hg => (by cases hg), List.Pairwise.nil⟩
  | cons k ks ih =>
    intro n
    obtain ⟨h1, h2⟩ := ih (n + 3)
    have hb : ∀ g ∈ xorBlock k0 n k, g.lhs % 2 = 0 ∧ n < g.lhs / 2 ∧ g.lhs / 2 ≤ n + 3 := by
      intro g hg
      simp only [xorBlock, List.mem_cons, List.mem_singleton, List.not_mem_nil, or_false] at hg
      rcases hg with rfl | rfl | rfl
      · show 2 * (n + 1) % 2 = 0 ∧ n < 2 * (n + 1) / 2 ∧ 2 * (n + 1) / 2 ≤ n + 3
        omega
      · show 2 * (n + 2) % 2 = 0 ∧ n < 2 * (n + 2) / 2 ∧ 2 * (n + 2) / 2 ≤ n + 3
        omega
      · show 2 * (n + 3) % 2 = 0 ∧ n < 2 * (n + 3) / 2 ∧ 2 * (n + 3) / 2 ≤ n + 3
        omega
    constructor
    · intro g hg
      have hg1 : g ∈ xorBlock k0 n k ++ xorBlocks k0 (n + 3) ks := hg
      simp only [List.length_cons]
      rcases List.mem_append.1 hg1 with h | h
      · have := hb g h
        omega
      · have := h1 g h
        omega
    · show (xorBlock k0 n k ++ xorBlocks k0 (n + 3) ks).Pairwise _
      rw [List.pairwise_append]
      refine ⟨?_, h2, ?_⟩
      · simp only [xorBlock, List.pairwise_cons, List.mem_cons, List.mem_singleton,
          List.not_mem_nil, or_false, List.Pairwise.nil, and_true, forall_eq_or_imp, forall_eq,
          false_implies, implies_true]
        omega
      · intro a ha b hb1
        have := hb a ha
        have := h1 b hb1
        omega

/-- C23. For a latch-free model without outputs, key nodes `x_0, x_1, ...`
among its variables and no wrap-around of the variable counter, `aigextract`
appends for each extra key node `x_i` exactly three AND gates on fresh
variables, in blocks of consecutive variables above the old `maxvar`, and one
bad literal; under every input assignment that bad literal evaluates to
`value(x_0) XOR value(x_i)`, and the old variables keep their values. -/
theorem aigextract_adds_xor_of_key_nodes (m : Aiger) (k0 : Nat) (ks : List Nat)
    (hout : m.outputs = []) (hk : ∀ k ∈ k0 :: ks, k ≤ m.maxvar)
    (hlen : m.maxvar + 3 * ks.length < 2 ^ 31) :
    ∃ r, aigextract m ((k0 :: ks).map (fun k : Nat => (k : Int))) = .ok r ∧
      r.ands = m.ands ++ xorBlocks k0 m.maxvar ks ∧
      (xorBlocks k0 m.maxvar ks).length = 3 * ks.length ∧
      (∀ g ∈ xorBlocks k0 m.maxvar ks, g.lhs % 2 = 0 ∧ m.maxvar < g.lhs / 2) ∧
      (xorBlocks k0 m.maxvar ks).Pairwise (fun a b => a.lhs < b.lhs) ∧
      r.bad.length = ks.length ∧ r.inputs = m.inputs ∧ r.constraints = m.constraints ∧
      ∀ σ, (∀ w, w ≤ m.maxvar → aigEval r σ w = aigEval m σ w) ∧
        List.Forall₂ (fun k b =>
          litVal (aigEval r σ) b = xor (aigEval r σ k0) (aigEval r σ k)) ks r.bad := by
  have hk0 : k0 ≤ m.maxvar := hk k0 (List.mem_cons_self _ _)
  have hks : ∀ k ∈ ks, k ≤ m.maxvar := fun k h => hk k (List.mem_cons_of_mem _ h)
  have hg : extractGates m.maxvar ((k0 :: ks).map (fun k : Nat => (k : Int))) =
      (m.maxvar + 3 * ks.length, xorBlocks k0 m.maxvar ks, xorBads m.maxvar ks) := by
    have h := foldl_extractGate k0 m.maxvar hk0 ks m.maxvar [] [] hks (le_refl _) hlen
    rw [List.nil_append, List.nil_append] at h
    exact h
  obtain ⟨hl1, hl2⟩ := xorBlocks_length k0 ks m.maxvar
  obtain ⟨hf1, hf2⟩ := xorBlocks_fresh k0 ks m.maxvar
  have hrun : aigextract m ((k0 :: ks).map (fun k : Nat => (k : Int))) =
      .ok (Aiger.mk (m.maxvar + 3 * ks.length) m.inputs [] (xorBads m.maxvar ks)
        m.constraints (m.ands ++ xorBlocks k0 m.maxvar ks)) := by
    unfold aigextract
    rw [if_neg (by simp [hout]), hg]
  refine ⟨_, hrun, rfl, hl1, fun g h => ⟨(hf1 g h).1, (hf1 g h).2.1⟩, hf2, hl2, rfl, rfl, ?_⟩
  intro σ
  have he : aigEval (Aiger.mk (m.maxvar + 3 * ks.length) m.inputs [] (xorBads m.maxvar ks)
      m.constraints (m.ands ++ xorBlocks k0 m.maxvar ks)) σ =
      (xorBlocks k0 m.maxvar ks).foldl evalStep (aigEval m σ) := by
    unfold aigEval
    simp only [List.foldl_append]
  obtain ⟨h1, h2⟩ := xorBlocks_eval k0 ks m.maxvar (aigEval m σ) hk0 hks
  rw [he]
  refine ⟨h1, ?_⟩
  refine forall₂_imp_mem h2 ?_
  intro a b ha _ hab
  rw [hab, h1 k0 hk0, h1 a (hks a ha)]

/-- Witness for C23: the key nodes 1, 2 and 3 of the model with the gate
`6 = 4 AND 2` give six new gates on the variables 4 to 9 and two bad
literals. -/
theorem aigextract_adds_xor_of_key_nodes_witness :
    ∃ r, aigextract keyModel (([1, 2, 3] : List Nat).map (fun k : Nat => (k : Int))) = .ok r ∧
      r.ands = keyModel.ands ++ xorBlocks 1 keyModel.maxvar [2, 3] ∧
      (xorBlocks 1 keyModel.maxvar [2, 3]).length = 3 * ([2, 3] : List Nat).length ∧
      (∀ g ∈ xorBlocks 1 keyModel.maxvar [2, 3], g.lhs % 2 = 0 ∧ keyModel.maxvar < g.lhs / 2) ∧
      (xorBlocks 1 keyModel.maxvar [2, 3]).Pairwise (fun a b => a.lhs < b.lhs) ∧
      r.bad.length = ([2, 3] : List Nat).length ∧ r.inputs = keyModel.inputs ∧
      r.constraints = keyModel.constraints ∧
      ∀ σ, (∀ w, w ≤ keyModel.maxvar → aigEval r σ w = aigEval keyModel σ w) ∧
        List.Forall₂ (fun k b =>
          litVal (aigEval r σ) b = xor (aigEval r σ 1) (aigEval r σ k)) [2, 3] r.bad :=
  aigextract_adds_xor_of_key_nodes keyModel 1 [2, 3] rfl (by decide) (by decide)

/-- The run of the witness, written out: the gates `8 = 5 AND 2`,
`10 = 4 AND 3`, `12 = 11 AND 9` for the key node 2, the gates `14 = 7 AND 2`,
`16 = 6 AND 3`, `18 = 17 AND 15` for the key node 3, and the bad literals 13
and 19. -/
theorem aigextract_keyModel :
    aigextract keyModel [1, 2, 3] =
      .ok { maxvar := 9, inputs := [2, 4], outputs := [], bad := [13, 19], constraints := [],
            ands := [⟨6, 4, 2⟩, ⟨8, 5, 2⟩, ⟨10, 4, 3⟩, ⟨12, 11, 9⟩,
              ⟨14, 7, 2⟩, ⟨16, 6, 3⟩, ⟨18, 17, 15⟩] } := by
  decide

/-! ## The lines `btorextract` appends for several key nodes -/

/-- The line of a key node: it exists, carries its own id and has a sort line
of the model. -/
theorem synthStep_ok (model : Btor2Model) (bid : Nat) (st : Nat × List OutLine) (p : Int × Int)
    (prev nw : Btor2Line) (h1 : model.line p.1.natAbs = some prev)
    (h2 : model.line p.2.natAbs = some nw) :
    synthStep model bid st p =
      .ok (st.1 + 4, st.2 ++ synthBlock bid st.1 prev.sort.id prev.id nw.id) := by
  unfold synthStep
  rw [h1, h2]
  simp only [synthBlock]
  have e1 : ((st.1 + 3 : Nat) : Int) - 2 = ((st.1 + 1 : Nat) : Int) := by push_cast; ring
  have e2 : ((st.1 + 3 : Nat) : Int) - 1 = ((st.1 + 2 : Nat) : Int) := by push_cast; ring
  have e3 : ((st.1 + 4 : Nat) : Int) - 1 = ((st.1 + 3 : Nat) : Int) := by push_cast; ring
  rw [e1, e2, e3]

/-- The loop over the pairs of consecutive key nodes: four lines per pair with
consecutive ids, the block of the pair number `j` being the `zero`, `xor`,
`neq` and `bad` line of that pair. -/
theorem forRun_synthStep (model : Btor2Model) (bid : Nat) :
    ∀ (ps : List (Int × Int)) (n : Nat) (A : List OutLine),
      (∀ p ∈ ps, (∃ prev, model.line p.1.natAbs = some prev) ∧
        ∃ nw, model.line p.2.natAbs = some nw) →
      ∃ B, forRun (synthStep model bid) ps (n, A) = .ok (n + 4 * ps.length, A ++ B) ∧
        B.length = 4 * ps.length ∧
        B.map (fun l => l.id) = List.range' (n + 1) (4 * ps.length) ∧
        (∀ j p, ps[j]? = some p → ∃ prev nw, model.line p.1.natAbs = some prev ∧
          model.line p.2.natAbs = some nw ∧
          (B.drop (4 * j)).take 4 = synthBlock bid (n + 4 * j) prev.sort.id prev.id nw.id) ∧
        (∀ l ∈ B, ∃ p ∈ ps, ∃ prev nw k, model.line p.1.natAbs = some prev ∧
          model.line p.2.natAbs = some nw ∧ n ≤ k ∧
          l ∈ synthBlock bid k prev.sort.id prev.id nw.id) ∧
        (B.filter (fun l => decide (l.tag = .BTOR2_TAG_bad))).length = ps.length := by
  intro ps
  induction ps with
  | nil =>
    intro n A _
    refine ⟨[], by simp [forRun], rfl, rfl, ?_, ?_, rfl⟩
    · intro j p hj
      simp at hj
    · intro l hl
      cases hl
  | cons p ps ih =>
    intro n A hp
    obtain ⟨⟨prev, h1⟩, ⟨nw, h2⟩⟩ := hp p (List.mem_cons_self _ _)
    obtain ⟨B, hB, hlen, hids, hblk, hmem, hbad⟩ :=
      ih (n + 4) (A ++ synthBlock bid n prev.sort.id prev.id nw.id)
        (fun q hq => hp q (List.mem_cons_of_mem _ hq))
    refine ⟨synthBlock bid n prev.sort.id prev.id nw.id ++ B, ?_, ?_, ?_, ?_, ?_, ?_⟩
    · rw [forRun_cons, synthStep_ok model bid (n, A) p prev nw h1 h2]
      simp only [Run.bind]
      rw [hB, List.append_assoc, List.length_cons]
      congr 2
      omega
    · rw [List.length_append, hlen]
      simp only [synthBlock, List.length_cons, List.length_nil]
      omega
    · rw [List.map_append, hids]
      have e : 4 * (p :: ps).length = (4 * ps.length) + 1 + 1 + 1 + 1 := by
        simp only [List.length_cons]; omega
      rw [e]
      simp only [synthBlock, List.map_cons, List.map_nil, List.range'_succ, List.cons_append,
        List.nil_append]
    · intro j q hj
      cases j with
      | zero =>
        simp only [List.getElem?_cons_zero, Option.some.injEq] at hj
        subst hj
        refine ⟨prev, nw, h1, h2, ?_⟩
        simp [synthBlock]
      | succ j =>
        simp only [List.getElem?_cons_succ] at hj
        obtain ⟨pv, nv, g1, g2, g3⟩ := hblk j q hj
        refine ⟨pv, nv, g1, g2, ?_⟩
        have e : 4 * (j + 1) = (synthBlock bid n prev.sort.id prev.id nw.id).length + 4 * j := by
          simp only [synthBlock, List.length_cons, List.length_nil]; omega
        have e2 : n + 4 * (j + 1) = n + 4 + 4 * j := by omega
        rw [e2, e, drop_at_length, g3]
    · intro l hl
      rcases List.mem_append.1 hl with h | h
      · exact ⟨p, List.mem_cons_self _ _, prev, nw, n, h1, h2, le_refl _, h⟩
      · obtain ⟨q, hq, pv, nv, k, g1, g2, g3, g4⟩ := hmem l h
        exact ⟨q, List.mem_cons_of_mem _ hq, pv, nv, k, g1, g2, by omega, g4⟩
    · rw [List.filter_append, List.length_append, hbad]
      simp [synthBlock]
      omega

/-- With a non-empty list of key nodes in range, `btorextract` runs through and
returns the model with the lines outside `keep` dropped. -/
theorem btorextract_ok (model : Btor2Model) (knode : List Int) (hne : knode ≠ [])
    (hin : ∀ node ∈ knode, 0 < node ∧ node ≤ (model.max_id : Int)) :
    btorextract model knode = .ok (dropLines model (extractKeep model knode)) := by
  unfold btorextract extract
  have h1 : knode.isEmpty = false := by
    cases knode with
    | nil => exact absurd rfl hne
    | cons _ _ => rfl
  have h2 : knode.any (fun node => decide (node > (model.max_id : Int)) || decide (node ≤ 0))
      = false := by
    rw [List.any_eq_false]
    intro node hn
    have := hin node hn
    simp only [Bool.or_eq_true, decide_eq_true_eq, not_or]
    omega
  rw [h1, h2]
  rfl

/-- Dropping a line changes its `lineno` only. -/
theorem dropLines_fields (model : Btor2Model) (keep : Nat → Bool) (i : Nat) (line : Btor2Line)
    (h : model.line i = some line) :
    ∃ line1, (dropLines model keep).line i = some line1 ∧ line1.id = line.id ∧
      line1.sort = line.sort ∧ line1.tag = line.tag ∧ line1.args = line.args := by
  unfold dropLines
  simp only [h, Option.map_some']
  split_ifs with hr hkeep
  · exact ⟨line, rfl, rfl, rfl, rfl, rfl⟩
  · exact ⟨_, rfl, rfl, rfl, rfl, rfl⟩
  · exact ⟨line, rfl, rfl, rfl, rfl, rfl⟩

theorem mem_of_getElem?_some {α : Type} {l : List α} {j : Nat} {a : α}
    (h : l[j]? = some a) : a ∈ l := by
  obtain ⟨hj, he⟩ := List.getElem?_eq_some_iff.1 h
  rw [← he]
  exact List.getElem_mem hj

theorem mem_zip_tail {α : Type} (l : List α) (p : α × α) (h : p ∈ l.zip l.tail) :
    p.1 ∈ l ∧ p.2 ∈ l := by
  obtain ⟨a, b⟩ := p
  have := List.of_mem_zip h
  exact ⟨this.1, List.mem_of_mem_tail this.2⟩

theorem length_zip_tail {α : Type} (l : List α) : (l.zip l.tail).length = l.length - 1 := by
  rw [List.length_zip, List.length_tail]
  omega

/-- For key nodes `k_1, ..., k_m` that are lines of the model with a sort,
`btorextract` writes the retained lines and, when `m > 1`, appends one line
`sort bitvec 1` and then for the pair number `j` of consecutive key nodes the
four lines `zero`, `xor k_j k_{j+1}`, `neq zero xor` and `bad neq`. The appended
lines have consecutive ids starting above the maximum id of the model, each of
them refers only to lines with smaller ids, and exactly `m - 1` of them are
`bad` lines; nothing is appended when `m = 1`. -/
theorem btorextract_appends_difference_checks (model : Btor2Model) (knode : List Int)
    (hne : knode ≠ [])
    (hk : ∀ k ∈ knode, 0 < k ∧ k ≤ (model.max_id : Int) ∧
      ∃ line, model.line k.natAbs = some line ∧ line.id = k.natAbs ∧
        1 ≤ line.sort.id ∧ line.sort.id ≤ model.max_id) :
    ∃ model1 synth, btorextract model knode = .ok model1 ∧
      btorextractMain model knode = .ok (printRetained model1 ++ synth) ∧
      synth.length = (if knode.length = 1 then 0 else 4 * (knode.length - 1) + 1) ∧
      synth.map (fun l => l.id) = List.range' (model.max_id + 1) synth.length ∧
      (1 < knode.length → synth.head? =
        some ⟨model.max_id + 1, .BTOR2_TAG_sort, some .BTOR2_TAG_SORT_bitvec, [1], none, none⟩) ∧
      (∀ j a b, (knode.zip knode.tail)[j]? = some (a, b) →
        ∃ prev, model.line a.natAbs = some prev ∧
          (synth.drop (1 + 4 * j)).take 4 =
            synthBlock (model.max_id + 1) (model.max_id + 1 + 4 * j) prev.sort.id
              a.natAbs b.natAbs) ∧
      (synth.filter (fun l => decide (l.tag = .BTOR2_TAG_bad))).length = knode.length - 1 ∧
      (∀ l ∈ synth, l.tag ≠ .BTOR2_TAG_sort → ∀ x ∈ l.nums, 1 ≤ x ∧ x < (l.id : Int)) := by
  have hin : ∀ node ∈ knode, 0 < node ∧ node ≤ (model.max_id : Int) :=
    fun k h => ⟨(hk k h).1, (hk k h).2.1⟩
  have hrun := btorextract_ok model knode hne hin
  have hline : ∀ k ∈ knode, ∃ line line1, model.line k.natAbs = some line ∧
      (dropLines model (extractKeep model knode)).line k.natAbs = some line1 ∧
      line1.id = k.natAbs ∧ line1.sort.id = line.sort.id ∧
      1 ≤ line.sort.id ∧ line.sort.id ≤ model.max_id := by
    intro k h
    obtain ⟨_, _, line, hl, hid, hs1, hs2⟩ := hk k h
    obtain ⟨line1, g1, g2, g3, _, _⟩ := dropLines_fields model (extractKeep model knode) _ line hl
    exact ⟨line, line1, hl, g1, by rw [g2, hid], by rw [g3], hs1, hs2⟩
  by_cases hm : knode.length > 1
  · have hpairs : ∀ p ∈ knode.zip knode.tail,
        (∃ prev, (dropLines model (extractKeep model knode)).line p.1.natAbs = some prev) ∧
        ∃ nw, (dropLines model (extractKeep model knode)).line p.2.natAbs = some nw := by
      intro p hp
      obtain ⟨h1, h2⟩ := mem_zip_tail knode p hp
      obtain ⟨_, l1, _, g1, _⟩ := hline p.1 h1
      obtain ⟨_, l2, _, g2, _⟩ := hline p.2 h2
      exact ⟨⟨l1, g1⟩, ⟨l2, g2⟩⟩
    obtain ⟨B, hB, hlen, hids, hblk, hmem, hbad⟩ :=
      forRun_synthStep (dropLines model (extractKeep model knode)) (model.max_id + 1)
        (knode.zip knode.tail) (model.max_id + 1)
        [⟨model.max_id + 1, .BTOR2_TAG_sort, some .BTOR2_TAG_SORT_bitvec, [1], none, none⟩]
        hpairs
    have hsynth : synthLines (dropLines model (extractKeep model knode)) knode =
        .ok (⟨model.max_id + 1, .BTOR2_TAG_sort, some .BTOR2_TAG_SORT_bitvec, [1], none, none⟩
          :: B) := by
      unfold synthLines
      rw [if_pos hm]
      have e : (dropLines model (extractKeep model knode)).max_id = model.max_id := rfl
      rw [e, hB]
      rfl
    rw [length_zip_tail] at hlen hbad hids
    refine ⟨_, (⟨model.max_id + 1, .BTOR2_TAG_sort, some .BTOR2_TAG_SORT_bitvec, [1], none,
      none⟩ : OutLine) :: B, hrun, ?_, ?_, ?_, ?_, ?_, ?_, ?_⟩
    · unfold btorextractMain
      rw [hrun]
      simp only [Run.bind]
      rw [hsynth]
    · rw [if_neg (by omega), List.length_cons, hlen]
    · rw [List.length_cons, List.map_cons, hids, hlen, List.range'_succ]
    · intro _
      rfl
    · intro j a b hj
      obtain ⟨prev, nw, g1, g2, g3⟩ := hblk j (a, b) hj
      have hmemp := mem_zip_tail knode (a, b) (mem_of_getElem?_some hj)
      obtain ⟨la, la1, ha, ha1, haid, hasort, _⟩ := hline a hmemp.1
      obtain ⟨lb, lb1, hb, hb1, hbid, _⟩ := hline b hmemp.2
      have e1 : prev = la1 := by
        have g1a : (dropLines model (extractKeep model knode)).line a.natAbs = some prev := g1
        rw [ha1] at g1a
        exact (Option.some.inj g1a).symm
      have e2 : nw = lb1 := by
        have g2a : (dropLines model (extractKeep model knode)).line b.natAbs = some nw := g2
        rw [hb1] at g2a
        exact (Option.some.inj g2a).symm
      refine ⟨la, ha, ?_⟩
      have ed : 1 + 4 * j = 4 * j + 1 := by omega
      rw [ed, List.drop_succ_cons, g3, e1, e2, haid, hbid, hasort]
    · rw [List.filter_cons, if_neg (by simp)]
      exact hbad
    · intro l hl hsort x hx
      rcases List.mem_cons.1 hl with h | h
      · rw [h] at hsort
        exact absurd rfl hsort
      · obtain ⟨p, hp, prev, nw, k, g1, g2, hk1, hin1⟩ := hmem l h
        obtain ⟨hp1, hp2⟩ := mem_zip_tail knode p hp
        obtain ⟨la, la1, ha, ha1, haid, hasort, hs1, hs2⟩ := hline p.1 hp1
        obtain ⟨lb, lb1, hb, hb1, hbid, _⟩ := hline p.2 hp2
        have e1 : prev = la1 := by
          have g1a : (dropLines model (extractKeep model knode)).line p.1.natAbs = some prev := g1
          rw [ha1] at g1a
          exact (Option.some.inj g1a).symm
        have e2 : nw = lb1 := by
          have g2a : (dropLines model (extractKeep model knode)).line p.2.natAbs = some nw := g2
          rw [hb1] at g2a
          exact (Option.some.inj g2a).symm
        have b1 := hin p.1 hp1
        have b2 := hin p.2 hp2
        rw [e1, e2, haid, hbid, hasort] at hin1
        simp only [synthBlock, List.mem_cons, List.mem_singleton, List.not_mem_nil,
          or_false] at hin1
        rcases hin1 with rfl | rfl | rfl | rfl <;>
          simp only [List.mem_cons, List.mem_singleton, List.not_mem_nil, or_false] at hx
        · subst hx
          dsimp only
          constructor <;> omega
        · rcases hx with rfl | rfl | rfl <;> dsimp only <;> constructor <;> omega
        · rcases hx with rfl | rfl | rfl <;> dsimp only <;> constructor <;> omega
        · subst hx
          dsimp only
          constructor <;> omega
  · have hlen1 : knode.length = 1 := by
      cases knode with
      | nil => exact absurd rfl hne
      | cons a t =>
        simp only [List.length_cons] at hm ⊢
        omega
    have hsynth : synthLines (dropLines model (extractKeep model knode)) knode = .ok [] := by
      unfold synthLines
      rw [if_neg hm]
    refine ⟨_, [], hrun, ?_, ?_, rfl, fun h => absurd h hm, ?_, ?_, ?_⟩
    · unfold btorextractMain
      rw [hrun]
      simp only [Run.bind]
      rw [hsynth]
    · rw [if_pos hlen1]
      rfl
    · intro j a b hj
      have : (knode.zip knode.tail).length = 0 := by rw [length_zip_tail]; omega
      have hnil := List.length_eq_zero.1 this
      rw [hnil] at hj
      simp at hj
    · rw [hlen1]
      rfl
    · intro l hl
      cases hl

/-- An instance: the key nodes 2, 3 and 6 of the model `eqConstraintModel`
give nine appended lines with the ids 8 to 16, two of them `bad` lines. -/
theorem btorextract_appends_difference_checks_witness :
    ∃ model1 synth, btorextract eqConstraintModel [2, 3, 6] = .ok model1 ∧
      btorextractMain eqConstraintModel [2, 3, 6] = .ok (printRetained model1 ++ synth) ∧
      synth.length = 9 ∧ synth.map (fun l => l.id) = [8, 9, 10, 11, 12, 13, 14, 15, 16] ∧
      (synth.filter (fun l => decide (l.tag = .BTOR2_TAG_bad))).length = 2 := by
  obtain ⟨model1, synth, h1, h2, h3, h4, _, _, h7, _⟩ :=
    btorextract_appends_difference_checks eqConstraintModel [2, 3, 6] (by decide)
      (by
        intro k hk
        simp only [List.mem_cons, List.mem_singleton, List.not_mem_nil, or_false] at hk
        rcases hk with rfl | rfl | rfl
        · exact ⟨by decide, by decide, _, rfl, rfl, by decide, by decide⟩
        · exact ⟨by decide, by decide, _, rfl, rfl, by decide, by decide⟩
        · exact ⟨by decide, by decide, _, rfl, rfl, by decide, by decide⟩)
  have h3a : synth.length = 9 := h3
  refine ⟨model1, synth, h1, h2, h3a, ?_, h7⟩
  rw [h4, h3a]
  rfl

/-- The output for the key nodes 2 and 3 of `eqConstraintModel`, written out:
all seven lines are retained, then come `8 sort bitvec 1`, `9 zero 1`,
`10 xor 1 2 3`, `11 neq 8 9 10` and `12 bad 11`. -/
theorem btorextractMain_eqConstraintModel :
    btorextractMain eqConstraintModel [2, 3] =
      .ok [⟨1, .BTOR2_TAG_sort, some .BTOR2_TAG_SORT_bitvec, [1], none, none⟩,
           ⟨2, .BTOR2_TAG_input, none, [1], none, none⟩,
           ⟨3, .BTOR2_TAG_input, none, [1], none, none⟩,
           ⟨4, .BTOR2_TAG_eq, none, [1, 2, 3], none, none⟩,
           ⟨5, .BTOR2_TAG_constraint, none, [4], none, none⟩,
           ⟨6, .BTOR2_TAG_not, none, [1, 3], none, none⟩,
           ⟨7, .BTOR2_TAG_bad, none, [6], none, none⟩,
           ⟨8, .BTOR2_TAG_sort, some .BTOR2_TAG_SORT_bitvec, [1], none, none⟩,
           ⟨9, .BTOR2_TAG_zero, none, [1], none, none⟩,
           ⟨10, .BTOR2_TAG_xor, none, [1, 2, 3], none, none⟩,
           ⟨11, .BTOR2_TAG_neq, none, [8, 9, 10], none, none⟩,
           ⟨12, .BTOR2_TAG_bad, none, [11], none, none⟩] := by
  decide

/-- A key node whose id has no line is a null pointer in the loop of lines
349-362, which reads `prev->sort.id` without a test. -/
theorem synthStep_null (model : Btor2Model) (bid : Nat) (st : Nat × List OutLine)
    (p : Int × Int) (h : model.line p.1.natAbs = none) :
    synthStep model bid st p = .ub := by
  unfold synthStep
  rw [h]

/-- C22, at the failing input: for the key nodes 7 and 6 of `eqConstraintModel`
the check of line 251 lets the `bad` line 7 through, a line without a sort.
`btorextract` writes the retained lines 1, 3, 6 and 7 and appends
`8 sort bitvec 1`, `9 zero 0`, `10 xor 0 7 6`, `11 neq 8 9 10` and `12 bad 11`:
the lines 9 and 10 name the sort 0, which is no line and not a smaller id of
the output, and the `xor` takes the `bad` line 7 as operand. -/
theorem btorextract_key_without_sort :
    (∀ k ∈ [(7 : Int), 6], 0 < k ∧ k ≤ (eqConstraintModel.max_id : Int)) ∧
    eqConstraintModel.line 0 = none ∧
    btorextractMain eqConstraintModel [7, 6] =
      .ok [⟨1, .BTOR2_TAG_sort, some .BTOR2_TAG_SORT_bitvec, [1], none, none⟩,
           ⟨3, .BTOR2_TAG_input, none, [1], none, none⟩,
           ⟨6, .BTOR2_TAG_not, none, [1, 3], none, none⟩,
           ⟨7, .BTOR2_TAG_bad, none, [6], none, none⟩,
           ⟨8, .BTOR2_TAG_sort, some .BTOR2_TAG_SORT_bitvec, [1], none, none⟩,
           ⟨9, .BTOR2_TAG_zero, none, [0], none, none⟩,
           ⟨10, .BTOR2_TAG_xor, none, [0, 7, 6], none, none⟩,
           ⟨11, .BTOR2_TAG_neq, none, [8, 9, 10], none, none⟩,
           ⟨12, .BTOR2_TAG_bad, none, [11], none, none⟩] := by
  refine ⟨by decide, rfl, by decide⟩

/-! ## The reverse loop is closed under operands -/

theorem keepStep_inv (model : Btor2Model) (Good : Nat → Prop) (keep : Nat → Bool) (i : Nat)
    (hcl : ∀ b, Good i → Refers model i b → Good b)
    (h : ∀ j, keep j = true → Good j) : ∀ j, keepStep model keep i j = true → Good j := by
  unfold keepStep
  cases hl : model.line i with
  | none => exact h
  | some line =>
    simp only
    have hsort : ∀ j, (if keep i = true then Function.update keep line.sort.id true else keep) j
        = true → Good j := by
      intro j hj
      by_cases hk : keep i = true
      · rw [if_pos hk] at hj
        by_cases hjs : j = line.sort.id
        · subst hjs
          exact hcl _ (h i hk) ⟨line, hl, Or.inl rfl⟩
        · rw [Function.update_noteq hjs] at hj
          exact h j hj
      · rw [if_neg hk] at hj
        exact h j hj
    refine keepArgs_sound Good i line.args _ ?_ hsort
    intro a ha hi
    exact hcl _ hi ⟨line, hl, Or.inr ⟨a, ha, rfl⟩⟩

/-- An invariant of the reverse loop: a property that holds for the marked ids
and passes from a line of the loop to what it refers to holds for every kept
id. -/
theorem foldr_keepStep_inv (model : Btor2Model) (Good : Nat → Prop) (keep : Nat → Bool)
    (h : ∀ j, keep j = true → Good j) :
    ∀ ids : List Nat, (∀ a ∈ ids, ∀ b, Good a → Refers model a b → Good b) →
      ∀ j, ids.foldr (fun i k => keepStep model k i) keep j = true → Good j := by
  intro ids
  induction ids with
  | nil => intro _ j hj; exact h j hj
  | cons i ids ih =>
    intro hcl j hj
    simp only [List.foldr_cons] at hj
    exact keepStep_inv model Good _ i (hcl i (List.mem_cons_self _ _))
      (ih (fun a ha => hcl a (List.mem_cons_of_mem _ ha))) j hj

/-- What one step of the reverse loop marks: an id was marked before, or the
line of the step was marked and refers to it. -/
theorem keepStep_true (model : Btor2Model) (keep : Nat → Bool) (i z : Nat)
    (h : keepStep model keep i z = true) :
    keep z = true ∨ (keep i = true ∧ Refers model i z) := by
  refine keepStep_inv model (fun z => keep z = true ∨ (keep i = true ∧ Refers model i z))
    keep i ?_ (fun j hj => Or.inl hj) z h
  intro b hi hr
  rcases hi with hi | ⟨hi, _⟩
  · exact Or.inr ⟨hi, hr⟩
  · exact Or.inr ⟨hi, hr⟩

theorem keepArgs_marks (i : Nat) :
    ∀ (args : List Int) (keep : Nat → Bool), keep i = true →
      ∀ a ∈ args, keepArgs keep i args a.natAbs = true := by
  intro args
  induction args with
  | nil => intro keep _ a ha; cases ha
  | cons b args ih =>
    intro keep hi a ha
    have hstep : keepArgs keep i (b :: args) =
        keepArgs (Function.update keep b.natAbs (keep i || keep b.natAbs)) i args := rfl
    rw [hstep]
    have hi1 : Function.update keep b.natAbs (keep i || keep b.natAbs) i = true := by
      by_cases e : i = b.natAbs
      · rw [e, Function.update_same, ← e, hi]
        rfl
      · rw [Function.update_noteq e]
        exact hi
    rcases List.mem_cons.1 ha with rfl | ha1
    · apply keepArgs_mono
      rw [Function.update_same, hi]
      rfl
    · exact ih _ hi1 a ha1

/-- A marked line marks its operands in its own step. -/
theorem keepStep_marks (model : Btor2Model) (keep : Nat → Bool) (i : Nat) (line : Btor2Line)
    (hl : model.line i = some line) (hi : keep i = true) :
    ∀ a ∈ line.args, keepStep model keep i a.natAbs = true := by
  intro a ha
  unfold keepStep
  rw [hl]
  simp only [if_pos hi]
  apply keepArgs_marks i line.args _ ?_ a ha
  by_cases e : i = line.sort.id
  · rw [← e, Function.update_same]
  · rw [Function.update_noteq e]
    exact hi

theorem foldr_keepStep_mono (model : Btor2Model) (keep : Nat → Bool) (j : Nat)
    (h : keep j = true) :
    ∀ ids : List Nat, ids.foldr (fun i k => keepStep model k i) keep j = true := by
  intro ids
  induction ids with
  | nil => exact h
  | cons i ids ih =>
    simp only [List.foldr_cons]
    exact keepStep_mono model _ i j ih

theorem range'_split (n j : Nat) (hj : 1 ≤ j ∧ j ≤ n) :
    List.range' 1 n = List.range' 1 (j - 1) ++ j :: List.range' (j + 1) (n - j) := by
  have h := List.range'_append_1 1 (j - 1) ((n - j) + 1)
  have e1 : (n - j) + 1 + (j - 1) = n := by omega
  have e3 : 1 + (j - 1) = j := by omega
  rw [e1, e3, List.range'_succ] at h
  exact h.symm

/-- Under the ordering of the ids the reverse loop is closed under operands:
the operands of a kept line are kept. -/
theorem keepBackward_closed (model : Btor2Model) (hord : model.Ordered) (keep : Nat → Bool)
    (j : Nat) (hj : j ∈ List.range' 1 model.max_id) (line : Btor2Line)
    (hl : model.line j = some line) (hk : keepBackward model keep j = true) :
    ∀ a ∈ line.args, keepBackward model keep a.natAbs = true := by
  have hr := List.mem_range'_1.1 hj
  have hsplit := range'_split model.max_id j ⟨hr.1, by omega⟩
  intro a ha
  unfold keepBackward at hk ⊢
  rw [hsplit, List.foldr_append, List.foldr_cons] at hk ⊢
  -- the steps below `j` do not write the entry `j`
  have hlow : ∀ (ids : List Nat) (k : Nat → Bool), (∀ i ∈ ids, i ∈ List.range' 1 model.max_id ∧ i < j) →
      ids.foldr (fun i k => keepStep model k i) k j = true → k j = true := by
    intro ids
    induction ids with
    | nil => intro k _ h; exact h
    | cons i ids ih =>
      intro k hids h
      simp only [List.foldr_cons] at h
      obtain ⟨hi1, hi2⟩ := hids i (List.mem_cons_self _ _)
      rcases keepStep_true model _ i j h with h1 | ⟨_, li, hli, href⟩
      · exact ih k (fun x hx => hids x (List.mem_cons_of_mem _ hx)) h1
      · exfalso
        obtain ⟨hargs, hsort, _, _⟩ := hord i hi1 li hli
        rcases href with e | ⟨b, hb, e⟩
        · omega
        · have := hargs b hb
          omega
  have hkj := hlow _ _ (by
    intro i hi
    have := List.mem_range'_1.1 hi
    refine ⟨List.mem_range'_1.2 ?_, ?_⟩ <;> omega) hk
  -- the step of `j` does not change the entry `j`
  have hkj1 : (List.range' (j + 1) (model.max_id - j)).foldr
      (fun i k => keepStep model k i) keep j = true := by
    rcases keepStep_true model _ j j hkj with h1 | ⟨h1, _⟩
    · exact h1
    · exact h1
  apply foldr_keepStep_mono
  exact keepStep_marks model _ j line hl hkj1 a ha

/-! ## The forward pass marks exactly what depends on a key node -/

theorem argsFold_spec (i : Nat) :
    ∀ (args : List Int) (v : Nat → Bool),
      (∀ z, z ≠ i →
        args.foldl (fun v a => Function.update v i (v i || v a.natAbs)) v z = v z) ∧
      (args.foldl (fun v a => Function.update v i (v i || v a.natAbs)) v i = true ↔
        (v i = true ∨ ∃ a ∈ args, v a.natAbs = true)) := by
  intro args
  induction args with
  | nil =>
    intro v
    refine ⟨fun _ _ => rfl, ?_⟩
    simp
  | cons a args ih =>
    intro v
    obtain ⟨ih1, ih2⟩ := ih (Function.update v i (v i || v a.natAbs))
    simp only [List.foldl_cons]
    refine ⟨?_, ?_⟩
    · intro z hz
      rw [ih1 z hz, Function.update_noteq hz]
    · rw [ih2, Function.update_same]
      constructor
      · rintro (h | ⟨b, hb, h⟩)
        · rw [Bool.or_eq_true] at h
          rcases h with h | h
          · exact Or.inl h
          · exact Or.inr ⟨a, List.mem_cons_self _ _, h⟩
        · by_cases e : b.natAbs = i
          · rw [e, Function.update_same, Bool.or_eq_true] at h
            rcases h with h | h
            · exact Or.inl h
            · exact Or.inr ⟨a, List.mem_cons_self _ _, h⟩
          · rw [Function.update_noteq e] at h
            exact Or.inr ⟨b, List.mem_cons_of_mem _ hb, h⟩
      · rintro (h | ⟨b, hb, h⟩)
        · left
          rw [h]
          rfl
        · rcases List.mem_cons.1 hb with rfl | hb1
          · left
            rw [h, Bool.or_true]
          · by_cases e : b.natAbs = i
            · left
              rw [e] at h
              rw [h]
              rfl
            · right
              exact ⟨b, hb1, by rw [Function.update_noteq e]; exact h⟩

/-- One step of the forward pass: the entry of the line is set when it was
set before or the line is of a propagating class and has a marked operand; no
other entry changes. -/
theorem transitionLine_spec (model : Btor2Model) (v : Nat → Bool) (i : Nat) :
    (∀ z, z ≠ i → transitionLine model v i z = v z) ∧
    (transitionLine model v i i = true ↔
      (v i = true ∨ ∃ line, model.line i = some line ∧
        (classification line = .BTOR2_TAG_constraint ∨ classification line = .BTOR2_TAG_eq ∨
          classification line = .BTOR2_TAG_state) ∧ ∃ a ∈ line.args, v a.natAbs = true)) := by
  unfold transitionLine
  cases hl : model.line i with
  | none =>
    refine ⟨fun _ _ => rfl, ?_⟩
    simp
  | some line =>
    simp only
    by_cases hc : classification line = .BTOR2_TAG_constraint ∨
        classification line = .BTOR2_TAG_eq ∨ classification line = .BTOR2_TAG_state
    · rw [if_pos hc]
      obtain ⟨h1, h2⟩ := argsFold_spec i line.args v
      refine ⟨h1, ?_⟩
      rw [h2]
      constructor
      · rintro (h | h)
        · exact Or.inl h
        · exact Or.inr ⟨line, rfl, hc, h⟩
      · rintro (h | ⟨l1, e, _, h⟩)
        · exact Or.inl h
        · cases e
          exact Or.inr h
    · rw [if_neg hc]
      refine ⟨fun _ _ => rfl, ?_⟩
      constructor
      · intro h
        exact Or.inl h
      · rintro (h | ⟨l1, e, hc1, _⟩)
        · exact h
        · cases e
          exact absurd hc1 hc

theorem transitionLine_mono (model : Btor2Model) (v : Nat → Bool) (i z : Nat)
    (h : v z = true) : transitionLine model v i z = true := by
  obtain ⟨h1, h2⟩ := transitionLine_spec model v i
  by_cases e : z = i
  · subst e
    exact h2.2 (Or.inl h)
  · rw [h1 z e]
    exact h

theorem foldl_transitionLine_mono (model : Btor2Model) (z : Nat) :
    ∀ (ids : List Nat) (v : Nat → Bool), v z = true →
      ids.foldl (transitionLine model) v z = true := by
  intro ids
  induction ids with
  | nil => intro v h; exact h
  | cons i ids ih =>
    intro v h
    simp only [List.foldl_cons]
    exact ih _ (transitionLine_mono model v i z h)

theorem foldl_transitionLine_frame (model : Btor2Model) (z : Nat) :
    ∀ (ids : List Nat) (v : Nat → Bool), z ∉ ids →
      ids.foldl (transitionLine model) v z = v z := by
  intro ids
  induction ids with
  | nil => intro v _; rfl
  | cons i ids ih =>
    intro v hz
    simp only [List.foldl_cons]
    rw [ih _ (fun h => hz (List.mem_cons_of_mem _ h)),
      (transitionLine_spec model v i).1 z (fun e => hz (e ▸ List.mem_cons_self _ _))]

/-- The marks of the key nodes: `keep[node] = 1` for the key nodes in range. -/
theorem markNodes_key (knode : List Int) (hin : ∀ node ∈ knode, 0 < node) (keep : Nat → Bool)
    (z : Nat) : markNodes keep knode z = true ↔ (keep z = true ∨ (z : Int) ∈ knode) := by
  rw [markNodes_apply, Bool.or_eq_true, decide_eq_true_eq]
  constructor
  · rintro (h | ⟨node, hn, e⟩)
    · exact Or.inl h
    · right
      have := hin node hn
      have e1 : (z : Int) = node := by omega
      rw [e1]
      exact hn
  · rintro (h | h)
    · exact Or.inl h
    · exact Or.inr ⟨_, h, by simp⟩

/-- Whatever the forward pass marks depends on a key node. -/
theorem transition_sound (model : Btor2Model) (knode : List Int)
    (hin : ∀ node ∈ knode, 0 < node) (z : Nat)
    (h : transition model (markNodes (fun _ => false) knode) z = true) :
    DependsOnKey model knode z := by
  unfold transition at h
  have key : ∀ (ids : List Nat) (v : Nat → Bool),
      (∀ i ∈ ids, i ∈ List.range' 1 model.max_id) →
      (∀ z, v z = true → DependsOnKey model knode z) →
      ∀ z, ids.foldl (transitionLine model) v z = true → DependsOnKey model knode z := by
    intro ids
    induction ids with
    | nil => intro v _ hv z hz; exact hv z hz
    | cons i ids ih =>
      intro v hids hv z hz
      simp only [List.foldl_cons] at hz
      refine ih _ (fun x hx => hids x (List.mem_cons_of_mem _ hx)) ?_ z hz
      intro y hy
      obtain ⟨h1, h2⟩ := transitionLine_spec model v i
      by_cases e : y = i
      · subst e
        rcases h2.1 hy with h3 | ⟨line, hl, hc, a, ha, hva⟩
        · exact hv _ h3
        · exact DependsOnKey.step _ line a (hids _ (List.mem_cons_self _ _)) hl hc ha
            (hv _ hva)
      · rw [h1 y e] at hy
        exact hv y hy
  refine key _ _ (fun i hi => hi) ?_ z h
  intro y hy
  rw [markNodes_key knode hin] at hy
  rcases hy with hy | hy
  · cases hy
  · exact DependsOnKey.key y hy

/-- Under the ordering of the ids the forward pass marks every line that
depends on a key node. -/
theorem transition_complete (model : Btor2Model) (hord : model.Ordered) (knode : List Int)
    (hin : ∀ node ∈ knode, 0 < node) (z : Nat) (h : DependsOnKey model knode z) :
    transition model (markNodes (fun _ => false) knode) z = true := by
  induction h with
  | key r hr =>
    unfold transition
    apply foldl_transitionLine_mono
    rw [markNodes_key knode hin]
    exact Or.inr hr
  | step i line a hi hl hc ha _ ih =>
    have hr := List.mem_range'_1.1 hi
    obtain ⟨hargs, _, _, _⟩ := hord i hi line (by rw [hl]; exact rfl)
    have hlt := hargs a ha
    unfold transition at ih ⊢
    rw [range'_split model.max_id i ⟨hr.1, by omega⟩, List.foldl_append, List.foldl_cons] at ih ⊢
    apply foldl_transitionLine_mono
    -- the operand has its final mark before the step of `i`
    have hfr : ∀ v : Nat → Bool, (List.range' (i + 1) (model.max_id - i)).foldl
        (transitionLine model) v a.natAbs = v a.natAbs := by
      intro v
      apply foldl_transitionLine_frame
      intro hm
      have := List.mem_range'_1.1 hm
      omega
    rw [hfr, (transitionLine_spec model _ i).1 _ (by omega)] at ih
    exact (transitionLine_spec model _ i).2.2 (Or.inr ⟨line, hl, hc, a, ha, ih⟩)

/-- The filter of `extract` keeps a mark exactly on the ids that are no line of
the loop or a line of the class `constraint`. -/
theorem onlyConstraints_iff (model : Btor2Model) (keep : Nat → Bool) (j : Nat) :
    onlyConstraints model keep j = true ↔
      (keep j = true ∧ (j ∈ List.range' 1 model.max_id → ∀ line, model.line j = some line →
        classification line = .BTOR2_TAG_constraint)) := by
  constructor
  · exact onlyConstraints_true model keep j
  · rintro ⟨hk, hc⟩
    unfold onlyConstraints
    have key : ∀ (ids : List Nat) (k : Nat → Bool), k j = true →
        (j ∈ ids → ∀ line, model.line j = some line →
          classification line = .BTOR2_TAG_constraint) →
        ids.foldl (fun k i =>
          match model.line i with
          | none => k
          | some line =>
            if classification line ≠ .BTOR2_TAG_constraint then Function.update k i false
            else k) k j = true := by
      intro ids
      induction ids with
      | nil => intro k hk _; exact hk
      | cons i ids ih =>
        intro k hk hc
        simp only [List.foldl_cons]
        refine ih _ ?_ (fun hm => hc (List.mem_cons_of_mem _ hm))
        cases hl : model.line i with
        | none => exact hk
        | some line =>
          simp only
          by_cases hcl : classification line ≠ .BTOR2_TAG_constraint
          · rw [if_pos hcl]
            have hne : j ≠ i := by
              intro e
              subst e
              exact hcl (hc (List.mem_cons_self _ _) line hl)
            rw [Function.update_noteq hne]
            exact hk
          · rw [if_neg hcl]
            exact hk
    exact key _ _ hk hc

/-! ## The retained lines of `extract`, exactly -/

/-- What is marked before the reverse loop of `extract`: the key nodes and the
lines of the class `constraint` that depend on a key node. -/
theorem extract_roots_iff (model : Btor2Model) (hord : model.Ordered) (knode : List Int)
    (hin : ∀ node ∈ knode, 0 < node ∧ node ≤ (model.max_id : Int)) (r : Nat) :
    markNodes (onlyConstraints model (transition model (markNodes (fun _ => false) knode)))
      knode r = true ↔
    ((r : Int) ∈ knode ∨ (r ∈ List.range' 1 model.max_id ∧ model.constraintFamily r ∧
      DependsOnKey model knode r)) := by
  have hpos : ∀ node ∈ knode, 0 < node := fun n h => (hin n h).1
  rw [markNodes_key knode hpos, onlyConstraints_iff]
  constructor
  · rintro (⟨ht, hc⟩ | hk)
    · by_cases hr : r ∈ List.range' 1 model.max_id
      · cases hl : model.line r with
        | none =>
          rw [transition_frame model _ r (fun _ => hl), markNodes_key knode hpos] at ht
          rcases ht with ht | ht
          · cases ht
          · exact Or.inl ht
        | some line =>
          exact Or.inr ⟨hr, ⟨line, hl, hc hr line hl⟩, transition_sound model knode hpos r ht⟩
      · rw [transition_frame model _ r (fun hm => absurd hm hr),
          markNodes_key knode hpos] at ht
        rcases ht with ht | ht
        · cases ht
        · exact Or.inl ht
    · exact Or.inl hk
  · rintro (hk | ⟨_, ⟨line, hl, hc⟩, hd⟩)
    · exact Or.inr hk
    · left
      refine ⟨transition_complete model hord knode hpos r hd, ?_⟩
      intro _ l1 hl1
      rw [hl] at hl1
      cases hl1
      exact hc

/-- C21, as stated, fails: `extract` keeps a constraint only when the forward
pass has marked it. With the key node 6 of `eqConstraintModel` the line
`5 constraint 4`, which does not depend on line 6, is dropped. -/
theorem extract_drops_independent_constraint :
    (eqConstraintModel.line 5).map (fun line => line.tag) = some .BTOR2_TAG_constraint ∧
    ∃ model1, btorextract eqConstraintModel [6] = .ok model1 ∧ ¬ model1.retained 5 := by
  refine ⟨rfl, _, btorextract_ok eqConstraintModel [6] (by decide) (by decide), ?_⟩
  rw [dropLines_retained]
  rintro ⟨_, h⟩
  exact absurd h (by decide)

/-- C21, amended. For a model with ordered ids the set of non-sort lines
retained by word-level cone extraction equals the transitive fan-in (operand
closure) of the key nodes together with those lines of the constraint family
(`bad`, `fair`, `justice`, `constraint`) that depend on a key node through
operands of lines of the classes `constraint`, `eq` and `state`; a constraint
line that does not depend on a key node is retained only when it lies in that
fan-in. -/
theorem extract_retains_cone_of_dependent_constraints (model : Btor2Model)
    (knode : List Int) (hne : knode ≠ [])
    (hin : ∀ node ∈ knode, 0 < node ∧ node ≤ (model.max_id : Int))
    (hline : ∀ i ∈ List.range' 1 model.max_id, ∀ line ∈ model.line i, line.lineno ≠ -1)
    (hord : model.Ordered) :
    ∃ model1, btorextract model knode = .ok model1 ∧
      ∀ i ∈ List.range' 1 model.max_id, ∀ line, model.line i = some line →
        line.tag ≠ .BTOR2_TAG_sort →
        (model1.retained i ↔
          ∃ r : Nat, ((r : Int) ∈ knode ∨ (r ∈ List.range' 1 model.max_id ∧
              model.constraintFamily r ∧ DependsOnKey model knode r)) ∧
            Relation.ReflTransGen (RefersArg model) r i) := by
  refine ⟨_, btorextract_ok model knode hne hin, ?_⟩
  intro i hi line hl hns
  rw [dropLines_retained]
  have hret : model.retained i := ⟨hi, line, hl, hline i hi line (by rw [hl]; exact rfl)⟩
  constructor
  · rintro ⟨_, hk⟩
    have hgood := foldr_keepStep_inv model
      (fun x => x ∈ List.range' 1 model.max_id → ∀ lx, model.line x = some lx →
        lx.tag ≠ .BTOR2_TAG_sort →
        ∃ r : Nat, ((r : Int) ∈ knode ∨ (r ∈ List.range' 1 model.max_id ∧
            model.constraintFamily r ∧ DependsOnKey model knode r)) ∧
          Relation.ReflTransGen (RefersArg model) r x)
      (markNodes (onlyConstraints model (transition model (markNodes (fun _ => false) knode)))
        knode)
      (fun j hj _ _ _ _ =>
        ⟨j, (extract_roots_iff model hord knode hin j).1 hj, Relation.ReflTransGen.refl⟩)
      (List.range' 1 model.max_id) ?_ i hk
    · exact hgood hi line hl hns
    · intro a ha b hga ⟨la, hla, href⟩ _ lb hlb hnb
      obtain ⟨_, _, hsa, hss⟩ := hord a ha la (by rw [hla]; exact rfl)
      rcases href with e | ⟨arg, harg, e⟩
      · exfalso
        apply hnb
        exact hss lb (by rw [e, hlb]; exact rfl)
      · have hna : la.tag ≠ .BTOR2_TAG_sort := by
          intro ht
          rw [hsa ht] at harg
          cases harg
        obtain ⟨r, hr, hpath⟩ := hga ha la hla hna
        exact ⟨r, hr, Relation.ReflTransGen.tail hpath ⟨la, hla, arg, harg, e⟩⟩
  · rintro ⟨r, hr, hpath⟩
    refine ⟨hret, ?_⟩
    have hrr : r ∈ List.range' 1 model.max_id := by
      rcases hr with hk | ⟨h, _⟩
      · have := hin _ hk
        exact List.mem_range'_1.2 (by omega)
      · exact h
    have key : ∀ x, Relation.ReflTransGen (RefersArg model) r x →
        x ∈ List.range' 1 model.max_id ∧ extractKeep model knode x = true := by
      intro x hx
      induction hx with
      | refl =>
        exact ⟨hrr, keepBackward_mono model _ r ((extract_roots_iff model hord knode hin r).2 hr)⟩
      | tail _ hstep ih =>
        obtain ⟨hb, hkb⟩ := ih
        obtain ⟨lb, hlb, arg, harg, e⟩ := hstep
        obtain ⟨hargs, _, _, _⟩ := hord _ hb lb (by rw [hlb]; exact rfl)
        have hlt := hargs arg harg
        have hbr := List.mem_range'_1.1 hb
        rw [← e]
        exact ⟨List.mem_range'_1.2 (by omega),
          keepBackward_closed model hord _ _ hb lb hlb hkb arg harg⟩
    exact (key i hpath).2

/-- Witness for the amended C21: with the key node 2 of `eqConstraintModel`
the line `5 constraint 4` depends on the key node through `4 eq 1 2 3`, so it
is a root, and the input 3, an operand of line 4, is retained. -/
theorem extract_retains_cone_of_dependent_constraints_witness :
    ∃ model1, btorextract eqConstraintModel [2] = .ok model1 ∧ model1.retained 3 := by
  obtain ⟨model1, h1, h2⟩ :=
    extract_retains_cone_of_dependent_constraints eqConstraintModel [2] (by decide)
      (by decide) (by decide) (by unfold Btor2Model.Ordered; decide)
  refine ⟨model1, h1, (h2 3 (by decide) _ rfl (by decide)).2 ⟨5, Or.inr ⟨by decide,
    ⟨_, rfl, by decide⟩, ?_⟩, ?_⟩⟩
  · exact DependsOnKey.step 5 _ 4 (by decide) rfl (Or.inl (by decide))
      (List.mem_cons_self _ _)
      (DependsOnKey.step 4 _ 2 (by decide) rfl (Or.inr (Or.inl (by decide)))
        (List.mem_cons_self _ _) (DependsOnKey.key 2 (List.mem_cons_self _ _)))
  · exact Relation.ReflTransGen.tail
      (Relation.ReflTransGen.single ⟨_, rfl, 4, List.mem_cons_self _ _, rfl⟩)
      ⟨_, rfl, 3, List.mem_cons_of_mem _ (List.mem_cons_self _ _), rfl⟩

/-! ## `btorexpand` on a state whose next value is a negated reference -/

/-- C25 on the code: the copy at time 1 of the state of `toggleModel`, whose
next value is the negated reference `-3`, is written as the fresh input
`6 input 1`, not as an `add` of the zero of the sort and the negated copy `-4`
of time 0; `parse_line` tests `line->next > 0`. With the negation as a line of
its own (`toggleNotModel`, next value `5`) the copy at time 1 is
`7 add 1 2 5`. -/
theorem btorexpand_negated_next_gives_input :
    btorexpand toggleModel 1 =
      .ok [⟨1, .BTOR2_TAG_sort, some .BTOR2_TAG_SORT_bitvec, [1], none, none⟩,
           ⟨2, .BTOR2_TAG_zero, none, [1], none, none⟩,
           ⟨3, .BTOR2_TAG_zero, none, [1], none, none⟩,
           ⟨4, .BTOR2_TAG_add, none, [1, 2, 3], none, some "s.state.id_3.time_0".toList⟩,
           ⟨5, .BTOR2_TAG_bad, none, [4], none, none⟩,
           ⟨6, .BTOR2_TAG_input, none, [1], none, some "s.state.id_3.time_1".toList⟩,
           ⟨7, .BTOR2_TAG_bad, none, [6], none, none⟩] ∧
    btorexpand toggleNotModel 1 =
      .ok [⟨1, .BTOR2_TAG_sort, some .BTOR2_TAG_SORT_bitvec, [1], none, none⟩,
           ⟨2, .BTOR2_TAG_zero, none, [1], none, none⟩,
           ⟨3, .BTOR2_TAG_zero, none, [1], none, none⟩,
           ⟨4, .BTOR2_TAG_add, none, [1, 2, 3], none, some "s.state.id_3.time_0".toList⟩,
           ⟨5, .BTOR2_TAG_not, none, [1, 4], none, none⟩,
           ⟨6, .BTOR2_TAG_bad, none, [4], none, none⟩,
           ⟨7, .BTOR2_TAG_add, none, [1, 2, 5], none, some "s.state.id_3.time_1".toList⟩,
           ⟨8, .BTOR2_TAG_not, none, [1, 7], none, none⟩,
           ⟨9, .BTOR2_TAG_bad, none, [7], none, none⟩] := by
  constructor <;> decide

/-- C24 on the code: in the unrolling of depth 2 of `toggleModel` (one state,
initial value 0, next value its own negation) the copies of the state at the
times 1 and 2 are the inputs `6 input 1` and `8 input 1`. Nothing ties them to
the copy of the time before, so they take either value, while the state of the
original model has the value 1 after one step and 0 after two. -/
theorem btorexpand_toggle_copies_are_free :
    btorexpand toggleModel 2 =
      .ok [⟨1, .BTOR2_TAG_sort, some .BTOR2_TAG_SORT_bitvec, [1], none, none⟩,
           ⟨2, .BTOR2_TAG_zero, none, [1], none, none⟩,
           ⟨3, .BTOR2_TAG_zero, none, [1], none, none⟩,
           ⟨4, .BTOR2_TAG_add, none, [1, 2, 3], none, some "s.state.id_3.time_0".toList⟩,
           ⟨5, .BTOR2_TAG_bad, none, [4], none, none⟩,
           ⟨6, .BTOR2_TAG_input, none, [1], none, some "s.state.id_3.time_1".toList⟩,
           ⟨7, .BTOR2_TAG_bad, none, [6], none, none⟩,
           ⟨8, .BTOR2_TAG_input, none, [1], none, some "s.state.id_3.time_2".toList⟩,
           ⟨9, .BTOR2_TAG_bad, none, [8], none, none⟩] := by
  decide

/-- The branch of `parse_line` behind the concrete runs: at a time step after
the first, a state whose `next` is not positive, in particular every negated
reference, is written as a fresh input. -/
theorem parse_line_state_without_positive_next (model : Btor2Model) (s : ExpandState)
    (i : Nat) (line : Btor2Line) (time : Nat) (sort_lid : Int)
    (hl : model.line i = some line) (ht : line.tag = .BTOR2_TAG_state)
    (hn : ¬ line.next > 0) (hs : get_lineno model s line.sort.id = .ok sort_lid) :
    parse_line model s i time false true =
      .ok { s with
        line_id := s.line_id + 1,
        out := s.out ++ [⟨s.line_id + 1, .BTOR2_TAG_input, none, [sort_lid], none,
          some (stateSymbol line.symbol line.id time)⟩],
        lineno := Function.update s.lineno i ((s.line_id + 1 : Nat) : Int) } := by
  unfold parse_line
  rw [hl]
  simp only [ht, Bool.false_eq_true, if_false, if_neg hn]
  unfold add_state
  rw [hs]
  simp [Run.bind]

/-! ## `TwoSAT::solve` returns a model of the graph -/

theorem eq_xor_one_of_xor (x y : Nat) (h : x ^^^ y = 1) : y = x ^^^ 1 := by
  have : x ^^^ (x ^^^ y) = x ^^^ 1 := by rw [h]
  rwa [← Nat.xor_assoc, Nat.xor_self, Nat.zero_xor] at this

/-- The edges after `add_edge(x, y)`: the old ones, and `x → y` in the branch
`(x ^ y) == 1`, `x → NOT y` and `y → NOT x` in the other. -/
theorem mem_add_edge (g : TwoSat) (x y u v : Nat) (h : v ∈ (add_edge g x y).eg u) :
    v ∈ g.eg u ∨ (x ^^^ y = 1 ∧ u = x ∧ v = y) ∨
      (x ^^^ y ≠ 1 ∧ ((u = x ∧ v = y ^^^ 1) ∨ (u = y ∧ v = x ^^^ 1))) := by
  unfold add_edge at h
  split_ifs at h with hxy
  · dsimp only at h
    rw [Function.update_apply] at h
    split_ifs at h with e
    · rcases List.mem_append.1 h with h | h
      · left; rw [e]; exact h
      · right; left; exact ⟨hxy, e, by simpa using h⟩
    · exact Or.inl h
  · dsimp only at h
    simp only [Function.update_apply] at h
    split_ifs at h with e1 e2 e2
    · subst e1
      subst e2
      rcases List.mem_append.1 h with h | h
      · rcases List.mem_append.1 h with h | h
        · exact Or.inl h
        · right; right; exact ⟨hxy, Or.inl ⟨rfl, by simpa using h⟩⟩
      · right; right; exact ⟨hxy, Or.inr ⟨rfl, by simpa using h⟩⟩
    · subst e1
      rcases List.mem_append.1 h with h | h
      · exact Or.inl h
      · right; right; exact ⟨hxy, Or.inr ⟨rfl, by simpa using h⟩⟩
    · subst e2
      rcases List.mem_append.1 h with h | h
      · exact Or.inl h
      · right; right; exact ⟨hxy, Or.inl ⟨rfl, by simpa using h⟩⟩
    · exact Or.inl h

theorem add_edge_new_special (g : TwoSat) (x y : Nat) (h : x ^^^ y = 1) :
    y ∈ (add_edge g x y).eg x := by
  unfold add_edge
  rw [if_pos h]
  simp

theorem add_edge_new_left (g : TwoSat) (x y : Nat) (h : x ^^^ y ≠ 1) :
    (y ^^^ 1) ∈ (add_edge g x y).eg x := by
  unfold add_edge
  rw [if_neg h]
  dsimp only
  by_cases e : x = y
  · subst e
    simp
  · have e2 : ¬ y = x := fun q => e q.symm
    simp [Function.update_apply, e, e2]

theorem add_edge_new_right (g : TwoSat) (x y : Nat) (h : x ^^^ y ≠ 1) :
    (x ^^^ 1) ∈ (add_edge g x y).eg y := by
  unfold add_edge
  rw [if_neg h]
  dsimp only
  simp only [Function.update_apply]
  simp

theorem skew_init : TwoSat.init.Skew := by
  intro u v h
  cases h

theorem TwoSat.Skew.with_add_edge {g : TwoSat} (h : g.Skew) (x y : Nat) :
    (add_edge g x y).Skew := by
  intro u v huv
  rcases mem_add_edge g x y u v huv with h0 | ⟨hxy, rfl, rfl⟩ | ⟨hxy, ⟨rfl, rfl⟩ | ⟨rfl, rfl⟩⟩
  · exact add_edge_mono g x y (h u v h0)
  · have e := eq_xor_one_of_xor _ _ hxy
    have := add_edge_new_special g u v hxy
    rw [e, xor_one_xor_one]
    rw [e] at this
    exact this
  · rw [xor_one_xor_one]
    exact add_edge_new_right g u y hxy
  · rw [xor_one_xor_one]
    exact add_edge_new_left g x u hxy

theorem buildGraph_skew (es : List (Nat × Nat)) : (buildGraph es).Skew := by
  unfold buildGraph
  suffices H : ∀ (g : TwoSat), g.Skew →
      (es.foldl (fun g e => add_edge g e.1 e.2) g).Skew from H _ skew_init
  induction es with
  | nil => intro g hg; exact hg
  | cons e es ih => intro g hg; exact ih _ (hg.with_add_edge e.1 e.2)

/-- A returned list of `solve` holds exactly the literals whose position has
the smaller colour of its pair. -/
theorem solve_ok_colour (g : TwoSat) (hc : g.Closed) (ch : List Nat) (h : solve g = .ok ch) :
    ∃ s, TInv (nodeAdj g (sortedNodes g)) (sortedNodes g).length ∅ s ∧
      (∀ i, i < (sortedNodes g).length → s.state i = .FINISH) ∧
      ∀ l ∈ g.node, (l ∈ ch ↔
        s.col (mapping (sortedNodes g) l) < s.col (mapping (sortedNodes g) l ^^^ 1)) := by
  obtain ⟨s, hinv, hfin, hsolve⟩ := solve_eq g hc
  obtain ⟨hlen, hpair⟩ := sortedNodes_pairs g hc
  have hnd := sortedNodes_nodup g
  refine ⟨s, hinv, hfin, ?_⟩
  by_cases hex : ∃ j ∈ List.range ((halves (sortedNodes g)).length),
      s.col (2 * j) = s.col (2 * j ^^^ 1)
  · rw [if_pos hex, h] at hsolve
    cases hsolve
  rw [if_neg hex, h] at hsolve
  have hch : ch = (List.range ((halves (sortedNodes g)).length)).map
      (pick (sortedNodes g) s.col) := by
    cases hsolve; rfl
  have hne' : ∀ p, p < (sortedNodes g).length → s.col p ≠ s.col (p ^^^ 1) := by
    intro p hp e
    have hx := xor_one_div p
    by_cases he : p % 2 = 0
    · apply hex
      refine ⟨p / 2, List.mem_range.2 (by omega), ?_⟩
      have e2 : 2 * (p / 2) = p := by omega
      rw [e2]; exact e
    · apply hex
      refine ⟨p / 2, List.mem_range.2 (by omega), ?_⟩
      have e2 : 2 * (p / 2) = p ^^^ 1 := by rw [xor_one_odd p (by omega)]; omega
      rw [e2, xor_one_xor_one]; exact e.symm
  have hpick : ∀ j, j < (halves (sortedNodes g)).length →
      ∃ p, p < (sortedNodes g).length ∧ p / 2 = j ∧
        pick (sortedNodes g) s.col j = (sortedNodes g).getD p 0 ∧ s.col p < s.col (p ^^^ 1) := by
    intro j hj
    have hx : 2 * j ^^^ 1 = 2 * j + 1 := xor_one_even _ (by omega)
    have := hne' (2 * j) (by omega)
    unfold pick
    split_ifs with hgt
    · refine ⟨2 * j ^^^ 1, by omega, by omega, rfl, ?_⟩
      rw [xor_one_xor_one]; exact hgt
    · exact ⟨2 * j, by omega, by omega, rfl, by omega⟩
  intro l hl
  rw [hch]
  have hlN := (mem_sortedNodes g l).2 hl
  have hi := mapping_lt hlN
  constructor
  · intro hm
    obtain ⟨j, hj, e⟩ := List.mem_map.1 hm
    obtain ⟨p, hp, _, hpk, hlt⟩ := hpick j (List.mem_range.1 hj)
    rw [← e, hpk, mapping_getD hnd hp]; exact hlt
  · intro hlt
    refine List.mem_map.2 ⟨mapping (sortedNodes g) l / 2, List.mem_range.2 (by omega), ?_⟩
    obtain ⟨p, hp, hpj, hpk, hlt'⟩ := hpick (mapping (sortedNodes g) l / 2) (by omega)
    rw [hpk]
    have hp2 : p = mapping (sortedNodes g) l ∨ p = mapping (sortedNodes g) l ^^^ 1 := by
      rw [xor_one_eq]; split <;> omega
    rcases hp2 with e | e
    · rw [e]; exact getD_mapping hlN
    · rw [e, xor_one_xor_one] at hlt'; omega

/-- On a skew-symmetric graph the returned list is closed under the edges. -/
theorem solve_ok_edge_closed (g : TwoSat) (hc : g.Closed) (hs : g.Skew) (ch : List Nat)
    (h : solve g = .ok ch) : ∀ u ∈ ch, ∀ v ∈ g.eg u, v ∈ ch := by
  obtain ⟨s, hinv, hfin, hmem⟩ := solve_ok_colour g hc ch h
  obtain ⟨_, _, hnode⟩ := solve_ok_props g hc ch h
  intro u hu v hv
  have huN := (hnode u hu).1
  have hvN := (hc.eg_node u v hv).2
  have hu1 := hc.node_pair u huN
  have hv1 := hc.node_pair v hvN
  have hlt := (hmem u huN).1 hu
  rw [hmem v hvN]
  have hmu := mapping_lt ((mem_sortedNodes g u).2 huN)
  have hmv1 := mapping_lt ((mem_sortedNodes g _).2 hv1)
  -- the edge `u → v` and its contrapositive, read through `mapping`
  have e1 : mapping (sortedNodes g) v ∈ nodeAdj g (sortedNodes g) (mapping (sortedNodes g) u) := by
    unfold nodeAdj
    rw [getD_mapping ((mem_sortedNodes g u).2 huN)]
    exact List.mem_map_of_mem _ hv
  have e2 : mapping (sortedNodes g) (u ^^^ 1) ∈
      nodeAdj g (sortedNodes g) (mapping (sortedNodes g) (v ^^^ 1)) := by
    unfold nodeAdj
    rw [getD_mapping ((mem_sortedNodes g _).2 hv1)]
    exact List.mem_map_of_mem _ (hs u v hv)
  have c1 := (hinv.fin_edge _ (hfin _ hmu) _ e1).2
  have c2 := (hinv.fin_edge _ (hfin _ hmv1) _ e2).2
  rw [mapping_xor g hc huN] at c2
  rw [mapping_xor g hc hvN] at c2
  omega

/-- C38. For every implication graph built by `add_edge` in which no literal
shares a strongly connected component with its complement, `solve` returns a
consistent model of the graph: a duplicate-free list of literals of the graph
holding exactly one literal of every appearing pair, and closed under the
edges (with `u` it holds every `v` with an edge `u → v`). -/
theorem solve_returns_consistent_model (es : List (Nat × Nat))
    (hno : ∀ l ∈ (buildGraph es).node,
      ¬ (Reach (buildGraph es).eg l (l ^^^ 1) ∧ Reach (buildGraph es).eg (l ^^^ 1) l)) :
    ∃ ch, solve (buildGraph es) = .ok ch ∧ ch.Nodup ∧
      (∀ l ∈ ch, l ∈ (buildGraph es).node) ∧
      (∀ l ∈ (buildGraph es).node, (l ∈ ch ↔ l ^^^ 1 ∉ ch)) ∧
      ∀ u ∈ ch, ∀ v ∈ (buildGraph es).eg u, v ∈ ch := by
  obtain ⟨ch, hch, hnd, hone, hnode⟩ := solve_ok (buildGraph es) (buildGraph_closed es) hno
  exact ⟨ch, hch, hnd, fun l hl => (hnode l hl).1, hone,
    solve_ok_edge_closed _ (buildGraph_closed es) (buildGraph_skew es) ch hch⟩

/-- Witness for C38: the graph of the calls `add_edge(4, 2)` and
`add_edge(3, 2)`, with the edges `4 → 3`, `2 → 5` and `3 → 2`. -/
theorem solve_returns_consistent_model_witness :
    ∃ ch, solve (buildGraph [(4, 2), (3, 2)]) = .ok ch ∧ ch.Nodup ∧
      (∀ l ∈ ch, l ∈ (buildGraph [(4, 2), (3, 2)]).node) ∧
      (∀ l ∈ (buildGraph [(4, 2), (3, 2)]).node, (l ∈ ch ↔ l ^^^ 1 ∉ ch)) ∧
      ∀ u ∈ ch, ∀ v ∈ (buildGraph [(4, 2), (3, 2)]).eg u, v ∈ ch :=
  solve_returns_consistent_model [(4, 2), (3, 2)] (by
    have h5 : ∀ b, Reach (buildGraph [(4, 2), (3, 2)]).eg 5 b → b = 5 :=
      fun b h => reach_eq_of_no_edge h (by decide)
    have h2 : ∀ b, Reach (buildGraph [(4, 2), (3, 2)]).eg 2 b → b = 2 ∨ b = 5 := by
      intro b h
      refine Reach.closed (fun z => z = 2 ∨ z = 5) ?_ h (Or.inl rfl)
      intro a ha c hc
      rcases ha with rfl | rfl
      · right
        have : c ∈ [5] := hc
        simpa using this
      · exact absurd (show c ∈ ([] : List Nat) from hc) (by simp)
    intro l hl
    have hl' : l = 4 ∨ l = 5 ∨ l = 2 ∨ l = 3 ∨ l = 2 := by
      simpa [buildGraph, add_edge, TwoSat.init] using hl
    rcases hl' with rfl | rfl | rfl | rfl | rfl
    · rintro ⟨_, h⟩
      exact absurd (h5 _ h) (by decide)
    · rintro ⟨h, _⟩
      exact absurd (h5 _ h) (by decide)
    · rintro ⟨h, _⟩
      rcases h2 _ h with e | e <;> exact absurd e (by decide)
    · rintro ⟨_, h⟩
      rcases h2 _ h with e | e <;> exact absurd e (by decide)
    · rintro ⟨h, _⟩
      rcases h2 _ h with e | e <;> exact absurd e (by decide))

/-! ## The recursive `assign` of `initialize` -/

theorem xor_one_inj {a b : Nat} (h : a ^^^ 1 = b ^^^ 1) : a = b := by
  rw [← xor_one_xor_one a, h, xor_one_xor_one]

theorem Extends.same (t : Nat → Int) : Extends t t := fun _ _ => rfl

theorem Extends.chain {a b c : Nat → Int} (h1 : Extends a b) (h2 : Extends b c) :
    Extends a c := by
  intro l hl
  have e := h1 l hl
  rw [h2 l (by rw [e]; exact hl), e]

theorem TablePairs.range {t : Nat → Int} (h : TablePairs t) : TableRange t := by
  intro l
  rcases h l with ⟨e, _⟩ | ⟨e, _⟩ | ⟨e, _⟩
  · exact Or.inl e
  · exact Or.inr (Or.inl e)
  · exact Or.inr (Or.inr e)

theorem tablePairs_init : TablePairs (fun _ => -1) := fun _ => Or.inl ⟨rfl, rfl⟩

/-- The table after the two writes of `assign(lit, x)` on an unassigned
literal. -/
theorem assign_writes (t : Nat → Int) (lit x : Nat) (hx : x ≤ 1) (ht : TablePairs t)
    (h0 : t lit = -1) :
    TablePairs
        (Function.update (Function.update t lit (x : Int)) (lit ^^^ 1) ((x ^^^ 1 : Nat) : Int)) ∧
      Extends t
        (Function.update (Function.update t lit (x : Int)) (lit ^^^ 1) ((x ^^^ 1 : Nat) : Int)) ∧
      (Function.update (Function.update t lit (x : Int)) (lit ^^^ 1) ((x ^^^ 1 : Nat) : Int))
        lit = x ∧
      (Function.update (Function.update t lit (x : Int)) (lit ^^^ 1) ((x ^^^ 1 : Nat) : Int))
        (lit ^^^ 1) = ((x ^^^ 1 : Nat) : Int) ∧
      ∀ l, l ≠ lit → l ≠ lit ^^^ 1 →
        (Function.update (Function.update t lit (x : Int)) (lit ^^^ 1) ((x ^^^ 1 : Nat) : Int)) l
          = t l := by
  have h1 : t (lit ^^^ 1) = -1 := by
    rcases ht lit with ⟨_, e⟩ | ⟨e, _⟩ | ⟨e, _⟩
    · exact e
    · rw [e] at h0; exact absurd h0 (by decide)
    · rw [e] at h0; exact absurd h0 (by decide)
  have hne : lit ≠ lit ^^^ 1 := fun e => xor_one_ne lit e.symm
  have hlit : (Function.update (Function.update t lit (x : Int)) (lit ^^^ 1)
      ((x ^^^ 1 : Nat) : Int)) lit = x := by
    rw [Function.update_noteq hne, Function.update_same]
  have hlit1 : (Function.update (Function.update t lit (x : Int)) (lit ^^^ 1)
      ((x ^^^ 1 : Nat) : Int)) (lit ^^^ 1) = ((x ^^^ 1 : Nat) : Int) := by
    rw [Function.update_same]
  have hoth : ∀ l, l ≠ lit → l ≠ lit ^^^ 1 →
      (Function.update (Function.update t lit (x : Int)) (lit ^^^ 1) ((x ^^^ 1 : Nat) : Int)) l
        = t l := by
    intro l a b
    rw [Function.update_noteq b, Function.update_noteq a]
  refine ⟨?_, ?_, hlit, hlit1, hoth⟩
  · intro l
    have hx2 : x = 0 ∨ x = 1 := by omega
    by_cases e1 : l = lit
    · subst e1
      rw [hlit, hlit1]
      rcases hx2 with rfl | rfl
      · right; left; exact ⟨rfl, rfl⟩
      · right; right; exact ⟨rfl, rfl⟩
    · by_cases e2 : l = lit ^^^ 1
      · subst e2
        rw [xor_one_xor_one, hlit, hlit1]
        rcases hx2 with rfl | rfl
        · right; right; exact ⟨rfl, rfl⟩
        · right; left; exact ⟨rfl, rfl⟩
      · have e3 : l ^^^ 1 ≠ lit := fun e => e2 (by rw [← e, xor_one_xor_one])
        have e4 : l ^^^ 1 ≠ lit ^^^ 1 := fun e => e1 (xor_one_inj e)
        rw [hoth l e1 e2, hoth _ e3 e4]
        exact ht l
  · intro l hl
    by_cases e1 : l = lit
    · subst e1; exact absurd h0 hl
    · by_cases e2 : l = lit ^^^ 1
      · subst e2; exact absurd h1 hl
      · exact hoth l e1 e2

/-- The literal `lit ^ (x ^ 1)` whose edges `assign(lit, x)` follows is the
one that holds 1. -/
theorem assign_true_literal (lit x : Nat) (hx : x ≤ 1) :
    (x = 1 ∧ lit ^^^ (x ^^^ 1) = lit) ∨ (x = 0 ∧ lit ^^^ (x ^^^ 1) = lit ^^^ 1) := by
  have hx2 : x = 0 ∨ x = 1 := by omega
  rcases hx2 with rfl | rfl
  · right; exact ⟨rfl, rfl⟩
  · left; exact ⟨rfl, by simp⟩

/-- Contract of `assign(lit, x)` when it returns: the table stays paired, keeps
what was assigned, holds `x` at `lit`, and every literal that holds 1 outside
`P` has passed it on along its edges. -/
theorem simAssign_spec (eg : Nat → List Nat) :
    ∀ (fuel : Nat) (P : Nat → Prop) (t : Nat → Int) (lit x : Nat) (t1 : Nat → Int), x ≤ 1 →
      TablePairs t → EdgeClosed eg P t → simAssign eg fuel t lit x = .ok t1 →
      TablePairs t1 ∧ Extends t t1 ∧ t1 lit = x ∧ EdgeClosed eg P t1 := by
  intro fuel
  induction fuel with
  | zero => intro P t lit x t1 _ _ _ h; cases h
  | succ fuel ih =>
    intro P t lit x t1 hx ht hcl h
    unfold simAssign at h
    split_ifs at h with h1 h2
    · cases h
      exact ⟨ht, Extends.same _, h1, hcl⟩
    · have h0 : t lit = -1 := not_not.1 h2
      obtain ⟨wp, we, wlit, wlit1, woth⟩ := assign_writes t lit x hx ht h0
      generalize Function.update (Function.update t lit (x : Int)) (lit ^^^ 1)
        ((x ^^^ 1 : Nat) : Int) = tw at h wp we wlit wlit1 woth
      have hL : tw (lit ^^^ (x ^^^ 1)) = 1 ∧ tw ((lit ^^^ (x ^^^ 1)) ^^^ 1) = 0 ∧
          ∀ l, l = lit ∨ l = lit ^^^ 1 →
            l = lit ^^^ (x ^^^ 1) ∨ l = (lit ^^^ (x ^^^ 1)) ^^^ 1 := by
        rcases assign_true_literal lit x hx with ⟨rfl, e⟩ | ⟨rfl, e⟩
        · rw [e, wlit, wlit1]; exact ⟨rfl, rfl, fun l hl => hl⟩
        · rw [e, wlit1, xor_one_xor_one, wlit]; exact ⟨rfl, rfl, fun l hl => hl.symm⟩
      generalize lit ^^^ (x ^^^ 1) = L at h hL
      obtain ⟨hL1, hL0, hLs⟩ := hL
      -- the literal `L` is pending while the loop over its edges runs
      have hcl1 : EdgeClosed eg (fun l => P l ∨ l = L) tw := by
        intro l hl hP v hv
        have hPl : ¬ P l := fun q => hP (Or.inl q)
        have hlL : l ≠ L := fun q => hP (Or.inr q)
        have hl1 : ¬ (l = lit ∨ l = lit ^^^ 1) := by
          intro q
          rcases hLs l q with e | e
          · exact hlL e
          · rw [e, hL0] at hl; exact absurd hl (by decide)
        have : t l = 1 := by
          rw [← woth l (fun e => hl1 (Or.inl e)) (fun e => hl1 (Or.inr e))]; exact hl
        have hv1 := hcl l this hPl v hv
        rw [we v (by rw [hv1]; decide)]
        exact hv1
      -- the loop over the edges of `L`
      have loop : ∀ (vs : List Nat) (ta tb : Nat → Int), TablePairs ta →
          EdgeClosed eg (fun l => P l ∨ l = L) ta →
          forRun (fun t nlit => simAssign eg fuel t nlit 1) vs ta = .ok tb →
          TablePairs tb ∧ Extends ta tb ∧ EdgeClosed eg (fun l => P l ∨ l = L) tb ∧
            ∀ v ∈ vs, tb v = 1 := by
        intro vs
        induction vs with
        | nil =>
          intro ta tb h1 h3 hr
          simp only [forRun] at hr
          cases hr
          exact ⟨h1, Extends.same _, h3, fun v hv => absurd hv (List.not_mem_nil v)⟩
        | cons v vs ihv =>
          intro ta tb h1 h3 hr
          rw [forRun_cons, Run.bind_eq_ok] at hr
          obtain ⟨tc, hc1, hc2⟩ := hr
          obtain ⟨c1, c2, c3, c4⟩ := ih _ ta v 1 tc (le_refl 1) h1 h3 hc1
          obtain ⟨d1, d2, d3, d4⟩ := ihv tc tb c1 c4 hc2
          refine ⟨d1, c2.chain d2, d3, ?_⟩
          intro u hu
          rcases List.mem_cons.1 hu with e | hu
          · subst e
            rw [d2 u (by rw [c3]; decide), c3]; rfl
          · exact d4 u hu
      obtain ⟨r1, r2, r3, r4⟩ := loop _ tw t1 wp hcl1 h
      refine ⟨r1, we.chain r2, ?_, ?_⟩
      · rw [r2 lit (by rw [wlit]; omega), wlit]
      · intro l hl hP v hv
        by_cases e : l = L
        · subst e; exact r4 v hv
        · exact r3 l hl (fun q => q.elim hP e) v hv

theorem unassigned_mono (n : Nat) {t t1 : Nat → Int} (h : Extends t t1) :
    unassigned n t1 ≤ unassigned n t := by
  unfold unassigned
  apply Finset.card_le_card
  intro l hl
  rw [Finset.mem_filter] at hl ⊢
  refine ⟨hl.1, ?_⟩
  by_contra hne
  have := h l hne
  rw [hl.2] at this
  exact hne this.symm

theorem unassigned_lt (n : Nat) {t t1 : Nat → Int} (h : Extends t t1) (l : Nat) (hl : l < n)
    (h0 : t l = -1) (h1 : t1 l ≠ -1) : unassigned n t1 < unassigned n t := by
  unfold unassigned
  apply Finset.card_lt_card
  rw [Finset.ssubset_iff_of_subset]
  · exact ⟨l, Finset.mem_filter.2 ⟨Finset.mem_range.2 hl, h0⟩,
      fun q => h1 (Finset.mem_filter.1 q).2⟩
  · intro a ha
    rw [Finset.mem_filter] at ha ⊢
    refine ⟨ha.1, ?_⟩
    by_contra hne
    have := h a hne
    rw [ha.2] at this
    exact hne this.symm

theorem unassigned_le (n : Nat) (t : Nat → Int) : unassigned n t ≤ n := by
  unfold unassigned
  calc ((Finset.range n).filter (fun l => t l = -1)).card ≤ (Finset.range n).card :=
        Finset.card_filter_le _ _
    _ = n := Finset.card_range n

theorem edgeClosed_all (eg : Nat → List Nat) (t : Nat → Int) :
    EdgeClosed eg (fun _ => True) t := fun _ _ h => absurd trivial h

/-- The pairing of the table alone. -/
theorem simAssign_pairs (eg : Nat → List Nat) (fuel : Nat) (t : Nat → Int) (lit x : Nat)
    (t1 : Nat → Int) (hx : x ≤ 1) (ht : TablePairs t)
    (h : simAssign eg fuel t lit x = .ok t1) : TablePairs t1 ∧ Extends t t1 ∧ t1 lit = x := by
  obtain ⟨a, b, c, _⟩ :=
    simAssign_spec eg fuel (fun _ => True) t lit x t1 hx ht (edgeClosed_all eg t) h
  exact ⟨a, b, c⟩

/-- Only the literal of the call, its complement and the literals of the graph
get assigned. -/
theorem simAssign_supported (eg : Nat → List Nat) (Q : Nat → Prop)
    (hQ : ∀ u v, v ∈ eg u → Q v ∧ Q (v ^^^ 1)) :
    ∀ (fuel : Nat) (t : Nat → Int) (lit x : Nat) (t1 : Nat → Int), Supported Q t → Q lit →
      Q (lit ^^^ 1) → simAssign eg fuel t lit x = .ok t1 → Supported Q t1 := by
  intro fuel
  induction fuel with
  | zero => intro t lit x t1 _ _ _ h; cases h
  | succ fuel ih =>
    intro t lit x t1 ht hq hq1 h
    unfold simAssign at h
    split_ifs at h with h1 h2
    · cases h; exact ht
    · refine forRun_inv (fun t nlit => simAssign eg fuel t nlit 1) (Supported Q)
        (fun v => Q v ∧ Q (v ^^^ 1)) (fun a b a1 ha hb hab => ih a b 1 a1 ha hb.1 hb.2 hab)
        _ _ t1 ?_ (fun v hv => hQ _ v hv) h
      intro l hl
      by_cases e1 : l = lit ^^^ 1
      · rw [e1]; exact hq1
      · by_cases e2 : l = lit
        · rw [e2]; exact hq
        · rw [Function.update_noteq e1, Function.update_noteq e2] at hl
          exact ht l hl

theorem assign_writes_agrees (cons t : Nat → Int) (lit x : Nat) (hx : x ≤ 1)
    (hcp : TablePairs cons) (ht : TablePairs t) (h0 : t lit = -1) (hag : Agrees cons t)
    (hc : cons lit ≠ -1 → cons lit = x) :
    Agrees cons
      (Function.update (Function.update t lit (x : Int)) (lit ^^^ 1) ((x ^^^ 1 : Nat) : Int)) := by
  obtain ⟨wp, we, wlit, wlit1, woth⟩ := assign_writes t lit x hx ht h0
  generalize Function.update (Function.update t lit (x : Int)) (lit ^^^ 1)
    ((x ^^^ 1 : Nat) : Int) = tw at wp we wlit wlit1 woth
  intro l hl hcl
  by_cases e1 : l = lit
  · subst e1; rw [wlit]; exact (hc hcl).symm
  · by_cases e2 : l = lit ^^^ 1
    · subst e2
      rw [wlit1]
      rcases hcp lit with ⟨_, e⟩ | ⟨e, e'⟩ | ⟨e, e'⟩
      · exact absurd e hcl
      · have hx0 := hc (by rw [e]; decide)
        rw [e] at hx0
        have : x = 0 := by exact_mod_cast hx0.symm
        subst this; rw [e']; rfl
      · have hx0 := hc (by rw [e]; decide)
        rw [e] at hx0
        have : x = 1 := by exact_mod_cast hx0.symm
        subst this; rw [e']; rfl
    · rw [woth l e1 e2]
      rw [woth l e1 e2] at hl
      exact hag l hl hcl

/-- The assigned values follow `cons` when `cons` is paired, closed under the
edges and defined on both ends of every edge. -/
theorem simAssign_agrees (cons : Nat → Int) (eg : Nat → List Nat) (hcp : TablePairs cons)
    (hclosed : ∀ u v, v ∈ eg u → cons u = 1 → cons v = 1)
    (hnode : ∀ u v, v ∈ eg u → cons u ≠ -1 ∧ cons v ≠ -1) :
    ∀ (fuel : Nat) (t : Nat → Int) (lit x : Nat) (t1 : Nat → Int), x ≤ 1 → TablePairs t →
      Agrees cons t → (cons lit ≠ -1 → cons lit = x) → simAssign eg fuel t lit x = .ok t1 →
      Agrees cons t1 := by
  intro fuel
  induction fuel with
  | zero => intro t lit x t1 _ _ _ _ h; cases h
  | succ fuel ih =>
    intro t lit x t1 hx ht hag hc h
    unfold simAssign at h
    split_ifs at h with h1 h2
    · cases h; exact hag
    · have h0 : t lit = -1 := not_not.1 h2
      obtain ⟨wp, we, wlit, wlit1, woth⟩ := assign_writes t lit x hx ht h0
      have hagw := assign_writes_agrees cons t lit x hx hcp ht h0 hag hc
      generalize Function.update (Function.update t lit (x : Int)) (lit ^^^ 1)
        ((x ^^^ 1 : Nat) : Int) = tw at h wp we wlit wlit1 woth hagw
      have hL : tw (lit ^^^ (x ^^^ 1)) = 1 := by
        rcases assign_true_literal lit x hx with ⟨rfl, e⟩ | ⟨rfl, e⟩
        · rw [e, wlit]; rfl
        · rw [e, wlit1]; rfl
      generalize lit ^^^ (x ^^^ 1) = L at h hL
      have hq : ∀ v ∈ eg L, cons v = 1 := by
        intro v hv
        apply hclosed L v hv
        rw [← hagw L (by rw [hL]; decide) (hnode L v hv).1, hL]
      have := forRun_inv (fun t nlit => simAssign eg fuel t nlit 1)
        (fun t => TablePairs t ∧ Agrees cons t) (fun v => cons v = 1)
        (fun a b a1 ha hb hab =>
          ⟨(simAssign_pairs eg fuel a b 1 a1 (le_refl 1) ha.1 hab).1,
            ih a b 1 a1 (le_refl 1) ha.1 ha.2 (fun _ => by rw [hb]; rfl) hab⟩)
        _ _ t1 ⟨wp, hagw⟩ hq h
      exact this.2

/-- Total correctness of `assign(lit, x)`: with a recursion budget above the
number of unassigned literals, and with `cons` as in `simAssign_agrees`, the
call returns; the assertion `table[lit] == -1` does not fail. -/
theorem simAssign_total (cons : Nat → Int) (eg : Nat → List Nat) (n : Nat)
    (hcp : TablePairs cons)
    (hclosed : ∀ u v, v ∈ eg u → cons u = 1 → cons v = 1)
    (hnode : ∀ u v, v ∈ eg u → cons u ≠ -1 ∧ cons v ≠ -1)
    (hlt : ∀ u v, v ∈ eg u → v < n) :
    ∀ (fuel : Nat) (t : Nat → Int) (lit x : Nat), x ≤ 1 → lit < n → TablePairs t →
      Agrees cons t → (cons lit ≠ -1 → cons lit = x) → (cons lit = -1 → t lit = -1) →
      unassigned n t < fuel → ∃ t1, simAssign eg fuel t lit x = .ok t1 := by
  intro fuel
  induction fuel with
  | zero => intro t lit x _ _ _ _ _ _ h; exact absurd h (Nat.not_lt_zero _)
  | succ fuel ih =>
    intro t lit x hx hlit ht hag hc hfree hfuel
    unfold simAssign
    by_cases h1 : t lit = (x : Int)
    · rw [if_pos h1]; exact ⟨t, rfl⟩
    rw [if_neg h1]
    have h0 : t lit = -1 := by
      by_contra hne
      by_cases hcl : cons lit = -1
      · exact hne (hfree hcl)
      · apply h1
        rw [hag lit hne hcl]
        exact hc hcl
    rw [if_neg (not_not.2 h0)]
    obtain ⟨wp, we, wlit, wlit1, woth⟩ := assign_writes t lit x hx ht h0
    have hagw := assign_writes_agrees cons t lit x hx hcp ht h0 hag hc
    have hun := unassigned_lt n we lit hlit h0 (by rw [wlit]; omega)
    generalize Function.update (Function.update t lit (x : Int)) (lit ^^^ 1)
      ((x ^^^ 1 : Nat) : Int) = tw at wp we wlit wlit1 woth hagw hun
    have hL : tw (lit ^^^ (x ^^^ 1)) = 1 := by
      rcases assign_true_literal lit x hx with ⟨rfl, e⟩ | ⟨rfl, e⟩
      · rw [e, wlit]; rfl
      · rw [e, wlit1]; rfl
    generalize lit ^^^ (x ^^^ 1) = L at hL
    have hq : ∀ v ∈ eg L, cons v = 1 ∧ v < n := by
      intro v hv
      refine ⟨?_, hlt L v hv⟩
      apply hclosed L v hv
      rw [← hagw L (by rw [hL]; decide) (hnode L v hv).1, hL]
    have loop : ∀ (vs : List Nat) (ta : Nat → Int), (∀ v ∈ vs, cons v = 1 ∧ v < n) →
        TablePairs ta → Agrees cons ta → unassigned n ta < fuel →
        ∃ tb, forRun (fun t nlit => simAssign eg fuel t nlit 1) vs ta = .ok tb := by
      intro vs
      induction vs with
      | nil => intro ta _ _ _ _; exact ⟨ta, rfl⟩
      | cons v vs ihv =>
        intro ta hvs h1 h2 h3
        have hv := hvs v (List.mem_cons_self _ _)
        obtain ⟨tc, htc⟩ := ih ta v 1 (le_refl 1) hv.2 h1 h2 (fun _ => by rw [hv.1]; rfl)
          (fun e => by rw [hv.1] at e; exact absurd e (by decide)) h3
        obtain ⟨p1, p2, _⟩ := simAssign_pairs eg fuel ta v 1 tc (le_refl 1) h1 htc
        have p3 := simAssign_agrees cons eg hcp hclosed hnode fuel ta v 1 tc (le_refl 1) h1 h2
          (fun _ => by rw [hv.1]; rfl) htc
        obtain ⟨tb, htb⟩ := ihv tc (fun u hu => hvs u (List.mem_cons_of_mem _ hu)) p1 p3
          (lt_of_le_of_lt (unassigned_mono n p2) h3)
        exact ⟨tb, by rw [forRun_cons, htc]; exact htb⟩
    exact loop _ tw hq wp hagw (by omega)

/-! ## What `preprocessing` hands to `initialize` -/

theorem isInputLit_xor (m : Aiger) (l : Nat) (h : isInputLit m l) : isInputLit m (l ^^^ 1) := by
  unfold isInputLit at h ⊢
  rw [xor_one_xor_one]
  exact h.symm

theorem markInputs_true (inputs : List Nat) (l : Nat) :
    ∀ (r : Nat → Bool),
      inputs.foldl (fun r lit => Function.update (Function.update r (lit ^^^ 1) true) lit true) r l
        = true → r l = true ∨ l ∈ inputs ∨ l ^^^ 1 ∈ inputs := by
  induction inputs with
  | nil => intro r h; exact Or.inl h
  | cons a as ih =>
    intro r h
    rw [List.foldl_cons] at h
    rcases ih _ h with h1 | h1 | h1
    · by_cases e1 : l = a
      · right; left; rw [e1]; exact List.mem_cons_self _ _
      · by_cases e2 : l = a ^^^ 1
        · right; right; rw [e2, xor_one_xor_one]; exact List.mem_cons_self _ _
        · rw [Function.update_noteq e1, Function.update_noteq e2] at h1
          exact Or.inl h1
    · exact Or.inr (Or.inl (List.mem_cons_of_mem _ h1))
    · exact Or.inr (Or.inr (List.mem_cons_of_mem _ h1))

theorem markInputs_isInputLit (m : Aiger) (l : Nat) (h : markInputs m.inputs l = true) :
    isInputLit m l := by
  rcases markInputs_true m.inputs l _ h with h1 | h1
  · cases h1
  · exact h1

theorem add_edge_nodes (Q : Nat → Prop) (hQ : ∀ l, Q l → Q (l ^^^ 1)) (g : TwoSat) (x y : Nat)
    (hg : ∀ l ∈ g.node, Q l) (hx : Q x) (hy : Q y) : ∀ l ∈ (add_edge g x y).node, Q l := by
  intro l hl
  unfold add_edge at hl
  split_ifs at hl
  · dsimp only at hl
    rcases List.mem_append.1 hl with h | h
    · exact hg l h
    · simp only [List.mem_cons, List.mem_singleton, List.not_mem_nil, or_false] at h
      rcases h with rfl | rfl
      · exact hx
      · exact hy
  · dsimp only at hl
    rcases List.mem_append.1 hl with h | h
    · exact hg l h
    · simp only [List.mem_cons, List.mem_singleton, List.not_mem_nil, or_false] at h
      rcases h with rfl | rfl | rfl | rfl
      · exact hx
      · exact hQ _ hx
      · exact hy
      · exact hQ _ hy

theorem preInput_skew {p : PreState} (h : p.g.Skew) (lit : Nat) : (preInput p lit).g.Skew := by
  unfold preInput; split_ifs
  · exact h.with_add_edge _ _
  · exact h

theorem foldl_preInput_skew (inputs : List Nat) (p : PreState) (h : p.g.Skew) :
    (inputs.foldl preInput p).g.Skew := by
  induction inputs generalizing p with
  | nil => exact h
  | cons a as ih => rw [List.foldl_cons]; exact ih _ (preInput_skew h a)

/-- The graph of `preprocessing` holds the contrapositive of every edge. -/
theorem preGraph_skew {m : Aiger} {p : PreState} (h : preGraph m = .ok p) : p.g.Skew := by
  obtain ⟨t0, p1, _, h1, rfl⟩ := preGraph_ok h
  apply foldl_preInput_skew
  refine forRun_inv (preGate (markInputs m.inputs)) (fun p => p.g.Skew) (fun _ => True) ?_
    m.ands.reverse ⟨t0, TwoSat.init⟩ p1 skew_init (fun _ _ => trivial) h1
  intro a b a1 ha _ hstep
  rcases preGate_tag hstep with ⟨_, _, _, _, e⟩ | ⟨_, e | e⟩
  · rw [e]; exact ha
  · rw [e]; exact ha
  · rw [e]; exact ha.with_add_edge _ _

/-- Every literal of the graph of `preprocessing` belongs to an input. -/
theorem preGraph_nodes {m : Aiger} {p : PreState} (h : preGraph m = .ok p) :
    ∀ l ∈ p.g.node, isInputLit m l := by
  have hpair := preGraph_tagPair h
  obtain ⟨t0, p1, _, h1, rfl⟩ := preGraph_ok h
  rw [foldl_preInput_tag] at hpair
  have hgate : ∀ l ∈ p1.g.node, isInputLit m l := by
    refine forRun_inv (preGate (markInputs m.inputs)) (fun p => ∀ l ∈ p.g.node, isInputLit m l)
      (fun _ => True) ?_ m.ands.reverse ⟨t0, TwoSat.init⟩ p1
      (fun l hl => absurd hl (List.not_mem_nil l)) (fun _ _ => trivial) h1
    intro a b a1 ha _ hstep
    unfold preGate at hstep
    split_ifs at hstep with c1 c2
    · rw [Run.bind_eq_ok] at hstep
      obtain ⟨t1, _, hstep⟩ := hstep
      rw [Run.bind_eq_ok] at hstep
      obtain ⟨t2, _, hstep⟩ := hstep
      cases hstep
      exact ha
    · cases hstep
      exact add_edge_nodes (isInputLit m) (isInputLit_xor m) _ _ _ ha
        (markInputs_isInputLit m _ c2.2.1) (markInputs_isInputLit m _ c2.2.2)
    · cases hstep
      exact ha
  have hfold : ∀ (ins : List Nat) (q : PreState), (∀ l ∈ ins, l ∈ m.inputs) → TagPair q.tag →
      (∀ l ∈ q.g.node, isInputLit m l) →
      ∀ l ∈ (ins.foldl preInput q).g.node, isInputLit m l := by
    intro ins
    induction ins with
    | nil => intro q _ _ hq; exact hq
    | cons a as ih =>
      intro q hins htag hq
      rw [List.foldl_cons]
      apply ih _ (fun l hl => hins l (List.mem_cons_of_mem _ hl))
        (by rw [preInput_tag]; exact htag)
      unfold preInput
      split_ifs with c
      · have ha : a ∈ m.inputs := hins a (List.mem_cons_self _ _)
        have hx : isInputLit m (a ^^^ (q.tag a).toNat) := by
          rcases htag.range a with e | e | e
          · exact absurd e c
          · rw [e]
            have e0 : a ^^^ Int.toNat 0 = a := by simp
            rw [e0]; exact Or.inl ha
          · rw [e]
            have e0 : a ^^^ Int.toNat 1 = a ^^^ 1 := by simp
            rw [e0]; exact isInputLit_xor m a (Or.inl ha)
        exact add_edge_nodes (isInputLit m) (isInputLit_xor m) _ _ _ hq hx
          (isInputLit_xor m _ hx)
      · exact hq
  exact hfold m.inputs p1 (fun _ h => h) hpair hgate

theorem isInputLit_bounds (m : Aiger) (hin : InputsValid m) (l : Nat) (h : isInputLit m l) :
    2 ≤ l ∧ l < 2 * (m.maxvar + 1) := by
  rcases h with h | h
  · have := hin.pos l h
    have := hin.le l h
    omega
  · have h1 := hin.pos _ h
    have h2 := hin.le _ h
    have h3 := hin.even _ h
    rw [xor_one_eq] at h1 h2 h3
    split_ifs at h1 h2 h3 <;> omega

/-- The pairing of `cons` through the loop `for (auto x : choose) assign(x, 1)`;
only the chosen literals and their complements get a value. -/
theorem assign_loop_pairs (ch : List Nat) :
    ∀ (c0 c1 : Nat → Int), TablePairs c0 →
      forRun (fun cons x => assignCons cons x 1) ch c0 = .ok c1 →
      TablePairs c1 ∧ ∀ l, c1 l ≠ -1 → c0 l ≠ -1 ∨ l ∈ ch ∨ l ^^^ 1 ∈ ch := by
  induction ch with
  | nil =>
    intro c0 c1 hp h
    simp only [forRun] at h
    cases h
    exact ⟨hp, fun l hl => Or.inl hl⟩
  | cons x xs ih =>
    intro c0 c1 hp h
    rw [forRun_cons, Run.bind_eq_ok] at h
    obtain ⟨c2, h1, h2⟩ := h
    obtain ⟨hx, rfl⟩ := assignCons_one_ok h1
    have hne : x ≠ x ^^^ 1 := fun e => xor_one_ne x e.symm
    have hp2 : TablePairs (Function.update (Function.update c0 x 1) (x ^^^ 1) 0) := by
      intro l
      by_cases e1 : l = x
      · subst e1
        right; right
        rw [Function.update_noteq hne, Function.update_same, Function.update_same]
        exact ⟨rfl, rfl⟩
      · by_cases e2 : l = x ^^^ 1
        · subst e2
          right; left
          rw [xor_one_xor_one, Function.update_same, Function.update_noteq hne,
            Function.update_same]
          exact ⟨rfl, rfl⟩
        · have e3 : l ^^^ 1 ≠ x := fun e => e2 (by rw [← e, xor_one_xor_one])
          have e4 : l ^^^ 1 ≠ x ^^^ 1 := fun e => e1 (xor_one_inj e)
          rw [Function.update_noteq e2, Function.update_noteq e1, Function.update_noteq e4,
            Function.update_noteq e3]
          exact hp l
    obtain ⟨r1, r2⟩ := ih _ c1 hp2 h2
    refine ⟨r1, ?_⟩
    intro l hl
    rcases r2 l hl with q | q | q
    · by_cases e1 : l = x
      · right; left; rw [e1]; exact List.mem_cons_self _ _
      · by_cases e2 : l = x ^^^ 1
        · right; right; rw [e2, xor_one_xor_one]; exact List.mem_cons_self _ _
        · rw [Function.update_noteq e2, Function.update_noteq e1] at q
          exact Or.inl q
    · exact Or.inr (Or.inl (List.mem_cons_of_mem _ q))
    · exact Or.inr (Or.inr (List.mem_cons_of_mem _ q))

/-- The vector `cons` and the graph after a successful `preprocessing`: `cons`
is paired, fixes exactly literals of inputs, is defined on both ends of every
edge and is closed under the edges, and the edges stay within the tables. -/
theorem preprocessing_cons_facts {m : Aiger} {r : PreResult} (hin : InputsValid m)
    (h : preprocessing m = .ok r) :
    TablePairs r.cons ∧
      (∀ l, r.cons l ≠ -1 → isInputLit m l) ∧
      (∀ u v, v ∈ r.g.eg u → r.cons u ≠ -1 ∧ r.cons v ≠ -1) ∧
      (∀ u v, v ∈ r.g.eg u → r.cons u = 1 → r.cons v = 1) ∧
      (∀ u v, v ∈ r.g.eg u → v < 2 * (m.maxvar + 1)) := by
  obtain ⟨p, ch, hp, hch, hcons, hg⟩ := preprocessing_ok h
  have hc := preGraph_closed hp
  have hs := preGraph_skew hp
  have hn := preGraph_nodes hp
  obtain ⟨hnd, hone, hnode⟩ := solve_ok_props p.g hc ch hch
  obtain ⟨a1, a2⟩ := assign_loop_pairs ch _ r.cons tablePairs_init hcons
  obtain ⟨_, _, a3⟩ := assign_loop ch _ r.cons (fun l hl => absurd hl (by decide)) hcons
  have hclose := solve_ok_edge_closed p.g hc hs ch hch
  rw [hg]
  have hfix : ∀ l ∈ p.g.node, r.cons l ≠ -1 := by
    intro l hl
    by_cases q : l ∈ ch
    · rw [a3 l q]; decide
    · have q1 : l ^^^ 1 ∈ ch := by
        by_contra q2
        exact q ((hone l hl).2 q2)
      have := a3 _ q1
      rcases a1 l with ⟨_, e⟩ | ⟨e, _⟩ | ⟨e, _⟩
      · rw [e] at this; exact absurd this (by decide)
      · rw [e]; decide
      · rw [e]; decide
  refine ⟨a1, ?_, ?_, ?_, ?_⟩
  · intro l hl
    rcases a2 l hl with q | q | q
    · exact absurd rfl q
    · exact hn l (hnode l q).1
    · have := isInputLit_xor m _ (hn _ (hnode _ q).1)
      rwa [xor_one_xor_one] at this
  · intro u v huv
    exact ⟨hfix u (hc.eg_node u v huv).1, hfix v (hc.eg_node u v huv).2⟩
  · intro u v huv hu
    have hun := (hc.eg_node u v huv).1
    have hu1 : u ∈ ch := by
      by_contra q
      have q1 : u ^^^ 1 ∈ ch := by
        by_contra q2
        exact q ((hone u hun).2 q2)
      have := a3 _ q1
      rcases a1 u with ⟨e, _⟩ | ⟨e, _⟩ | ⟨_, e⟩
      · rw [e] at hu; exact absurd hu (by decide)
      · rw [e] at hu; exact absurd hu (by decide)
      · rw [e] at this; exact absurd this (by decide)
    exact a3 v (hclose u hu1 v huv)
  · intro u v huv
    exact (isInputLit_bounds m hin v (hn v (hc.eg_node u v huv).2)).2

/-! ## The loops of `initialize` -/

theorem Run.bind_assoc {α β γ : Type} (r : Run α) (f : α → Run β) (g : β → Run γ) :
    (r.bind f).bind g = r.bind (fun a => (f a).bind g) := by
  cases r <;> rfl

theorem simInitialize_eq (m : Aiger) (cons : Nat → Int) (eg : Nat → List Nat) (rng : Nat → Nat) :
    simInitialize m cons eg rng =
      (initLoop m cons eg rng).bind fun s => if s.free_variables > 32 then .ok s else .abort := by
  unfold simInitialize initLoop
  rw [Run.bind_assoc]

theorem simInitialize_ok {m : Aiger} {cons : Nat → Int} {eg : Nat → List Nat} {rng : Nat → Nat}
    {s : InitState} (h : simInitialize m cons eg rng = .ok s) :
    initLoop m cons eg rng = .ok s ∧ s.free_variables > 32 := by
  rw [simInitialize_eq, Run.bind_eq_ok] at h
  obtain ⟨s1, h1, h2⟩ := h
  split_ifs at h2 with c
  cases h2
  exact ⟨h1, c⟩

/-- The body of the loop over the inputs is one call of `assign` with a value
`x`: the one of `cons` when `cons` fixes the literal, a random bit otherwise. -/
theorem initInput_eq (cons : Nat → Int) (eg : Nat → List Nat) (fuel : Nat) (s : InitState)
    (lit : Nat) :
    ∃ (x : Nat) (f : (Nat → Int) → InitState), (∀ t, (f t).table = t) ∧
      initInput cons eg fuel s lit = (simAssign eg fuel s.table lit x).bind (fun t => .ok (f t)) ∧
      (TableRange cons → x ≤ 1 ∧ (cons lit ≠ -1 → cons lit = (x : Int))) := by
  unfold initInput
  split_ifs with c
  · refine ⟨(cons lit).toNat, _, fun _ => rfl, rfl, ?_⟩
    intro hr
    rcases hr lit with e | e | e
    · exact absurd e c
    · rw [e]; exact ⟨by decide, fun _ => rfl⟩
    · rw [e]; exact ⟨by decide, fun _ => rfl⟩
  · refine ⟨s.rng 0 % 2, _, fun _ => rfl, rfl, ?_⟩
    intro _
    exact ⟨by omega, fun q => absurd (not_not.1 c) q⟩

/-- What the loops of `initialize` leave when they return: a paired table in
which the constant literal 0 holds 0, every input is assigned, and every
literal that holds 1 has passed it on along its edges. -/
theorem initLoop_spec {m : Aiger} {cons : Nat → Int} {eg : Nat → List Nat} {rng : Nat → Nat}
    {s : InitState} (hcons : TableRange cons) (h : initLoop m cons eg rng = .ok s) :
    TablePairs s.table ∧ s.table 0 = 0 ∧ (∀ l ∈ m.inputs, s.table l ≠ -1) ∧
      EdgeClosed eg (fun _ => False) s.table := by
  unfold initLoop at h
  rw [Run.bind_eq_ok] at h
  obtain ⟨t0, h0, h⟩ := h
  obtain ⟨p0, _, z0, c0⟩ := simAssign_spec eg _ (fun _ => False) _ 0 0 t0 (by omega)
    tablePairs_init (fun l hl => absurd hl (by decide)) h0
  have loop : ∀ (ins : List Nat) (a b : InitState), TablePairs a.table →
      EdgeClosed eg (fun _ => False) a.table →
      forRun (initInput cons eg (2 * (m.maxvar + 1) + 1)) ins a = .ok b →
      TablePairs b.table ∧ EdgeClosed eg (fun _ => False) b.table ∧ Extends a.table b.table ∧
        ∀ l ∈ ins, b.table l ≠ -1 := by
    intro ins
    induction ins with
    | nil =>
      intro a b h1 h2 hr
      simp only [forRun] at hr
      cases hr
      exact ⟨h1, h2, Extends.same _, fun l hl => absurd hl (List.not_mem_nil l)⟩
    | cons lit ins ih =>
      intro a b h1 h2 hr
      rw [forRun_cons, Run.bind_eq_ok] at hr
      obtain ⟨c, hc, hr⟩ := hr
      obtain ⟨x, f, hf, he, hx⟩ := initInput_eq cons eg (2 * (m.maxvar + 1) + 1) a lit
      obtain ⟨hx1, _⟩ := hx hcons
      rw [he, Run.bind_eq_ok] at hc
      obtain ⟨tc, htc, hc⟩ := hc
      cases hc
      obtain ⟨q1, q2, q3, q4⟩ := simAssign_spec eg _ (fun _ => False) a.table lit x tc hx1 h1 h2 htc
      rw [← hf tc] at q1 q2 q3 q4
      obtain ⟨r1, r2, r3, r4⟩ := ih (f tc) b q1 q4 hr
      refine ⟨r1, r2, q2.chain r3, ?_⟩
      intro l hl
      rcases List.mem_cons.1 hl with e | hl
      · subst e
        have hne : (f tc).table l ≠ -1 := by rw [q3]; omega
        rw [r3 l hne]; exact hne
      · exact r4 l hl
  obtain ⟨r1, r2, r3, r4⟩ := loop m.inputs _ s p0 c0 h
  refine ⟨r1, ?_, r4, r2⟩
  have : t0 0 ≠ -1 := by rw [z0]; decide
  rw [r3 0 this]
  exact z0

/-- Only the constant literals, the literals of inputs and the literals of the
graph get a value in `initialize`. -/
theorem initLoop_supported {m : Aiger} {cons : Nat → Int} {eg : Nat → List Nat}
    {rng : Nat → Nat} {s : InitState} (Q : Nat → Prop)
    (hQ : ∀ u v, v ∈ eg u → Q v ∧ Q (v ^^^ 1)) (hQ0 : Q 0 ∧ Q 1)
    (hQin : ∀ l ∈ m.inputs, Q l ∧ Q (l ^^^ 1)) (h : initLoop m cons eg rng = .ok s) :
    Supported Q s.table := by
  unfold initLoop at h
  rw [Run.bind_eq_ok] at h
  obtain ⟨t0, h0, h⟩ := h
  have s0 := simAssign_supported eg Q hQ _ _ 0 0 t0 (fun l hl => absurd rfl hl) hQ0.1 hQ0.2 h0
  refine forRun_inv (initInput cons eg (2 * (m.maxvar + 1) + 1)) (fun a => Supported Q a.table)
    (fun l => Q l ∧ Q (l ^^^ 1)) ?_ m.inputs _ s s0 hQin h
  intro a lit a1 ha hl hstep
  obtain ⟨x, f, hf, he, _⟩ := initInput_eq cons eg (2 * (m.maxvar + 1) + 1) a lit
  rw [he, Run.bind_eq_ok] at hstep
  obtain ⟨tc, htc, hc⟩ := hstep
  cases hc
  rw [hf]
  exact simAssign_supported eg Q hQ _ _ lit x tc ha hl.1 hl.2 htc

/-- Total correctness of the loops of `initialize` after a successful
`preprocessing`: for every generator they return; no call of `assign` meets a
literal that holds the opposite value, and the recursion budget suffices. -/
theorem initLoop_total {m : Aiger} {r : PreResult} (hin : InputsValid m)
    (h : preprocessing m = .ok r) (rng : Nat → Nat) :
    ∃ s, initLoop m r.cons r.g.eg rng = .ok s := by
  obtain ⟨hcp, hfix, hnode, hclosed, hlt⟩ := preprocessing_cons_facts hin h
  have hrange := hcp.range
  have hcons0 : ∀ l, l / 2 = 0 → r.cons l = -1 := by
    intro l hl
    by_contra q
    have := (isInputLit_bounds m hin l (hfix l q)).1
    omega
  unfold initLoop
  obtain ⟨t0, h0⟩ := simAssign_total r.cons r.g.eg (2 * (m.maxvar + 1)) hcp hclosed hnode hlt
    (2 * (m.maxvar + 1) + 1) (fun _ => -1) 0 0 (by omega) (by omega) tablePairs_init
    (fun l hl => absurd rfl hl) (fun q => absurd (hcons0 0 rfl) q) (fun _ => rfl)
    (Nat.lt_succ_of_le (unassigned_le _ _))
  rw [h0]
  simp only [Run.bind]
  obtain ⟨p0, _, _⟩ := simAssign_pairs r.g.eg _ _ 0 0 t0 (by omega) tablePairs_init h0
  have a0 := simAssign_agrees r.cons r.g.eg hcp hclosed hnode _ _ 0 0 t0 (by omega)
    tablePairs_init (fun l hl => absurd rfl hl) (fun q => absurd (hcons0 0 rfl) q) h0
  have hQ : ∀ (D : Nat → Prop) (u v : Nat), v ∈ r.g.eg u →
      (r.cons v ≠ -1 ∨ v / 2 = 0 ∨ D (v / 2)) ∧
        (r.cons (v ^^^ 1) ≠ -1 ∨ (v ^^^ 1) / 2 = 0 ∨ D ((v ^^^ 1) / 2)) := by
    intro D u v huv
    have hv := (hnode u v huv).2
    refine ⟨Or.inl hv, Or.inl ?_⟩
    rcases hcp v with ⟨e, _⟩ | ⟨_, e⟩ | ⟨_, e⟩
    · exact absurd e hv
    · rw [e]; decide
    · rw [e]; decide
  have s0 : Supported (fun l => r.cons l ≠ -1 ∨ l / 2 = 0 ∨ False) t0 :=
    simAssign_supported r.g.eg _ (hQ (fun _ => False)) _ _ 0 0 t0 (fun l hl => absurd rfl hl)
      (Or.inr (Or.inl rfl)) (Or.inr (Or.inl rfl)) h0
  have loop : ∀ (ins : List Nat) (D : Nat → Prop) (a : InitState), ins.Nodup →
      (∀ l ∈ ins, l ∈ m.inputs ∧ ¬ D (l / 2)) → TablePairs a.table → Agrees r.cons a.table →
      Supported (fun l => r.cons l ≠ -1 ∨ l / 2 = 0 ∨ D (l / 2)) a.table →
      ∃ b, forRun (initInput r.cons r.g.eg (2 * (m.maxvar + 1) + 1)) ins a = .ok b := by
    intro ins
    induction ins with
    | nil => intro D a _ _ _ _ _; exact ⟨a, rfl⟩
    | cons lit ins ih =>
      intro D a hnd hins h1 h2 h3
      obtain ⟨hlit, hD⟩ := hins lit (List.mem_cons_self _ _)
      have hb := isInputLit_bounds m hin lit (Or.inl hlit)
      obtain ⟨x, f, hf, he, hx⟩ := initInput_eq r.cons r.g.eg (2 * (m.maxvar + 1) + 1) a lit
      obtain ⟨hx1, hxc⟩ := hx hrange
      have hfree : r.cons lit = -1 → a.table lit = -1 := by
        intro hc
        by_contra q
        rcases h3 lit q with e | e | e
        · exact e hc
        · omega
        · exact hD e
      obtain ⟨tc, htc⟩ := simAssign_total r.cons r.g.eg (2 * (m.maxvar + 1)) hcp hclosed hnode
        hlt (2 * (m.maxvar + 1) + 1) a.table lit x hx1 hb.2 h1 h2 hxc hfree
        (Nat.lt_succ_of_le (unassigned_le _ _))
      obtain ⟨q1, _, _⟩ := simAssign_pairs r.g.eg _ _ lit x tc hx1 h1 htc
      have q2 := simAssign_agrees r.cons r.g.eg hcp hclosed hnode _ _ lit x tc hx1 h1 h2 hxc htc
      have q3 : Supported (fun l => r.cons l ≠ -1 ∨ l / 2 = 0 ∨ (D (l / 2) ∨ l / 2 = lit / 2))
          tc := by
        refine simAssign_supported r.g.eg _ (hQ (fun v => D v ∨ v = lit / 2)) _ _ lit x tc ?_
          (Or.inr (Or.inr (Or.inr rfl))) (Or.inr (Or.inr (Or.inr (xor_one_div lit)))) htc
        intro l hl
        rcases h3 l hl with e | e | e
        · exact Or.inl e
        · exact Or.inr (Or.inl e)
        · exact Or.inr (Or.inr (Or.inl e))
      rw [← hf tc] at q1 q2 q3
      have hnd' := List.nodup_cons.1 hnd
      obtain ⟨b, hb'⟩ := ih (fun v => D v ∨ v = lit / 2) (f tc) hnd'.2
        (by
          intro l hl
          obtain ⟨hl1, hl2⟩ := hins l (List.mem_cons_of_mem _ hl)
          refine ⟨hl1, ?_⟩
          rintro (e | e)
          · exact hl2 e
          · have e1 := hin.even l hl1
            have e2 := hin.even lit hlit
            have : l = lit := by omega
            rw [this] at hl
            exact hnd'.1 hl)
        q1 q2 q3
      exact ⟨b, by rw [forRun_cons, he, htc]; exact hb'⟩
  exact loop m.inputs (fun _ => False) _ hin.nodup (fun l hl => ⟨hl, fun q => q⟩) p0 a0 s0

/-! ## The claims on `initialize` -/

/-- C32. After the per-round initialisation of the AIG simulator completes,
every assigned literal `l` has `table[l ^ 1] = 1 - table[l]`, the constant
literal 0 holds 0, every input is assigned, and for every literal `l` that
holds 1 and every edge `l → v` of the implication graph the target `v` holds
1. -/
theorem initialize_leaves_closed_table (m : Aiger) (cons : Nat → Int) (eg : Nat → List Nat)
    (rng : Nat → Nat) (s : InitState) (hcons : TableRange cons)
    (h : simInitialize m cons eg rng = .ok s) :
    (∀ l, s.table l ≠ -1 → s.table (l ^^^ 1) = 1 - s.table l) ∧ s.table 0 = 0 ∧
      (∀ l ∈ m.inputs, s.table l ≠ -1) ∧
      ∀ l, s.table l = 1 → ∀ v ∈ eg l, s.table v = 1 := by
  obtain ⟨hp, h0, hin, hcl⟩ := initLoop_spec hcons (simInitialize_ok h).1
  refine ⟨?_, h0, hin, fun l hl v hv => hcl l hl (fun q => q) v hv⟩
  intro l hl
  rcases hp l with ⟨e, _⟩ | ⟨e, e'⟩ | ⟨e, e'⟩
  · exact absurd e hl
  · rw [e, e']; rfl
  · rw [e, e']; rfl

set_option maxRecDepth 100000 in
/-- Witness for C32: the initialisation on `pairModel` after its
`preprocessing`, whose graph holds the edges `2 → 5` and `4 → 3`, with the
generator `0, 1, 2, ...`. -/
theorem initialize_leaves_closed_table_witness :
    simInitialize pairModel pairPre.cons pairPre.g.eg (fun i => i) = .ok pairInit ∧
    pairPre.g.eg 2 = [5] ∧ pairInit.table 2 = 1 ∧ pairInit.table 5 = 1 :=
  ⟨rfl, by decide, by decide,
    (initialize_leaves_closed_table pairModel pairPre.cons pairPre.g.eg (fun i => i) pairInit
      (preprocessing_cons_range pairModel pairPre rfl) rfl).2.2.2 2 (by decide) 5 (by decide)⟩

/-- C39. For every AIG on which preprocessing succeeds and for every sequence
of random bits, the loops of the per-round initialisation return: no call of
`assign` finds a literal holding the opposite value, so the assertion
`table[lit] == -1` never fails and only the check of `free_variables` can end
the initialisation. -/
theorem initialize_assert_unreachable (m : Aiger) (hin : InputsValid m) (r : PreResult)
    (h : preprocessing m = .ok r) (rng : Nat → Nat) :
    ∃ s, initLoop m r.cons r.g.eg rng = .ok s ∧
      simInitialize m r.cons r.g.eg rng =
        if s.free_variables > 32 then .ok s else .abort := by
  obtain ⟨s, hs⟩ := initLoop_total hin h rng
  refine ⟨s, hs, ?_⟩
  rw [simInitialize_eq, hs]
  rfl

set_option maxRecDepth 100000 in
/-- Witness for C39: `pairModel`, on which `preprocessing` fixes the inputs 2
and 4 and builds the edges `2 → 5` and `4 → 3`. -/
theorem initialize_assert_unreachable_witness :
    InputsValid pairModel ∧ preprocessing pairModel = .ok pairPre ∧
    ∀ rng : Nat → Nat, ∃ s,
      initLoop pairModel pairPre.cons pairPre.g.eg rng = .ok s ∧
      simInitialize pairModel pairPre.cons pairPre.g.eg rng =
        if s.free_variables > 32 then .ok s else .abort :=
  ⟨⟨by decide, by decide, by decide, by decide⟩, rfl,
    fun rng => initialize_assert_unreachable pairModel
      ⟨by decide, by decide, by decide, by decide⟩ pairPre rfl rng⟩

/-! ## The forward pass over the gates -/

theorem land_boolInt (a b : Bool) : Int.land (boolInt a) (boolInt b) = boolInt (a && b) := by
  cases a <;> cases b <;> decide

theorem xor_boolInt (a : Bool) : Int.xor (boolInt a) 1 = boolInt (!a) := by
  cases a <;> decide

theorem boolInt_ne (a : Bool) : boolInt a ≠ -1 := by
  cases a <;> decide

theorem boolInt_not (a : Bool) : boolInt (!a) = 1 - boolInt a := by
  cases a <;> decide

theorem half_eq_of_even {l a : Nat} (ha : a % 2 = 0) (h : l / 2 = a / 2) :
    l = a ∨ l = a ^^^ 1 := by
  rw [xor_one_even a ha]
  omega

/-- The gate loop on a table that holds the values of `val` on the variables in
`S`: when the operands of every gate are in `S` or outputs of earlier gates and
no gate output is in `S`, the loop returns, no assertion fails, the outputs of
the gates join the assigned variables, and the table holds the values of the
evaluation of the gates. -/
theorem andPass_loop :
    ∀ (rest : List AigerAnd) (t : Nat → Int) (val : Nat → Bool) (S : Nat → Prop),
      GatesOrdered rest →
      (∀ l, t l ≠ -1 ↔ S (l / 2)) →
      (∀ l, t l ≠ -1 → t l = boolInt (litVal val l)) →
      (∀ g ∈ rest, ¬ S (g.lhs / 2)) →
      (∀ g ∈ rest, ∀ r, r = g.rhs0 ∨ r = g.rhs1 →
        S (r / 2) ∨ ∃ g1 ∈ rest, g1.lhs / 2 = r / 2) →
      ∃ t1, forRun andStep rest t = .ok t1 ∧
        (∀ l, t1 l ≠ -1 ↔ (S (l / 2) ∨ ∃ g ∈ rest, g.lhs / 2 = l / 2)) ∧
        (∀ l, t1 l ≠ -1 → t1 l = boolInt (litVal (rest.foldl evalStep val) l)) := by
  intro rest
  induction rest with
  | nil =>
    intro t val S _ hS hval _ _
    refine ⟨t, rfl, ?_, hval⟩
    intro l
    rw [hS l]
    constructor
    · exact Or.inl
    · rintro (h | ⟨g, hg, _⟩)
      · exact h
      · cases hg
  | cons a rest ih =>
    intro t val S hord hS hval hfresh hrhs
    have hsorted := List.pairwise_cons.1 hord.sorted
    have haeven := hord.lhs_even a (List.mem_cons_self _ _)
    have hord' : GatesOrdered rest :=
      ⟨fun g hg => hord.lhs_even g (List.mem_cons_of_mem _ hg),
        fun g hg => hord.rhs0_lt g (List.mem_cons_of_mem _ hg),
        fun g hg => hord.rhs1_lt g (List.mem_cons_of_mem _ hg), hsorted.2⟩
    -- the operands of the first gate are assigned
    have hop : ∀ r, r = a.rhs0 ∨ r = a.rhs1 → t r ≠ -1 := by
      intro r hr
      have hlt : r < a.lhs := by
        rcases hr with e | e
        · rw [e]; exact hord.rhs0_lt a (List.mem_cons_self _ _)
        · rw [e]; exact hord.rhs1_lt a (List.mem_cons_self _ _)
      rw [hS r]
      rcases hrhs a (List.mem_cons_self _ _) r hr with h | ⟨g1, hg1, e⟩
      · exact h
      · exfalso
        have h1 : a.lhs ≤ g1.lhs := by
          rcases List.mem_cons.1 hg1 with e1 | e1
          · rw [e1]
          · exact le_of_lt (hsorted.1 g1 e1)
        have h2 := hord.lhs_even g1 hg1
        omega
    have h0 := hop a.rhs0 (Or.inl rfl)
    have h1 := hop a.rhs1 (Or.inr rfl)
    have hl : t a.lhs = -1 := by
      by_contra q
      exact hfresh a (List.mem_cons_self _ _) ((hS _).1 q)
    have hl1 : t (a.lhs ^^^ 1) = -1 := by
      by_contra q
      have := (hS _).1 q
      rw [xor_one_div] at this
      exact hfresh a (List.mem_cons_self _ _) this
    have hne : a.lhs ^^^ 1 ≠ a.lhs := xor_one_ne a.lhs
    have hres : Int.land (t a.rhs0) (t a.rhs1) =
        boolInt (litVal val a.rhs0 && litVal val a.rhs1) := by
      rw [hval _ h0, hval _ h1, land_boolInt]
    have hstep : andStep t a = .ok (Function.update (Function.update t a.lhs
        (boolInt (litVal val a.rhs0 && litVal val a.rhs1))) (a.lhs ^^^ 1)
        (boolInt (!(litVal val a.rhs0 && litVal val a.rhs1)))) := by
      unfold andStep
      rw [if_neg (by rintro (e | e); exact h0 e; exact h1 e), if_pos (Or.inl hl),
        Function.update_noteq hne, if_pos (Or.inl hl1), hres, xor_boolInt]
    have hoth : ∀ l, l / 2 ≠ a.lhs / 2 →
        (Function.update (Function.update t a.lhs
          (boolInt (litVal val a.rhs0 && litVal val a.rhs1))) (a.lhs ^^^ 1)
          (boolInt (!(litVal val a.rhs0 && litVal val a.rhs1)))) l = t l := by
      intro l hne2
      have e1 : l ≠ a.lhs ^^^ 1 := fun e => hne2 (by rw [e, xor_one_div])
      have e2 : l ≠ a.lhs := fun e => hne2 (by rw [e])
      rw [Function.update_noteq e1, Function.update_noteq e2]
    have hsame : ∀ l, l / 2 = a.lhs / 2 →
        (Function.update (Function.update t a.lhs
          (boolInt (litVal val a.rhs0 && litVal val a.rhs1))) (a.lhs ^^^ 1)
          (boolInt (!(litVal val a.rhs0 && litVal val a.rhs1)))) l =
          boolInt (litVal (evalStep val a) l) := by
      intro l hl2
      have hv : litVal (evalStep val a) a.lhs = (litVal val a.rhs0 && litVal val a.rhs1) := by
        unfold litVal evalStep
        rw [if_pos haeven, Function.update_same]
        rfl
      rcases half_eq_of_even haeven hl2 with e | e
      · rw [e, Function.update_noteq hne.symm, Function.update_same, hv]
      · rw [e, Function.update_same, litVal_xor_one, hv]
    generalize (Function.update (Function.update t a.lhs
        (boolInt (litVal val a.rhs0 && litVal val a.rhs1))) (a.lhs ^^^ 1)
        (boolInt (!(litVal val a.rhs0 && litVal val a.rhs1)))) = tw at hstep hoth hsame
    obtain ⟨t1, ht1, hS1, hval1⟩ := ih tw (evalStep val a) (fun v => S v ∨ v = a.lhs / 2) hord'
      (by
        intro l
        by_cases e : l / 2 = a.lhs / 2
        · rw [hsame l e]
          exact ⟨fun _ => Or.inr e, fun _ => boolInt_ne _⟩
        · rw [hoth l e, hS l]
          exact ⟨Or.inl, fun q => q.elim id (fun q => absurd q e)⟩)
      (by
        intro l hl
        by_cases e : l / 2 = a.lhs / 2
        · exact hsame l e
        · rw [hoth l e] at hl ⊢
          rw [hval l hl]
          congr 1
          apply litVal_congr
          unfold evalStep
          rw [Function.update_noteq e])
      (by
        intro g hg
        rintro (q | q)
        · exact hfresh g (List.mem_cons_of_mem _ hg) q
        · have := hsorted.1 g hg
          have := hord.lhs_even g (List.mem_cons_of_mem _ hg)
          omega)
      (by
        intro g hg r hr
        rcases hrhs g (List.mem_cons_of_mem _ hg) r hr with q | ⟨g1, hg1, e⟩
        · exact Or.inl (Or.inl q)
        · rcases List.mem_cons.1 hg1 with e1 | e1
          · rw [e1] at e
            exact Or.inl (Or.inr e.symm)
          · exact Or.inr ⟨g1, e1, e⟩)
    refine ⟨t1, by rw [forRun_cons, hstep]; exact ht1, ?_, ?_⟩
    · intro l
      rw [hS1 l]
      constructor
      · rintro ((q | q) | ⟨g, hg, e⟩)
        · exact Or.inl q
        · exact Or.inr ⟨a, List.mem_cons_self _ _, q.symm⟩
        · exact Or.inr ⟨g, List.mem_cons_of_mem _ hg, e⟩
      · rintro (q | ⟨g, hg, e⟩)
        · exact Or.inl (Or.inl q)
        · rcases List.mem_cons.1 hg with e1 | e1
          · rw [e1] at e
            exact Or.inl (Or.inr e.symm)
          · exact Or.inr ⟨g, e1, e⟩
    · intro l hl
      rw [List.foldl_cons]
      exact hval1 l hl

theorem checkConstraints_defined (t : Nat → Int) (cs : List Nat) (h : ∀ l ∈ cs, t l ≠ -1) :
    ∃ b, checkConstraints t cs = .ok b := by
  induction cs with
  | nil => exact ⟨true, rfl⟩
  | cons c cs ih =>
    unfold checkConstraints
    rw [if_neg (h c (List.mem_cons_self _ _))]
    split_ifs
    · exact ⟨false, rfl⟩
    · exact ih (fun l hl => h l (List.mem_cons_of_mem _ hl))

theorem checkBads_defined (t : Nat → Int) (bs : List Nat) (h : ∀ l ∈ bs, t l ≠ -1) :
    ∃ b, checkBads t bs = .ok b := by
  induction bs with
  | nil => exact ⟨none, rfl⟩
  | cons c cs ih =>
    unfold checkBads
    rw [if_neg (h c (List.mem_cons_self _ _))]
    split_ifs
    · exact ⟨some c, rfl⟩
    · exact ih (fun l hl => h l (List.mem_cons_of_mem _ hl))

/-- The table that `initialize` leaves after a successful `preprocessing`
assigns exactly the constant and the input variables, with the values of the
input assignment it holds. -/
theorem initialize_table_inputs {m : Aiger} {r : PreResult} {rng : Nat → Nat} {st : InitState}
    (hin : InputsValid m) (hpre : preprocessing m = .ok r)
    (hinit : simInitialize m r.cons r.g.eg rng = .ok st) :
    (∀ l, st.table l ≠ -1 ↔ (l / 2 = 0 ∨ 2 * (l / 2) ∈ m.inputs)) ∧
      ∀ l, st.table l ≠ -1 →
        st.table l = boolInt (litVal (Function.update (tableInputs st.table) 0 false) l) := by
  obtain ⟨hcp, hfix, hnode, _, _⟩ := preprocessing_cons_facts hin hpre
  have hloop := (simInitialize_ok hinit).1
  obtain ⟨hp, h0, hass, _⟩ := initLoop_spec hcp.range hloop
  have hsup : Supported (fun l => l / 2 = 0 ∨ isInputLit m l) st.table := by
    refine initLoop_supported _ ?_ ⟨Or.inl rfl, Or.inl rfl⟩ ?_ hloop
    · intro u v huv
      have hv := hfix v (hnode u v huv).2
      exact ⟨Or.inr hv, Or.inr (isInputLit_xor m v hv)⟩
    · intro l hl
      exact ⟨Or.inr (Or.inl hl), Or.inr (isInputLit_xor m l (Or.inl hl))⟩
  have hpair : ∀ l, st.table l ≠ -1 → st.table (l ^^^ 1) ≠ -1 := by
    intro l hl
    rcases hp l with ⟨e, _⟩ | ⟨_, e⟩ | ⟨_, e⟩
    · exact absurd e hl
    · rw [e]; decide
    · rw [e]; decide
  have hiff : ∀ l, st.table l ≠ -1 ↔ (l / 2 = 0 ∨ 2 * (l / 2) ∈ m.inputs) := by
    intro l
    constructor
    · intro hl
      rcases hsup l hl with q | q | q
      · exact Or.inl q
      · right
        have := hin.even l q
        have e : 2 * (l / 2) = l := by omega
        rw [e]; exact q
      · right
        have := hin.even _ q
        have e : 2 * (l / 2) = l ^^^ 1 := by
          rw [← xor_one_div l]; omega
        rw [e]; exact q
    · rintro (q | q)
      · have h00 : st.table 0 ≠ -1 := by rw [h0]; decide
        have hl : l = 0 ∨ l = 0 ^^^ 1 := by
          have : (0 : Nat) ^^^ 1 = 1 := rfl
          rw [this]; omega
        rcases hl with e | e
        · rw [e]; exact h00
        · rw [e]; exact hpair 0 h00
      · have h1 := hass _ q
        rcases half_eq_of_even (a := 2 * (l / 2)) (l := l) (by omega) (by omega) with e | e
        · rw [e]; exact h1
        · rw [e]; exact hpair _ h1
  refine ⟨hiff, ?_⟩
  -- the value of an even literal, then of any literal
  have heven : ∀ v, st.table (2 * v) ≠ -1 → st.table (2 * v) =
      boolInt (Function.update (tableInputs st.table) 0 false v) := by
    intro v hv
    by_cases e : v = 0
    · subst e
      rw [Function.update_same]
      exact h0
    · rw [Function.update_noteq e]
      unfold tableInputs boolInt
      rcases hp.range (2 * v) with q | q | q
      · exact absurd q hv
      · rw [q]; rfl
      · rw [q]; rfl
  intro l hl
  by_cases e : l % 2 = 0
  · have e2 : l = 2 * (l / 2) := by omega
    unfold litVal
    rw [if_pos e]
    rw [e2] at hl
    have := heven (l / 2) hl
    rw [← e2] at this
    exact this
  · have e2 : l = (2 * (l / 2)) ^^^ 1 := by
      rw [xor_one_even _ (by omega)]; omega
    have h1 : st.table (2 * (l / 2)) ≠ -1 := by
      have := hpair l hl
      rw [e2, xor_one_xor_one] at this
      exact this
    have h2 := heven (l / 2) h1
    unfold litVal
    rw [if_neg e, boolInt_not, ← h2]
    rcases hp (2 * (l / 2)) with ⟨q, _⟩ | ⟨q, q'⟩ | ⟨q, q'⟩
    · exact absurd q h1
    · rw [← e2] at q'; rw [q, q']; rfl
    · rw [← e2] at q'; rw [q, q']; rfl

/-- C33. For every topologically ordered AIG in which every variable is an
input or the output of one gate, after the gate loop of a round whose
initialisation has completed every literal is defined, every gate has
`table[lhs] = table[rhs0] & table[rhs1]` and `table[lhs ^ 1] = 1 - table[lhs]`,
the table holds the value of every literal in the circuit under the input
assignment of the round, and no assertion of the gate loop, of the constraint
loop or of the bad loop fails. -/
theorem and_pass_computes_circuit (m : Aiger) (hwf : WellFormed m) (hin : InputsValid m)
    (hcov : Covered m) (r : PreResult) (hpre : preprocessing m = .ok r) (rng : Nat → Nat)
    (st : InitState) (hinit : simInitialize m r.cons r.g.eg rng = .ok st) :
    ∃ t, forRun andStep m.ands st.table = .ok t ∧
      (∀ l, l < 2 * (m.maxvar + 1) → t l ≠ -1) ∧
      (∀ g ∈ m.ands, t g.lhs = Int.land (t g.rhs0) (t g.rhs1) ∧
        t (g.lhs ^^^ 1) = 1 - t g.lhs) ∧
      (∀ l, l < 2 * (m.maxvar + 1) →
        t l = boolInt (litVal (aigEval m (tableInputs st.table)) l)) ∧
      (∃ b, checkConstraints t m.constraints = .ok b) ∧ ∃ b, checkBads t m.bad = .ok b := by
  obtain ⟨hiff, hval⟩ := initialize_table_inputs hin hpre hinit
  have hgle := hwf.lhs_le
  obtain ⟨t, ht, hS, hv⟩ := andPass_loop m.ands st.table
    (Function.update (tableInputs st.table) 0 false) (fun v => v = 0 ∨ 2 * v ∈ m.inputs)
    hwf.gates hiff hval
    (by
      intro g hg
      have h1 := hcov.gate_pos g hg
      have h2 := hwf.gates.lhs_even g hg
      rintro (q | q)
      · omega
      · have e : 2 * (g.lhs / 2) = g.lhs := by omega
        rw [e] at q
        exact hcov.gate_not_input g hg q)
    (by
      intro g hg r hr
      have hlt : r < g.lhs := by
        rcases hr with e | e
        · rw [e]; exact hwf.gates.rhs0_lt g hg
        · rw [e]; exact hwf.gates.rhs1_lt g hg
      have := hgle g hg
      by_cases e : r / 2 = 0
      · exact Or.inl (Or.inl e)
      · rcases hcov.total (r / 2) (by rw [List.mem_range']; exact ⟨r / 2 - 1, by omega, by omega⟩)
          with q | ⟨g1, hg1, q⟩
        · exact Or.inl (Or.inr q)
        · exact Or.inr ⟨g1, hg1, by omega⟩)
  have hdef : ∀ l, l < 2 * (m.maxvar + 1) → t l ≠ -1 := by
    intro l hl
    rw [hS l]
    by_cases e : l / 2 = 0
    · exact Or.inl (Or.inl e)
    · rcases hcov.total (l / 2) (by rw [List.mem_range']; exact ⟨l / 2 - 1, by omega, by omega⟩)
        with q | ⟨g1, hg1, q⟩
      · exact Or.inl (Or.inr q)
      · exact Or.inr ⟨g1, hg1, by omega⟩
  have hsem : ∀ l, l < 2 * (m.maxvar + 1) →
      t l = boolInt (litVal (aigEval m (tableInputs st.table)) l) :=
    fun l hl => hv l (hdef l hl)
  refine ⟨t, ht, hdef, ?_, hsem, ?_, ?_⟩
  · intro g hg
    have h1 := hgle g hg
    have h2 := hwf.gates.rhs0_lt g hg
    have h3 := hwf.gates.rhs1_lt g hg
    have h4 := hwf.gates.lhs_even g hg
    have hx : g.lhs ^^^ 1 < 2 * (m.maxvar + 1) := by
      rw [xor_one_even _ h4]; omega
    rw [hsem g.lhs (by omega), hsem g.rhs0 (by omega), hsem g.rhs1 (by omega), hsem _ hx,
      land_boolInt, litVal_xor_one, boolInt_not]
    refine ⟨?_, rfl⟩
    congr 1
    unfold litVal
    rw [if_pos h4]
    exact aigEval_gate m _ hwf.gates g hg
  · exact checkConstraints_defined t _ (fun l hl => hdef l (by
      have := hwf.constraints_le l hl; omega))
  · exact checkBads_defined t _ (fun l hl => hdef l (by
      have := hwf.bad_le l hl; omega))

set_option maxRecDepth 100000 in
/-- Witness for C33: the round on `pairModel` that starts from `pairInit`; the
gate `72 = 4 AND 2` gets the value 0 and its complement 73 the value 1. -/
theorem and_pass_computes_circuit_witness :
    WellFormed pairModel ∧ InputsValid pairModel ∧ Covered pairModel ∧
    preprocessing pairModel = .ok pairPre ∧
    simInitialize pairModel pairPre.cons pairPre.g.eg (fun i => i) = .ok pairInit ∧
    forRun andStep pairModel.ands pairInit.table = .ok pairTable ∧
    pairTable 72 = 0 ∧ pairTable 73 = 1 ∧
    ∃ t, forRun andStep pairModel.ands pairInit.table = .ok t ∧
      ∀ l, l < 2 * (pairModel.maxvar + 1) → t l ≠ -1 := by
  have hwf : WellFormed pairModel :=
    ⟨⟨by decide, by decide, by decide, by decide⟩, by decide, by decide, by decide, by decide⟩
  have hin : InputsValid pairModel := ⟨by decide, by decide, by decide, by decide⟩
  have hcov : Covered pairModel := ⟨by decide, by decide, by decide⟩
  obtain ⟨t, ht, hdef, _⟩ := and_pass_computes_circuit pairModel hwf hin hcov pairPre rfl
    (fun i => i) pairInit rfl
  exact ⟨hwf, hin, hcov, rfl, rfl, rfl, by decide, by decide, t, ht, hdef⟩

/-! ## The edge of a gate over complementary inputs -/

set_option maxRecDepth 100000 in
/-- C31, at the failing input: on `selfGateModel` the constraint `NOT 72` holds
under every input assignment, since the gate `72 = 3 AND 2` is constantly 0.
The reverse loop of `preprocessing` calls `add_edge(3, 2)`, which takes the
branch `(x ^ y) == 1` and adds the edge `3 → 2`; under the assignment with all
inputs 0 the constraint holds, literal 3 is 1 and literal 2 is 0, so the edge
is no implication of the constraints, and `preprocessing` fixes the input 2
to 1. -/
theorem preprocessing_adds_invalid_edge :
    (∀ σ : Nat → Bool, litVal (aigEval selfGateModel σ) 73 = true) ∧
    (preGraph selfGateModel).holds (fun p => p.g.eg 3 == [2]) = true ∧
    litVal (aigEval selfGateModel (fun _ => false)) 3 = true ∧
    litVal (aigEval selfGateModel (fun _ => false)) 2 = false ∧
    (preprocessing selfGateModel).holds (fun r => r.cons 2 == 1 && r.cons 3 == 0) = true := by
  refine ⟨?_, by decide, by decide, by decide, by decide⟩
  intro σ
  have e : aigEval selfGateModel σ 36 =
      (litVal (Function.update σ 0 false) 3 && litVal (Function.update σ 0 false) 2) := by
    unfold aigEval selfGateModel evalStep
    simp
  have e3 : litVal (Function.update σ 0 false) 3 = !litVal (Function.update σ 0 false) 2 :=
    litVal_xor_one _ 2
  unfold litVal
  rw [if_neg (by decide)]
  have e36 : 73 / 2 = 36 := by decide
  rw [e36, e, e3]
  cases litVal (Function.update σ 0 false) 2 <;> rfl

/-! ## The records of the bad properties -/

theorem btorConstraints_typed (e : BtorEval) (cs : List Nat)
    (h : ∀ c ∈ cs, ∃ bits, e.cur c = .bitvec (some bits)) :
    btorConstraints e.cur cs = .ok (roundSat cs e) := by
  induction cs with
  | nil => rfl
  | cons c cs ih =>
    obtain ⟨bits, hb⟩ := h c (List.mem_cons_self _ _)
    have ih' := ih (fun c hc => h c (List.mem_cons_of_mem _ hc))
    unfold btorConstraints
    rw [hb]
    simp only
    unfold roundSat at ih' ⊢
    rw [List.all_cons]
    unfold nonZero
    rw [hb]
    simp only
    split_ifs with hz
    · rw [hz]; rfl
    · rw [ih']
      have : bv_is_zero bits = false := by simpa using hz
      rw [this]; rfl

/-- The update of one entry of `reached_bads` in a satisfied round `k`. -/
theorem btorBads_spec (e : BtorEval) (k : Int) (hk : 0 ≤ k) :
    ∀ (bs : List Nat) (rs : List Int) (u : Int), rs.length = bs.length →
      (∀ b ∈ bs, ∃ bits, e.cur b = .bitvec (some bits)) → unreached rs ≤ u →
      btorBads e.cur k bs rs u =
        .ok (List.zipWith (fun b r => if 0 ≤ r then r else if nonZero e b then k else r) bs rs,
          u - unreached rs + unreached
            (List.zipWith (fun b r => if 0 ≤ r then r else if nonZero e b then k else r) bs rs))
    := by
  intro bs
  induction bs with
  | nil =>
    intro rs u hlen _ _
    cases rs with
    | nil => simp [btorBads, unreached]
    | cons r rs => cases hlen
  | cons b bs ih =>
    intro rs u hlen hty hu
    cases rs with
    | nil => cases hlen
    | cons r rs =>
      obtain ⟨bits, hb⟩ := hty b (List.mem_cons_self _ _)
      have hty' : ∀ b ∈ bs, ∃ bits, e.cur b = .bitvec (some bits) :=
        fun c hc => hty c (List.mem_cons_of_mem _ hc)
      have hlen' : rs.length = bs.length := by simpa using hlen
      have hnz : nonZero e b = !bv_is_zero bits := by
        unfold nonZero; rw [hb]
      have hpos : 0 ≤ unreached rs := by unfold unreached; exact Int.natCast_nonneg _
      unfold btorBads
      by_cases hr : r ≥ 0
      · have hun : unreached (r :: rs) = unreached rs := by
          unfold unreached
          rw [List.filter_cons_of_neg (by simpa using hr)]
        rw [hun] at hu
        rw [if_pos hr, ih rs u hlen' hty' hu]
        simp only [Run.bind, List.zipWith_cons_cons]
        rw [if_pos hr, hun]
        have : unreached (r :: List.zipWith
            (fun b r => if 0 ≤ r then r else if nonZero e b then k else r) bs rs) =
            unreached (List.zipWith
              (fun b r => if 0 ≤ r then r else if nonZero e b then k else r) bs rs) := by
          unfold unreached
          rw [List.filter_cons_of_neg (by simpa using hr)]
        rw [this]
      · have hun : unreached (r :: rs) = unreached rs + 1 := by
          unfold unreached
          rw [List.filter_cons_of_pos (by simpa using hr)]
          simp
        rw [hun] at hu
        rw [if_neg hr, hb]
        simp only
        by_cases hz : bv_is_zero bits = true
        · rw [if_pos hz, ih rs u hlen' hty' (by omega)]
          simp only [Run.bind, List.zipWith_cons_cons]
          rw [if_neg hr, hnz, hz]
          simp only [Bool.not_true, Bool.false_eq_true, if_false]
          have : unreached (r :: List.zipWith
              (fun b r => if 0 ≤ r then r else if nonZero e b then k else r) bs rs) =
              unreached (List.zipWith
                (fun b r => if 0 ≤ r then r else if nonZero e b then k else r) bs rs) + 1 := by
            unfold unreached
            rw [List.filter_cons_of_pos (by simpa using hr)]
            simp
          rw [this, hun]
          congr 2
          omega
        · rw [if_neg hz, if_pos (by omega), ih rs (u - 1) hlen' hty' (by omega)]
          simp only [Run.bind, List.zipWith_cons_cons]
          have hz' : bv_is_zero bits = false := by simpa using hz
          rw [if_neg hr, hnz, hz']
          simp only [Bool.not_false, if_true]
          have : unreached (k :: List.zipWith
              (fun b r => if 0 ≤ r then r else if nonZero e b then k else r) bs rs) =
              unreached (List.zipWith
                (fun b r => if 0 ≤ r then r else if nonZero e b then k else r) bs rs) := by
            unfold unreached
            rw [List.filter_cons_of_neg (by simpa using hk)]
          rw [this, hun]
          congr 2
          omega

theorem firstHit_succ (cs : List Nat) (evals : Nat → BtorEval) (b r : Nat) :
    firstHit cs evals b (r + 1) =
      (firstHit cs evals b r).or
        (if roundSat cs (evals (r + 1)) && nonZero (evals (r + 1)) b then some (r + 1)
          else none) := by
  unfold firstHit
  rw [List.range'_1_concat, List.find?_append]
  congr 1
  rw [Nat.add_comm 1 r]
  cases hp : (roundSat cs (evals (r + 1)) && nonZero (evals (r + 1)) b) with
  | true => simp [List.find?_cons, hp]
  | false => simp [List.find?_cons, hp]

theorem badRecord_zero (cs : List Nat) (evals : Nat → BtorEval) (b : Nat) :
    badRecord cs evals b 0 = -1 := rfl

theorem badRecord_neg_iff (cs : List Nat) (evals : Nat → BtorEval) (b r : Nat) :
    badRecord cs evals b r < 0 ↔ firstHit cs evals b r = none := by
  unfold badRecord
  cases firstHit cs evals b r with
  | none => simp
  | some s =>
    simp only [reduceCtorEq, iff_false, not_lt]
    exact Int.natCast_nonneg s

theorem badRecord_succ (cs : List Nat) (evals : Nat → BtorEval) (b r : Nat) :
    badRecord cs evals b (r + 1) =
      if 0 ≤ badRecord cs evals b r then badRecord cs evals b r
      else if roundSat cs (evals (r + 1)) && nonZero (evals (r + 1)) b then ((r + 1 : Nat) : Int)
      else badRecord cs evals b r := by
  unfold badRecord
  rw [firstHit_succ]
  cases firstHit cs evals b r with
  | some s =>
    simp only [Option.or_some]
    rw [if_pos (Int.natCast_nonneg s)]
  | none =>
    simp only [Option.none_or]
    rw [if_neg (show ¬ (0 : Int) ≤ -1 by decide)]
    cases hp : (roundSat cs (evals (r + 1)) && nonZero (evals (r + 1)) b) with
    | true => simp
    | false => simp

/-- A record, once made, stays. -/
theorem badRecord_stable (cs : List Nat) (evals : Nat → BtorEval) (b r : Nat)
    (h : 0 ≤ badRecord cs evals b r) :
    ∀ d, badRecord cs evals b (r + d) = badRecord cs evals b r := by
  intro d
  induction d with
  | zero => rfl
  | succ d ih =>
    have : r + (d + 1) = (r + d) + 1 := by omega
    rw [this, badRecord_succ, ih, if_pos h]

theorem unreached_map_eq_zero (f : Nat → Int) (bads : List Nat) :
    unreached (bads.map f) = 0 ↔ ∀ b ∈ bads, 0 ≤ f b := by
  unfold unreached
  rw [Int.natCast_eq_zero, List.length_eq_zero, List.filter_eq_nil_iff]
  simp only [List.mem_map, forall_exists_index, and_imp, forall_apply_eq_imp_iff₂,
    decide_eq_true_eq, not_lt]

/-- One call of `simulate_step` from records that are the first hits of the
rounds `1, ..., r`: it returns whether the round `r + 1` satisfies the
constraints, the records become the first hits of the rounds `1, ..., r + 1`,
the counter stays the number of missing records, and the fingerprints are
left alone. -/
theorem simulate_step_records (cs bads : List Nat) (evals : Nat → BtorEval) (r : Nat)
    (s : BtorSim) (hty : ArgsEvaluated cs bads evals)
    (hrecs : s.reached_bads = bads.map (fun b => badRecord cs evals b r))
    (hcount : s.num_unreached_bads = unreached s.reached_bads) :
    ∃ s1, simulate_step cs bads (evals (r + 1)) (r + 1) s =
        .ok (roundSat cs (evals (r + 1)), s1) ∧
      s1.reached_bads = bads.map (fun b => badRecord cs evals b (r + 1)) ∧
      s1.num_unreached_bads = unreached s1.reached_bads ∧
      s1.hash_value = s.hash_value ∧ s1.succ = s.succ := by
  have hcs : ∀ c ∈ cs, ∃ bits, (evals (r + 1)).cur c = .bitvec (some bits) :=
    fun c hc => hty (r + 1) c (List.mem_append_left _ hc)
  have hbs : ∀ c ∈ bads, ∃ bits, (evals (r + 1)).cur c = .bitvec (some bits) :=
    fun c hc => hty (r + 1) c (List.mem_append_right _ hc)
  unfold simulate_step
  rw [if_neg (by omega), btorConstraints_typed _ _ hcs]
  simp only [Run.bind]
  by_cases hsat : roundSat cs (evals (r + 1)) = true
  · rw [if_pos hsat]
    have hlen : s.reached_bads.length = bads.length := by rw [hrecs, List.length_map]
    rw [btorBads_spec (evals (r + 1)) ((r + 1 : Nat) : Int) (Int.natCast_nonneg _) bads
      s.reached_bads s.num_unreached_bads hlen hbs (by rw [hcount])]
    simp only [Run.bind]
    rw [hsat]
    refine ⟨_, rfl, ?_, ?_, rfl, rfl⟩
    · simp only
      rw [hrecs, List.zipWith_map_right, List.zipWith_same]
      apply List.map_congr_left
      intro b _
      rw [badRecord_succ, hsat, Bool.true_and]
    · simp only
      rw [hcount]
      omega
  · rw [if_neg hsat]
    have hs : roundSat cs (evals (r + 1)) = false := by simpa using hsat
    rw [hs]
    refine ⟨_, rfl, ?_, hcount, rfl, rfl⟩
    rw [hrecs]
    apply List.map_congr_left
    intro b _
    rw [badRecord_succ, hs, Bool.false_and]
    simp

/-- C34, at the failing input. For the model `1 sort bitvec 1`, `2 input 1`,
`3 not 1 2`, `4 not 1 3`, `5 one 1`, `6 constraint 5`, `7 bad 3`, `8 bad 4`
(`num_format_lines` is 8) the first round satisfies the constraint whatever is
drawn, `simulate_step` records round 1 for one of the two bad properties and
leaves `num_unreached_bads` at 1, so round 2 is due with that record kept. The
code does not get there: the fingerprint loop of round 1 reaches the pass
`i = 8`, outside `current_state`, and from there on the behaviour of the run,
its rounds and its records, is undefined. -/
theorem bad_records_end_in_first_satisfied_round (b1 b2 : Nat → Nat) (x : Nat → Bool)
    (R : Nat) :
    (∃ s1, simulate_step [5] [3, 4] (notNotEval (b1 1) (b2 1) (x 1)) 1 (BtorSim.init [3, 4]) =
        .ok (true, s1) ∧
      s1.reached_bads = [if x 1 then -1 else 1, if x 1 then 1 else -1] ∧
      s1.num_unreached_bads = 1) ∧
    btorRound [5] [3, 4] 8 1 (notNotEval (b1 1) (b2 1) (x 1)) (BtorSim.init [3, 4]) = .ub ∧
    btorSimulation [5] [3, 4] 8 (R + 2) (fun s => notNotEval (b1 s) (b2 s) (x s)) = .ub := by
  have hstep := simulate_step_notNotEval (b1 1) (b2 1) (x 1) 0
  have hround := btorRound_satisfied_out_of_range [5] [3, 4] 8 1 _ _ _ (by decide) hstep
  refine ⟨⟨_, hstep, rfl, rfl⟩, hround, ?_⟩
  unfold btorSimulation btorLoop
  rw [if_neg (by decide), hround]
  rfl

/-! ## The reverse marking pass of constraint resolution -/

theorem forRun_total {α β : Type} (f : α → β → Run α) (P : α → Prop) (Q : β → Prop)
    (hstep : ∀ a b, P a → Q b → ∃ a1, f a b = .ok a1 ∧ P a1) :
    ∀ (bs : List β) (a : α), P a → (∀ b ∈ bs, Q b) → ∃ a1, forRun f bs a = .ok a1 ∧ P a1 := by
  intro bs
  induction bs with
  | nil => intro a ha _; exact ⟨a, rfl, ha⟩
  | cons b bs ih =>
    intro a ha hq
    obtain ⟨a2, h1, h2⟩ := hstep a b ha (hq b (List.mem_cons_self _ _))
    obtain ⟨a1, h3, h4⟩ := ih a2 h2 (fun c hc => hq c (List.mem_cons_of_mem _ hc))
    exact ⟨a1, by rw [forRun_cons, h1]; exact h3, h4⟩

theorem refVal_true (val : Nat → List Bool) (a : Int) (h : refVal val a = [true]) :
    (a < 0 → val a.natAbs = [false]) ∧ (¬ a < 0 → val a.natAbs = [true]) := by
  unfold refVal at h
  constructor
  · intro ha
    rw [if_pos ha] at h
    cases hv : val a.natAbs with
    | nil => rw [hv] at h; cases h
    | cons x xs =>
      rw [hv] at h
      cases xs with
      | nil => cases x <;> simp at h ⊢
      | cons y ys => simp at h
  · intro ha
    rw [if_neg ha] at h
    exact h

theorem refVal_false (val : Nat → List Bool) (a : Int) (h : refVal val a = [false]) :
    (a < 0 → val a.natAbs = [true]) ∧ (¬ a < 0 → val a.natAbs = [false]) := by
  unfold refVal at h
  constructor
  · intro ha
    rw [if_pos ha] at h
    cases hv : val a.natAbs with
    | nil => rw [hv] at h; cases h
    | cons x xs =>
      rw [hv] at h
      cases xs with
      | nil => cases x <;> simp at h ⊢
      | cons y ys => simp at h
  · intro ha
    rw [if_neg ha] at h
    exact h

theorem zipWith_and_true (xs ys : List Bool) (h1 : xs.length = 1) (h2 : ys.length = 1)
    (h : [true] = List.zipWith (fun x y => x && y) xs ys) : xs = [true] ∧ ys = [true] := by
  match xs, ys, h1, h2 with
  | [x], [y], _, _ =>
    cases x <;> cases y <;> simp at h ⊢

theorem zipWith_or_false (xs ys : List Bool) (h1 : xs.length = 1) (h2 : ys.length = 1)
    (h : [false] = List.zipWith (fun x y => x || y) xs ys) : xs = [false] ∧ ys = [false] := by
  match xs, ys, h1, h2 with
  | [x], [y], _, _ =>
    cases x <;> cases y <;> simp at h ⊢

theorem args_two (l : List Int) (h : l.length = 2) : l = [l.getD 0 0, l.getD 1 0] := by
  match l, h with
  | [a, b], _ => rfl

/-- The loop over the operands keeps the marks sound when every written mark
is right for its operand. -/
theorem markArgs_sound (val : Nat → List Bool) (n : Nat) (v : Int) (hv : v = 1 ∨ v = -1) :
    ∀ (as : List Int) (cons : Nat → Int), MarksSound val cons →
      (∀ a ∈ as, a.natAbs ≤ n ∧
        ((if a < 0 then -v else v) = 1 → val a.natAbs = [true]) ∧
        ((if a < 0 then -v else v) = -1 → val a.natAbs = [false])) →
      ∃ cons1, markArgs n v cons as = .ok cons1 ∧ MarksSound val cons1 := by
  intro as
  induction as with
  | nil => intro cons h _; exact ⟨cons, rfl, h⟩
  | cons a as ih =>
    intro cons h has
    obtain ⟨ha, h1, h2⟩ := has a (List.mem_cons_self _ _)
    unfold markArgs
    rw [if_pos ha]
    apply ih _ _ (fun b hb => has b (List.mem_cons_of_mem _ hb))
    intro i
    by_cases e : i = a.natAbs
    · subst e
      rw [Function.update_same]
      refine ⟨h1, h2, ?_⟩
      rcases hv with rfl | rfl <;> split_ifs <;> simp
    · rw [Function.update_noteq e]
      exact h i

/-- One pass of the loop body keeps the marks sound. -/
theorem markLine_sound (model : Btor2Model) (val : Nat → List Bool)
    (hpos : ConstraintArgsPositive model) (hrange : model.ArgsInRange)
    (hev : EvaluatesAndOr model val) (hc : ConstraintsHold model val) (cons : Nat → Int)
    (i : Nat) (hi : i ∈ List.range' 1 model.max_id) (h : MarksSound val cons) :
    ∃ cons1, markLine model cons i = .ok cons1 ∧ MarksSound val cons1 := by
  unfold markLine
  cases hl : model.line i with
  | none => exact ⟨cons, rfl, h⟩
  | some line =>
    simp only
    have hmem : line ∈ model.line i := by rw [hl]; exact rfl
    by_cases t1 : line.tag = .BTOR2_TAG_constraint
    · rw [if_pos t1]
      obtain ⟨hne, hhead⟩ := hpos i hi line hmem t1
      have hc1 := hc i hi line hmem t1
      cases ha : line.args with
      | nil => exact absurd ha hne
      | cons a rest =>
      rw [ha] at hhead hc1
      obtain ⟨ha0, han⟩ := hhead a rfl
      simp only
      rw [if_pos ⟨le_of_lt ha0, han⟩]
      refine ⟨_, rfl, ?_⟩
      have hva := hc1 a rfl
      intro j
      by_cases e : j = a.toNat
      · subst e
        rw [Function.update_same]
        exact ⟨fun _ => hva, fun q => absurd q (by decide), Or.inr (Or.inr rfl)⟩
      · rw [Function.update_noteq e]
        exact h j
    · rw [if_neg t1]
      by_cases t2 : line.tag = .BTOR2_TAG_and
      · rw [if_pos t2]
        by_cases c0 : cons i ≤ 0
        · rw [if_pos c0]; exact ⟨cons, rfl, h⟩
        · rw [if_neg c0]
          have hci : cons i = 1 := by
            rcases (h i).2.2 with e | e | e <;> omega
          obtain ⟨hlen, la, lb, hz⟩ := (hev i hi line hmem).1 t2
          have hab := args_two line.args hlen
          have hvi := (h i).1 hci
          rw [hvi] at hz la lb
          obtain ⟨ra, rb⟩ := zipWith_and_true _ _ la lb hz
          apply markArgs_sound val model.max_id 1 (Or.inl rfl) _ _ h
          intro x hx
          refine ⟨hrange i hi line hmem x hx, ?_, ?_⟩
          · intro hw
            have hxn : ¬ x < 0 := by
              intro q; rw [if_pos q] at hw; exact absurd hw (by decide)
            rw [hab] at hx
            simp only [List.mem_cons, List.mem_singleton, List.not_mem_nil, or_false] at hx
            rcases hx with rfl | rfl
            · exact (refVal_true val _ ra).2 hxn
            · exact (refVal_true val _ rb).2 hxn
          · intro hw
            have hxn : x < 0 := by
              by_contra q; rw [if_neg q] at hw; exact absurd hw (by decide)
            rw [hab] at hx
            simp only [List.mem_cons, List.mem_singleton, List.not_mem_nil, or_false] at hx
            rcases hx with rfl | rfl
            · exact (refVal_true val _ ra).1 hxn
            · exact (refVal_true val _ rb).1 hxn
      · rw [if_neg t2]
        by_cases t3 : line.tag = .BTOR2_TAG_or
        · rw [if_pos t3]
          by_cases c0 : cons i ≥ 0
          · rw [if_pos c0]; exact ⟨cons, rfl, h⟩
          · rw [if_neg c0]
            have hci : cons i = -1 := by
              rcases (h i).2.2 with e | e | e <;> omega
            obtain ⟨hlen, la, lb, hz⟩ := (hev i hi line hmem).2 t3
            have hab := args_two line.args hlen
            have hvi := (h i).2.1 hci
            rw [hvi] at hz la lb
            obtain ⟨ra, rb⟩ := zipWith_or_false _ _ la lb hz
            apply markArgs_sound val model.max_id (-1) (Or.inr rfl) _ _ h
            intro x hx
            refine ⟨hrange i hi line hmem x hx, ?_, ?_⟩
            · intro hw
              have hxn : x < 0 := by
                by_contra q; rw [if_neg q] at hw; exact absurd hw (by decide)
              rw [hab] at hx
              simp only [List.mem_cons, List.mem_singleton, List.not_mem_nil, or_false] at hx
              rcases hx with rfl | rfl
              · exact (refVal_false val _ ra).1 hxn
              · exact (refVal_false val _ rb).1 hxn
            · intro hw
              have hxn : ¬ x < 0 := by
                intro q; rw [if_pos q] at hw; exact absurd hw (by decide)
              rw [hab] at hx
              simp only [List.mem_cons, List.mem_singleton, List.not_mem_nil, or_false] at hx
              rcases hx with rfl | rfl
              · exact (refVal_false val _ ra).2 hxn
              · exact (refVal_false val _ rb).2 hxn
        · rw [if_neg t3]; exact ⟨cons, rfl, h⟩

/-- C35. For every word-level model whose constraint arguments are positive
references to 1-bit nodes, the reverse marking pass of constraint resolution
returns, and in every evaluation of the `and` and `or` lines in which all
constraints hold, every node that the pass marks `1` holds the 1-bit one and
every node it marks `-1` holds the 1-bit zero. -/
theorem marking_pass_sound (model : Btor2Model) (val : Nat → List Bool)
    (hpos : ConstraintArgsPositive model) (hrange : model.ArgsInRange)
    (hev : EvaluatesAndOr model val) (hc : ConstraintsHold model val) :
    ∃ cons, markPass model = .ok cons ∧
      ∀ i, (cons i = 1 → val i = [true]) ∧ (cons i = -1 → val i = [false]) := by
  obtain ⟨cons, h1, h2⟩ := forRun_total (markLine model) (MarksSound val)
    (fun i => i ∈ List.range' 1 model.max_id)
    (fun a b ha hb => markLine_sound model val hpos hrange hev hc a b hb ha)
    (List.range' 1 model.max_id).reverse (fun _ => 0)
    (fun i => ⟨fun q => absurd (show (0 : Int) = 1 from q) (by decide),
      fun q => absurd (show (0 : Int) = -1 from q) (by decide), Or.inr (Or.inl rfl)⟩)
    (fun b hb => List.mem_reverse.1 hb)
  exact ⟨cons, h1, fun i => ⟨(h2 i).1, (h2 i).2.1⟩⟩

/-- Witness for C35: on `markModel` the pass marks the nodes 6, 2 and 4 with
`1` and the nodes 5 and 3 with `-1`, the values of `markVal`. -/
theorem marking_pass_sound_witness :
    ConstraintArgsPositive markModel ∧ markModel.ArgsInRange ∧
    EvaluatesAndOr markModel markVal ∧ ConstraintsHold markModel markVal ∧
    ∃ cons, markPass markModel = .ok cons ∧
      (List.range 8).map cons = [0, 0, 1, -1, 1, -1, 1, 0] ∧
      ∀ i, (cons i = 1 → markVal i = [true]) ∧ (cons i = -1 → markVal i = [false]) := by
  have h1 : ConstraintArgsPositive markModel := by unfold ConstraintArgsPositive; decide
  have h2 : markModel.ArgsInRange := by unfold Btor2Model.ArgsInRange; decide
  have h3 : EvaluatesAndOr markModel markVal := by
    unfold EvaluatesAndOr HoldsBinary; decide
  have h4 : ConstraintsHold markModel markVal := by unfold ConstraintsHold; decide
  obtain ⟨cons, hc, hs⟩ := marking_pass_sound markModel markVal h1 h2 h3 h4
  refine ⟨h1, h2, h3, h4, cons, hc, ?_, hs⟩
  have : markPass markModel = .ok ((markPass markModel).get (fun _ => 0)) := rfl
  rw [this] at hc
  cases hc
  decide

/-! ## The `eq` branch of constraint resolution -/

/-- The complement loop never returns: for a vector of fewer than `2^32` bits
it leaves the array `bits`. -/
theorem flipLoop_undefined (w : Nat) (hw : w < 4294967296) :
    flipLoop ((w + 31) / 32) (w + 1) ((w + 4294967295) % 4294967296) = .ub := by
  rcases Nat.lt_or_ge w 2 with h | h
  · have hw2 : w = 0 ∨ w = 1 := by omega
    rcases hw2 with rfl | rfl <;> rfl
  · have hj : (w + 4294967295) % 4294967296 = w - 1 := by omega
    rw [hj]
    unfold flipLoop
    rw [if_neg (by omega)]

/-- The `eq` branch on a line with one negated operand, one operand an input
and the other not: the complement loop is entered and the behaviour is
undefined. -/
theorem resolveEq_negated (model : Btor2Model) (warm : Nat → BtorState) (st : ResolveState)
    (line l0 l1 : Btor2Line) (a0 a1 : Int) (rest : List Int) (bits : List Bool)
    (hargs : line.args = a0 :: a1 :: rest) (h0 : lineOf model a0 = some l0)
    (h1 : lineOf model a1 = some l1)
    (hone : (l0.tag = .BTOR2_TAG_input ∧ l1.tag ≠ .BTOR2_TAG_input) ∨
      (l0.tag ≠ .BTOR2_TAG_input ∧ l1.tag = .BTOR2_TAG_input))
    (hneg : (a0 < 0 ∧ ¬ a1 < 0) ∨ (¬ a0 < 0 ∧ a1 < 0))
    (hw0 : l0.tag ≠ .BTOR2_TAG_input → warm l0.id = .bitvec (some bits))
    (hw1 : l1.tag ≠ .BTOR2_TAG_input → warm l1.id = .bitvec (some bits))
    (hlen : bits.length < 4294967296) : resolveEq model warm st line = .ub := by
  have ha0 : a0 ≠ 0 := by
    intro e; rw [e] at h0; cases h0
  have ha1 : a1 ≠ 0 := by
    intro e; rw [e] at h1; cases h1
  unfold resolveEq
  rw [hargs]
  simp only [h0, h1]
  rcases hone with ⟨t0, t1⟩ | ⟨t0, t1⟩
  · rw [if_neg t1, if_neg t1, if_neg t1, if_neg t1,
      if_neg (by rintro (q | q); exact q t0; exact t1 q), hw1 t1]
    simp only
    rw [if_pos (by split_ifs <;> omega), flipLoop_undefined _ hlen]
    rfl
  · rw [if_pos t1, if_pos t1, if_pos t1, if_pos t1,
      if_neg (by rintro (q | q); exact q t1; exact t0 q), hw0 t0]
    simp only
    rw [if_pos (by split_ifs <;> omega), flipLoop_undefined _ hlen]
    rfl

/-- C36, at the failing input: on `negEqModel`, whose constraint marks the
line `4 eq 1 -2 3` over the input 2 and the state 3, constraint resolution
enters the complement loop and its behaviour is undefined; nothing is
appended to `fixed_input`. On `posEqModel`, with the line `4 eq 1 2 3`, it
returns, appends the warm-up value of node 3 as slot 1, and points the input
2 at that slot, so that the input is loaded with the stored vector. -/
theorem resolve_negated_eq_undefined :
    resolve negEqModel warmOnes = .ub ∧
    (resolve posEqModel warmOnes).holds (fun st =>
      st.fixed_input == [none, some [true]] && st.next 2 == 1 &&
        (inputValue st 2 [false]).holds (fun v => v == [true])) = true := by
  constructor
  · rfl
  · decide

/-! ## The marks of `eliminate_constraint` -/

theorem line_of_full {model : Btor2Model} (hfull : model.Full) {i : Nat}
    (hi : i ∈ List.range' 1 model.max_id) : ∃ line, model.line i = some line := by
  have := hfull i hi
  cases h : model.line i with
  | none => rw [h] at this; cases this
  | some line => exact ⟨line, rfl⟩

/-- A loop that rewrites the entry of each id from its line, on ids that have
lines and are pairwise distinct. -/
theorem mapLines_spec (model : Btor2Model) (h : Btor2Line → Bool → Bool) :
    ∀ (ids : List Nat) (e : Nat → Bool), ids.Nodup →
      (∀ i ∈ ids, ∃ line, model.line i = some line) →
      ∃ e1, mapLines model h ids e = .ok e1 ∧
        (∀ z, z ∉ ids → e1 z = e z) ∧
        ∀ z ∈ ids, ∀ line, model.line z = some line → e1 z = h line (e z) := by
  intro ids
  induction ids with
  | nil => intro e _ _; exact ⟨e, rfl, fun _ _ => rfl, fun z hz => absurd hz (List.not_mem_nil z)⟩
  | cons i ids ih =>
    intro e hnd hl
    obtain ⟨line, hline⟩ := hl i (List.mem_cons_self _ _)
    have hnd' := List.nodup_cons.1 hnd
    obtain ⟨e1, h1, h2, h3⟩ := ih (Function.update e i (h line (e i))) hnd'.2
      (fun j hj => hl j (List.mem_cons_of_mem _ hj))
    refine ⟨e1, ?_, ?_, ?_⟩
    · unfold mapLines
      rw [forRun_cons, hline]
      exact h1
    · intro z hz
      rw [h2 z (fun q => hz (List.mem_cons_of_mem _ q)),
        Function.update_noteq (fun q => hz (by rw [q]; exact List.mem_cons_self _ _))]
    · intro z hz lz hlz
      rcases List.mem_cons.1 hz with q | q
      · subst q
        rw [hline] at hlz
        cases hlz
        rw [h2 z hnd'.1, Function.update_same]
      · rw [h3 z q lz hlz, Function.update_noteq (fun e => hnd'.1 (by rw [← e]; exact q))]

/-- What the inner loop over the operands marks. -/
theorem keepArgs_true (i : Nat) :
    ∀ (args : List Int) (keep : Nat → Bool) (z : Nat), keepArgs keep i args z = true →
      keep z = true ∨ (keep i = true ∧ ∃ a ∈ args, a.natAbs = z) := by
  intro args
  induction args with
  | nil => intro keep z h; exact Or.inl h
  | cons b args ih =>
    intro keep z h
    have hstep : keepArgs keep i (b :: args) =
        keepArgs (Function.update keep b.natAbs (keep i || keep b.natAbs)) i args := rfl
    rw [hstep] at h
    have hi : Function.update keep b.natAbs (keep i || keep b.natAbs) i = true →
        keep i = true := by
      intro q
      by_cases e : i = b.natAbs
      · rw [e, Function.update_same] at q
        rw [← e] at q
        simpa using q
      · rwa [Function.update_noteq e] at q
    rcases ih _ z h with q | ⟨q, a, ha, hz⟩
    · by_cases e : z = b.natAbs
      · rw [e, Function.update_same, Bool.or_eq_true] at q
        rcases q with q | q
        · exact Or.inr ⟨q, b, List.mem_cons_self _ _, e.symm⟩
        · left; rw [e]; exact q
      · rw [Function.update_noteq e] at q
        exact Or.inl q
    · exact Or.inr ⟨hi q, a, List.mem_cons_of_mem _ ha, hz⟩

/-- The reverse loop returns on ids with lines, and every mark it leaves was
there before or comes down from a marked line through operands. -/
theorem backLines_spec (model : Btor2Model) (Good : Nat → Prop)
    (hstep : ∀ i line, model.line i = some line → ∀ a ∈ line.args, Good i → Good a.natAbs) :
    ∀ (ids : List Nat) (e : Nat → Bool), (∀ i ∈ ids, ∃ line, model.line i = some line) →
      (∀ z, e z = true → Good z) →
      ∃ e1, backLines model ids e = .ok e1 ∧ ∀ z, e1 z = true → Good z := by
  intro ids e hl he
  refine forRun_total _ (fun e => ∀ z, e z = true → Good z)
    (fun i => ∃ line, model.line i = some line) ?_ ids e he hl
  intro a i ha ⟨line, hline⟩
  simp only [hline]
  split_ifs with c
  · refine ⟨_, rfl, ?_⟩
    intro z hz
    rcases keepArgs_true i line.args a z hz with q | ⟨q, b, hb, hbz⟩
    · exact ha z q
    · rw [← hbz]
      exact hstep i line hline b hb (ha i q)
  · exact ⟨a, rfl, ha⟩

/-- Every mark of the forward pass was there before or comes up from a marked
operand. -/
theorem transition_inv (model : Btor2Model) (Good : Nat → Prop)
    (hstep : ∀ i ∈ List.range' 1 model.max_id, ∀ line, model.line i = some line →
      ∀ a ∈ line.args, Good a.natAbs → Good i)
    (v : Nat → Bool) (hv : ∀ z, v z = true → Good z) :
    ∀ z, transition model v z = true → Good z := by
  unfold transition
  have key : ∀ (ids : List Nat) (v : Nat → Bool),
      (∀ i ∈ ids, i ∈ List.range' 1 model.max_id) → (∀ z, v z = true → Good z) →
      ∀ z, ids.foldl (transitionLine model) v z = true → Good z := by
    intro ids
    induction ids with
    | nil => intro v _ hv z hz; exact hv z hz
    | cons i ids ih =>
      intro v hids hv z hz
      simp only [List.foldl_cons] at hz
      refine ih _ (fun x hx => hids x (List.mem_cons_of_mem _ hx)) ?_ z hz
      intro y hy
      obtain ⟨h1, h2⟩ := transitionLine_spec model v i
      by_cases e : y = i
      · subst e
        rcases h2.1 hy with h3 | ⟨line, hl, _, a, ha, hva⟩
        · exact hv _ h3
        · exact hstep _ (hids _ (List.mem_cons_self _ _)) line hl a ha (hv _ hva)
      · rw [h1 y e] at hy
        exact hv y hy
  exact key _ v (fun i hi => hi) hv

/-- Under the ordering of the ids the forward pass is closed: a line of the
classes `constraint`, `eq` and `state` with a marked operand is marked. -/
theorem transition_closed (model : Btor2Model) (hord : model.Ordered) (v : Nat → Bool)
    (i : Nat) (hi : i ∈ List.range' 1 model.max_id) (line : Btor2Line)
    (hl : model.line i = some line)
    (hc : classification line = .BTOR2_TAG_constraint ∨ classification line = .BTOR2_TAG_eq ∨
      classification line = .BTOR2_TAG_state)
    (a : Int) (ha : a ∈ line.args) (h : transition model v a.natAbs = true) :
    transition model v i = true := by
  have hr := List.mem_range'_1.1 hi
  obtain ⟨hargs, _, _, _⟩ := hord i hi line (by rw [hl]; exact rfl)
  have hlt := hargs a ha
  unfold transition at h ⊢
  rw [range'_split model.max_id i ⟨hr.1, by omega⟩, List.foldl_append, List.foldl_cons] at h ⊢
  apply foldl_transitionLine_mono
  have hfr : ∀ v : Nat → Bool, (List.range' (i + 1) (model.max_id - i)).foldl
      (transitionLine model) v a.natAbs = v a.natAbs := by
    intro v
    apply foldl_transitionLine_frame
    intro hm
    have := List.mem_range'_1.1 hm
    omega
  rw [hfr, (transitionLine_spec model _ i).1 _ (by omega)] at h
  exact (transitionLine_spec model _ i).2.2 (Or.inr ⟨line, hl, hc, a, ha, h⟩)

/-- C40, at the failing input: on `nextModel`, a topologically ordered model
with a line at every id whose constraint 4 holds the state 2, `btoreliminate`
deletes the state 2 and the constraint 4 and writes the line `3 next 1 2 2`,
which has the deleted state among its operands. -/
theorem btoreliminate_keeps_next_of_deleted_state :
    nextModel.Ordered ∧ nextModel.Full ∧
    (btoreliminate nextModel).holds (fun out =>
      (out.line 2).any (fun l => l.lineno == -1) &&
      (out.line 3).any (fun l => l.lineno != -1 && l.tag == .BTOR2_TAG_next && l.args == [2, 2]))
      = true := by
  refine ⟨?_, ?_, ?_⟩
  · unfold Btor2Model.Ordered; decide
  · unfold Btor2Model.Full; decide
  · decide

/-- What `transition` does close: for every topologically ordered word-level
model with a line at every id, `btoreliminate` returns; a line is written
exactly when it is not marked in `eliminate`; no unmarked line of the classes
`constraint`, `eq` and `state`, the classes that `transition` follows, has a
marked line among its operands; and every marked line lies in the fan-out of a
state-classified line that lies in the fan-in of a `constraint` line. -/
theorem btoreliminate_closed_on_operator_lines (model : Btor2Model) (hord : model.Ordered)
    (hfull : model.Full) :
    ∃ e, eliminate_constraint model = .ok e ∧
      btoreliminate model = .ok (dropLines model (fun i => !e i)) ∧
      (∀ i, (dropLines model (fun i => !e i)).retained i ↔ (model.retained i ∧ e i = false)) ∧
      (∀ j ∈ List.range' 1 model.max_id, ∀ line ∈ model.line j,
        (classification line = .BTOR2_TAG_constraint ∨ classification line = .BTOR2_TAG_eq ∨
          classification line = .BTOR2_TAG_state) →
        e j = false → ∀ a ∈ line.args, e a.natAbs = false) ∧
      ∀ i, e i = true → ∃ s c,
        (∃ ls, model.line s = some ls ∧ classification ls = .BTOR2_TAG_state) ∧
        (∃ lc, model.line c = some lc ∧ lc.tag = .BTOR2_TAG_constraint) ∧
        ArgPath model c s ∧ ArgPath model i s := by
  have hnd := List.nodup_range' 1 model.max_id
  have hl : ∀ i ∈ List.range' 1 model.max_id, ∃ line, model.line i = some line :=
    fun i hi => line_of_full hfull hi
  -- the state-classified lines
  obtain ⟨e1, he1, h1out, _⟩ := mapLines_spec model markState _ (fun _ => false) hnd hl
  have hv2 : ∀ z, transition model e1 z = true → z ∈ List.range' 1 model.max_id := by
    apply transition_inv model (fun z => z ∈ List.range' 1 model.max_id)
      (fun i hi _ _ _ _ _ => hi)
    intro z hz
    by_contra hno
    rw [h1out z hno] at hz
    cases hz
  -- the constraints that depend on them
  obtain ⟨e3, he3, h3out, h3in⟩ :=
    mapLines_spec model clearNonConstraint _ (transition model e1) hnd hl
  have hgood3 : ∀ z, e3 z = true → z ∈ List.range' 1 model.max_id ∧
      ∃ c lc, model.line c = some lc ∧ lc.tag = .BTOR2_TAG_constraint ∧ ArgPath model c z := by
    intro z hz
    by_cases hzr : z ∈ List.range' 1 model.max_id
    · obtain ⟨line, hline⟩ := hl z hzr
      rw [h3in z hzr line hline] at hz
      unfold clearNonConstraint at hz
      split_ifs at hz with c
      exact ⟨hzr, z, line, hline, not_not.1 c, Relation.ReflTransGen.refl⟩
    · rw [h3out z hzr] at hz
      exact absurd (hv2 z hz) hzr
  -- their fan-in through the lines of the classes `constraint` and `eq`
  obtain ⟨e4, he4, hgood4⟩ := backLines_spec model
    (fun z => z ∈ List.range' 1 model.max_id ∧
      ∃ c lc, model.line c = some lc ∧ lc.tag = .BTOR2_TAG_constraint ∧ ArgPath model c z)
    (by
      intro i line hline a ha ⟨hi, c, lc, hc1, hc2, hc3⟩
      obtain ⟨hargs, _, _, _⟩ := hord i hi line (by rw [hline]; exact rfl)
      have hlt := hargs a ha
      have hr := List.mem_range'_1.1 hi
      refine ⟨List.mem_range'_1.2 ⟨hlt.1, by omega⟩, c, lc, hc1, hc2, ?_⟩
      exact Relation.ReflTransGen.tail hc3 ⟨line, hline, a, ha, rfl⟩)
    (List.range' 1 model.max_id).reverse e3 (fun i hi => hl i (List.mem_reverse.1 hi)) hgood3
  -- the state-classified lines among them
  obtain ⟨e5, he5, h5out, h5in⟩ := mapLines_spec model clearNonState _ e4 hnd hl
  have hgood5 : ∀ z, e5 z = true →
      (∃ ls, model.line z = some ls ∧ classification ls = .BTOR2_TAG_state) ∧
      ∃ c lc, model.line c = some lc ∧ lc.tag = .BTOR2_TAG_constraint ∧ ArgPath model c z := by
    intro z hz
    by_cases hzr : z ∈ List.range' 1 model.max_id
    · obtain ⟨line, hline⟩ := hl z hzr
      rw [h5in z hzr line hline] at hz
      unfold clearNonState at hz
      split_ifs at hz with c
      exact ⟨⟨line, hline, not_not.1 c⟩, (hgood4 z hz).2⟩
    · rw [h5out z hzr] at hz
      exact absurd (hgood4 z hz).1 hzr
  have heq : eliminate_constraint model = .ok (transition model e5) := by
    unfold eliminate_constraint
    rw [he1]; simp only [Run.bind]
    rw [he3]; simp only [Run.bind]
    rw [he4]; simp only [Run.bind]
    rw [he5]
  refine ⟨transition model e5, heq, ?_, ?_, ?_, ?_⟩
  · unfold btoreliminate
    rw [heq]; rfl
  · intro i
    rw [dropLines_retained]
    simp
  · intro j hj line hline hc hej a ha
    by_contra hne
    have hta : transition model e5 a.natAbs = true := by simpa using hne
    have := transition_closed model hord e5 j hj line (by
      cases h : model.line j with
      | none => rw [h] at hline; cases hline
      | some l0 => rw [h] at hline; cases hline; rfl) hc a ha hta
    rw [this] at hej
    cases hej
  · apply transition_inv model
      (fun i => ∃ s c, (∃ ls, model.line s = some ls ∧ classification ls = .BTOR2_TAG_state) ∧
        (∃ lc, model.line c = some lc ∧ lc.tag = .BTOR2_TAG_constraint) ∧
        ArgPath model c s ∧ ArgPath model i s)
    · intro i _ line hline a ha ⟨s, c, hs, hc, p1, p2⟩
      exact ⟨s, c, hs, hc, p1, Relation.ReflTransGen.head ⟨line, hline, a, ha, rfl⟩ p2⟩
    · intro z hz
      obtain ⟨hs, c, lc, hc1, hc2, hc3⟩ := hgood5 z hz
      exact ⟨z, c, hs, ⟨lc, hc1, hc2⟩, hc3, Relation.ReflTransGen.refl⟩

/-- An instance on `elimModel`: the state 2, the line
`4 and 1 2 3` and the constraint 5 are marked; the input 3, the line 6 and the
bad property 7 are written. -/
theorem btoreliminate_closed_on_operator_lines_witness :
    elimModel.Ordered ∧ elimModel.Full ∧
    ∃ e, eliminate_constraint elimModel = .ok e ∧
      (List.range 8).map e = [false, false, true, false, true, true, false, false] ∧
      ∀ j ∈ List.range' 1 elimModel.max_id, ∀ line ∈ elimModel.line j,
        (classification line = .BTOR2_TAG_constraint ∨ classification line = .BTOR2_TAG_eq ∨
          classification line = .BTOR2_TAG_state) →
        e j = false → ∀ a ∈ line.args, e a.natAbs = false := by
  have h1 : elimModel.Ordered := by unfold Btor2Model.Ordered; decide
  have h2 : elimModel.Full := by unfold Btor2Model.Full; decide
  obtain ⟨e, he, _, _, hcl, _⟩ := btoreliminate_closed_on_operator_lines elimModel h1 h2
  refine ⟨h1, h2, e, he, ?_, hcl⟩
  have : eliminate_constraint elimModel =
      .ok ((eliminate_constraint elimModel).get (fun _ => false)) := rfl
  rw [this] at he
  cases he
  decide

/-! ## The copy of a state whose initial value comes after it -/

/-- C37, at the failing input: on `lateInitModel` every operand and sort
reference of a line points to a smaller id, and the initial value of the state
2 is the line 3. At step 0 `btorexpand` writes the copy of the state when it
reaches the state line, before the line 3 has a copy, and reads the `lineno`
that the parser left on the line 3: the lines written carry the ids 1, 2, 3,
4, but the third line is `3 add 1 2 3`, whose last operand is its own id and
not the id of the copy of the initial value, which is written after it as
`4 zero 1`. -/
theorem btorexpand_reads_stale_lineno_of_late_init :
    lateInitModel.Ordered ∧
    (btorexpand lateInitModel 0).holds (fun out =>
      out.map (fun l => (l.id, l.tag, l.nums)) ==
        [(1, .BTOR2_TAG_sort, [1]), (2, .BTOR2_TAG_zero, [1]), (3, .BTOR2_TAG_add, [1, 2, 3]),
          (4, .BTOR2_TAG_zero, [1])]) = true := by
  constructor
  · unfold Btor2Model.Ordered; decide
  · decide

end SweepingTools
